import Mathlib


/-!
Red-black tree (`red-black-tree/src/rb-tree.c`, `rb-tree.h`).

A shallow embedding of the pointer program.  Nodes live in an explicit heap
indexed by addresses; every C statement that dereferences a pointer becomes a
heap access that faults on `NULL` or on an address that holds no node.  Loops
take a fuel argument and report `timeout` when it runs out.
-/

namespace RedBlack

/-! ## Machine model -/

/-- Addresses of `struct rb_node` objects; `0` is the `NULL` pointer. -/
abbrev Ptr := Nat

/-- The `NULL` pointer. -/
def NULL : Ptr := 0

/-- Modulus of `size_t` and of `key_t` (`uint64_t`). -/
def SIZE_MOD : Nat := 2 ^ 64

/-- `#define RB_MAX_KEY ((key_t)(LONG_MAX))`. -/
def RB_MAX_KEY : Nat := 2 ^ 63 - 1

/-- `#define RB_NODE_NIL_KEY_VALUE (RB_MAX_KEY)`. -/
def RB_NODE_NIL_KEY_VALUE : Nat := RB_MAX_KEY

/-- `#define RB_INVALID_BLACK_HEIGHT (-1)`, as it reads in a `size_t`. -/
def RB_INVALID_BLACK_HEIGHT : Nat := SIZE_MOD - 1

/-- Value of `ENOMEM` in `errno.h`. -/
def ENOMEM : Int := 12

/-- Value of `EINVAL` in `errno.h`. -/
def EINVAL : Int := 22

/-- Value of `ENODATA` in `errno.h`. -/
def ENODATA : Int := 61

/-- Outcome of running a piece of the program: a value, a dereference of an
invalid pointer, or exhausted loop fuel. -/
inductive Res (α : Type) where
  | ok : α → Res α
  | fault : Res α
  | timeout : Res α
  deriving DecidableEq, Repr

/-- Sequencing of outcomes. -/
def Res.bind {α β : Type} : Res α → (α → Res β) → Res β
  | .ok a, f => f a
  | .fault, _ => .fault
  | .timeout, _ => .timeout

instance : Monad Res where
  pure := Res.ok
  bind := Res.bind

/-- `enum rb_node_color`. -/
inductive rb_node_color where
  | RB_NODE_COLOR_RED
  | RB_NODE_COLOR_BLACK
  | RB_NODE_COLOR_UNDEFINED
  deriving DecidableEq, Repr

export rb_node_color (RB_NODE_COLOR_RED RB_NODE_COLOR_BLACK RB_NODE_COLOR_UNDEFINED)

/-- `struct rb_node`; `data` is the payload pointer, kept as an opaque number. -/
structure rb_node where
  color : rb_node_color
  key : Nat
  data : Ptr
  left : Ptr
  right : Ptr
  parent : Ptr
  deriving DecidableEq, Repr

/-- `struct rb_tree`. -/
structure rb_tree where
  root : Ptr
  nil : Ptr
  bh : Nat
  deriving DecidableEq, Repr

/-- The node heap: `mem` gives the node stored at an address, `next` is the
address the allocator hands out next and `cap` the end of the address space it
may use. -/
structure Heap where
  mem : Ptr → Option rb_node
  next : Ptr
  cap : Ptr

/-- Read the node at `p`. -/
def Heap.load (h : Heap) (p : Ptr) : Res rb_node :=
  match h.mem p with
  | some n => .ok n
  | none => .fault

/-- Overwrite the cell at `p`. -/
def Heap.put (h : Heap) (p : Ptr) (n : rb_node) : Heap :=
  { h with mem := Function.update h.mem p (some n) }

/-- `free(p)` for a node. -/
def Heap.free (h : Heap) (p : Ptr) : Heap :=
  { h with mem := Function.update h.mem p none }

/-- `p->color`. -/
def get_color (h : Heap) (p : Ptr) : Res rb_node_color := do
  let n ← h.load p
  pure n.color

/-- `p->key`. -/
def get_key (h : Heap) (p : Ptr) : Res Nat := do
  let n ← h.load p
  pure n.key

/-- `p->data`. -/
def get_data (h : Heap) (p : Ptr) : Res Ptr := do
  let n ← h.load p
  pure n.data

/-- `p->left`. -/
def get_left (h : Heap) (p : Ptr) : Res Ptr := do
  let n ← h.load p
  pure n.left

/-- `p->right`. -/
def get_right (h : Heap) (p : Ptr) : Res Ptr := do
  let n ← h.load p
  pure n.right

/-- `p->parent`. -/
def get_parent (h : Heap) (p : Ptr) : Res Ptr := do
  let n ← h.load p
  pure n.parent

/-- `p->color = c`. -/
def set_color (h : Heap) (p : Ptr) (c : rb_node_color) : Res Heap := do
  let n ← h.load p
  pure (h.put p { n with color := c })

/-- `p->key = k`. -/
def set_key (h : Heap) (p : Ptr) (k : Nat) : Res Heap := do
  let n ← h.load p
  pure (h.put p { n with key := k })

/-- `p->data = d`. -/
def set_data (h : Heap) (p : Ptr) (d : Ptr) : Res Heap := do
  let n ← h.load p
  pure (h.put p { n with data := d })

/-- `p->left = q`. -/
def set_left (h : Heap) (p : Ptr) (q : Ptr) : Res Heap := do
  let n ← h.load p
  pure (h.put p { n with left := q })

/-- `p->right = q`. -/
def set_right (h : Heap) (p : Ptr) (q : Ptr) : Res Heap := do
  let n ← h.load p
  pure (h.put p { n with right := q })

/-- `p->parent = q`. -/
def set_parent (h : Heap) (p : Ptr) (q : Ptr) : Res Heap := do
  let n ← h.load p
  pure (h.put p { n with parent := q })

/-! ## `rb-tree.h` -/

/-- Address of the global sentinel `rb_info.nil`. -/
def rb_info_nil : Ptr := 1

/-- The initialiser of `rb_info.nil`. -/
def rb_info_nil_init : rb_node :=
  { color := RB_NODE_COLOR_BLACK, key := RB_NODE_NIL_KEY_VALUE, data := NULL,
    left := NULL, right := NULL, parent := NULL }

/-- The heap at program start: only the sentinel exists. -/
def Heap.init (cap : Ptr) : Heap :=
  { mem := Function.update (fun _ => none) rb_info_nil (some rb_info_nil_init),
    next := rb_info_nil + 1, cap := cap }

/-- `rb_node_alloc`: returns `NULL` when the key is refused or `malloc` fails. -/
def rb_node_alloc (h : Heap) (key : Nat) : Ptr × Heap :=
  if key ≥ RB_MAX_KEY then (NULL, h)
  else if h.next < h.cap then
    (h.next,
      { h with
        mem := Function.update h.mem h.next
          (some { color := RB_NODE_COLOR_UNDEFINED, key := key, data := NULL,
                  left := NULL, right := NULL, parent := NULL }),
        next := h.next + 1 })
  else (NULL, h)

/-- `rb_node_dealloc`: reads `node->data`, then frees the node. -/
def rb_node_dealloc (h : Heap) (node : Ptr) : Res Heap := do
  let _ ← get_data h node
  pure (h.free node)

/-- `rb_node_move`: `dest` takes the key and payload of `source`, `source` is freed. -/
def rb_node_move (h : Heap) (dest source : Ptr) : Res Heap := do
  let dest_data ← get_data h dest
  let sk ← get_key h source
  let h ← set_key h dest sk
  let sd ← get_data h source
  let h ← set_data h dest sd
  let h ← set_data h source dest_data
  rb_node_dealloc h source

/-! ## `rb-tree.c` -/

/-- `rb_tree_alloc` (the `struct rb_tree` itself is passed by value). -/
def rb_tree_alloc : rb_tree :=
  { root := rb_info_nil, nil := rb_info_nil, bh := 0 }

/-- `z->parent->parent`. -/
def get_grandparent (h : Heap) (z : Ptr) : Res Ptr := do
  let p ← get_parent h z
  get_parent h p

/-- `rb_tree_left_rotate`. -/
def rb_tree_left_rotate (h : Heap) (tree : rb_tree) (x : Ptr) : Res (Heap × rb_tree) := do
  let y ← get_right h x
  let yl ← get_left h y
  let h ← set_right h x yl
  let yl ← get_left h y
  let h ← if yl ≠ tree.nil then set_parent h yl x else pure h
  let xp ← get_parent h x
  let h ← set_parent h y xp
  let xp ← get_parent h x
  let ht ←
    if xp = tree.nil then pure (h, { tree with root := y })
    else do
      let xpl ← get_left h xp
      if x = xpl then do
        let h ← set_left h xp y
        pure (h, tree)
      else do
        let h ← set_right h xp y
        pure (h, tree)
  let h ← set_left ht.1 y x
  let h ← set_parent h x y
  pure (h, ht.2)

/-- `rb_tree_right_rotate`. -/
def rb_tree_right_rotate (h : Heap) (tree : rb_tree) (y : Ptr) : Res (Heap × rb_tree) := do
  let x ← get_left h y
  let xr ← get_right h x
  let h ← set_left h y xr
  let xr ← get_right h x
  let h ← if xr ≠ tree.nil then set_parent h xr y else pure h
  let yp ← get_parent h y
  let h ← set_parent h x yp
  let yp ← get_parent h y
  let ht ←
    if yp = tree.nil then pure (h, { tree with root := x })
    else do
      let ypr ← get_right h yp
      if y = ypr then do
        let h ← set_right h yp x
        pure (h, tree)
      else do
        let h ← set_left h yp x
        pure (h, tree)
  let h ← set_right ht.1 x y
  let h ← set_parent h y x
  pure (h, ht.2)

/-- `__rb_tree_search`: the loop runs while `node` is not `NULL`. -/
def __rb_tree_search : Nat → Heap → Ptr → Nat → Res Ptr
  | 0, _, _, _ => .timeout
  | fuel + 1, h, node, key =>
    if node = NULL then .ok node
    else do
      let nk ← get_key h node
      if key = nk then pure node
      else if key < nk then do
        let l ← get_left h node
        __rb_tree_search fuel h l key
      else do
        let r ← get_right h node
        __rb_tree_search fuel h r key

/-- `rb_tree_search`. -/
def rb_tree_search (fuel : Nat) (h : Heap) (tree : rb_tree) (key : Nat) : Res Ptr :=
  __rb_tree_search fuel h tree.root key

/-- The `while` loop of `rb_tree_insert_fixup`; returns the heap and the tree
header when the loop condition fails. -/
def rb_tree_insert_fixup_loop : Nat → Heap → rb_tree → Ptr → Res (Heap × rb_tree)
  | 0, _, _, _ => .timeout
  | fuel + 1, h, tree, z => do
    let zp ← get_parent h z
    let zpc ← get_color h zp
    if zpc = RB_NODE_COLOR_RED then do
      let zpp ← get_grandparent h z
      let zppl ← get_left h zpp
      if zp = zppl then do
        let y ← get_right h zpp
        let yc ← get_color h y
        if yc = RB_NODE_COLOR_RED then do
          let p ← get_parent h z
          let h ← set_color h p RB_NODE_COLOR_BLACK
          let h ← set_color h y RB_NODE_COLOR_BLACK
          let g ← get_grandparent h z
          let h ← set_color h g RB_NODE_COLOR_RED
          let z ← get_grandparent h z
          rb_tree_insert_fixup_loop fuel h tree z
        else do
          let p ← get_parent h z
          let pr ← get_right h p
          let s ←
            if z = pr then do
              let z ← get_parent h z
              let ht ← rb_tree_left_rotate h tree z
              pure (ht.1, ht.2, z)
            else pure (h, tree, z)
          let h := s.1
          let tree := s.2.1
          let z := s.2.2
          let p ← get_parent h z
          let h ← set_color h p RB_NODE_COLOR_BLACK
          let g ← get_grandparent h z
          let h ← set_color h g RB_NODE_COLOR_RED
          let g ← get_grandparent h z
          let ht ← rb_tree_right_rotate h tree g
          rb_tree_insert_fixup_loop fuel ht.1 ht.2 z
      else do
        let y ← get_left h zpp
        let yc ← get_color h y
        if yc = RB_NODE_COLOR_RED then do
          let p ← get_parent h z
          let h ← set_color h p RB_NODE_COLOR_BLACK
          let h ← set_color h y RB_NODE_COLOR_BLACK
          let g ← get_grandparent h z
          let h ← set_color h g RB_NODE_COLOR_RED
          let z ← get_grandparent h z
          rb_tree_insert_fixup_loop fuel h tree z
        else do
          let p ← get_parent h z
          let pl ← get_left h p
          let s ←
            if z = pl then do
              let z ← get_parent h z
              let ht ← rb_tree_right_rotate h tree z
              pure (ht.1, ht.2, z)
            else pure (h, tree, z)
          let h := s.1
          let tree := s.2.1
          let z := s.2.2
          let p ← get_parent h z
          let h ← set_color h p RB_NODE_COLOR_BLACK
          let g ← get_grandparent h z
          let h ← set_color h g RB_NODE_COLOR_RED
          let g ← get_grandparent h z
          let ht ← rb_tree_left_rotate h tree g
          rb_tree_insert_fixup_loop fuel ht.1 ht.2 z
    else pure (h, tree)

/-- `rb_tree_insert_fixup`. -/
def rb_tree_insert_fixup (fuel : Nat) (h : Heap) (tree : rb_tree) (z : Ptr) :
    Res (Heap × rb_tree) := do
  let ht ← rb_tree_insert_fixup_loop fuel h tree z
  let h := ht.1
  let tree := ht.2
  let rc ← get_color h tree.root
  let tree := if rc = RB_NODE_COLOR_RED then { tree with bh := (tree.bh + 1) % SIZE_MOD } else tree
  let h ← set_color h tree.root RB_NODE_COLOR_BLACK
  pure (h, tree)

/-- The descent loop of `__rb_tree_insert`.  The result is `none` when the loop
left the function through the update branch (`rb_node_move`, `return 0`), and
the last node `y` otherwise. -/
def __rb_tree_insert_descend : Nat → Heap → rb_tree → Ptr → Ptr → Ptr → Res (Heap × Option Ptr)
  | 0, _, _, _, _, _ => .timeout
  | fuel + 1, h, tree, z, y, x =>
    if x ≠ tree.nil then do
      let xk ← get_key h x
      let zk ← get_key h z
      if xk = zk then do
        let h ← rb_node_move h x z
        pure (h, none)
      else do
        let zk ← get_key h z
        let xk ← get_key h x
        if zk < xk then do
          let l ← get_left h x
          __rb_tree_insert_descend fuel h tree z x l
        else do
          let r ← get_right h x
          __rb_tree_insert_descend fuel h tree z x r
    else pure (h, some y)

/-- `__rb_tree_insert`. -/
def __rb_tree_insert (fuel : Nat) (h : Heap) (tree : rb_tree) (z : Ptr) :
    Res (Heap × rb_tree × Int) :=
  if z = NULL then pure (h, tree, -ENOMEM)
  else do
    let zk ← get_key h z
    if zk = RB_NODE_NIL_KEY_VALUE then pure (h, tree, -EINVAL)
    else do
      let r ← __rb_tree_insert_descend fuel h tree z tree.nil tree.root
      match r.2 with
      | none => pure (r.1, tree, 0)
      | some y => do
        let h ← set_parent r.1 z y
        let ht ←
          if y = tree.nil then pure (h, { tree with root := z })
          else do
            let zk ← get_key h z
            let yk ← get_key h y
            if zk < yk then do
              let h ← set_left h y z
              pure (h, tree)
            else do
              let h ← set_right h y z
              pure (h, tree)
        let h := ht.1
        let tree := ht.2
        let zl ← get_left h z
        let h ← if zl = NULL then set_left h z tree.nil else pure h
        let zr ← get_right h z
        let h ← if zr = NULL then set_right h z tree.nil else pure h
        let h ← set_color h z RB_NODE_COLOR_RED
        let ht ← rb_tree_insert_fixup fuel h tree z
        pure (ht.1, ht.2, 0)

/-- `rb_tree_insert`. -/
def rb_tree_insert (fuel : Nat) (h : Heap) (tree : rb_tree) (key : Nat) (data : Ptr) :
    Res (Heap × rb_tree × Int) :=
  let a := rb_node_alloc h key
  let node := a.1
  let h := a.2
  if node = NULL then pure (h, tree, -ENOMEM)
  else do
    let h ← set_data h node data
    let r ← __rb_tree_insert fuel h tree node
    if r.2.2 = -EINVAL then do
      let h ← rb_node_dealloc r.1 node
      pure (h, r.2.1, r.2.2)
    else pure r

/-- `rb_tree_transplant`. -/
def rb_tree_transplant (h : Heap) (tree : rb_tree) (prev_root next_root : Ptr) :
    Res (Heap × rb_tree) := do
  let pp ← get_parent h prev_root
  let ht ←
    if pp = tree.nil then pure (h, { tree with root := next_root })
    else do
      let ppl ← get_left h pp
      if prev_root = ppl then do
        let h ← set_left h pp next_root
        pure (h, tree)
      else do
        let h ← set_right h pp next_root
        pure (h, tree)
  let pp ← get_parent ht.1 prev_root
  let h ← set_parent ht.1 next_root pp
  pure (h, ht.2)

/-- The `while` loop of `rb_tree_minimum`. -/
def rb_tree_minimum_loop : Nat → Heap → rb_tree → Ptr → Res Ptr
  | 0, _, _, _ => .timeout
  | fuel + 1, h, tree, root => do
    let l ← get_left h root
    if l ≠ tree.nil then rb_tree_minimum_loop fuel h tree l
    else pure root

/-- `rb_tree_minimum`. -/
def rb_tree_minimum (fuel : Nat) (h : Heap) (tree : rb_tree) (root : Ptr) : Res Ptr :=
  if root = tree.nil then pure root
  else rb_tree_minimum_loop fuel h tree root

/-- The `while` loop of `rb_tree_maximum`. -/
def rb_tree_maximum_loop : Nat → Heap → rb_tree → Ptr → Res Ptr
  | 0, _, _, _ => .timeout
  | fuel + 1, h, tree, root => do
    let r ← get_right h root
    if r ≠ tree.nil then rb_tree_maximum_loop fuel h tree r
    else pure root

/-- `rb_tree_maximum`. -/
def rb_tree_maximum (fuel : Nat) (h : Heap) (tree : rb_tree) (root : Ptr) : Res Ptr :=
  if root = tree.nil then pure root
  else rb_tree_maximum_loop fuel h tree root

/-- State of the `while` loop of `rb_tree_delete_fixup` on exit. -/
structure delete_fixup_state where
  heap : Heap
  tree : rb_tree
  x : Ptr
  is_forced : Bool
  is_goes_up : Bool

/-- Case 1 of `rb_tree_delete_fixup` for `x` a left child: the block
`if (w->color == RB_NODE_COLOR_RED) { ... }`, which returns the sibling `w`
to go on with. -/
def rb_tree_delete_fixup_case1_left (h : Heap) (tree : rb_tree) (x w : Ptr) :
    Res (Heap × rb_tree × Ptr) := do
  let wc ← get_color h w
  if wc = RB_NODE_COLOR_RED then do
    let h ← set_color h w RB_NODE_COLOR_BLACK
    let p ← get_parent h x
    let h ← set_color h p RB_NODE_COLOR_RED
    let p ← get_parent h x
    let ht ← rb_tree_left_rotate h tree p
    let p ← get_parent ht.1 x
    let w ← get_right ht.1 p
    pure (ht.1, ht.2, w)
  else pure (h, tree, w)

/-- Cases 2 to 4 of `rb_tree_delete_fixup` for `x` a left child: the block
`if (w->left->color == BLACK && w->right->color == BLACK) { ... } else { ... }`.
It returns the new `x` and whether `is_forced` was set. -/
def rb_tree_delete_fixup_case234_left (h : Heap) (tree : rb_tree) (x w : Ptr) :
    Res (Heap × rb_tree × Ptr × Bool) := do
  let wn ← get_left h w
  let wnc ← get_color h wn
  let case2 ←
    if wnc = RB_NODE_COLOR_BLACK then do
      let wf ← get_right h w
      let wfc ← get_color h wf
      pure (decide (wfc = RB_NODE_COLOR_BLACK))
    else pure false
  if case2 then do
    let h ← set_color h w RB_NODE_COLOR_RED
    let x ← get_parent h x
    pure (h, tree, x, false)
  else do
    let wf ← get_right h w
    let wfc ← get_color h wf
    let s ←
      if wfc = RB_NODE_COLOR_BLACK then do
        let wn ← get_left h w
        let h ← set_color h wn RB_NODE_COLOR_BLACK
        let h ← set_color h w RB_NODE_COLOR_RED
        let ht ← rb_tree_right_rotate h tree w
        let p ← get_parent ht.1 x
        let w ← get_right ht.1 p
        pure (ht.1, ht.2, w)
      else pure (h, tree, w)
    let h := s.1
    let tree := s.2.1
    let w := s.2.2
    let p ← get_parent h x
    let pc ← get_color h p
    let h ← set_color h w pc
    let p ← get_parent h x
    let h ← set_color h p RB_NODE_COLOR_BLACK
    let wf ← get_right h w
    let h ← set_color h wf RB_NODE_COLOR_BLACK
    let p ← get_parent h x
    let ht ← rb_tree_left_rotate h tree p
    pure (ht.1, ht.2, ht.2.root, true)

/-- Case 1 of `rb_tree_delete_fixup` for `x` a right child: the block
`if (w->color == RB_NODE_COLOR_RED) { ... }`, which returns the sibling `w`
to go on with. -/
def rb_tree_delete_fixup_case1_right (h : Heap) (tree : rb_tree) (x w : Ptr) :
    Res (Heap × rb_tree × Ptr) := do
  let wc ← get_color h w
  if wc = RB_NODE_COLOR_RED then do
    let h ← set_color h w RB_NODE_COLOR_BLACK
    let p ← get_parent h x
    let h ← set_color h p RB_NODE_COLOR_RED
    let p ← get_parent h x
    let ht ← rb_tree_right_rotate h tree p
    let p ← get_parent ht.1 x
    let w ← get_left ht.1 p
    pure (ht.1, ht.2, w)
  else pure (h, tree, w)

/-- Cases 2 to 4 of `rb_tree_delete_fixup` for `x` a right child: the block
`if (w->right->color == BLACK && w->left->color == BLACK) { ... } else { ... }`.
It returns the new `x` and whether `is_forced` was set. -/
def rb_tree_delete_fixup_case234_right (h : Heap) (tree : rb_tree) (x w : Ptr) :
    Res (Heap × rb_tree × Ptr × Bool) := do
  let wn ← get_right h w
  let wnc ← get_color h wn
  let case2 ←
    if wnc = RB_NODE_COLOR_BLACK then do
      let wf ← get_left h w
      let wfc ← get_color h wf
      pure (decide (wfc = RB_NODE_COLOR_BLACK))
    else pure false
  if case2 then do
    let h ← set_color h w RB_NODE_COLOR_RED
    let x ← get_parent h x
    pure (h, tree, x, false)
  else do
    let wf ← get_left h w
    let wfc ← get_color h wf
    let s ←
      if wfc = RB_NODE_COLOR_BLACK then do
        let wn ← get_right h w
        let h ← set_color h wn RB_NODE_COLOR_BLACK
        let h ← set_color h w RB_NODE_COLOR_RED
        let ht ← rb_tree_left_rotate h tree w
        let p ← get_parent ht.1 x
        let w ← get_left ht.1 p
        pure (ht.1, ht.2, w)
      else pure (h, tree, w)
    let h := s.1
    let tree := s.2.1
    let w := s.2.2
    let p ← get_parent h x
    let pc ← get_color h p
    let h ← set_color h w pc
    let p ← get_parent h x
    let h ← set_color h p RB_NODE_COLOR_BLACK
    let wf ← get_left h w
    let h ← set_color h wf RB_NODE_COLOR_BLACK
    let p ← get_parent h x
    let ht ← rb_tree_right_rotate h tree p
    pure (ht.1, ht.2, ht.2.root, true)

/-- The `while` loop of `rb_tree_delete_fixup`; the two halves of its body are
`rb_tree_delete_fixup_case1_*` and `rb_tree_delete_fixup_case234_*`. -/
def rb_tree_delete_fixup_loop :
    Nat → Heap → rb_tree → Ptr → Bool → Bool → Res delete_fixup_state
  | 0, _, _, _, _, _ => .timeout
  | fuel + 1, h, tree, x, is_forced, is_goes_up => do
    let continues ←
      if x ≠ tree.root then do
        let xc ← get_color h x
        pure (decide (xc = RB_NODE_COLOR_BLACK))
      else pure false
    if continues then do
      let p ← get_parent h x
      let pl ← get_left h p
      if x = pl then do
        let p ← get_parent h x
        let w ← get_right h p
        let s ← rb_tree_delete_fixup_case1_left h tree x w
        let r ← rb_tree_delete_fixup_case234_left s.1 s.2.1 x s.2.2
        rb_tree_delete_fixup_loop fuel r.1 r.2.1 r.2.2.1 (is_forced || r.2.2.2) true
      else do
        let p ← get_parent h x
        let w ← get_left h p
        let s ← rb_tree_delete_fixup_case1_right h tree x w
        let r ← rb_tree_delete_fixup_case234_right s.1 s.2.1 x s.2.2
        rb_tree_delete_fixup_loop fuel r.1 r.2.1 r.2.2.1 (is_forced || r.2.2.2) true
    else pure { heap := h, tree := tree, x := x, is_forced := is_forced, is_goes_up := is_goes_up }

/-- `rb_tree_delete_fixup`. -/
def rb_tree_delete_fixup (fuel : Nat) (h : Heap) (tree : rb_tree) (x : Ptr) :
    Res (Heap × rb_tree) := do
  let s ← rb_tree_delete_fixup_loop fuel h tree x false false
  let tree :=
    if s.x = s.tree.nil ∨ (s.is_goes_up = true ∧ s.is_forced = false ∧ s.x = s.tree.root) then
      { s.tree with bh := (s.tree.bh + SIZE_MOD - 1) % SIZE_MOD }
    else s.tree
  let h ← set_color s.heap s.x RB_NODE_COLOR_BLACK
  pure (h, tree)

/-- The end of the third branch of `__rb_tree_delete`, where `y` takes the place
of `z`:
`rb_tree_transplant(tree, z, y); y->left = z->left; y->left->parent = y;
y->color = z->color;`. -/
def __rb_tree_delete_replace (h : Heap) (tree : rb_tree) (z y : Ptr) :
    Res (Heap × rb_tree) := do
  let ht ← rb_tree_transplant h tree z y
  let zl ← get_left ht.1 z
  let h ← set_left ht.1 y zl
  let yl ← get_left h y
  let h ← set_parent h yl y
  let zc ← get_color h z
  let h ← set_color h y zc
  pure (h, ht.2)

/-- The first half of `__rb_tree_delete`, up to the test of `y_original_color`:
the node `z` is unlinked (its successor `y` takes its place when it has two
children).  The result carries `x` and `y_original_color` for the second half. -/
def __rb_tree_delete_unlink (fuel : Nat) (h : Heap) (tree : rb_tree) (z : Ptr) :
    Res (Heap × rb_tree × Ptr × rb_node_color) := do
  let y_original_color ← get_color h z
  let zl ← get_left h z
  if zl = tree.nil then do
    let x ← get_right h z
    let zr ← get_right h z
    let ht ← rb_tree_transplant h tree z zr
    pure (ht.1, ht.2, x, y_original_color)
  else do
    let zr ← get_right h z
    if zr = tree.nil then do
      let x ← get_left h z
      let zl ← get_left h z
      let ht ← rb_tree_transplant h tree z zl
      pure (ht.1, ht.2, x, y_original_color)
    else do
      let zr ← get_right h z
      let y ← rb_tree_minimum fuel h tree zr
      let y_original_color ← get_color h y
      let x ← get_right h y
      let yp ← get_parent h y
      let ht ←
        if yp = z then do
          let h ← set_parent h x y
          pure (h, tree)
        else do
          let yr ← get_right h y
          let ht ← rb_tree_transplant h tree y yr
          let zr ← get_right ht.1 z
          let h ← set_right ht.1 y zr
          let yr ← get_right h y
          let h ← set_parent h yr y
          pure (h, ht.2)
      let ht ← __rb_tree_delete_replace ht.1 ht.2 z y
      pure (ht.1, ht.2, x, y_original_color)

/-- `__rb_tree_delete`: the unlinking, then
`if (y_original_color == RB_NODE_COLOR_BLACK) rb_tree_delete_fixup(tree, x);`. -/
def __rb_tree_delete (fuel : Nat) (h : Heap) (tree : rb_tree) (z : Ptr) :
    Res (Heap × rb_tree) := do
  let s ← __rb_tree_delete_unlink fuel h tree z
  if s.2.2.2 = RB_NODE_COLOR_BLACK then rb_tree_delete_fixup fuel s.1 s.2.1 s.2.2.1
  else pure (s.1, s.2.1)

/-- `rb_tree_delete`. -/
def rb_tree_delete (fuel : Nat) (h : Heap) (tree : rb_tree) (key : Nat) :
    Res (Heap × rb_tree × Int) := do
  let node ← rb_tree_search fuel h tree key
  if node = NULL then pure (h, tree, -ENODATA)
  else do
    let ht ← __rb_tree_delete fuel h tree node
    let h ← rb_node_dealloc ht.1 node
    pure (h, ht.2, 0)

/-- The `while (bh != t2->bh)` loop of `rb_tree_concat` in the branch
`t1->bh >= t2->bh`: `y` walks down `t1`, to the right child when there is one,
else to the left child, else the loop breaks; `bh` goes down by one (in
`size_t`) after a step to a Black node. -/
def rb_tree_concat_descend_right : Nat → Heap → rb_tree → Nat → Ptr → Nat → Res Ptr
  | 0, _, _, _, _, _ => .timeout
  | fuel + 1, h, t1, target, y, bh =>
    if bh ≠ target then do
      let yr ← get_right h y
      if yr ≠ t1.nil then do
        let y ← get_right h y
        let yc ← get_color h y
        let bh := if yc = RB_NODE_COLOR_BLACK then (bh + SIZE_MOD - 1) % SIZE_MOD else bh
        rb_tree_concat_descend_right fuel h t1 target y bh
      else do
        let yl ← get_left h y
        if yl ≠ t1.nil then do
          let y ← get_left h y
          let yc ← get_color h y
          let bh := if yc = RB_NODE_COLOR_BLACK then (bh + SIZE_MOD - 1) % SIZE_MOD else bh
          rb_tree_concat_descend_right fuel h t1 target y bh
        else pure y
    else pure y

/-- The `while (bh != t1->bh)` loop of `rb_tree_concat` in the branch
`t1->bh < t2->bh`: the mirror image, walking down `t2` to the left. -/
def rb_tree_concat_descend_left : Nat → Heap → rb_tree → Nat → Ptr → Nat → Res Ptr
  | 0, _, _, _, _, _ => .timeout
  | fuel + 1, h, t2, target, y, bh =>
    if bh ≠ target then do
      let yl ← get_left h y
      if yl ≠ t2.nil then do
        let y ← get_left h y
        let yc ← get_color h y
        let bh := if yc = RB_NODE_COLOR_BLACK then (bh + SIZE_MOD - 1) % SIZE_MOD else bh
        rb_tree_concat_descend_left fuel h t2 target y bh
      else do
        let yr ← get_right h y
        if yr ≠ t2.nil then do
          let y ← get_right h y
          let yc ← get_color h y
          let bh := if yc = RB_NODE_COLOR_BLACK then (bh + SIZE_MOD - 1) % SIZE_MOD else bh
          rb_tree_concat_descend_left fuel h t2 target y bh
        else pure y
    else pure y

/-- The block of `rb_tree_concat` that runs when `x->key` equals a boundary
key: `x` is taken out of the tree it is compared equal with and replaced by a
node from `rb_node_alloc` that takes over its payload.  The result is the heap,
the two tree headers and the new `x`. -/
def rb_tree_concat_collapse (fuel : Nat) (h : Heap) (t1 t2 : rb_tree) (x : Ptr)
    (x1_max_key : Nat) : Res (Heap × rb_tree × rb_tree × Ptr) := do
  let prev_x := x
  let xk ← get_key h x
  let ht ←
    if xk = x1_max_key then do
      let ht ← __rb_tree_delete fuel h t1 prev_x
      pure (ht.1, ht.2, t2)
    else do
      let ht ← __rb_tree_delete fuel h t2 prev_x
      pure (ht.1, t1, ht.2)
  let h := ht.1
  let pk ← get_key h prev_x
  let a := rb_node_alloc h pk
  let x := a.1
  let h := a.2
  let pd ← get_data h prev_x
  let h ← set_data h x pd
  let h ← set_data h prev_x NULL
  let h ← rb_node_dealloc h prev_x
  pure (h, ht.2.1, ht.2.2, x)

/-- The second half of `rb_tree_concat`, from `if (t1->bh >= t2->bh)` on: `x`
is put in the place of the node `y` that the descent in the taller tree stops
at, with `y` and the root of the other tree as its children, and
`rb_tree_insert_fixup` runs on `x`.  The result is the heap, the headers of
`t1` and `t2` as they are last and the returned tree. -/
def rb_tree_concat_join (fuel : Nat) (h : Heap) (t1 t2 : rb_tree) (x : Ptr) :
    Res (Heap × rb_tree × rb_tree × Option rb_tree) :=
  if t1.bh ≥ t2.bh then do
    let y ← rb_tree_concat_descend_right fuel h t1 t2.bh t1.root t1.bh
    let ht ← rb_tree_transplant h t1 y x
    let h ← set_left ht.1 x y
    let h ← set_right h x t2.root
    let h ← set_parent h y x
    let h ← set_parent h t2.root x
    let ht ← rb_tree_insert_fixup fuel h ht.2 x
    pure (ht.1, ht.2, t2, some ht.2)
  else do
    let y ← rb_tree_concat_descend_left fuel h t2 t1.bh t2.root t2.bh
    let ht ← rb_tree_transplant h t2 y x
    let h ← set_left ht.1 x t1.root
    let h ← set_right h x y
    let h ← set_parent h y x
    let h ← set_parent h t1.root x
    let ht ← rb_tree_insert_fixup fuel h ht.2 x
    pure (ht.1, t1, ht.2, some ht.2)

/-- `rb_tree_concat`.  The result is the heap, the headers of `t1` and `t2` as
the call leaves them (as they were last when the call has released them) and
the returned tree, `none` for `NULL`. -/
def rb_tree_concat (fuel : Nat) (h : Heap) (t1 t2 : rb_tree) (x : Ptr) :
    Res (Heap × rb_tree × rb_tree × Option rb_tree) := do
  let x1_max_node ← rb_tree_maximum fuel h t1 t1.root
  let x2_min_node ← rb_tree_minimum fuel h t2 t2.root
  let x1_max_key ← get_key h x1_max_node
  let x2_min_key ← get_key h x2_min_node
  let xk ← get_key h x
  if ¬ (x1_max_key ≤ xk ∧ xk ≤ x2_min_key) then pure (h, t1, t2, none)
  else do
    let xk ← get_key h x
    let s ←
      if xk = x1_max_key ∨ xk = x2_min_key then
        rb_tree_concat_collapse fuel h t1 t2 x x1_max_key
      else pure (h, t1, t2, x)
    rb_tree_concat_join fuel s.1 s.2.1 s.2.2.1 s.2.2.2

/-- The `while (k != tree->nil)` loop of `rb_tree_split`.  The return values of
the insert calls are dropped, as in the source. -/
def rb_tree_split_loop (ifuel : Nat) :
    Nat → Heap → rb_tree → Nat → rb_tree → rb_tree → Ptr → Res (Heap × rb_tree × rb_tree)
  | 0, _, _, _, _, _, _ => .timeout
  | fuel + 1, h, tree, x, t1, t2, k =>
    if k ≠ tree.nil then do
      let temp := k
      let kk ← get_key h k
      if x < kk then do
        let kr ← get_right h k
        let s ←
          if kr ≠ tree.nil then do
            let kr ← get_right h k
            let r ← __rb_tree_insert ifuel h t2 kr
            pure (r.1, r.2.1)
          else pure (h, t2)
        let kk ← get_key s.1 k
        let kd ← get_data s.1 k
        let r ← rb_tree_insert ifuel s.1 s.2 kk kd
        let k ← get_left r.1 k
        rb_tree_split_loop ifuel fuel (r.1.free temp) tree x t1 r.2.1 k
      else do
        let kl ← get_left h k
        let s ←
          if kl ≠ tree.nil then do
            let kl ← get_left h k
            let r ← __rb_tree_insert ifuel h t1 kl
            pure (r.1, r.2.1)
          else pure (h, t1)
        let kk ← get_key s.1 k
        let kd ← get_data s.1 k
        let r ← rb_tree_insert ifuel s.1 s.2 kk kd
        let k ← get_right r.1 k
        rb_tree_split_loop ifuel fuel (r.1.free temp) tree x r.2.1 t2 k
    else pure (h, t1, t2)

/-- `rb_tree_split`: the heap, `*result1`, `*result2` and the return value. -/
def rb_tree_split (fuel : Nat) (h : Heap) (tree : rb_tree) (x : Nat) :
    Res (Heap × rb_tree × rb_tree × Int) := do
  let t1 := rb_tree_alloc
  let t2 := rb_tree_alloc
  let r ← rb_tree_split_loop fuel fuel h tree x t1 t2 tree.root
  pure (r.1, r.2.1, r.2.2, 0)

end RedBlack


namespace RedBlack

/-! ## `rb-tree.c`: queries -/

/-- The `while (node)` loop of `__rb_tree_get_bh`: it stops at the node that
holds `key` (the `break`) or when `node` is `NULL`; `bh` goes down by one (in
`size_t`) at every Black node that is passed.  The result is `node` and `bh` at
the exit. -/
def __rb_tree_get_bh_loop : Nat → Heap → Ptr → Nat → Nat → Res (Ptr × Nat)
  | 0, _, _, _, _ => .timeout
  | fuel + 1, h, node, key, bh =>
    if node ≠ NULL then do
      let nk ← get_key h node
      if key = nk then pure (node, bh)
      else do
        let c ← get_color h node
        let bh := if c = RB_NODE_COLOR_BLACK then (bh + SIZE_MOD - 1) % SIZE_MOD else bh
        let nk ← get_key h node
        if key < nk then do
          let l ← get_left h node
          __rb_tree_get_bh_loop fuel h l key bh
        else do
          let r ← get_right h node
          __rb_tree_get_bh_loop fuel h r key bh
    else pure (node, bh)

/-- `__rb_tree_get_bh`. -/
def __rb_tree_get_bh (fuel : Nat) (h : Heap) (tree : rb_tree) (root : Ptr) (key : Nat) :
    Res Nat := do
  let bh := tree.bh
  let node := root
  let r ← __rb_tree_get_bh_loop fuel h node key bh
  if r.1 = NULL then pure RB_INVALID_BLACK_HEIGHT
  else pure r.2

/-- `rb_tree_get_bh`. -/
def rb_tree_get_bh (fuel : Nat) (h : Heap) (tree : rb_tree) (key : Nat) : Res Nat :=
  __rb_tree_get_bh fuel h tree tree.root key

/-- The `while (y != tree->nil && x == y->right)` loop of `rb_tree_successor`. -/
def rb_tree_successor_loop : Nat → Heap → rb_tree → Ptr → Ptr → Res Ptr
  | 0, _, _, _, _ => .timeout
  | fuel + 1, h, tree, x, y =>
    if y ≠ tree.nil then do
      let yr ← get_right h y
      if x = yr then do
        let x := y
        let y ← get_parent h y
        rb_tree_successor_loop fuel h tree x y
      else pure y
    else pure y

/-- `rb_tree_successor`. -/
def rb_tree_successor (fuel : Nat) (h : Heap) (tree : rb_tree) (x : Ptr) : Res Ptr := do
  let xr ← get_right h x
  if xr ≠ tree.nil then do
    let xr ← get_right h x
    rb_tree_minimum fuel h tree xr
  else do
    let y ← get_parent h x
    rb_tree_successor_loop fuel h tree x y

/-- The `while (x != tree->nil && y == x->left)` loop of `rb_tree_predecessor`. -/
def rb_tree_predecessor_loop : Nat → Heap → rb_tree → Ptr → Ptr → Res Ptr
  | 0, _, _, _, _ => .timeout
  | fuel + 1, h, tree, y, x =>
    if x ≠ tree.nil then do
      let xl ← get_left h x
      if y = xl then do
        let y := x
        let x ← get_parent h x
        rb_tree_predecessor_loop fuel h tree y x
      else pure x
    else pure x

/-- `rb_tree_predecessor`. -/
def rb_tree_predecessor (fuel : Nat) (h : Heap) (tree : rb_tree) (y : Ptr) : Res Ptr := do
  let yl ← get_left h y
  if yl ≠ tree.nil then do
    let yl ← get_left h y
    rb_tree_maximum fuel h tree yl
  else do
    let x ← get_parent h y
    rb_tree_predecessor_loop fuel h tree y x

/-- The loop of `rb_tree_concat_descend_right` once more, with the counter `bh`
it leaves next to the node `y` it leaves. -/
def rb_tree_concat_descend_right_state : Nat → Heap → rb_tree → Nat → Ptr → Nat → Res (Ptr × Nat)
  | 0, _, _, _, _, _ => .timeout
  | fuel + 1, h, t1, target, y, bh =>
    if bh ≠ target then do
      let yr ← get_right h y
      if yr ≠ t1.nil then do
        let y ← get_right h y
        let yc ← get_color h y
        let bh := if yc = RB_NODE_COLOR_BLACK then (bh + SIZE_MOD - 1) % SIZE_MOD else bh
        rb_tree_concat_descend_right_state fuel h t1 target y bh
      else do
        let yl ← get_left h y
        if yl ≠ t1.nil then do
          let y ← get_left h y
          let yc ← get_color h y
          let bh := if yc = RB_NODE_COLOR_BLACK then (bh + SIZE_MOD - 1) % SIZE_MOD else bh
          rb_tree_concat_descend_right_state fuel h t1 target y bh
        else pure (y, bh)
    else pure (y, bh)

/-- The loop of `rb_tree_concat_descend_left` once more, with the counter `bh`
it leaves next to the node `y` it leaves. -/
def rb_tree_concat_descend_left_state : Nat → Heap → rb_tree → Nat → Ptr → Nat → Res (Ptr × Nat)
  | 0, _, _, _, _, _ => .timeout
  | fuel + 1, h, t2, target, y, bh =>
    if bh ≠ target then do
      let yl ← get_left h y
      if yl ≠ t2.nil then do
        let y ← get_left h y
        let yc ← get_color h y
        let bh := if yc = RB_NODE_COLOR_BLACK then (bh + SIZE_MOD - 1) % SIZE_MOD else bh
        rb_tree_concat_descend_left_state fuel h t2 target y bh
      else do
        let yr ← get_right h y
        if yr ≠ t2.nil then do
          let y ← get_right h y
          let yc ← get_color h y
          let bh := if yc = RB_NODE_COLOR_BLACK then (bh + SIZE_MOD - 1) % SIZE_MOD else bh
          rb_tree_concat_descend_left_state fuel h t2 target y bh
        else pure (y, bh)
    else pure (y, bh)

end RedBlack


namespace RedBlack

/-! ## Abstract view: trees with node addresses -/

/-- The tree a heap region represents: every node carries its address `a`, its
colour, key and payload. -/
inductive Tree where
  | leaf : Tree
  | node (a : Ptr) (c : rb_node_color) (l : Tree) (k : Nat) (d : Ptr) (r : Tree) : Tree
  deriving DecidableEq, Repr

/-- Pointer by which a subtree is referenced: the sentinel for the empty tree. -/
def Tree.ptr (nil : Ptr) : Tree → Ptr
  | .leaf => nil
  | .node a _ _ _ _ _ => a

/-- Colour seen when reading the root of a subtree (the sentinel is Black). -/
def Tree.color : Tree → rb_node_color
  | .leaf => RB_NODE_COLOR_BLACK
  | .node _ c _ _ _ _ => c

/-- Addresses of the nodes, in order. -/
def Tree.addrs : Tree → List Ptr
  | .leaf => []
  | .node a _ l _ _ r => l.addrs ++ a :: r.addrs

/-- In-order traversal: keys with payloads. -/
def Tree.toList : Tree → List (Nat × Ptr)
  | .leaf => []
  | .node _ _ l k d r => l.toList ++ (k, d) :: r.toList

/-- In-order key sequence. -/
def Tree.keys (t : Tree) : List Nat := t.toList.map Prod.fst

/-- Number of edges on the longest downward path, plus one. -/
def Tree.height : Tree → Nat
  | .leaf => 0
  | .node _ _ l _ _ r => max l.height r.height + 1

/-- Layout of a subtree in memory: the node at each address has the recorded
fields, child pointers lead to the subtrees, and the subtree root points back to
`p`. -/
def Own (m : Ptr → Option rb_node) (nil : Ptr) : Tree → Ptr → Prop
  | .leaf, _ => True
  | .node a c l k d r, p =>
    m a = some { color := c, key := k, data := d, left := l.ptr nil, right := r.ptr nil,
                 parent := p } ∧ Own m nil l a ∧ Own m nil r a

/-- A tree with a hole, as the path from the hole up to the root.  `L` says the
hole is the left child of node `a` whose right subtree is `s`; `R` the mirror
image. -/
inductive Ctx where
  | top : Ctx
  | L (a : Ptr) (c : rb_node_color) (k : Nat) (d : Ptr) (s : Tree) (up : Ctx) : Ctx
  | R (a : Ptr) (c : rb_node_color) (k : Nat) (d : Ptr) (s : Tree) (up : Ctx) : Ctx
  deriving DecidableEq, Repr

/-- Fill the hole. -/
def Ctx.plug : Ctx → Tree → Tree
  | .top, t => t
  | .L a c k d s up, t => up.plug (.node a c t k d s)
  | .R a c k d s up, t => up.plug (.node a c s k d t)

/-- Address of the node right above the hole (the sentinel at the root). -/
def Ctx.par (nil : Ptr) : Ctx → Ptr
  | .top => nil
  | .L a _ _ _ _ _ => a
  | .R a _ _ _ _ _ => a

/-- Colour of the node right above the hole. -/
def Ctx.color : Ctx → rb_node_color
  | .top => RB_NODE_COLOR_BLACK
  | .L _ c _ _ _ _ => c
  | .R _ c _ _ _ _ => c

/-- Addresses of the nodes of a context. -/
def Ctx.addrs : Ctx → List Ptr
  | .top => []
  | .L a _ _ _ s up => a :: (s.addrs ++ up.addrs)
  | .R a _ _ _ s up => a :: (s.addrs ++ up.addrs)

/-- Number of nodes on the path. -/
def Ctx.depth : Ctx → Nat
  | .top => 0
  | .L _ _ _ _ _ up => up.depth + 1
  | .R _ _ _ _ _ up => up.depth + 1

/-- Layout of a context in memory; `hp` is the pointer stored in the hole. -/
def CtxOwn (m : Ptr → Option rb_node) (nil : Ptr) (root : Ptr) : Ctx → Ptr → Prop
  | .top, hp => root = hp
  | .L a c k d s up, hp =>
    m a = some { color := c, key := k, data := d, left := hp, right := s.ptr nil,
                 parent := up.par nil } ∧ Own m nil s a ∧ CtxOwn m nil root up a
  | .R a c k d s up, hp =>
    m a = some { color := c, key := k, data := d, left := s.ptr nil, right := hp,
                 parent := up.par nil } ∧ Own m nil s a ∧ CtxOwn m nil root up a

/-- The sentinel as it is stored: everything but its parent field is fixed. -/
def sentinel_node (p : Ptr) : rb_node :=
  { color := RB_NODE_COLOR_BLACK, key := RB_NODE_NIL_KEY_VALUE, data := NULL,
    left := NULL, right := NULL, parent := p }

/-- Side conditions on a set of node addresses: pairwise distinct, none is the
sentinel, none is `NULL`; and the sentinel is stored at `nil`. -/
structure Sep (m : Ptr → Option rb_node) (nil : Ptr) (as : List Ptr) : Prop where
  nodup : as.Nodup
  nil_not_mem : nil ∉ as
  null_not_mem : NULL ∉ as
  nil_ne : nil ≠ NULL
  sentinel : ∃ p, m nil = some (sentinel_node p)

/-- When the subtree below `par` is empty, the sentinel's parent field points to
`par` (as `rb_tree_transplant` leaves it for `rb_tree_delete_fixup`). -/
def NilPar (m : Ptr → Option rb_node) (nil : Ptr) (par : Ptr) (t : Tree) : Prop :=
  t = .leaf → m nil = some (sentinel_node par)

/-- A tree with a distinguished subtree `t` in context `c` is laid out in the heap. -/
structure Focus (h : Heap) (tree : rb_tree) (c : Ctx) (t : Tree) : Prop where
  ctx : CtxOwn h.mem tree.nil tree.root c (t.ptr tree.nil)
  own : Own h.mem tree.nil t (c.par tree.nil)
  sep : Sep h.mem tree.nil (c.addrs ++ t.addrs)

/-- What a rotation leaves untouched, together with the new layout. -/
def RotPost (h : Heap) (tree : rb_tree) (c : Ctx) (t : Tree) (r : Heap × rb_tree) : Prop :=
  r.2.nil = tree.nil ∧ r.2.bh = tree.bh ∧ r.1.next = h.next ∧ r.1.cap = h.cap ∧
    r.1.mem tree.nil = h.mem tree.nil ∧ Focus r.1 r.2 c t

/-- No cell that is allocated in `h` has been released in `h'`. -/
def Alloc (h h' : Heap) : Prop :=
  ∀ a, (h.mem a).isSome = true → (h'.mem a).isSome = true

/-! ## Red-black invariants on the abstract view -/

/-- Contribution of a node to the black count of a path through it. -/
def black_weight (c : rb_node_color) : Nat :=
  if c = RB_NODE_COLOR_BLACK then 1 else 0

/-- Number of Black nodes on each root-to-sentinel path, one entry per path
(the sentinel itself is not counted). -/
def Tree.pathBlacks : Tree → List Nat
  | .leaf => [0]
  | .node _ c l _ _ r => (l.pathBlacks ++ r.pathBlacks).map (· + black_weight c)

/-- Every root-to-sentinel path contains exactly `n` Black nodes. -/
def Tree.Balanced (t : Tree) (n : Nat) : Prop := ∀ m ∈ t.pathBlacks, m = n

/-- Every node is Red or Black. -/
def Tree.ColorsOK : Tree → Prop
  | .leaf => True
  | .node _ c l _ _ r =>
    (c = RB_NODE_COLOR_RED ∨ c = RB_NODE_COLOR_BLACK) ∧ l.ColorsOK ∧ r.ColorsOK

/-- No Red node has a Red child. -/
def Tree.RedOK : Tree → Prop
  | .leaf => True
  | .node _ c l _ _ r =>
    (c = RB_NODE_COLOR_RED → l.color ≠ RB_NODE_COLOR_RED ∧ r.color ≠ RB_NODE_COLOR_RED) ∧
      l.RedOK ∧ r.RedOK

/-- The red-black shape invariants of a tree: colours, Black root, no Red-Red
edge, equal black count on all root-to-sentinel paths. -/
structure Tree.RBShape (t : Tree) : Prop where
  colors : t.ColorsOK
  root_black : t.color = RB_NODE_COLOR_BLACK
  red_ok : t.RedOK
  balanced : ∃ n, t.Balanced n

/-- Binary-search-tree order: the in-order key sequence is strictly increasing. -/
def Tree.Ordered (t : Tree) : Prop := t.keys.Sorted (· < ·)

/-- Every stored key lies below the reserved sentinel key, as `rb_node_alloc`
accepts no other; in particular the reserved key is not stored. -/
def Tree.NoNilKey (t : Tree) : Prop := ∀ k ∈ t.keys, k < RB_NODE_NIL_KEY_VALUE

/-- Black count along the leftmost path. -/
def Tree.bheight : Tree → Nat
  | .leaf => 0
  | .node _ c l _ _ _ => l.bheight + black_weight c

/-- At every node both subtrees have the same black count. -/
def Tree.BalOK : Tree → Prop
  | .leaf => True
  | .node _ _ l _ _ r => l.bheight = r.bheight ∧ l.BalOK ∧ r.BalOK

/-- Black count of the whole tree when the hole holds a subtree of black count `m`. -/
def Ctx.total : Ctx → Nat → Nat
  | .top, m => m
  | .L _ c _ _ _ up, m => up.total (m + black_weight c)
  | .R _ c _ _ _ up, m => up.total (m + black_weight c)

/-- The context is balanced around a hole of black count `m`. -/
def Ctx.BalOK : Ctx → Nat → Prop
  | .top, _ => True
  | .L _ c _ _ s up, m => s.bheight = m ∧ s.BalOK ∧ up.BalOK (m + black_weight c)
  | .R _ c _ _ s up, m => s.bheight = m ∧ s.BalOK ∧ up.BalOK (m + black_weight c)

/-- Every node of the context is Red or Black. -/
def Ctx.ColorsOK : Ctx → Prop
  | .top => True
  | .L _ c _ _ s up => (c = RB_NODE_COLOR_RED ∨ c = RB_NODE_COLOR_BLACK) ∧ s.ColorsOK ∧ up.ColorsOK
  | .R _ c _ _ s up => (c = RB_NODE_COLOR_RED ∨ c = RB_NODE_COLOR_BLACK) ∧ s.ColorsOK ∧ up.ColorsOK

/-- No Red-Red edge inside the context (the edge into the hole is not judged). -/
def Ctx.RedOK : Ctx → Prop
  | .top => True
  | .L _ c _ _ s up =>
    (c = RB_NODE_COLOR_RED → s.color ≠ RB_NODE_COLOR_RED ∧ up.color ≠ RB_NODE_COLOR_RED) ∧
      s.RedOK ∧ up.RedOK
  | .R _ c _ _ s up =>
    (c = RB_NODE_COLOR_RED → s.color ≠ RB_NODE_COLOR_RED ∧ up.color ≠ RB_NODE_COLOR_RED) ∧
      s.RedOK ∧ up.RedOK

/-- Colour of the root of `c.plug t` when `t` has root colour `tc`. -/
def Ctx.rootColor : Ctx → rb_node_color → rb_node_color
  | .top, tc => tc
  | .L _ c _ _ _ up, _ => up.rootColor c
  | .R _ c _ _ _ up, _ => up.rootColor c

/-- In-order entries of the context that come before the hole. -/
def Ctx.before : Ctx → List (Nat × Ptr)
  | .top => []
  | .L _ _ _ _ _ up => up.before
  | .R _ _ k d s up => up.before ++ s.toList ++ [(k, d)]

/-- In-order entries of the context that come after the hole. -/
def Ctx.after : Ctx → List (Nat × Ptr)
  | .top => []
  | .L _ _ k d s up => (k, d) :: s.toList ++ up.after
  | .R _ _ _ _ _ up => up.after

/-- What `ins_fix` is given: a Red node whose subtree satisfies the invariants,
in a context that satisfies them, under a Black root. -/
structure InsPre (c : Ctx) (t : Tree) : Prop where
  t_colors : t.ColorsOK
  t_red_ok : t.RedOK
  t_bal : t.BalOK
  c_colors : c.ColorsOK
  c_red_ok : c.RedOK
  c_bal : c.BalOK t.bheight
  root : c.rootColor RB_NODE_COLOR_BLACK = RB_NODE_COLOR_BLACK

/-- What `ins_fix` delivers: a tree that satisfies the invariants (its root may
be Red), with the given black count, in-order sequence and nodes. -/
structure InsPost (bh : Nat) (l : List (Nat × Ptr)) (as : List Ptr) (T : Tree) : Prop where
  colors : T.ColorsOK
  red_ok : T.RedOK
  bal : T.BalOK
  bheight : T.bheight = bh
  to_list : T.toList = l
  addrs : T.addrs.Perm as

/-- The path `c` is the one a search for `key` follows: left where the key is
smaller than the node's, right where it is larger. -/
def Ctx.OnPath (key : Nat) : Ctx → Prop
  | .top => True
  | .L _ _ k _ _ up => key < k ∧ up.OnPath key
  | .R _ _ k _ _ up => k < key ∧ up.OnPath key

/-- The heap holds the tree `t` as the tree `tree` points to, and every node
lies below the allocation mark. -/
structure Represents (h : Heap) (tree : rb_tree) (t : Tree) : Prop where
  focus : Focus h tree .top t
  bound : ∀ a ∈ t.addrs, a < h.next
  nil_lt : tree.nil < h.next
  next_le : h.next ≤ h.cap
  cap_le : h.cap ≤ SIZE_MOD

/-- A valid red-black tree in memory: laid out in the heap, with the shape
invariants, the search-tree order and no reserved key. -/
structure RBValid (h : Heap) (tree : rb_tree) (t : Tree) : Prop where
  repr : Represents h tree t
  shape : t.RBShape
  ordered : t.Ordered
  no_nil_key : t.NoNilKey

/-! ## The algorithms on the abstract view -/

/-- Descent of `__rb_tree_insert`: walk down from the root comparing keys until
the key is found or a leaf is reached, recording the path. -/
def Tree.locate (key : Nat) : Tree → Ctx → Ctx × Tree
  | .leaf, c => (c, .leaf)
  | .node a col l k d r, c =>
    if k = key then (c, .node a col l k d r)
    else if key < k then l.locate key (.L a col k d r c)
    else r.locate key (.R a col k d l c)

/-- The loop of `rb_tree_insert_fixup`, started at the subtree `t` (rooted at the
node `z`) in context `c`; the result is the whole tree when the loop exits.
`none` stands for the runs in which the loop dereferences `NULL`. -/
def ins_fix : Ctx → Tree → Option Tree
  | c, .leaf => some (c.plug .leaf)
  | .top, t => some t
  | .L p cp kp dp s .top, .node z cz zl zk zd zr =>
    if cp = RB_NODE_COLOR_RED then none
    else some ((Ctx.L p cp kp dp s .top).plug (.node z cz zl zk zd zr))
  | .R p cp kp dp s .top, .node z cz zl zk zd zr =>
    if cp = RB_NODE_COLOR_RED then none
    else some ((Ctx.R p cp kp dp s .top).plug (.node z cz zl zk zd zr))
  | .L p cp kp dp s (.L g cg kg dg u up), .node z cz zl zk zd zr =>
    if cp = RB_NODE_COLOR_RED then
      match u with
      | .node y RB_NODE_COLOR_RED ul uk ud ur =>
        ins_fix up (.node g RB_NODE_COLOR_RED
          (.node p RB_NODE_COLOR_BLACK (.node z cz zl zk zd zr) kp dp s) kg dg
          (.node y RB_NODE_COLOR_BLACK ul uk ud ur))
      | _ =>
        some (up.plug (.node p RB_NODE_COLOR_BLACK (.node z cz zl zk zd zr) kp dp
          (.node g RB_NODE_COLOR_RED s kg dg u)))
    else some ((Ctx.L p cp kp dp s (.L g cg kg dg u up)).plug (.node z cz zl zk zd zr))
  | .R p cp kp dp s (.L g cg kg dg u up), .node z cz zl zk zd zr =>
    if cp = RB_NODE_COLOR_RED then
      match u with
      | .node y RB_NODE_COLOR_RED ul uk ud ur =>
        ins_fix up (.node g RB_NODE_COLOR_RED
          (.node p RB_NODE_COLOR_BLACK s kp dp (.node z cz zl zk zd zr)) kg dg
          (.node y RB_NODE_COLOR_BLACK ul uk ud ur))
      | _ =>
        some (up.plug (.node z RB_NODE_COLOR_BLACK
          (.node p cp s kp dp zl) zk zd (.node g RB_NODE_COLOR_RED zr kg dg u)))
    else some ((Ctx.R p cp kp dp s (.L g cg kg dg u up)).plug (.node z cz zl zk zd zr))
  | .R p cp kp dp s (.R g cg kg dg u up), .node z cz zl zk zd zr =>
    if cp = RB_NODE_COLOR_RED then
      match u with
      | .node y RB_NODE_COLOR_RED ul uk ud ur =>
        ins_fix up (.node g RB_NODE_COLOR_RED
          (.node y RB_NODE_COLOR_BLACK ul uk ud ur) kg dg
          (.node p RB_NODE_COLOR_BLACK s kp dp (.node z cz zl zk zd zr)))
      | _ =>
        some (up.plug (.node p RB_NODE_COLOR_BLACK
          (.node g RB_NODE_COLOR_RED u kg dg s) kp dp (.node z cz zl zk zd zr)))
    else some ((Ctx.R p cp kp dp s (.R g cg kg dg u up)).plug (.node z cz zl zk zd zr))
  | .L p cp kp dp s (.R g cg kg dg u up), .node z cz zl zk zd zr =>
    if cp = RB_NODE_COLOR_RED then
      match u with
      | .node y RB_NODE_COLOR_RED ul uk ud ur =>
        ins_fix up (.node g RB_NODE_COLOR_RED
          (.node y RB_NODE_COLOR_BLACK ul uk ud ur) kg dg
          (.node p RB_NODE_COLOR_BLACK (.node z cz zl zk zd zr) kp dp s))
      | _ =>
        some (up.plug (.node z RB_NODE_COLOR_BLACK
          (.node g RB_NODE_COLOR_RED u kg dg zl) zk zd (.node p cp zr kp dp s)))
    else some ((Ctx.L p cp kp dp s (.R g cg kg dg u up)).plug (.node z cz zl zk zd zr))

/-- Effect of the last two statements of `rb_tree_insert_fixup` on the tree:
the root is coloured Black. -/
def Tree.blacken : Tree → Tree
  | .leaf => .leaf
  | .node a _ l k d r => .node a RB_NODE_COLOR_BLACK l k d r

/-- Effect of the last two statements of `rb_tree_insert_fixup` on `bh`. -/
def bh_after_insert (root_color : rb_node_color) (bh : Nat) : Nat :=
  if root_color = RB_NODE_COLOR_RED then (bh + 1) % SIZE_MOD else bh

/-- What `rb_tree_insert` does to the tree: `z` is the address of the node it
allocates.  On a key that is present only the payload changes. -/
def Tree.insert (t : Tree) (z : Ptr) (key : Nat) (data : Ptr) : Option Tree :=
  match t.locate key .top with
  | (c, .node a col l _ _ r) => some (c.plug (.node a col l key data r))
  | (c, .leaf) =>
    (ins_fix c (.node z RB_NODE_COLOR_RED .leaf key data .leaf)).map Tree.blacken

/-- What `rb_tree_insert` does to `bh`. -/
def Tree.insert_bh (t : Tree) (z : Ptr) (key : Nat) (data : Ptr) (bh : Nat) : Nat :=
  match t.locate key .top with
  | (_, .node _ _ _ _ _ _) => bh
  | (c, .leaf) =>
    match ins_fix c (.node z RB_NODE_COLOR_RED .leaf key data .leaf) with
    | some t' => bh_after_insert t'.color bh
    | none => bh

/-- Put the context `inner` below `outer`: the root of `inner` hangs in the hole
of `outer`. -/
def Ctx.append : Ctx → Ctx → Ctx
  | .top, outer => outer
  | .L a c k d s up, outer => .L a c k d s (up.append outer)
  | .R a c k d s up, outer => .R a c k d s (up.append outer)

/-- Descent of `rb_tree_minimum`: follow left children down to the node that has
none. -/
def Tree.minLocate : Tree → Ctx → Ctx × Tree
  | .leaf, c => (c, .leaf)
  | .node a col .leaf k d r, c => (c, .node a col .leaf k d r)
  | .node a col (.node la lc ll lk ld lr) k d r, c =>
    (Tree.node la lc ll lk ld lr).minLocate (.L a col k d r c)

/-- Cases 2 to 4 of `rb_tree_delete_fixup` when `x` is a left child: the node `p`
(colour `pc`) has the deficient subtree `x` on the left and the sibling `w` on
the right.  The result is the new subtree at the place of `p`, with `false` when
the deficiency moves up to `p` (case 2) and `true` when it is resolved (case 4,
possibly after case 3).  `none` stands for the runs that dereference `NULL`. -/
def del_case_L (pc : rb_node_color) (p : Ptr) (kp : Nat) (dp : Ptr) (x : Tree) :
    Tree → Option (Bool × Tree)
  | .leaf => none
  | .node w _ a k d b =>
    if a.color = RB_NODE_COLOR_BLACK ∧ b.color = RB_NODE_COLOR_BLACK then
      some (false, .node p pc x kp dp (.node w RB_NODE_COLOR_RED a k d b))
    else if b.color = RB_NODE_COLOR_BLACK then
      match a with
      | .leaf => none
      | .node a' _ al ak ad ar =>
        some (true, .node a' pc (.node p RB_NODE_COLOR_BLACK x kp dp al) ak ad
          (.node w RB_NODE_COLOR_BLACK ar k d b))
    else
      match b with
      | .leaf => none
      | .node b' _ bl bk bd br =>
        some (true, .node w pc (.node p RB_NODE_COLOR_BLACK x kp dp a) k d
          (.node b' RB_NODE_COLOR_BLACK bl bk bd br))

/-- Mirror image of `del_case_L`: `x` is the right child of `p`, the sibling `w`
the left child. -/
def del_case_R (pc : rb_node_color) (p : Ptr) (kp : Nat) (dp : Ptr) (x : Tree) :
    Tree → Option (Bool × Tree)
  | .leaf => none
  | .node w _ a k d b =>
    if b.color = RB_NODE_COLOR_BLACK ∧ a.color = RB_NODE_COLOR_BLACK then
      some (false, .node p pc (.node w RB_NODE_COLOR_RED a k d b) kp dp x)
    else if a.color = RB_NODE_COLOR_BLACK then
      match b with
      | .leaf => none
      | .node b' _ bl bk bd br =>
        some (true, .node b' pc (.node w RB_NODE_COLOR_BLACK a k d bl) bk bd
          (.node p RB_NODE_COLOR_BLACK br kp dp x))
    else
      match a with
      | .leaf => none
      | .node a' _ al ak ad ar =>
        some (true, .node w pc (.node a' RB_NODE_COLOR_BLACK al ak ad ar) k d
          (.node p RB_NODE_COLOR_BLACK b kp dp x))

/-- State of `rb_tree_delete_fixup` when its loop exits: the position of `x` and
the two flags. -/
structure DelExit where
  ctx : Ctx
  sub : Tree
  is_forced : Bool
  is_goes_up : Bool
  deriving DecidableEq, Repr

/-- The loop of `rb_tree_delete_fixup`, started at the subtree `t` (the position
of `x`) in context `c` with the flags `f` (`is_forced`) and `g` (`is_goes_up`). -/
def del_fix : Ctx → Tree → Bool → Bool → Option DelExit
  | .top, t, f, g => some ⟨.top, t, f, g⟩
  | .L p cp kp dp w up, t, f, g =>
    if t.color = RB_NODE_COLOR_BLACK then
      match w with
      | .node w' RB_NODE_COLOR_RED wl wk wd wr =>
        match del_case_L RB_NODE_COLOR_RED p kp dp t wl with
        | none => none
        | some (false, sub) => some ⟨.L w' RB_NODE_COLOR_BLACK wk wd wr up, sub, f, true⟩
        | some (true, sub) =>
          some ⟨.top, (Ctx.L w' RB_NODE_COLOR_BLACK wk wd wr up).plug sub, true, true⟩
      | _ =>
        match del_case_L cp p kp dp t w with
        | none => none
        | some (false, sub) => del_fix up sub f true
        | some (true, sub) => some ⟨.top, up.plug sub, true, true⟩
    else some ⟨.L p cp kp dp w up, t, f, g⟩
  | .R p cp kp dp w up, t, f, g =>
    if t.color = RB_NODE_COLOR_BLACK then
      match w with
      | .node w' RB_NODE_COLOR_RED wl wk wd wr =>
        match del_case_R RB_NODE_COLOR_RED p kp dp t wr with
        | none => none
        | some (false, sub) => some ⟨.R w' RB_NODE_COLOR_BLACK wk wd wl up, sub, f, true⟩
        | some (true, sub) =>
          some ⟨.top, (Ctx.R w' RB_NODE_COLOR_BLACK wk wd wl up).plug sub, true, true⟩
      | _ =>
        match del_case_R cp p kp dp t w with
        | none => none
        | some (false, sub) => del_fix up sub f true
        | some (true, sub) => some ⟨.top, up.plug sub, true, true⟩
    else some ⟨.R p cp kp dp w up, t, f, g⟩

/-- Effect of the tail of `rb_tree_delete_fixup` on `bh`. -/
def bh_after_delete (e : DelExit) (bh : Nat) : Nat :=
  if e.sub = .leaf ∨ (e.is_goes_up = true ∧ e.is_forced = false ∧ e.ctx = .top) then
    (bh + SIZE_MOD - 1) % SIZE_MOD
  else bh

/-- The unlinking part of `__rb_tree_delete` for the node at the root of the
given subtree in context `c`: the position of `x` afterwards and
`y_original_color`. -/
def del_unlink (c : Ctx) : Tree → Option (Ctx × Tree × rb_node_color)
  | .leaf => none
  | .node _ cz .leaf _ _ zr => some (c, zr, cz)
  | .node _ cz (.node la lc ll lk ld lr) _ _ .leaf => some (c, .node la lc ll lk ld lr, cz)
  | .node _ cz (.node la lc ll lk ld lr) _ _ (.node ra rc rl rk rd rr) =>
    match (Tree.node ra rc rl rk rd rr).minLocate .top with
    | (cm, .node y cy _ ky dy yr) =>
      some (cm.append (.R y cz ky dy (.node la lc ll lk ld lr) c), yr, cy)
    | (_, .leaf) => none

/-- What `rb_tree_delete` does to the tree when the key is present (`none` when
it is absent or a run dereferences `NULL`). -/
def Tree.delete (t : Tree) (key : Nat) : Option Tree :=
  match t.locate key .top with
  | (_, .leaf) => none
  | (c, .node z cz zl zk zd zr) =>
    match del_unlink c (.node z cz zl zk zd zr) with
    | none => none
    | some (cx, x, yc) =>
      if yc = RB_NODE_COLOR_BLACK then
        (del_fix cx x false false).map fun e => e.ctx.plug e.sub.blacken
      else some (cx.plug x)

/-- What `rb_tree_delete` does to `bh` when the key is present. -/
def Tree.delete_bh (t : Tree) (key : Nat) (bh : Nat) : Nat :=
  match t.locate key .top with
  | (_, .leaf) => bh
  | (c, .node z cz zl zk zd zr) =>
    match del_unlink c (.node z cz zl zk zd zr) with
    | none => bh
    | some (cx, x, yc) =>
      if yc = RB_NODE_COLOR_BLACK then
        match del_fix cx x false false with
        | some e => bh_after_delete e bh
        | none => bh
      else bh

/-- What the first half of `__rb_tree_delete` establishes. -/
def UnlinkPost (h : Heap) (tree : rb_tree) (cx : Ctx) (x : Tree)
    (yc : rb_node_color) (s : Heap × rb_tree × Ptr × rb_node_color) : Prop :=
  Alloc h s.1 ∧ s.2.1.nil = tree.nil ∧ s.2.1.bh = tree.bh ∧ s.1.next = h.next ∧
    s.1.cap = h.cap ∧ s.2.2.1 = x.ptr tree.nil ∧ s.2.2.2 = yc ∧ Focus s.1 s.2.1 cx x ∧
    NilPar s.1.mem tree.nil (cx.par tree.nil) x

/-- What cases 2 to 4 of `rb_tree_delete_fixup` deliver for a subtree whose
deficient side has black count `m`: `sub` replaces `orig`; when `f` is set the
black count is restored, otherwise the deficiency has moved to the root of
`sub`. -/
structure DelCasePost (m : Nat) (pc : rb_node_color) (orig : Tree) (f : Bool) (sub : Tree) :
    Prop where
  colors : sub.ColorsOK
  bal : sub.BalOK
  red_below : sub.blacken.RedOK
  color : sub.color = pc
  to_list : sub.toList = orig.toList
  addrs : ∀ a, sub.addrs.count a = orig.addrs.count a
  forced : f = true → sub.RedOK ∧ sub.bheight = m + 1 + black_weight pc
  moved : f = false → sub.bheight = m + black_weight pc

/-- What `del_fix` is given: a subtree `t` of black count `m` that satisfies the
invariants below its root, at a place where the context expects black count
`m + 1`; the root of the whole tree is Black. -/
structure DelPre (c : Ctx) (t : Tree) (m : Nat) (g : Bool) : Prop where
  t_colors : t.ColorsOK
  t_red_ok : t.blacken.RedOK
  t_bal : t.BalOK
  t_bheight : t.bheight = m
  c_colors : c.ColorsOK
  c_red_ok : c.RedOK
  c_bal : c.BalOK (m + 1)
  root : c.rootColor RB_NODE_COLOR_BLACK = RB_NODE_COLOR_BLACK
  at_root : c = .top → if g = true then t.color = RB_NODE_COLOR_BLACK
    else (t.color = RB_NODE_COLOR_BLACK → t = .leaf)

/-- What `del_fix` delivers: after the final recolouring the tree satisfies the
invariants, its root is Black, its in-order sequence and nodes are those of
`c.plug t`, and its black count is one less than before the deletion exactly
when `rb_tree_delete_fixup` decrements `bh`. -/
def DelFixPost (c : Ctx) (t : Tree) (m : Nat) (e : DelExit) : Prop :=
  InsPost (c.total (m + 1) -
      (if e.sub = .leaf ∨ (e.is_goes_up = true ∧ e.is_forced = false ∧ e.ctx = .top)
        then 1 else 0))
    (c.plug t).toList (c.plug t).addrs (e.ctx.plug e.sub.blacken) ∧
  (e.ctx.plug e.sub.blacken).color = RB_NODE_COLOR_BLACK

/-- The tree with the payload of every node that carries `key` replaced by
`data`; shape, colours, keys and addresses stay. -/
def Tree.setData (key : Nat) (data : Ptr) : Tree → Tree
  | .leaf => .leaf
  | .node a c l k d r =>
    .node a c (l.setData key data) k (if k = key then data else d) (r.setData key data)

/-- A run of `rb_tree_insert` calls, one per entry of the list, in order; the
return codes are collected. -/
def rb_tree_insert_all (fuel : Nat) :
    List (Nat × Ptr) → Heap → rb_tree → Res (Heap × rb_tree × List Int)
  | [], h, tree => .ok (h, tree, [])
  | (key, data) :: rest, h, tree => do
    let r ← rb_tree_insert fuel h tree key data
    let r' ← rb_tree_insert_all fuel rest r.1 r.2.1
    pure (r'.1, r'.2.1, r.2.2 :: r'.2.2)

/-- The payload most recently written for each key by a list of inserts. -/
def last_write : List (Nat × Ptr) → Nat → Option Ptr
  | [], _ => none
  | (key, data) :: rest, k =>
    match last_write rest k with
    | some d => some d
    | none => if k = key then some data else none

/-! ## A small concrete tree -/

/-- A heap that holds the sentinel and one Black node with key 7 at address 2. -/
def single_heap : Heap :=
  { mem := Function.update (Heap.init 8).mem 2
      (some { color := RB_NODE_COLOR_BLACK, key := 7, data := NULL, left := rb_info_nil,
              right := rb_info_nil, parent := rb_info_nil }),
    next := 3, cap := 8 }

/-- The tree header for `single_heap`. -/
def single_hdr : rb_tree := { root := 2, nil := rb_info_nil, bh := 1 }

/-- The abstract view of the tree in `single_heap`. -/
def single_tree : Tree := .node 2 RB_NODE_COLOR_BLACK .leaf 7 NULL .leaf

end RedBlack


namespace RedBlack

/-! ## More small concrete trees -/

/-- A heap that holds the sentinel and one tree: the Black root with key 10 at
address 2 and its Red left child with key 5 at address 3. -/
def pair_heap : Heap :=
  { mem := fun a =>
      if a = 1 then some rb_info_nil_init
      else if a = 2 then
        some { color := RB_NODE_COLOR_BLACK, key := 10, data := NULL, left := 3,
               right := rb_info_nil, parent := rb_info_nil }
      else if a = 3 then
        some { color := RB_NODE_COLOR_RED, key := 5, data := NULL, left := rb_info_nil,
               right := rb_info_nil, parent := 2 }
      else none,
    next := 4, cap := 8 }

/-- The tree header for `pair_heap`. -/
def pair_hdr : rb_tree := { root := 2, nil := rb_info_nil, bh := 1 }

/-- The abstract view of the tree in `pair_heap`. -/
def pair_tree : Tree :=
  .node 2 RB_NODE_COLOR_BLACK (.node 3 RB_NODE_COLOR_RED .leaf 5 NULL .leaf) 10 NULL .leaf

/-- A heap that holds the sentinel and two trees: the first is one Black node
with key 7 at address 2, the second is the Black root with key 9 at address 3
and its Red right child with key 10 at address 4. -/
def two_heap : Heap :=
  { mem := fun a =>
      if a = 1 then some rb_info_nil_init
      else if a = 2 then
        some { color := RB_NODE_COLOR_BLACK, key := 7, data := NULL, left := rb_info_nil,
               right := rb_info_nil, parent := rb_info_nil }
      else if a = 3 then
        some { color := RB_NODE_COLOR_BLACK, key := 9, data := NULL, left := rb_info_nil,
               right := 4, parent := rb_info_nil }
      else if a = 4 then
        some { color := RB_NODE_COLOR_RED, key := 10, data := NULL, left := rb_info_nil,
               right := rb_info_nil, parent := 3 }
      else none,
    next := 5, cap := 8 }

/-- The header of the first tree of `two_heap`. -/
def two_hdr1 : rb_tree := { root := 2, nil := rb_info_nil, bh := 1 }

/-- The header of the second tree of `two_heap`. -/
def two_hdr2 : rb_tree := { root := 3, nil := rb_info_nil, bh := 1 }

/-- The abstract view of the first tree of `two_heap`. -/
def two_tree1 : Tree := .node 2 RB_NODE_COLOR_BLACK .leaf 7 NULL .leaf

/-- The abstract view of the second tree of `two_heap`. -/
def two_tree2 : Tree :=
  .node 3 RB_NODE_COLOR_BLACK .leaf 9 NULL (.node 4 RB_NODE_COLOR_RED .leaf 10 NULL .leaf)

/-- The heap `two_heap` with one more node, Red and with key 8, at address 5 (as
`rb_node_alloc` hands it out and the caller colours it). -/
def red_heap : Heap :=
  (rb_node_alloc two_heap 8).2.put 5
    { color := RB_NODE_COLOR_RED, key := 8, data := NULL, left := NULL, right := NULL,
      parent := NULL }

/-! ## Properties of every result, and runs in a larger heap -/

/-- The run delivers no result or one that satisfies `P`. -/
def Res.All {α : Type} (P : α → Prop) : Res α → Prop
  | .ok a => P a
  | .fault => True
  | .timeout => True

/-- The heap `h` with the cells of `g` added. -/
def Heap.join (h : Heap) (g : Ptr → Option rb_node) : Heap :=
  { h with mem := fun a => match g a with
      | some n => some n
      | none => h.mem a }

/-- The cells of `g` lie apart from `h`: they are not allocated in `h`, and they
lie below the allocation mark, so that the allocator does not hand them out. -/
def Heap.Apart (h : Heap) (g : Ptr → Option rb_node) : Prop :=
  ∀ a, (g a).isSome = true → h.mem a = none ∧ a < h.next

end RedBlack


namespace RedBlack

/-! ## Black counts along a path, and the runs of `test_rb_bh` -/

/-- Number of Black nodes on the path from the root down to the hole: the Black
proper ancestors of the subtree in the hole. -/
def Ctx.blacks : Ctx → Nat
  | .top => 0
  | .L _ c _ _ _ up => up.blacks + black_weight c
  | .R _ c _ _ _ up => up.blacks + black_weight c

/-- Number of Black nodes strictly between the root and the node in the hole:
the proper ancestors of the hole other than the root. -/
def Ctx.blacks_between : Ctx → Nat
  | .top => 0
  | .L _ _ _ _ _ .top => 0
  | .R _ _ _ _ _ .top => 0
  | .L _ c _ _ _ up => up.blacks_between + black_weight c
  | .R _ c _ _ _ up => up.blacks_between + black_weight c

instance Tree.Balanced.decide (t : Tree) (n : Nat) : Decidable (t.Balanced n) := by
  unfold Tree.Balanced; infer_instance

/-- The array `insert_seq` of `test_rb_bh`. -/
def insert_seq : List Nat := [10, 20, 5, 7, 6, 19, 18, 17, 16, 15, 21, 22, 14, 13]

/-- The array `delete_seq` of `test_rb_bh`. -/
def delete_seq : List Nat := [10, 6, 5, 16, 7, 13, 15, 14, 21, 20, 22, 18, 19, 17]

/-- The array `insert_bh` of `test_rb_bh`. -/
def insert_bh : List Nat := [1, 1, 1, 2, 2, 2, 2, 2, 2, 2, 2, 2, 2, 3]

/-- The array `delete_bh` of `test_rb_bh`. -/
def delete_bh : List Nat := [3, 3, 3, 3, 3, 2, 2, 2, 2, 2, 2, 1, 1, 0]

/-- The insert loop of `test_rb_bh`: `rb_tree_insert(tree, key, NULL)` for every
key of the list in order; the return code and `tree->bh` are recorded after
every call. -/
def rb_tree_insert_run (fuel : Nat) :
    List Nat → Heap → rb_tree → Res (Heap × rb_tree × List (Int × Nat))
  | [], h, tree => .ok (h, tree, [])
  | key :: rest, h, tree => do
    let r ← rb_tree_insert fuel h tree key NULL
    let r' ← rb_tree_insert_run fuel rest r.1 r.2.1
    pure (r'.1, r'.2.1, (r.2.2, r.2.1.bh) :: r'.2.2)

/-- The delete loop of `test_rb_bh`: `rb_tree_delete(tree, key)` for every key of
the list in order; the return code and `tree->bh` are recorded after every
call. -/
def rb_tree_delete_run (fuel : Nat) :
    List Nat → Heap → rb_tree → Res (Heap × rb_tree × List (Int × Nat))
  | [], h, tree => .ok (h, tree, [])
  | key :: rest, h, tree => do
    let r ← rb_tree_delete fuel h tree key
    let r' ← rb_tree_delete_run fuel rest r.1 r.2.1
    pure (r'.1, r'.2.1, (r.2.2, r.2.1.bh) :: r'.2.2)

/-- The insert loop on the abstract view: the tree after the inserts and the
black count of the tree after every insert; `z` is the address of the first node
that is allocated. -/
def Tree.insert_run : List Nat → Tree → Ptr → Option (Tree × List Nat)
  | [], t, _ => some (t, [])
  | key :: rest, t, z =>
    match t.insert z key NULL with
    | none => none
    | some t' =>
      match Tree.insert_run rest t' (z + 1) with
      | none => none
      | some (T, l) => some (T, t'.bheight :: l)

/-- The delete loop on the abstract view: the tree after the deletes and the
black count of the tree after every delete. -/
def Tree.delete_run : List Nat → Tree → Option (Tree × List Nat)
  | [], t => some (t, [])
  | key :: rest, t =>
    match t.delete key with
    | none => none
    | some t' =>
      match Tree.delete_run rest t' with
      | none => none
      | some (T, l) => some (T, t'.bheight :: l)

/-! ## More concrete trees -/

/-- A heap that holds the sentinel and one tree with the keys 1, 3, 5, 7, 9, 11: the
Black root 9 at address 2 with the Red node 3 (address 3) on the left and the
Black node 11 (address 4) on the right; below 3 the Black nodes 1 (address 5)
and 7 (address 6); the Red node 5 (address 7) is the left child of 7. -/
def six_heap : Heap :=
  { mem := fun a =>
      if a = 1 then some rb_info_nil_init
      else if a = 2 then
        some { color := RB_NODE_COLOR_BLACK, key := 9, data := NULL, left := 3,
               right := 4, parent := rb_info_nil }
      else if a = 3 then
        some { color := RB_NODE_COLOR_RED, key := 3, data := NULL, left := 5,
               right := 6, parent := 2 }
      else if a = 4 then
        some { color := RB_NODE_COLOR_BLACK, key := 11, data := NULL, left := rb_info_nil,
               right := rb_info_nil, parent := 2 }
      else if a = 5 then
        some { color := RB_NODE_COLOR_BLACK, key := 1, data := NULL, left := rb_info_nil,
               right := rb_info_nil, parent := 3 }
      else if a = 6 then
        some { color := RB_NODE_COLOR_BLACK, key := 7, data := NULL, left := 7,
               right := rb_info_nil, parent := 3 }
      else if a = 7 then
        some { color := RB_NODE_COLOR_RED, key := 5, data := NULL, left := rb_info_nil,
               right := rb_info_nil, parent := 6 }
      else none,
    next := 8, cap := 16 }

/-- The tree header for `six_heap`. -/
def six_hdr : rb_tree := { root := 2, nil := rb_info_nil, bh := 2 }

/-- The abstract view of the tree in `six_heap`. -/
def six_tree : Tree :=
  .node 2 RB_NODE_COLOR_BLACK
    (.node 3 RB_NODE_COLOR_RED (.node 5 RB_NODE_COLOR_BLACK .leaf 1 NULL .leaf) 3 NULL
      (.node 6 RB_NODE_COLOR_BLACK (.node 7 RB_NODE_COLOR_RED .leaf 5 NULL .leaf) 7 NULL .leaf))
    9 NULL (.node 4 RB_NODE_COLOR_BLACK .leaf 11 NULL .leaf)

/-- A heap that holds the sentinel and one tree with the keys 1, 2, 3: the Black
root 2 at address 2 with the Red children 1 (address 3) and 3 (address 4). -/
def tri_heap : Heap :=
  { mem := fun a =>
      if a = 1 then some rb_info_nil_init
      else if a = 2 then
        some { color := RB_NODE_COLOR_BLACK, key := 2, data := NULL, left := 3,
               right := 4, parent := rb_info_nil }
      else if a = 3 then
        some { color := RB_NODE_COLOR_RED, key := 1, data := NULL, left := rb_info_nil,
               right := rb_info_nil, parent := 2 }
      else if a = 4 then
        some { color := RB_NODE_COLOR_RED, key := 3, data := NULL, left := rb_info_nil,
               right := rb_info_nil, parent := 2 }
      else none,
    next := 5, cap := 16 }

/-- The tree header for `tri_heap`. -/
def tri_hdr : rb_tree := { root := 2, nil := rb_info_nil, bh := 1 }

/-- The abstract view of the tree in `tri_heap`. -/
def tri_tree : Tree :=
  .node 2 RB_NODE_COLOR_BLACK (.node 3 RB_NODE_COLOR_RED .leaf 1 NULL .leaf) 2 NULL
    (.node 4 RB_NODE_COLOR_RED .leaf 3 NULL .leaf)

/-- A heap that holds the sentinel, two trees and one more node: the first tree is
the Black root 2 at address 2 with the Black children 1 (address 3) and 3
(address 4), the second is the Black node 9 at address 5, and the node at
address 6 is Black, has the key 5 and is linked to nothing. -/
def join_heap : Heap :=
  { mem := fun a =>
      if a = 1 then some rb_info_nil_init
      else if a = 2 then
        some { color := RB_NODE_COLOR_BLACK, key := 2, data := NULL, left := 3,
               right := 4, parent := rb_info_nil }
      else if a = 3 then
        some { color := RB_NODE_COLOR_BLACK, key := 1, data := NULL, left := rb_info_nil,
               right := rb_info_nil, parent := 2 }
      else if a = 4 then
        some { color := RB_NODE_COLOR_BLACK, key := 3, data := NULL, left := rb_info_nil,
               right := rb_info_nil, parent := 2 }
      else if a = 5 then
        some { color := RB_NODE_COLOR_BLACK, key := 9, data := NULL, left := rb_info_nil,
               right := rb_info_nil, parent := rb_info_nil }
      else if a = 6 then
        some { color := RB_NODE_COLOR_BLACK, key := 5, data := NULL, left := NULL,
               right := NULL, parent := NULL }
      else none,
    next := 7, cap := 16 }

/-- The header of the first tree of `join_heap`. -/
def join_hdr1 : rb_tree := { root := 2, nil := rb_info_nil, bh := 2 }

/-- The header of the second tree of `join_heap`. -/
def join_hdr2 : rb_tree := { root := 5, nil := rb_info_nil, bh := 1 }

/-- The abstract view of the first tree of `join_heap`. -/
def join_tree1 : Tree :=
  .node 2 RB_NODE_COLOR_BLACK (.node 3 RB_NODE_COLOR_BLACK .leaf 1 NULL .leaf) 2 NULL
    (.node 4 RB_NODE_COLOR_BLACK .leaf 3 NULL .leaf)

/-- The abstract view of the second tree of `join_heap`. -/
def join_tree2 : Tree := .node 5 RB_NODE_COLOR_BLACK .leaf 9 NULL .leaf

/-- Addresses of the nodes on the right spine of a tree: the root and what is
reached from it through right children only. -/
def Tree.right_spine : Tree → List Ptr
  | .leaf => []
  | .node a _ _ _ _ r => a :: r.right_spine

/-- Addresses of the nodes on the left spine of a tree. -/
def Tree.left_spine : Tree → List Ptr
  | .leaf => []
  | .node a _ l _ _ _ => a :: l.left_spine

/-! ## Parent links, nodes in order, and the walk of `test_rb_successor_and_predecessor` -/

/-- Parent links are consistent for the tree whose nodes are `as`: the root's
parent is the sentinel, and the left and the right child of every node, where
it is not the sentinel, points back to the node through its parent field. -/
def ParentsOK (h : Heap) (tree : rb_tree) (as : List Ptr) : Prop :=
  (tree.root ≠ tree.nil → ∃ n, h.mem tree.root = some n ∧ n.parent = tree.nil) ∧
    ∀ a ∈ as, ∃ n, h.mem a = some n ∧
      (n.left ≠ tree.nil → ∃ m, h.mem n.left = some m ∧ m.parent = a) ∧
      (n.right ≠ tree.nil → ∃ m, h.mem n.right = some m ∧ m.parent = a)

/-- The nodes in order: address, key and payload. -/
def Tree.nodes : Tree → List (Ptr × Nat × Ptr)
  | .leaf => []
  | .node a _ l k d r => l.nodes ++ (a, k, d) :: r.nodes

/-- Nodes of the context that come before the hole, in order. -/
def Ctx.nodes_before : Ctx → List (Ptr × Nat × Ptr)
  | .top => []
  | .L _ _ _ _ _ up => up.nodes_before
  | .R a _ k d s up => up.nodes_before ++ s.nodes ++ [(a, k, d)]

/-- Nodes of the context that come after the hole, in order. -/
def Ctx.nodes_after : Ctx → List (Ptr × Nat × Ptr)
  | .top => []
  | .L a _ k d s up => (a, k, d) :: s.nodes ++ up.nodes_after
  | .R _ _ _ _ _ up => up.nodes_after

/-- The loop of `test_rb_successor_and_predecessor`, with a bound on the number
of rounds: while `cur` is not the sentinel, `rb_tree_successor` and
`rb_tree_predecessor` are called on `cur`, and `cur` moves to the successor.
The result lists `cur`, the predecessor and the successor of every round. -/
def rb_tree_walk (fuel : Nat) (h : Heap) (tree : rb_tree) :
    Nat → Ptr → Res (List (Ptr × Ptr × Ptr))
  | 0, _ => .timeout
  | n + 1, cur =>
    if cur ≠ tree.nil then do
      let succ ← rb_tree_successor fuel h tree cur
      let pred ← rb_tree_predecessor fuel h tree cur
      let rest ← rb_tree_walk fuel h tree n succ
      pure ((cur, pred, succ) :: rest)
    else pure []

/-- What the walk is to list for the nodes `l` in order, when the node before
them is `prev`: every node with the one before and the one after it, and the
sentinel where there is none. -/
def walk_list (nil : Ptr) : Ptr → List (Ptr × Nat × Ptr) → List (Ptr × Ptr × Ptr)
  | _, [] => []
  | prev, [x] => [(x.1, prev, nil)]
  | prev, x :: y :: rest => (x.1, prev, y.1) :: walk_list nil x.1 (y :: rest)

/-! ## Deciding the layout of a concrete tree -/

/-- Decision procedure for `Own`: the cells of the nodes of the tree are read
and compared. -/
def Tree.owned (m : Ptr → Option rb_node) (nil : Ptr) : Tree → Ptr → Bool
  | .leaf, _ => true
  | .node a c l k d r, p =>
    decide (m a = some { color := c, key := k, data := d, left := l.ptr nil,
                         right := r.ptr nil, parent := p }) &&
      (l.owned m nil a && r.owned m nil a)

/-- Decision procedure for `Represents`. -/
def represents_check (h : Heap) (tree : rb_tree) (t : Tree) : Bool :=
  decide (tree.root = t.ptr tree.nil) && (t.owned h.mem tree.nil tree.nil &&
    (decide t.addrs.Nodup && (decide (tree.nil ∉ t.addrs) && (decide (NULL ∉ t.addrs) &&
    (decide (tree.nil ≠ NULL) &&
    ((match h.mem tree.nil with
      | some n => decide (n = sentinel_node n.parent)
      | none => false) &&
    (decide (∀ a ∈ t.addrs, a < h.next) && (decide (tree.nil < h.next) &&
    (decide (h.next ≤ h.cap) && decide (h.cap ≤ SIZE_MOD))))))))))

/-- The heap in which `rb_tree_insert(tree, 7, NULL)` on the tree of `pair_heap`
calls `rb_tree_insert_fixup`: the new node with key 7, at address 4, is spliced
in as the Red right child of the Red node with key 5 at address 3. -/
def spliced_heap : Heap :=
  { mem := fun a =>
      if a = 1 then some rb_info_nil_init
      else if a = 2 then
        some { color := RB_NODE_COLOR_BLACK, key := 10, data := NULL, left := 3,
               right := rb_info_nil, parent := rb_info_nil }
      else if a = 3 then
        some { color := RB_NODE_COLOR_RED, key := 5, data := NULL, left := rb_info_nil,
               right := 4, parent := 2 }
      else if a = 4 then
        some { color := RB_NODE_COLOR_RED, key := 7, data := NULL, left := rb_info_nil,
               right := rb_info_nil, parent := 3 }
      else none,
    next := 5, cap := 8 }

/-- The path from the root of the tree in `spliced_heap` to the new node: below
the Black root (address 2, key 10) to the left, below the Red node (address 3,
key 5) to the right. -/
def spliced_ctx : Ctx :=
  .R 3 RB_NODE_COLOR_RED 5 NULL .leaf (.L 2 RB_NODE_COLOR_BLACK 10 NULL .leaf .top)

/-- The heap in which `rb_tree_delete(tree, 11)` on the tree of `six_heap` calls
`rb_tree_delete_fixup`: `rb_tree_transplant` has taken the Black node with key
11 (address 4) out, so the right link of the root holds the sentinel and the
parent field of the sentinel holds the root; the node is not released yet. -/
def unlinked_heap : Heap :=
  { mem := fun a =>
      if a = 1 then some (sentinel_node 2)
      else if a = 2 then
        some { color := RB_NODE_COLOR_BLACK, key := 9, data := NULL, left := 3,
               right := rb_info_nil, parent := rb_info_nil }
      else if a = 3 then
        some { color := RB_NODE_COLOR_RED, key := 3, data := NULL, left := 5,
               right := 6, parent := 2 }
      else if a = 4 then
        some { color := RB_NODE_COLOR_BLACK, key := 11, data := NULL, left := rb_info_nil,
               right := rb_info_nil, parent := 2 }
      else if a = 5 then
        some { color := RB_NODE_COLOR_BLACK, key := 1, data := NULL, left := rb_info_nil,
               right := rb_info_nil, parent := 3 }
      else if a = 6 then
        some { color := RB_NODE_COLOR_BLACK, key := 7, data := NULL, left := 7,
               right := rb_info_nil, parent := 3 }
      else if a = 7 then
        some { color := RB_NODE_COLOR_RED, key := 5, data := NULL, left := rb_info_nil,
               right := rb_info_nil, parent := 6 }
      else none,
    next := 8, cap := 16 }

/-- The path from the root of the tree in `unlinked_heap` to the place of the
node that was taken out: below the Black root (address 2, key 9) to the right;
on the left hangs the subtree with the keys 1, 3, 5, 7. -/
def unlinked_ctx : Ctx :=
  .R 2 RB_NODE_COLOR_BLACK 9 NULL
    (.node 3 RB_NODE_COLOR_RED (.node 5 RB_NODE_COLOR_BLACK .leaf 1 NULL .leaf) 3 NULL
      (.node 6 RB_NODE_COLOR_BLACK (.node 7 RB_NODE_COLOR_RED .leaf 5 NULL .leaf) 7 NULL
        .leaf))
    .top

/-- The second tree that `rb_tree_split` leaves for `six_heap` and the pivot 0. -/
def six_split : Tree :=
  .node 8 RB_NODE_COLOR_BLACK
    (.node 7 RB_NODE_COLOR_RED
      (.node 9 RB_NODE_COLOR_BLACK (.node 10 RB_NODE_COLOR_RED .leaf 1 NULL .leaf) 3 NULL .leaf)
      5 NULL (.node 6 RB_NODE_COLOR_BLACK .leaf 7 NULL .leaf))
    9 NULL (.node 4 RB_NODE_COLOR_RED .leaf 11 NULL .leaf)

/-- The first tree that `rb_tree_split` leaves for `tri_heap` and the pivot 3. -/
def tri_split : Tree :=
  .node 5 RB_NODE_COLOR_BLACK (.node 3 RB_NODE_COLOR_RED .leaf 1 NULL .leaf) 2 NULL
    (.node 6 RB_NODE_COLOR_RED .leaf 3 NULL .leaf)

/-- The tree that `rb_tree_concat` returns for the two trees of that split and
the node with key 3. -/
def tri_joined : Tree :=
  .node 5 RB_NODE_COLOR_BLACK
    (.node 7 RB_NODE_COLOR_UNDEFINED (.node 3 RB_NODE_COLOR_RED .leaf 1 NULL .leaf) 3 NULL
      .leaf)
    2 NULL .leaf

/-- The tree that `rb_tree_concat` returns for the two trees of `join_heap` and
the node at address 6. -/
def join_result : Tree :=
  .node 2 RB_NODE_COLOR_BLACK (.node 3 RB_NODE_COLOR_BLACK .leaf 1 NULL .leaf) 2 NULL
    (.node 6 RB_NODE_COLOR_BLACK (.node 4 RB_NODE_COLOR_BLACK .leaf 3 NULL .leaf) 5 NULL
      (.node 5 RB_NODE_COLOR_BLACK .leaf 9 NULL .leaf))

end RedBlack


namespace RedBlack

@[simp] theorem res_ok_bind {α β : Type} (a : α) (f : α → Res β) : (Res.ok a >>= f) = f a := rfl
@[simp] theorem res_fault_bind {α β : Type} (f : α → Res β) : (Res.fault >>= f) = Res.fault := rfl
@[simp] theorem res_timeout_bind {α β : Type} (f : α → Res β) :
    (Res.timeout >>= f) = Res.timeout := rfl
@[simp] theorem res_pure_eq {α : Type} (a : α) : (pure a : Res α) = Res.ok a := rfl

@[simp] theorem heap_put_mem (h : Heap) (p q : Ptr) (n : rb_node) :
    (h.put p n).mem q = if q = p then some n else h.mem q := by
  simp [Heap.put, Function.update_apply]

@[simp] theorem heap_free_mem (h : Heap) (p q : Ptr) :
    (h.free p).mem q = if q = p then none else h.mem q := by
  simp [Heap.free, Function.update_apply]

@[simp] theorem heap_free_next (h : Heap) (p : Ptr) : (h.free p).next = h.next := rfl
@[simp] theorem heap_free_cap (h : Heap) (p : Ptr) : (h.free p).cap = h.cap := rfl

@[simp] theorem heap_put_next (h : Heap) (p : Ptr) (n : rb_node) : (h.put p n).next = h.next := rfl
@[simp] theorem heap_put_cap (h : Heap) (p : Ptr) (n : rb_node) : (h.put p n).cap = h.cap := rfl

@[simp] theorem tree_ptr_leaf (nil : Ptr) : Tree.leaf.ptr nil = nil := rfl
@[simp] theorem tree_ptr_node (nil a : Ptr) (c : rb_node_color) (l : Tree) (k : Nat) (d : Ptr)
    (r : Tree) : (Tree.node a c l k d r).ptr nil = a := rfl
@[simp] theorem ctx_par_top (nil : Ptr) : Ctx.top.par nil = nil := rfl
@[simp] theorem ctx_par_L (nil a : Ptr) (c : rb_node_color) (k : Nat) (d : Ptr) (s : Tree)
    (up : Ctx) : (Ctx.L a c k d s up).par nil = a := rfl
@[simp] theorem ctx_par_R (nil a : Ptr) (c : rb_node_color) (k : Nat) (d : Ptr) (s : Tree)
    (up : Ctx) : (Ctx.R a c k d s up).par nil = a := rfl

theorem own_frame {m m' : Ptr → Option rb_node} {nil : Ptr} :
    ∀ {t : Tree} {p : Ptr}, (∀ a ∈ t.addrs, m' a = m a) → Own m nil t p → Own m' nil t p
  | .leaf, _, _, _ => trivial
  | .node a c l k d r, p, hfr, ⟨ha, hl, hr⟩ => by
    refine ⟨?_, own_frame (fun b hb => hfr b ?_) hl, own_frame (fun b hb => hfr b ?_) hr⟩
    · rw [hfr a (by simp [Tree.addrs])]; exact ha
    · simp [Tree.addrs, hb]
    · simp [Tree.addrs, hb]

theorem ctx_own_frame {m m' : Ptr → Option rb_node} {nil root : Ptr} :
    ∀ {c : Ctx} {hp : Ptr}, (∀ a ∈ c.addrs, m' a = m a) →
      CtxOwn m nil root c hp → CtxOwn m' nil root c hp
  | .top, _, _, h => h
  | .L a c k d s up, hp, hfr, ⟨ha, hs, hu⟩ => by
    refine ⟨?_, own_frame (fun b hb => hfr b ?_) hs, ctx_own_frame (fun b hb => hfr b ?_) hu⟩
    · rw [hfr a (by simp [Ctx.addrs])]; exact ha
    · simp [Ctx.addrs, hb]
    · simp [Ctx.addrs, hb]
  | .R a c k d s up, hp, hfr, ⟨ha, hs, hu⟩ => by
    refine ⟨?_, own_frame (fun b hb => hfr b ?_) hs, ctx_own_frame (fun b hb => hfr b ?_) hu⟩
    · rw [hfr a (by simp [Ctx.addrs])]; exact ha
    · simp [Ctx.addrs, hb]
    · simp [Ctx.addrs, hb]

theorem own_put_iff {h : Heap} {nil : Ptr} {t : Tree} {p q : Ptr} {n : rb_node}
    (hq : q ∉ t.addrs) : Own (h.put q n).mem nil t p ↔ Own h.mem nil t p := by
  constructor
  · exact own_frame (fun a ha => by
      have : a ≠ q := fun e => hq (e ▸ ha)
      simp [this])
  · exact own_frame (fun a ha => by
      have : a ≠ q := fun e => hq (e ▸ ha)
      simp [this])

theorem own_free_iff {h : Heap} {nil : Ptr} {t : Tree} {p q : Ptr}
    (hq : q ∉ t.addrs) : Own (h.free q).mem nil t p ↔ Own h.mem nil t p := by
  constructor
  · exact own_frame (fun a ha => by
      have : a ≠ q := fun e => hq (e ▸ ha)
      simp [this])
  · exact own_frame (fun a ha => by
      have : a ≠ q := fun e => hq (e ▸ ha)
      simp [this])

theorem ctx_own_free_iff {h : Heap} {nil root : Ptr} {c : Ctx} {hp q : Ptr}
    (hq : q ∉ c.addrs) : CtxOwn (h.free q).mem nil root c hp ↔ CtxOwn h.mem nil root c hp := by
  constructor
  · exact ctx_own_frame (fun a ha => by
      have : a ≠ q := fun e => hq (e ▸ ha)
      simp [this])
  · exact ctx_own_frame (fun a ha => by
      have : a ≠ q := fun e => hq (e ▸ ha)
      simp [this])

theorem ctx_own_put_iff {h : Heap} {nil root : Ptr} {c : Ctx} {hp q : Ptr} {n : rb_node}
    (hq : q ∉ c.addrs) : CtxOwn (h.put q n).mem nil root c hp ↔ CtxOwn h.mem nil root c hp := by
  constructor
  · exact ctx_own_frame (fun a ha => by
      have : a ≠ q := fun e => hq (e ▸ ha)
      simp [this])
  · exact ctx_own_frame (fun a ha => by
      have : a ≠ q := fun e => hq (e ▸ ha)
      simp [this])

/-- Normal form of separation facts: membership and disjointness unfold to
disequalities in both orientations. -/
theorem sepS :
    (∀ (a b : Ptr) (l : List Ptr), a ∈ b :: l ↔ ((a = b ∨ b = a) ∨ a ∈ l)) ∧
    (∀ (a : Ptr) (l1 l2 : List Ptr), a ∈ l1 ++ l2 ↔ (a ∈ l1 ∨ a ∈ l2)) ∧
    (∀ (a : Ptr), a ∈ ([] : List Ptr) ↔ False) ∧
    (∀ (a : Ptr) (l : List Ptr), (a :: l).Nodup ↔ (a ∉ l ∧ l.Nodup)) ∧
    (∀ (l1 l2 : List Ptr), (l1 ++ l2).Nodup ↔ (l1.Nodup ∧ l2.Nodup ∧ l1.Disjoint l2)) ∧
    (([] : List Ptr).Nodup ↔ True) ∧
    (∀ (a : Ptr) (l1 l2 : List Ptr), (a :: l1).Disjoint l2 ↔ (a ∉ l2 ∧ l1.Disjoint l2)) ∧
    (∀ (a : Ptr) (l1 l2 : List Ptr), l1.Disjoint (a :: l2) ↔ (a ∉ l1 ∧ l1.Disjoint l2)) ∧
    (∀ (l1 l2 l3 : List Ptr), (l1 ++ l2).Disjoint l3 ↔ (l1.Disjoint l3 ∧ l2.Disjoint l3)) ∧
    (∀ (l1 l2 l3 : List Ptr), l1.Disjoint (l2 ++ l3) ↔ (l1.Disjoint l2 ∧ l1.Disjoint l3)) ∧
    (∀ (l : List Ptr), ([] : List Ptr).Disjoint l ↔ True) ∧
    (∀ (l : List Ptr), l.Disjoint [] ↔ True) ∧
    (∀ (a : Ptr) (c : rb_node_color) (l : Tree) (k : Nat) (d : Ptr) (r : Tree),
      (Tree.node a c l k d r).addrs = l.addrs ++ a :: r.addrs) ∧
    (Tree.leaf.addrs = []) ∧
    (Ctx.top.addrs = []) ∧
    (∀ (a : Ptr) (c : rb_node_color) (k : Nat) (d : Ptr) (s : Tree) (up : Ctx),
      (Ctx.L a c k d s up).addrs = a :: (s.addrs ++ up.addrs)) ∧
    (∀ (a : Ptr) (c : rb_node_color) (k : Nat) (d : Ptr) (s : Tree) (up : Ctx),
      (Ctx.R a c k d s up).addrs = a :: (s.addrs ++ up.addrs)) := by
  refine ⟨?_, ?_, ?_, ?_, ?_, ?_, ?_, ?_, ?_, ?_, ?_, ?_, ?_, ?_, ?_, ?_, ?_⟩ <;> intros <;>
    simp [eq_comm, List.nodup_append, List.disjoint_cons_left, List.disjoint_cons_right,
      Tree.addrs, Ctx.addrs]

/-- Field accesses as case analyses on the heap cell. -/
theorem accS :
    (∀ (h : Heap) (p : Ptr), get_color h p =
      match h.mem p with | some n => .ok n.color | none => .fault) ∧
    (∀ (h : Heap) (p : Ptr), get_key h p =
      match h.mem p with | some n => .ok n.key | none => .fault) ∧
    (∀ (h : Heap) (p : Ptr), get_data h p =
      match h.mem p with | some n => .ok n.data | none => .fault) ∧
    (∀ (h : Heap) (p : Ptr), get_left h p =
      match h.mem p with | some n => .ok n.left | none => .fault) ∧
    (∀ (h : Heap) (p : Ptr), get_right h p =
      match h.mem p with | some n => .ok n.right | none => .fault) ∧
    (∀ (h : Heap) (p : Ptr), get_parent h p =
      match h.mem p with | some n => .ok n.parent | none => .fault) ∧
    (∀ (h : Heap) (p : Ptr) (c : rb_node_color), set_color h p c =
      match h.mem p with | some n => .ok (h.put p { n with color := c }) | none => .fault) ∧
    (∀ (h : Heap) (p : Ptr) (k : Nat), set_key h p k =
      match h.mem p with | some n => .ok (h.put p { n with key := k }) | none => .fault) ∧
    (∀ (h : Heap) (p : Ptr) (d : Ptr), set_data h p d =
      match h.mem p with | some n => .ok (h.put p { n with data := d }) | none => .fault) ∧
    (∀ (h : Heap) (p : Ptr) (q : Ptr), set_left h p q =
      match h.mem p with | some n => .ok (h.put p { n with left := q }) | none => .fault) ∧
    (∀ (h : Heap) (p : Ptr) (q : Ptr), set_right h p q =
      match h.mem p with | some n => .ok (h.put p { n with right := q }) | none => .fault) ∧
    (∀ (h : Heap) (p : Ptr) (q : Ptr), set_parent h p q =
      match h.mem p with | some n => .ok (h.put p { n with parent := q }) | none => .fault) := by
  refine ⟨?_, ?_, ?_, ?_, ?_, ?_, ?_, ?_, ?_, ?_, ?_, ?_⟩ <;> intro h p <;>
    simp only [get_color, get_key, get_data, get_left, get_right, get_parent, set_color, set_key,
      set_data, set_left, set_right, set_parent, Heap.load] <;>
    (try intro _) <;> cases h.mem p <;> rfl

theorem tree_ptr_mem_or (nil : Ptr) : ∀ t : Tree, t.ptr nil = nil ∨ t.ptr nil ∈ t.addrs
  | .leaf => Or.inl rfl
  | .node a c l k d r => Or.inr (by simp [Tree.addrs])

theorem eq_tree_ptr_false {x nil : Ptr} {t : Tree} (hx : x ∉ t.addrs) (hn : ¬x = nil) :
    (x = t.ptr nil) = False := by
  rcases tree_ptr_mem_or nil t with h | h
  · simp [h, hn]
  · exact eq_false (fun e => hx (e ▸ h))

theorem tree_ptr_eq_false {x nil : Ptr} {t : Tree} (hx : x ∉ t.addrs) (hn : ¬x = nil) :
    (t.ptr nil = x) = False := by
  rw [← eq_tree_ptr_false hx hn]; exact propext eq_comm

theorem ctx_par_mem_or (nil : Ptr) : ∀ c : Ctx, c.par nil = nil ∨ c.par nil ∈ c.addrs
  | .top => Or.inl rfl
  | .L a c k d s up => Or.inr (by simp [Ctx.addrs])
  | .R a c k d s up => Or.inr (by simp [Ctx.addrs])

theorem eq_ctx_par_false {x nil : Ptr} {c : Ctx} (hx : x ∉ c.addrs) (hn : ¬x = nil) :
    (x = c.par nil) = False := by
  rcases ctx_par_mem_or nil c with h | h
  · simp [h, hn]
  · exact eq_false (fun e => hx (e ▸ h))

theorem ctx_par_eq_false {x nil : Ptr} {c : Ctx} (hx : x ∉ c.addrs) (hn : ¬x = nil) :
    (c.par nil = x) = False := by
  rw [← eq_ctx_par_false hx hn]; exact propext eq_comm

theorem list_perm_of_count {l l' : List Ptr} (hc : ∀ a, l.count a = l'.count a) : l.Perm l' :=
  List.perm_iff_count.mpr hc

theorem sep_perm {m m' : Ptr → Option rb_node} {nil : Ptr} {l l' : List Ptr}
    (hs : Sep m nil l) (hp : l'.Perm l) (hm : m' nil = m nil) : Sep m' nil l' :=
  ⟨hp.nodup_iff.mpr hs.nodup, fun hmem => hs.nil_not_mem (hp.mem_iff.mp hmem),
    fun hmem => hs.null_not_mem (hp.mem_iff.mp hmem), hs.nil_ne, by rw [hm]; exact hs.sentinel⟩

theorem focus_up_L {h : Heap} {tree : rb_tree} {p : Ptr} {cp : rb_node_color} {kp : Nat}
    {dp : Ptr} {s : Tree} {up : Ctx} {t : Tree} :
    Focus h tree (.L p cp kp dp s up) t ↔ Focus h tree up (.node p cp t kp dp s) := by
  have hperm : ∀ a, ((Ctx.L p cp kp dp s up).addrs ++ t.addrs).count a =
      (up.addrs ++ (Tree.node p cp t kp dp s).addrs).count a := by
    intro a; simp [Tree.addrs, Ctx.addrs, List.count_cons]; omega
  constructor
  · rintro ⟨⟨hp, hs, hu⟩, ho, hsep⟩
    exact ⟨hu, ⟨hp, ho, hs⟩, sep_perm hsep (list_perm_of_count fun a => (hperm a).symm) rfl⟩
  · rintro ⟨hu, ⟨hp, ho, hs⟩, hsep⟩
    exact ⟨⟨hp, hs, hu⟩, ho, sep_perm hsep (list_perm_of_count hperm) rfl⟩

theorem focus_up_R {h : Heap} {tree : rb_tree} {p : Ptr} {cp : rb_node_color} {kp : Nat}
    {dp : Ptr} {s : Tree} {up : Ctx} {t : Tree} :
    Focus h tree (.R p cp kp dp s up) t ↔ Focus h tree up (.node p cp s kp dp t) := by
  have hperm : ∀ a, ((Ctx.R p cp kp dp s up).addrs ++ t.addrs).count a =
      (up.addrs ++ (Tree.node p cp s kp dp t).addrs).count a := by
    intro a; simp [Tree.addrs, Ctx.addrs, List.count_cons]; omega
  constructor
  · rintro ⟨⟨hp, hs, hu⟩, ho, hsep⟩
    exact ⟨hu, ⟨hp, hs, ho⟩, sep_perm hsep (list_perm_of_count fun a => (hperm a).symm) rfl⟩
  · rintro ⟨hu, ⟨hp, hs, ho⟩, hsep⟩
    exact ⟨⟨hp, hs, hu⟩, ho, sep_perm hsep (list_perm_of_count hperm) rfl⟩

theorem focus_frame {h h' : Heap} {tree : rb_tree} {c : Ctx} {t : Tree}
    (hf : Focus h tree c t) (hfr : ∀ a ∈ c.addrs ++ t.addrs, h'.mem a = h.mem a)
    (hn : h'.mem tree.nil = h.mem tree.nil) : Focus h' tree c t :=
  ⟨ctx_own_frame (fun a ha => hfr a (List.mem_append_left _ ha)) hf.ctx,
    own_frame (fun a ha => hfr a (List.mem_append_right _ ha)) hf.own,
    sep_perm hf.sep (List.Perm.refl _) hn⟩

theorem addrs_plug_perm : ∀ (c : Ctx) (t : Tree), (c.plug t).addrs.Perm (c.addrs ++ t.addrs)
  | .top, t => by simp [Ctx.plug, Ctx.addrs]
  | .L a col k d s up, t => by
    refine (addrs_plug_perm up (.node a col t k d s)).trans (list_perm_of_count fun b => ?_)
    simp [Tree.addrs, Ctx.addrs, List.count_cons]; omega
  | .R a col k d s up, t => by
    refine (addrs_plug_perm up (.node a col s k d t)).trans (list_perm_of_count fun b => ?_)
    simp [Tree.addrs, Ctx.addrs, List.count_cons]; omega

theorem mem_addrs_plug {a : Ptr} {c : Ctx} {t : Tree} :
    a ∈ (c.plug t).addrs ↔ a ∈ c.addrs ∨ a ∈ t.addrs := by
  rw [(addrs_plug_perm c t).mem_iff, List.mem_append]

theorem focus_plug {h : Heap} {tree : rb_tree} :
    ∀ {c : Ctx} {t : Tree}, Focus h tree c t → Focus h tree .top (c.plug t)
  | .top, _, hf => hf
  | .L a c k d s up, t, hf => focus_plug (c := up) (t := .node a c t k d s) (focus_up_L.mp hf)
  | .R a c k d s up, t, hf => focus_plug (c := up) (t := .node a c s k d t) (focus_up_R.mp hf)

theorem focus_unplug {h : Heap} {tree : rb_tree} :
    ∀ {c : Ctx} {t : Tree}, Focus h tree .top (c.plug t) → Focus h tree c t
  | .top, _, hf => hf
  | .L a c k d s up, t, hf =>
    focus_up_L.mpr (focus_unplug (c := up) (t := .node a c t k d s) hf)
  | .R a c k d s up, t, hf =>
    focus_up_R.mpr (focus_unplug (c := up) (t := .node a c s k d t) hf)

theorem res_bind_assoc {α β γ : Type} (m : Res α) (f : α → Res β) (g : β → Res γ) :
    ((m >>= f) >>= g) = (m >>= fun a => f a >>= g) := by
  cases m <;> rfl

theorem own_cell {m : Ptr → Option rb_node} {nil q : Ptr} {u : Tree} (ho : Own m nil u q)
    (hs : ∃ sp, m nil = some (sentinel_node sp)) :
    ∃ n, m (u.ptr nil) = some n ∧ n.color = u.color := by
  cases u with
  | leaf =>
    obtain ⟨sp, hsp⟩ := hs
    exact ⟨_, hsp, rfl⟩
  | node a c l k d r => exact ⟨_, ho.1, rfl⟩

theorem alloc_refl (h : Heap) : Alloc h h := fun _ ha => ha

theorem alloc_trans {h1 h2 h3 : Heap} (h12 : Alloc h1 h2) (h23 : Alloc h2 h3) : Alloc h1 h3 :=
  fun a ha => h23 a (h12 a ha)

theorem alloc_put {h0 h : Heap} (p : Ptr) (n : rb_node) (hA : Alloc h0 h) :
    Alloc h0 (h.put p n) := by
  intro a ha
  rw [heap_put_mem]
  split_ifs
  · rfl
  · exact hA a ha

/-- Sequencing rule: run `m`, then `k` on its result. -/
theorem spec_then {α β : Type} {m : Res α} {k : α → Res β} {Q : α → Prop} {P : β → Prop}
    (hm : ∃ a, m = .ok a ∧ Q a) (hk : ∀ a, Q a → ∃ b, k a = .ok b ∧ P b) :
    ∃ b, (m >>= k) = .ok b ∧ P b := by
  obtain ⟨a, ha, hq⟩ := hm
  rw [ha]
  exact hk a hq

end RedBlack


namespace RedBlack
open Tree Ctx

theorem left_rotate_alloc {h : Heap} {tree : rb_tree} {c : Ctx} {x y : Ptr}
    {cx cy : rb_node_color} {α β γ : Tree} {kx ky : Nat} {dx dy : Ptr}
    (hf : Focus h tree c (.node x cx α kx dx (.node y cy β ky dy γ))) :
    ∃ r, rb_tree_left_rotate h tree x = .ok r ∧ Alloc h r.1 ∧
      RotPost h tree c (.node y cy (.node x cx α kx dx β) ky dy γ) r := by
  obtain ⟨hc, ho, hsep⟩ := hf
  have hnd := hsep.nodup
  have hnil := hsep.nil_not_mem
  have hnull := hsep.null_not_mem
  have hperm : ∀ a, (c.addrs ++ (Tree.node y cy (.node x cx α kx dx β) ky dy γ).addrs).count a =
      (c.addrs ++ (Tree.node x cx α kx dx (.node y cy β ky dy γ)).addrs).count a := by
    intro a; simp [Tree.addrs, List.count_cons]
  have hsep2 := fun (m2 : Ptr → Option rb_node) (hm : m2 tree.nil = h.mem tree.nil) =>
    sep_perm hsep (list_perm_of_count hperm) hm
  clear hperm hsep
  unfold RotPost
  cases β <;> cases c <;>
    simp only [Own, CtxOwn, tree_ptr_leaf, tree_ptr_node, ctx_par_top, ctx_par_L, ctx_par_R]
      at ho hc <;>
    simp only [sepS, not_or, List.cons_append, not_false_eq_true, true_and, and_true,
      not_true_eq_false, false_or, or_false] at hnd hnil hnull <;>
    simp [rb_tree_left_rotate, accS, ho, hc, hnd, hnil, hnull, eq_tree_ptr_false,
      tree_ptr_eq_false] <;>
    refine ⟨by repeat (first | exact alloc_refl _ | apply alloc_put), ?_, ?_,
      hsep2 _ (by simp [hnil])⟩ <;>
    simp [Own, CtxOwn, ho, hc, hnd, hnil, hnull, own_put_iff, ctx_own_put_iff]

theorem right_rotate_alloc {h : Heap} {tree : rb_tree} {c : Ctx} {x y : Ptr}
    {cx cy : rb_node_color} {α β γ : Tree} {kx ky : Nat} {dx dy : Ptr}
    (hf : Focus h tree c (.node y cy (.node x cx α kx dx β) ky dy γ)) :
    ∃ r, rb_tree_right_rotate h tree y = .ok r ∧ Alloc h r.1 ∧
      RotPost h tree c (.node x cx α kx dx (.node y cy β ky dy γ)) r := by
  obtain ⟨hc, ho, hsep⟩ := hf
  have hnd := hsep.nodup
  have hnil := hsep.nil_not_mem
  have hnull := hsep.null_not_mem
  have hperm : ∀ a, (c.addrs ++ (Tree.node x cx α kx dx (.node y cy β ky dy γ)).addrs).count a =
      (c.addrs ++ (Tree.node y cy (.node x cx α kx dx β) ky dy γ).addrs).count a := by
    intro a; simp [Tree.addrs, List.count_cons]
  have hsep2 := fun (m2 : Ptr → Option rb_node) (hm : m2 tree.nil = h.mem tree.nil) =>
    sep_perm hsep (list_perm_of_count hperm) hm
  clear hperm hsep
  unfold RotPost
  cases β <;> cases c <;>
    simp only [Own, CtxOwn, tree_ptr_leaf, tree_ptr_node, ctx_par_top, ctx_par_L, ctx_par_R]
      at ho hc <;>
    simp only [sepS, not_or, List.cons_append, not_false_eq_true, true_and, and_true,
      not_true_eq_false, false_or, or_false] at hnd hnil hnull <;>
    simp [rb_tree_right_rotate, accS, ho, hc, hnd, hnil, hnull, eq_tree_ptr_false,
      tree_ptr_eq_false] <;>
    refine ⟨by repeat (first | exact alloc_refl _ | apply alloc_put), ?_, ?_,
      hsep2 _ (by simp [hnil])⟩ <;>
    simp [Own, CtxOwn, ho, hc, hnd, hnil, hnull, own_put_iff, ctx_own_put_iff]

theorem left_rotate_spec {h : Heap} {tree : rb_tree} {c : Ctx} {x y : Ptr}
    {cx cy : rb_node_color} {α β γ : Tree} {kx ky : Nat} {dx dy : Ptr}
    (hf : Focus h tree c (.node x cx α kx dx (.node y cy β ky dy γ))) :
    ∃ r, rb_tree_left_rotate h tree x = .ok r ∧
      RotPost h tree c (.node y cy (.node x cx α kx dx β) ky dy γ) r := by
  obtain ⟨r, hr, _, hp⟩ := left_rotate_alloc hf
  exact ⟨r, hr, hp⟩

theorem right_rotate_spec {h : Heap} {tree : rb_tree} {c : Ctx} {x y : Ptr}
    {cx cy : rb_node_color} {α β γ : Tree} {kx ky : Nat} {dx dy : Ptr}
    (hf : Focus h tree c (.node y cy (.node x cx α kx dx β) ky dy γ)) :
    ∃ r, rb_tree_right_rotate h tree y = .ok r ∧
      RotPost h tree c (.node x cx α kx dx (.node y cy β ky dy γ)) r := by
  obtain ⟨r, hr, _, hp⟩ := right_rotate_alloc hf
  exact ⟨r, hr, hp⟩

end RedBlack


namespace RedBlack
open Tree Ctx

/-! ## `rb_tree_insert_fixup` against `ins_fix` -/

theorem insert_fixup_case1_LL {fuel : Nat} {h : Heap} {tree : rb_tree} {up : Ctx}
    {p g y z : Ptr} {cg cz : rb_node_color} {kp kg uk zk : Nat} {dp dg ud zd : Ptr}
    {s ul ur zl zr : Tree} {P : Heap × rb_tree → Prop}
    (hf : Focus h tree (.L p RB_NODE_COLOR_RED kp dp s (.L g cg kg dg (.node y RB_NODE_COLOR_RED ul uk ud ur) up))
      (.node z cz zl zk zd zr))
    (hk : ∀ h', Focus h' tree up (.node g RB_NODE_COLOR_RED (.node p RB_NODE_COLOR_BLACK (.node z cz zl zk zd zr) kp dp s) kg dg (.node y RB_NODE_COLOR_BLACK ul uk ud ur)) →
      h'.next = h.next → h'.cap = h.cap → h'.mem tree.nil = h.mem tree.nil →
      ∃ r, rb_tree_insert_fixup_loop fuel h' tree g = .ok r ∧ P r) :
    ∃ r, rb_tree_insert_fixup_loop (fuel + 1) h tree z = .ok r ∧ P r := by
  have hf2 := focus_up_L.mp (focus_up_L.mp hf)
  obtain ⟨hc, ho, hsep⟩ := hf2
  have hnd := hsep.nodup
  have hnil := hsep.nil_not_mem
  have hnull := hsep.null_not_mem
  simp only [Own, CtxOwn, tree_ptr_leaf, tree_ptr_node, ctx_par_top, ctx_par_L, ctx_par_R]
    at ho hc
  simp only [sepS, not_or, List.cons_append, not_false_eq_true, true_and, and_true,
    not_true_eq_false, false_or, or_false, List.append_nil] at hnd hnil hnull
  rw [rb_tree_insert_fixup_loop]
  simp [-Prod.exists, accS, get_grandparent, res_bind_assoc, ho, hc, hnd, hnil, hnull,
    eq_tree_ptr_false, tree_ptr_eq_false]
  apply hk
  · refine ⟨?_, ?_, sep_perm hsep (list_perm_of_count fun a => by
        simp [Tree.addrs, Ctx.addrs, List.count_cons]) (by simp [hnil])⟩ <;>
      simp [Own, CtxOwn, ho, hc, hnd, hnil, hnull, own_put_iff, ctx_own_put_iff]
  · rfl
  · rfl
  · simp [hnil]

theorem insert_fixup_case3_LL {fuel : Nat} {h : Heap} {tree : rb_tree} {up : Ctx}
    {p g z : Ptr} {cg cz : rb_node_color} {kp kg zk : Nat} {dp dg zd : Ptr}
    {s u zl zr : Tree} {P : Heap × rb_tree → Prop}
    (hf : Focus h tree (.L p RB_NODE_COLOR_RED kp dp s (.L g cg kg dg u up))
      (.node z cz zl zk zd zr))
    (hu : u.color ≠ RB_NODE_COLOR_RED)
    (hk : ∀ r, RotPost h tree up (.node p RB_NODE_COLOR_BLACK (.node z cz zl zk zd zr) kp dp (.node g RB_NODE_COLOR_RED s kg dg u)) r →
      ∃ r', rb_tree_insert_fixup_loop fuel r.1 r.2 z = .ok r' ∧ P r') :
    ∃ r, rb_tree_insert_fixup_loop (fuel + 1) h tree z = .ok r ∧ P r := by
  have hf2 := focus_up_L.mp (focus_up_L.mp hf)
  obtain ⟨hc, ho, hsep⟩ := hf2
  have hnd := hsep.nodup
  have hnil := hsep.nil_not_mem
  have hnull := hsep.null_not_mem
  simp only [Own, CtxOwn, tree_ptr_leaf, tree_ptr_node, ctx_par_top, ctx_par_L, ctx_par_R]
    at ho hc
  obtain ⟨nu, hnu, hcu⟩ := own_cell ho.2.2 hsep.sentinel
  simp only [sepS, not_or, List.cons_append, not_false_eq_true, true_and, and_true,
    not_true_eq_false, false_or, or_false, List.append_nil] at hnd hnil hnull
  rw [rb_tree_insert_fixup_loop]
  simp [-Prod.exists, accS, get_grandparent, res_bind_assoc, ho, hc, hnd, hnil, hnull,
    eq_tree_ptr_false, tree_ptr_eq_false, hnu, hcu, hu]
  refine spec_then (right_rotate_spec (?_ : Focus _ tree up
    (.node g RB_NODE_COLOR_RED (.node p RB_NODE_COLOR_BLACK (.node z cz zl zk zd zr) kp dp s) kg dg u))) ?_
  · refine ⟨?_, ?_, sep_perm hsep (list_perm_of_count fun a => by
        simp [Tree.addrs, Ctx.addrs, List.count_cons]) (by simp [hnil])⟩ <;>
      simp [Own, CtxOwn, ho, hc, hnd, hnil, hnull, own_put_iff, ctx_own_put_iff]
  · intro r hr
    apply hk
    obtain ⟨h1, h2, h3, h4, h5, h6⟩ := hr
    exact ⟨h1, h2, h3, h4, by rw [h5]; simp [hnil], h6⟩

theorem insert_fixup_case1_LR {fuel : Nat} {h : Heap} {tree : rb_tree} {up : Ctx}
    {p g y z : Ptr} {cg cz : rb_node_color} {kp kg uk zk : Nat} {dp dg ud zd : Ptr}
    {s ul ur zl zr : Tree} {P : Heap × rb_tree → Prop}
    (hf : Focus h tree (.L p RB_NODE_COLOR_RED kp dp s (.R g cg kg dg (.node y RB_NODE_COLOR_RED ul uk ud ur) up))
      (.node z cz zl zk zd zr))
    (hk : ∀ h', Focus h' tree up (.node g RB_NODE_COLOR_RED (.node y RB_NODE_COLOR_BLACK ul uk ud ur) kg dg (.node p RB_NODE_COLOR_BLACK (.node z cz zl zk zd zr) kp dp s)) →
      h'.next = h.next → h'.cap = h.cap → h'.mem tree.nil = h.mem tree.nil →
      ∃ r, rb_tree_insert_fixup_loop fuel h' tree g = .ok r ∧ P r) :
    ∃ r, rb_tree_insert_fixup_loop (fuel + 1) h tree z = .ok r ∧ P r := by
  have hf2 := focus_up_R.mp (focus_up_L.mp hf)
  obtain ⟨hc, ho, hsep⟩ := hf2
  have hnd := hsep.nodup
  have hnil := hsep.nil_not_mem
  have hnull := hsep.null_not_mem
  simp only [Own, CtxOwn, tree_ptr_leaf, tree_ptr_node, ctx_par_top, ctx_par_L, ctx_par_R]
    at ho hc
  simp only [sepS, not_or, List.cons_append, not_false_eq_true, true_and, and_true,
    not_true_eq_false, false_or, or_false, List.append_nil] at hnd hnil hnull
  rw [rb_tree_insert_fixup_loop]
  simp [-Prod.exists, accS, get_grandparent, res_bind_assoc, ho, hc, hnd, hnil, hnull,
    eq_tree_ptr_false, tree_ptr_eq_false]
  apply hk
  · refine ⟨?_, ?_, sep_perm hsep (list_perm_of_count fun a => by
        simp [Tree.addrs, Ctx.addrs, List.count_cons]) (by simp [hnil])⟩ <;>
      simp [Own, CtxOwn, ho, hc, hnd, hnil, hnull, own_put_iff, ctx_own_put_iff]
  · rfl
  · rfl
  · simp [hnil]

theorem insert_fixup_case2_LR {fuel : Nat} {h : Heap} {tree : rb_tree} {up : Ctx}
    {p g z : Ptr} {cg cz : rb_node_color} {kp kg zk : Nat} {dp dg zd : Ptr}
    {s u zl zr : Tree} {P : Heap × rb_tree → Prop}
    (hf : Focus h tree (.L p RB_NODE_COLOR_RED kp dp s (.R g cg kg dg u up))
      (.node z cz zl zk zd zr))
    (hu : u.color ≠ RB_NODE_COLOR_RED)
    (hk : ∀ r, RotPost h tree up (.node z RB_NODE_COLOR_BLACK (.node g RB_NODE_COLOR_RED u kg dg zl) zk zd (.node p RB_NODE_COLOR_RED zr kp dp s)) r →
      ∃ r', rb_tree_insert_fixup_loop fuel r.1 r.2 p = .ok r' ∧ P r') :
    ∃ r, rb_tree_insert_fixup_loop (fuel + 1) h tree z = .ok r ∧ P r := by
  have hf1 := focus_up_L.mp hf
  have hf2 := focus_up_R.mp hf1
  obtain ⟨hc, ho, hsep⟩ := hf2
  have hnd := hsep.nodup
  have hnil := hsep.nil_not_mem
  have hnull := hsep.null_not_mem
  simp only [Own, CtxOwn, tree_ptr_leaf, tree_ptr_node, ctx_par_top, ctx_par_L, ctx_par_R]
    at ho hc
  obtain ⟨nu, hnu, hcu⟩ := own_cell ho.2.1 hsep.sentinel
  simp only [sepS, not_or, List.cons_append, not_false_eq_true, true_and, and_true,
    not_true_eq_false, false_or, or_false, List.append_nil] at hnd hnil hnull
  rw [rb_tree_insert_fixup_loop]
  simp [-Prod.exists, accS, get_grandparent, res_bind_assoc, ho, hc, hnd, hnil, hnull,
    eq_tree_ptr_false, tree_ptr_eq_false, hnu, hcu, hu]
  refine spec_then (right_rotate_spec hf1) ?_
  clear hc ho hsep hnd hnil hnull hnu hcu
  rintro ⟨h1, t1⟩ ⟨e1, e2, e3, e4, e5, hF1⟩
  simp only at e1 e2 e3 e4 e5 hF1
  have hf2 := focus_up_R.mp hF1
  obtain ⟨hc, ho, hsep⟩ := hf2
  have hnd := hsep.nodup
  have hnil := hsep.nil_not_mem
  have hnull := hsep.null_not_mem
  simp only [Own, CtxOwn, tree_ptr_leaf, tree_ptr_node, ctx_par_top, ctx_par_L, ctx_par_R, e1]
    at ho hc
  simp only [sepS, not_or, List.cons_append, not_false_eq_true, true_and, and_true,
    not_true_eq_false, false_or, or_false, List.append_nil, e1] at hnd hnil hnull
  simp [-Prod.exists, accS, get_grandparent, res_bind_assoc, ho, hc, hnd, hnil, hnull,
    eq_tree_ptr_false, tree_ptr_eq_false]
  refine spec_then (left_rotate_spec (?_ : Focus _ t1 up
    (.node g RB_NODE_COLOR_RED u kg dg (.node z RB_NODE_COLOR_BLACK zl zk zd (.node p RB_NODE_COLOR_RED zr kp dp s))))) ?_
  · refine ⟨?_, ?_, sep_perm hsep (list_perm_of_count fun a => by
        simp [Tree.addrs, Ctx.addrs, List.count_cons]) (by simp [hnil, e1])⟩ <;>
      simp [Own, CtxOwn, ho, hc, hnd, hnil, hnull, own_put_iff, ctx_own_put_iff, e1]
  · intro r hr
    apply hk
    obtain ⟨g1, g2, g3, g4, g5, g6⟩ := hr
    refine ⟨g1.trans e1, g2.trans e2, g3.trans e3, g4.trans e4, ?_, g6⟩
    rw [e1] at g5; rw [g5]; simp [hnil, e5]

theorem insert_fixup_case1_RL {fuel : Nat} {h : Heap} {tree : rb_tree} {up : Ctx}
    {p g y z : Ptr} {cg cz : rb_node_color} {kp kg uk zk : Nat} {dp dg ud zd : Ptr}
    {s ul ur zl zr : Tree} {P : Heap × rb_tree → Prop}
    (hf : Focus h tree (.R p RB_NODE_COLOR_RED kp dp s (.L g cg kg dg (.node y RB_NODE_COLOR_RED ul uk ud ur) up))
      (.node z cz zl zk zd zr))
    (hk : ∀ h', Focus h' tree up (.node g RB_NODE_COLOR_RED (.node p RB_NODE_COLOR_BLACK s kp dp (.node z cz zl zk zd zr)) kg dg (.node y RB_NODE_COLOR_BLACK ul uk ud ur)) →
      h'.next = h.next → h'.cap = h.cap → h'.mem tree.nil = h.mem tree.nil →
      ∃ r, rb_tree_insert_fixup_loop fuel h' tree g = .ok r ∧ P r) :
    ∃ r, rb_tree_insert_fixup_loop (fuel + 1) h tree z = .ok r ∧ P r := by
  have hf2 := focus_up_L.mp (focus_up_R.mp hf)
  obtain ⟨hc, ho, hsep⟩ := hf2
  have hnd := hsep.nodup
  have hnil := hsep.nil_not_mem
  have hnull := hsep.null_not_mem
  simp only [Own, CtxOwn, tree_ptr_leaf, tree_ptr_node, ctx_par_top, ctx_par_L, ctx_par_R]
    at ho hc
  simp only [sepS, not_or, List.cons_append, not_false_eq_true, true_and, and_true,
    not_true_eq_false, false_or, or_false, List.append_nil] at hnd hnil hnull
  rw [rb_tree_insert_fixup_loop]
  simp [-Prod.exists, accS, get_grandparent, res_bind_assoc, ho, hc, hnd, hnil, hnull,
    eq_tree_ptr_false, tree_ptr_eq_false]
  apply hk
  · refine ⟨?_, ?_, sep_perm hsep (list_perm_of_count fun a => by
        simp [Tree.addrs, Ctx.addrs, List.count_cons]) (by simp [hnil])⟩ <;>
      simp [Own, CtxOwn, ho, hc, hnd, hnil, hnull, own_put_iff, ctx_own_put_iff]
  · rfl
  · rfl
  · simp [hnil]

theorem insert_fixup_case2_RL {fuel : Nat} {h : Heap} {tree : rb_tree} {up : Ctx}
    {p g z : Ptr} {cg cz : rb_node_color} {kp kg zk : Nat} {dp dg zd : Ptr}
    {s u zl zr : Tree} {P : Heap × rb_tree → Prop}
    (hf : Focus h tree (.R p RB_NODE_COLOR_RED kp dp s (.L g cg kg dg u up))
      (.node z cz zl zk zd zr))
    (hu : u.color ≠ RB_NODE_COLOR_RED)
    (hk : ∀ r, RotPost h tree up (.node z RB_NODE_COLOR_BLACK (.node p RB_NODE_COLOR_RED s kp dp zl) zk zd (.node g RB_NODE_COLOR_RED zr kg dg u)) r →
      ∃ r', rb_tree_insert_fixup_loop fuel r.1 r.2 p = .ok r' ∧ P r') :
    ∃ r, rb_tree_insert_fixup_loop (fuel + 1) h tree z = .ok r ∧ P r := by
  have hf1 := focus_up_R.mp hf
  have hf2 := focus_up_L.mp hf1
  obtain ⟨hc, ho, hsep⟩ := hf2
  have hnd := hsep.nodup
  have hnil := hsep.nil_not_mem
  have hnull := hsep.null_not_mem
  simp only [Own, CtxOwn, tree_ptr_leaf, tree_ptr_node, ctx_par_top, ctx_par_L, ctx_par_R]
    at ho hc
  obtain ⟨nu, hnu, hcu⟩ := own_cell ho.2.2 hsep.sentinel
  simp only [sepS, not_or, List.cons_append, not_false_eq_true, true_and, and_true,
    not_true_eq_false, false_or, or_false, List.append_nil] at hnd hnil hnull
  rw [rb_tree_insert_fixup_loop]
  simp [-Prod.exists, accS, get_grandparent, res_bind_assoc, ho, hc, hnd, hnil, hnull,
    eq_tree_ptr_false, tree_ptr_eq_false, hnu, hcu, hu]
  refine spec_then (left_rotate_spec hf1) ?_
  clear hc ho hsep hnd hnil hnull hnu hcu
  rintro ⟨h1, t1⟩ ⟨e1, e2, e3, e4, e5, hF1⟩
  simp only at e1 e2 e3 e4 e5 hF1
  have hf2 := focus_up_L.mp hF1
  obtain ⟨hc, ho, hsep⟩ := hf2
  have hnd := hsep.nodup
  have hnil := hsep.nil_not_mem
  have hnull := hsep.null_not_mem
  simp only [Own, CtxOwn, tree_ptr_leaf, tree_ptr_node, ctx_par_top, ctx_par_L, ctx_par_R, e1]
    at ho hc
  simp only [sepS, not_or, List.cons_append, not_false_eq_true, true_and, and_true,
    not_true_eq_false, false_or, or_false, List.append_nil, e1] at hnd hnil hnull
  simp [-Prod.exists, accS, get_grandparent, res_bind_assoc, ho, hc, hnd, hnil, hnull,
    eq_tree_ptr_false, tree_ptr_eq_false]
  refine spec_then (right_rotate_spec (?_ : Focus _ t1 up
    (.node g RB_NODE_COLOR_RED (.node z RB_NODE_COLOR_BLACK (.node p RB_NODE_COLOR_RED s kp dp zl) zk zd zr) kg dg u))) ?_
  · refine ⟨?_, ?_, sep_perm hsep (list_perm_of_count fun a => by
        simp [Tree.addrs, Ctx.addrs, List.count_cons]) (by simp [hnil, e1])⟩ <;>
      simp [Own, CtxOwn, ho, hc, hnd, hnil, hnull, own_put_iff, ctx_own_put_iff, e1]
  · intro r hr
    apply hk
    obtain ⟨g1, g2, g3, g4, g5, g6⟩ := hr
    refine ⟨g1.trans e1, g2.trans e2, g3.trans e3, g4.trans e4, ?_, g6⟩
    rw [e1] at g5; rw [g5]; simp [hnil, e5]

theorem insert_fixup_case1_RR {fuel : Nat} {h : Heap} {tree : rb_tree} {up : Ctx}
    {p g y z : Ptr} {cg cz : rb_node_color} {kp kg uk zk : Nat} {dp dg ud zd : Ptr}
    {s ul ur zl zr : Tree} {P : Heap × rb_tree → Prop}
    (hf : Focus h tree (.R p RB_NODE_COLOR_RED kp dp s (.R g cg kg dg (.node y RB_NODE_COLOR_RED ul uk ud ur) up))
      (.node z cz zl zk zd zr))
    (hk : ∀ h', Focus h' tree up (.node g RB_NODE_COLOR_RED (.node y RB_NODE_COLOR_BLACK ul uk ud ur) kg dg (.node p RB_NODE_COLOR_BLACK s kp dp (.node z cz zl zk zd zr))) →
      h'.next = h.next → h'.cap = h.cap → h'.mem tree.nil = h.mem tree.nil →
      ∃ r, rb_tree_insert_fixup_loop fuel h' tree g = .ok r ∧ P r) :
    ∃ r, rb_tree_insert_fixup_loop (fuel + 1) h tree z = .ok r ∧ P r := by
  have hf2 := focus_up_R.mp (focus_up_R.mp hf)
  obtain ⟨hc, ho, hsep⟩ := hf2
  have hnd := hsep.nodup
  have hnil := hsep.nil_not_mem
  have hnull := hsep.null_not_mem
  simp only [Own, CtxOwn, tree_ptr_leaf, tree_ptr_node, ctx_par_top, ctx_par_L, ctx_par_R]
    at ho hc
  simp only [sepS, not_or, List.cons_append, not_false_eq_true, true_and, and_true,
    not_true_eq_false, false_or, or_false, List.append_nil] at hnd hnil hnull
  rw [rb_tree_insert_fixup_loop]
  simp [-Prod.exists, accS, get_grandparent, res_bind_assoc, ho, hc, hnd, hnil, hnull,
    eq_tree_ptr_false, tree_ptr_eq_false]
  apply hk
  · refine ⟨?_, ?_, sep_perm hsep (list_perm_of_count fun a => by
        simp [Tree.addrs, Ctx.addrs, List.count_cons]) (by simp [hnil])⟩ <;>
      simp [Own, CtxOwn, ho, hc, hnd, hnil, hnull, own_put_iff, ctx_own_put_iff]
  · rfl
  · rfl
  · simp [hnil]

theorem insert_fixup_case3_RR {fuel : Nat} {h : Heap} {tree : rb_tree} {up : Ctx}
    {p g z : Ptr} {cg cz : rb_node_color} {kp kg zk : Nat} {dp dg zd : Ptr}
    {s u zl zr : Tree} {P : Heap × rb_tree → Prop}
    (hf : Focus h tree (.R p RB_NODE_COLOR_RED kp dp s (.R g cg kg dg u up))
      (.node z cz zl zk zd zr))
    (hu : u.color ≠ RB_NODE_COLOR_RED)
    (hk : ∀ r, RotPost h tree up (.node p RB_NODE_COLOR_BLACK (.node g RB_NODE_COLOR_RED u kg dg s) kp dp (.node z cz zl zk zd zr)) r →
      ∃ r', rb_tree_insert_fixup_loop fuel r.1 r.2 z = .ok r' ∧ P r') :
    ∃ r, rb_tree_insert_fixup_loop (fuel + 1) h tree z = .ok r ∧ P r := by
  have hf2 := focus_up_R.mp (focus_up_R.mp hf)
  obtain ⟨hc, ho, hsep⟩ := hf2
  have hnd := hsep.nodup
  have hnil := hsep.nil_not_mem
  have hnull := hsep.null_not_mem
  simp only [Own, CtxOwn, tree_ptr_leaf, tree_ptr_node, ctx_par_top, ctx_par_L, ctx_par_R]
    at ho hc
  obtain ⟨nu, hnu, hcu⟩ := own_cell ho.2.1 hsep.sentinel
  simp only [sepS, not_or, List.cons_append, not_false_eq_true, true_and, and_true,
    not_true_eq_false, false_or, or_false, List.append_nil] at hnd hnil hnull
  rw [rb_tree_insert_fixup_loop]
  simp [-Prod.exists, accS, get_grandparent, res_bind_assoc, ho, hc, hnd, hnil, hnull,
    eq_tree_ptr_false, tree_ptr_eq_false, hnu, hcu, hu]
  refine spec_then (left_rotate_spec (?_ : Focus _ tree up
    (.node g RB_NODE_COLOR_RED u kg dg (.node p RB_NODE_COLOR_BLACK s kp dp (.node z cz zl zk zd zr))))) ?_
  · refine ⟨?_, ?_, sep_perm hsep (list_perm_of_count fun a => by
        simp [Tree.addrs, Ctx.addrs, List.count_cons]) (by simp [hnil])⟩ <;>
      simp [Own, CtxOwn, ho, hc, hnd, hnil, hnull, own_put_iff, ctx_own_put_iff]
  · intro r hr
    apply hk
    obtain ⟨h1, h2, h3, h4, h5, h6⟩ := hr
    exact ⟨h1, h2, h3, h4, by rw [h5]; simp [hnil], h6⟩

theorem insert_fixup_exit {fuel : Nat} {h : Heap} {tree : rb_tree} {c : Ctx}
    {z : Ptr} {cz : rb_node_color} {zk : Nat} {zd : Ptr} {zl zr : Tree}
    (hf : Focus h tree c (.node z cz zl zk zd zr)) (hcol : c.color ≠ RB_NODE_COLOR_RED) :
    rb_tree_insert_fixup_loop (fuel + 1) h tree z = .ok (h, tree) := by
  obtain ⟨hc, ho, hsep⟩ := hf
  obtain ⟨sp, hsp⟩ := hsep.sentinel
  rw [rb_tree_insert_fixup_loop]
  cases c <;>
    simp only [Own, CtxOwn, tree_ptr_leaf, tree_ptr_node, ctx_par_top, ctx_par_L, ctx_par_R,
      Ctx.color] at ho hc hcol <;>
    simp [accS, ho, hc, hsp, sentinel_node, hcol]

theorem rotpost_plug {h : Heap} {tree : rb_tree} {c : Ctx} {t : Tree} {r : Heap × rb_tree}
    (hr : RotPost h tree c t r) : RotPost h tree .top (c.plug t) r := by
  obtain ⟨h1, h2, h3, h4, h5, h6⟩ := hr
  exact ⟨h1, h2, h3, h4, h5, focus_plug h6⟩

theorem rotpost_self {h : Heap} {tree : rb_tree} {c : Ctx} {t : Tree} (hf : Focus h tree c t) :
    RotPost h tree c t (h, tree) := ⟨rfl, rfl, rfl, rfl, rfl, hf⟩

/-- The loop of `rb_tree_insert_fixup` computes `ins_fix`: started at a node `z`
below the path `c`, with fuel above the length of the path, it returns with the
heap laid out as the tree `ins_fix` yields. -/
theorem insert_fixup_loop_spec : ∀ (fuel : Nat) (c : Ctx) (z : Ptr) (cz : rb_node_color)
    (zl : Tree) (zk : Nat) (zd : Ptr) (zr : Tree) (T : Tree) (h : Heap) (tree : rb_tree),
    Focus h tree c (.node z cz zl zk zd zr) → ins_fix c (.node z cz zl zk zd zr) = some T →
    c.depth < fuel →
    ∃ r, rb_tree_insert_fixup_loop fuel h tree z = .ok r ∧ RotPost h tree .top T r := by
  intro fuel
  induction fuel with
  | zero => intro c z cz zl zk zd zr T h tree _ _ hd; omega
  | succ n ih =>
    intro c z cz zl zk zd zr T h tree hf hT hd
    match c, hf, hT, hd with
    | .top, hf, hT, hd =>
      simp only [ins_fix, Option.some.injEq] at hT
      subst hT
      exact ⟨_, insert_fixup_exit hf (by simp [Ctx.color]), rotpost_self hf⟩
    | .L p cp kp dp s .top, hf, hT, hd =>
      by_cases hcp : cp = RB_NODE_COLOR_RED
      · simp [ins_fix, hcp] at hT
      · simp only [ins_fix, hcp, if_false, Option.some.injEq] at hT
        subst hT
        exact ⟨_, insert_fixup_exit hf (by simpa [Ctx.color] using hcp),
          rotpost_plug (rotpost_self hf)⟩
    | .R p cp kp dp s .top, hf, hT, hd =>
      by_cases hcp : cp = RB_NODE_COLOR_RED
      · simp [ins_fix, hcp] at hT
      · simp only [ins_fix, hcp, if_false, Option.some.injEq] at hT
        subst hT
        exact ⟨_, insert_fixup_exit hf (by simpa [Ctx.color] using hcp),
          rotpost_plug (rotpost_self hf)⟩
    | .L p cp kp dp s (.L g cg kg dg u up), hf, hT, hd =>
      by_cases hcp : cp = RB_NODE_COLOR_RED
      · subst hcp
        by_cases hu : u.color = RB_NODE_COLOR_RED
        · cases u with
          | leaf => simp [Tree.color] at hu
          | node y cy ul uk ud ur =>
            simp only [Tree.color] at hu
            subst hu
            simp only [ins_fix, if_true] at hT
            refine insert_fixup_case1_LL hf (fun h' hf' e1 e2 e3 => ?_)
            obtain ⟨r, hr, g1, g2, g3, g4, g5, g6⟩ := ih _ _ _ _ _ _ _ _ h' tree hf' hT
              (by simp only [Ctx.depth] at hd; omega)
            exact ⟨r, hr, g1, g2, g3.trans e1, g4.trans e2, g5.trans e3, g6⟩
        · have hT' : T = up.plug (.node p RB_NODE_COLOR_BLACK (.node z cz zl zk zd zr) kp dp (.node g RB_NODE_COLOR_RED s kg dg u)) := by
            cases u with
            | leaf => simpa [ins_fix] using hT.symm
            | node y cy ul uk ud ur =>
              cases cy <;> simp [Tree.color] at hu <;> simpa [ins_fix] using hT.symm
          subst hT'
          obtain ⟨m, rfl⟩ : ∃ m, n = m + 1 := ⟨n - 1, by simp only [Ctx.depth] at hd; omega⟩
          refine insert_fixup_case3_LL hf hu (fun r hr => ?_)
          exact ⟨r, insert_fixup_exit (focus_up_L.mpr hr.2.2.2.2.2) (by simp [Ctx.color]),
            rotpost_plug hr⟩
      · simp only [ins_fix, hcp, if_false, Option.some.injEq] at hT
        subst hT
        exact ⟨_, insert_fixup_exit hf (by simpa [Ctx.color] using hcp),
          rotpost_plug (rotpost_self hf)⟩
    | .L p cp kp dp s (.R g cg kg dg u up), hf, hT, hd =>
      by_cases hcp : cp = RB_NODE_COLOR_RED
      · subst hcp
        by_cases hu : u.color = RB_NODE_COLOR_RED
        · cases u with
          | leaf => simp [Tree.color] at hu
          | node y cy ul uk ud ur =>
            simp only [Tree.color] at hu
            subst hu
            simp only [ins_fix, if_true] at hT
            refine insert_fixup_case1_LR hf (fun h' hf' e1 e2 e3 => ?_)
            obtain ⟨r, hr, g1, g2, g3, g4, g5, g6⟩ := ih _ _ _ _ _ _ _ _ h' tree hf' hT
              (by simp only [Ctx.depth] at hd; omega)
            exact ⟨r, hr, g1, g2, g3.trans e1, g4.trans e2, g5.trans e3, g6⟩
        · have hT' : T = up.plug (.node z RB_NODE_COLOR_BLACK (.node g RB_NODE_COLOR_RED u kg dg zl) zk zd (.node p RB_NODE_COLOR_RED zr kp dp s)) := by
            cases u with
            | leaf => simpa [ins_fix] using hT.symm
            | node y cy ul uk ud ur =>
              cases cy <;> simp [Tree.color] at hu <;> simpa [ins_fix] using hT.symm
          subst hT'
          obtain ⟨m, rfl⟩ : ∃ m, n = m + 1 := ⟨n - 1, by simp only [Ctx.depth] at hd; omega⟩
          refine insert_fixup_case2_LR hf hu (fun r hr => ?_)
          exact ⟨r, insert_fixup_exit (focus_up_R.mpr hr.2.2.2.2.2) (by simp [Ctx.color]),
            rotpost_plug hr⟩
      · simp only [ins_fix, hcp, if_false, Option.some.injEq] at hT
        subst hT
        exact ⟨_, insert_fixup_exit hf (by simpa [Ctx.color] using hcp),
          rotpost_plug (rotpost_self hf)⟩
    | .R p cp kp dp s (.L g cg kg dg u up), hf, hT, hd =>
      by_cases hcp : cp = RB_NODE_COLOR_RED
      · subst hcp
        by_cases hu : u.color = RB_NODE_COLOR_RED
        · cases u with
          | leaf => simp [Tree.color] at hu
          | node y cy ul uk ud ur =>
            simp only [Tree.color] at hu
            subst hu
            simp only [ins_fix, if_true] at hT
            refine insert_fixup_case1_RL hf (fun h' hf' e1 e2 e3 => ?_)
            obtain ⟨r, hr, g1, g2, g3, g4, g5, g6⟩ := ih _ _ _ _ _ _ _ _ h' tree hf' hT
              (by simp only [Ctx.depth] at hd; omega)
            exact ⟨r, hr, g1, g2, g3.trans e1, g4.trans e2, g5.trans e3, g6⟩
        · have hT' : T = up.plug (.node z RB_NODE_COLOR_BLACK (.node p RB_NODE_COLOR_RED s kp dp zl) zk zd (.node g RB_NODE_COLOR_RED zr kg dg u)) := by
            cases u with
            | leaf => simpa [ins_fix] using hT.symm
            | node y cy ul uk ud ur =>
              cases cy <;> simp [Tree.color] at hu <;> simpa [ins_fix] using hT.symm
          subst hT'
          obtain ⟨m, rfl⟩ : ∃ m, n = m + 1 := ⟨n - 1, by simp only [Ctx.depth] at hd; omega⟩
          refine insert_fixup_case2_RL hf hu (fun r hr => ?_)
          exact ⟨r, insert_fixup_exit (focus_up_L.mpr hr.2.2.2.2.2) (by simp [Ctx.color]),
            rotpost_plug hr⟩
      · simp only [ins_fix, hcp, if_false, Option.some.injEq] at hT
        subst hT
        exact ⟨_, insert_fixup_exit hf (by simpa [Ctx.color] using hcp),
          rotpost_plug (rotpost_self hf)⟩
    | .R p cp kp dp s (.R g cg kg dg u up), hf, hT, hd =>
      by_cases hcp : cp = RB_NODE_COLOR_RED
      · subst hcp
        by_cases hu : u.color = RB_NODE_COLOR_RED
        · cases u with
          | leaf => simp [Tree.color] at hu
          | node y cy ul uk ud ur =>
            simp only [Tree.color] at hu
            subst hu
            simp only [ins_fix, if_true] at hT
            refine insert_fixup_case1_RR hf (fun h' hf' e1 e2 e3 => ?_)
            obtain ⟨r, hr, g1, g2, g3, g4, g5, g6⟩ := ih _ _ _ _ _ _ _ _ h' tree hf' hT
              (by simp only [Ctx.depth] at hd; omega)
            exact ⟨r, hr, g1, g2, g3.trans e1, g4.trans e2, g5.trans e3, g6⟩
        · have hT' : T = up.plug (.node p RB_NODE_COLOR_BLACK (.node g RB_NODE_COLOR_RED u kg dg s) kp dp (.node z cz zl zk zd zr)) := by
            cases u with
            | leaf => simpa [ins_fix] using hT.symm
            | node y cy ul uk ud ur =>
              cases cy <;> simp [Tree.color] at hu <;> simpa [ins_fix] using hT.symm
          subst hT'
          obtain ⟨m, rfl⟩ : ∃ m, n = m + 1 := ⟨n - 1, by simp only [Ctx.depth] at hd; omega⟩
          refine insert_fixup_case3_RR hf hu (fun r hr => ?_)
          exact ⟨r, insert_fixup_exit (focus_up_R.mpr hr.2.2.2.2.2) (by simp [Ctx.color]),
            rotpost_plug hr⟩
      · simp only [ins_fix, hcp, if_false, Option.some.injEq] at hT
        subst hT
        exact ⟨_, insert_fixup_exit hf (by simpa [Ctx.color] using hcp),
          rotpost_plug (rotpost_self hf)⟩

end RedBlack

namespace RedBlack
open Tree Ctx

theorem locate_plug (key : Nat) : ∀ (t : Tree) (c : Ctx),
    (t.locate key c).1.plug (t.locate key c).2 = c.plug t
  | .leaf, c => rfl
  | .node a col l k d r, c => by
    unfold Tree.locate
    split_ifs
    · rfl
    · exact (locate_plug key l _).trans rfl
    · exact (locate_plug key r _).trans rfl

theorem locate_depth (key : Nat) : ∀ (t : Tree) (c : Ctx),
    (t.locate key c).1.depth ≤ c.depth + t.height
  | .leaf, c => by simp [Tree.locate]
  | .node a col l k d r, c => by
    unfold Tree.locate
    split_ifs
    · simp
    · have := locate_depth key l (.L a col k d r c)
      simp only [Ctx.depth, Tree.height] at this ⊢; omega
    · have := locate_depth key r (.R a col k d l c)
      simp only [Ctx.depth, Tree.height] at this ⊢; omega

theorem locate_cases (key : Nat) (t : Tree) (c : Ctx) :
    (t.locate key c).2 = .leaf ∨
      ∃ a col l d r, (t.locate key c).2 = .node a col l key d r := by
  induction t generalizing c with
  | leaf => exact Or.inl rfl
  | node a col l k d r ihl ihr =>
    unfold Tree.locate
    split_ifs with h1 h2
    · exact Or.inr ⟨a, col, l, d, r, by rw [h1]⟩
    · exact ihl _
    · exact ihr _

/-- One run of the descent loop of `__rb_tree_insert` from the subtree `t`:
either it reaches a leaf and hands back the last node, or it finds the key and
moves the payload of `z` into the node found. -/
theorem insert_descend_spec (key : Nat) (z : Ptr) (zn : rb_node) (hzk : zn.key = key) :
    ∀ (t : Tree) (fuel : Nat) (c : Ctx) (h : Heap) (tree : rb_tree),
      Focus h tree c t → h.mem z = some zn → z ∉ c.addrs ++ t.addrs → z ≠ tree.nil →
      t.height < fuel →
      ∃ r, __rb_tree_insert_descend fuel h tree z (c.par tree.nil) (t.ptr tree.nil) = .ok r ∧
        r.1.next = h.next ∧ r.1.cap = h.cap ∧ r.1.mem tree.nil = h.mem tree.nil ∧
        match (t.locate key c).2 with
        | .leaf => r.2 = some ((t.locate key c).1.par tree.nil) ∧ r.1 = h
        | .node a col l _ _ r' => r.2 = none ∧ r.1.mem z = none ∧
            Focus r.1 tree (t.locate key c).1 (.node a col l key zn.data r')
  | .leaf, fuel, c, h, tree, hf, hz, hzn, hznil, hfuel => by
    obtain ⟨m, rfl⟩ : ∃ m, fuel = m + 1 := ⟨fuel - 1, by omega⟩
    simp [__rb_tree_insert_descend, Tree.locate]
  | .node a col l k d r', fuel, c, h, tree, hf, hz, hzn, hznil, hfuel => by
    obtain ⟨m, rfl⟩ : ∃ m, fuel = m + 1 := ⟨fuel - 1, by omega⟩
    have hf0 := hf
    obtain ⟨hc, ho, hsep⟩ := hf
    have hnd := hsep.nodup
    have hnil := hsep.nil_not_mem
    have hnull := hsep.null_not_mem
    simp only [Own, tree_ptr_leaf, tree_ptr_node] at ho hc
    simp only [sepS, not_or, List.cons_append, not_false_eq_true, true_and, and_true,
      not_true_eq_false, false_or, or_false, List.append_nil] at hnd hnil hnull hzn
    rw [__rb_tree_insert_descend]
    unfold Tree.locate
    by_cases hk : k = key
    · subst hk
      have hznil2 : ¬tree.nil = z := fun e => hznil e.symm
      simp [-Prod.exists, accS, rb_node_move, rb_node_dealloc, res_bind_assoc, ho, hz, hzk,
        hnd, hnil, hnull, hzn, hznil, hznil2]
      refine ⟨?_, ?_, sep_perm hsep (List.Perm.refl _) (by simp [hnil, hznil, hznil2])⟩ <;>
        simp [Own, hc, ho, hnd, hnil, hnull, hzn, hznil, own_put_iff, ctx_own_put_iff,
          own_free_iff, ctx_own_free_iff]
    · simp only [hk, if_false]
      simp [-Prod.exists, accS, ho, hz, hzk, hnil, hk]
      by_cases hlt : key < k
      · simp only [hlt, if_true]
        have := insert_descend_spec key z zn hzk l m (.L a col k d r' c) h tree
          (focus_up_L.mpr hf0) hz (by
            simp only [sepS, not_or]; tauto) hznil
          (by simp only [Tree.height] at hfuel; omega)
        simpa using this
      · simp only [hlt, if_false]
        have := insert_descend_spec key z zn hzk r' m (.R a col k d l c) h tree
          (focus_up_R.mpr hf0) hz (by
            simp only [sepS, not_or]; tauto) hznil
          (by simp only [Tree.height] at hfuel; omega)
        simpa using this

theorem locate_on_path (key : Nat) : ∀ (t : Tree) (c : Ctx), c.OnPath key →
    (t.locate key c).1.OnPath key
  | .leaf, c, hc => hc
  | .node a col l k d r, c, hc => by
    unfold Tree.locate
    split_ifs with h1 h2
    · exact hc
    · exact locate_on_path key l _ ⟨h2, hc⟩
    · exact locate_on_path key r _ ⟨by omega, hc⟩

/-- The tail of `rb_tree_insert_fixup`: the root is read, `bh` is bumped if it is
Red, and the root is coloured Black. -/
theorem insert_fixup_spec {fuel : Nat} {c : Ctx} {z : Ptr} {cz : rb_node_color}
    {zl : Tree} {zk : Nat} {zd : Ptr} {zr : Tree} {T : Tree} {h : Heap} {tree : rb_tree}
    (hf : Focus h tree c (.node z cz zl zk zd zr))
    (hT : ins_fix c (.node z cz zl zk zd zr) = some T) (hd : c.depth < fuel) :
    ∃ r, rb_tree_insert_fixup fuel h tree z = .ok r ∧
      r.2.bh = bh_after_insert T.color tree.bh ∧
      RotPost h { tree with bh := r.2.bh } .top T.blacken r := by
  unfold rb_tree_insert_fixup
  refine spec_then (insert_fixup_loop_spec fuel c z cz zl zk zd zr T h tree hf hT hd) ?_
  rintro ⟨h1, ⟨root1, nil1, bh1⟩⟩ ⟨e1, e2, e3, e4, e5, hc, ho, hsep⟩
  simp only at e1 e2 e3 e4 e5 hc ho hsep
  subst e1 e2
  have hnd := hsep.nodup
  have hnil := hsep.nil_not_mem
  have hnull := hsep.null_not_mem
  obtain ⟨sp, hsp⟩ := hsep.sentinel
  cases T with
  | leaf =>
    simp only [Own, CtxOwn, tree_ptr_leaf] at hc hsp
    simp [-Prod.exists, accS, res_bind_assoc, hc, hsp, sentinel_node, bh_after_insert,
      Tree.color, RotPost, e3, e4, Tree.blacken]
    refine ⟨by rw [← e5, hsp]; rfl, ?_, trivial, ?_⟩
    · simp [CtxOwn]
    · exact ⟨by simp [Tree.addrs, Ctx.addrs], by simp [Tree.addrs, Ctx.addrs],
        by simp [Tree.addrs, Ctx.addrs], hsep.nil_ne, ⟨sp, by simp [sentinel_node]⟩⟩
  | node a ct l k d r =>
    simp only [Own, CtxOwn, tree_ptr_leaf, tree_ptr_node, ctx_par_top] at ho hc hsp
    simp only [sepS, not_or, List.cons_append, not_false_eq_true, true_and, and_true,
      not_true_eq_false, false_or, or_false, List.append_nil, List.nil_append]
      at hnd hnil hnull
    by_cases hcr : ct = RB_NODE_COLOR_RED <;>
      simp [-Prod.exists, accS, res_bind_assoc, ho, hc, hcr, hnd, hnil, hnull,
        bh_after_insert, Tree.color, RotPost, e3, e4, e5, Tree.blacken] <;>
      refine ⟨?_, ?_, sep_perm hsep (List.Perm.refl _) (by simp [hnil])⟩ <;>
      simp [Own, CtxOwn, ho, hc, hnd, hnil, hnull, own_put_iff, ctx_own_put_iff]

/-- `__rb_tree_insert` on a freshly allocated node `z` (both child pointers
`NULL`) realises `Tree.insert`. -/
theorem rb_tree_insert_node_spec {fuel : Nat} {h : Heap} {tree : rb_tree} {t t' : Tree}
    {z zp : Ptr} {zc : rb_node_color} {key : Nat} {data : Ptr}
    (hf : Focus h tree .top t)
    (hz : h.mem z = some
      { color := zc, key := key, data := data, left := NULL, right := NULL, parent := zp })
    (hzn : z ∉ t.addrs) (hznil : z ≠ tree.nil) (hznull : z ≠ NULL)
    (hkey : key ≠ RB_NODE_NIL_KEY_VALUE) (hfuel : t.height < fuel)
    (hT : t.insert z key data = some t') :
    ∃ r, __rb_tree_insert fuel h tree z = .ok r ∧ r.2.2 = 0 ∧ r.2.1.nil = tree.nil ∧
      r.2.1.bh = t.insert_bh z key data tree.bh ∧ r.1.next = h.next ∧ r.1.cap = h.cap ∧
      r.1.mem tree.nil = h.mem tree.nil ∧ Focus r.1 r.2.1 .top t' := by
  have hroot : tree.root = t.ptr tree.nil := hf.ctx
  obtain ⟨r, hr, e3, e4, e5, hm⟩ := insert_descend_spec key z _ rfl t fuel .top h tree hf hz
    (by simpa [Ctx.addrs] using hzn) hznil hfuel
  simp only [ctx_par_top, ← hroot] at hr
  have hplug := locate_plug key t .top
  have hdep := locate_depth key t .top
  have hpath := locate_on_path key t .top trivial
  unfold Tree.insert at hT
  unfold Tree.insert_bh
  unfold __rb_tree_insert
  rw [hr]
  clear hr
  rcases hloc : t.locate key .top with ⟨c', t''⟩
  rw [hloc] at hm hplug hdep hpath hT
  simp only [Ctx.plug, Ctx.depth, zero_add] at hplug hdep hpath
  obtain ⟨rh, ro⟩ := r
  cases t'' with
  | node a col l k d r' =>
    simp only at hm hT
    obtain ⟨rfl, hzfree, hF⟩ := hm
    simp only [Option.some.injEq] at hT
    subst hT
    simp [-Prod.exists, accS, hz, hznull, hkey]
    exact ⟨e3, e4, e5, focus_plug hF⟩
  | leaf =>
    simp only at hm hT
    obtain ⟨rfl, rfl⟩ := hm
    obtain ⟨T, hT1, rfl⟩ := Option.map_eq_some'.mp hT
    have hF : Focus rh tree c' .leaf := focus_unplug (hplug ▸ hf)
    have hzc : z ∉ c'.addrs := fun hmem => hzn (by
      rw [← hplug]; exact mem_addrs_plug.mpr (Or.inl hmem))
    have hznil2 : ¬tree.nil = z := fun e => hznil e.symm
    have hznull2 : ¬NULL = z := fun e => hznull e.symm
    obtain ⟨hc, ho, hsep⟩ := hF
    have hnd := hsep.nodup
    have hnil := hsep.nil_not_mem
    have hnull := hsep.null_not_mem
    have hsep2 : Sep rh.mem tree.nil (c'.addrs ++ (Tree.node z RB_NODE_COLOR_RED .leaf key data
        .leaf).addrs) := by
      refine ⟨?_, ?_, ?_, hsep.nil_ne, hsep.sentinel⟩
      · simpa [Tree.addrs, List.nodup_append, hzc] using hnd
      · simpa [Tree.addrs, hznil2] using hnil
      · simpa [Tree.addrs, hznull2] using hnull
    cases c' with
    | top =>
      simp only [Own, CtxOwn, tree_ptr_leaf, tree_ptr_node, ctx_par_top, ctx_par_L, ctx_par_R]
        at ho hc
      simp only [sepS, not_or, List.cons_append, not_false_eq_true, true_and, and_true,
        not_true_eq_false, false_or, or_false, List.append_nil] at hnd hnil hnull hzc
      simp [-Prod.exists, accS, hz, hznull, hkey, res_bind_assoc, ho, hc, hnd, hnil, hnull,
        hzc, hznil, hznil2, eq_tree_ptr_false, tree_ptr_eq_false]
      refine spec_then (insert_fixup_spec (?_ : Focus _ _ .top
        (.node z RB_NODE_COLOR_RED .leaf key data .leaf)) hT1
        (by simp only [Ctx.depth] at hdep ⊢; omega)) ?_
      · refine ⟨?_, ?_, sep_perm hsep2 (List.Perm.refl _) (by simp [hznil2, hnil])⟩ <;>
          simp [Own, CtxOwn, ho, hc, hnd, hnil, hnull, hzc, own_put_iff, ctx_own_put_iff]
      · rintro ⟨h1, t1⟩ ⟨g0, g1, g2, g3, g4, g5, g6⟩
        simp only at g0 g1 g2 g3 g4 g5 g6
        simp [hT1, g0, g1, g3, g4]
        exact ⟨by rw [g5]; simp [hznil2, hnil], g6⟩
    | L y cy ky dy s up =>
      simp only [Own, CtxOwn, tree_ptr_leaf, tree_ptr_node, ctx_par_top, ctx_par_L, ctx_par_R]
        at ho hc
      simp only [sepS, not_or, List.cons_append, not_false_eq_true, true_and, and_true,
        not_true_eq_false, false_or, or_false, List.append_nil] at hnd hnil hnull hzc
      simp only [Ctx.OnPath] at hpath
      have hlt := hpath.1
      simp [-Prod.exists, accS, hz, hznull, hkey, res_bind_assoc, ho, hc, hnd, hnil, hnull,
        hzc, hznil, hznil2, eq_tree_ptr_false, tree_ptr_eq_false, hlt, Nat.lt_asymm hlt]
      refine spec_then (insert_fixup_spec (?_ : Focus _ _ (.L y cy ky dy s up)
        (.node z RB_NODE_COLOR_RED .leaf key data .leaf)) hT1
        (by simp only [Ctx.depth] at hdep ⊢; omega)) ?_
      · refine ⟨?_, ?_, sep_perm hsep2 (List.Perm.refl _) (by simp [hznil2, hnil])⟩ <;>
          simp [Own, CtxOwn, ho, hc, hnd, hnil, hnull, hzc, own_put_iff, ctx_own_put_iff]
      · rintro ⟨h1, t1⟩ ⟨g0, g1, g2, g3, g4, g5, g6⟩
        simp only at g0 g1 g2 g3 g4 g5 g6
        simp [hT1, g0, g1, g3, g4]
        exact ⟨by rw [g5]; simp [hznil2, hnil], g6⟩
    | R y cy ky dy s up =>
      simp only [Own, CtxOwn, tree_ptr_leaf, tree_ptr_node, ctx_par_top, ctx_par_L, ctx_par_R]
        at ho hc
      simp only [sepS, not_or, List.cons_append, not_false_eq_true, true_and, and_true,
        not_true_eq_false, false_or, or_false, List.append_nil] at hnd hnil hnull hzc
      simp only [Ctx.OnPath] at hpath
      have hlt := hpath.1
      simp [-Prod.exists, accS, hz, hznull, hkey, res_bind_assoc, ho, hc, hnd, hnil, hnull,
        hzc, hznil, hznil2, eq_tree_ptr_false, tree_ptr_eq_false, hlt, Nat.lt_asymm hlt]
      refine spec_then (insert_fixup_spec (?_ : Focus _ _ (.R y cy ky dy s up)
        (.node z RB_NODE_COLOR_RED .leaf key data .leaf)) hT1
        (by simp only [Ctx.depth] at hdep ⊢; omega)) ?_
      · refine ⟨?_, ?_, sep_perm hsep2 (List.Perm.refl _) (by simp [hznil2, hnil])⟩ <;>
          simp [Own, CtxOwn, ho, hc, hnd, hnil, hnull, hzc, own_put_iff, ctx_own_put_iff]
      · rintro ⟨h1, t1⟩ ⟨g0, g1, g2, g3, g4, g5, g6⟩
        simp only at g0 g1 g2 g3 g4 g5 g6
        simp [hT1, g0, g1, g3, g4]
        exact ⟨by rw [g5]; simp [hznil2, hnil], g6⟩

end RedBlack


namespace RedBlack
open Tree Ctx

/-! ## Invariants on the abstract view -/

theorem path_blacks_ne_nil : ∀ t : Tree, t.pathBlacks ≠ []
  | .leaf => by simp [Tree.pathBlacks]
  | .node a c l k d r => by
    have := path_blacks_ne_nil l
    simp [Tree.pathBlacks, this]

theorem balanced_leaf_iff (n : Nat) : Tree.leaf.Balanced n ↔ n = 0 := by
  simp [Tree.Balanced, Tree.pathBlacks, eq_comm]

theorem balanced_node_iff (a : Ptr) (c : rb_node_color) (l : Tree) (k : Nat) (d : Ptr)
    (r : Tree) (n : Nat) :
    (Tree.node a c l k d r).Balanced n ↔
      ∃ m, l.Balanced m ∧ r.Balanced m ∧ n = m + black_weight c := by
  constructor
  · intro hb
    obtain ⟨x, hx⟩ := List.exists_mem_of_ne_nil _ (path_blacks_ne_nil l)
    have hx' := hb (x + black_weight c) (by simp [Tree.pathBlacks]; exact Or.inl hx)
    refine ⟨x, fun y hy => ?_, fun y hy => ?_, hx'.symm⟩
    · have := hb (y + black_weight c) (by simp [Tree.pathBlacks]; exact Or.inl hy)
      omega
    · have := hb (y + black_weight c) (by simp [Tree.pathBlacks]; exact Or.inr hy)
      omega
  · rintro ⟨m, hl, hr, rfl⟩ y hy
    simp only [Tree.pathBlacks, List.map_append, List.mem_append, List.mem_map] at hy
    rcases hy with ⟨x, hx, rfl⟩ | ⟨x, hx, rfl⟩
    · rw [hl x hx]
    · rw [hr x hx]

/-- The path-based balance condition says the same as the recursive one. -/
theorem balanced_iff : ∀ (t : Tree) (n : Nat), t.Balanced n ↔ t.BalOK ∧ t.bheight = n
  | .leaf, n => by simp [balanced_leaf_iff, Tree.BalOK, Tree.bheight, eq_comm]
  | .node a c l k d r, n => by
    rw [balanced_node_iff]
    simp only [balanced_iff l, balanced_iff r, Tree.BalOK, Tree.bheight]
    constructor
    · rintro ⟨m, ⟨hl, rfl⟩, ⟨hr, h2⟩, rfl⟩
      exact ⟨⟨h2.symm, hl, hr⟩, rfl⟩
    · rintro ⟨⟨h1, hl, hr⟩, rfl⟩
      exact ⟨_, ⟨hl, rfl⟩, ⟨hr, h1.symm⟩, rfl⟩

theorem plug_bal_ok : ∀ (c : Ctx) (t : Tree),
    (c.plug t).BalOK ↔ t.BalOK ∧ c.BalOK t.bheight
  | .top, t => by simp [Ctx.plug, Ctx.BalOK]
  | .L a col k d s up, t => by
    simp only [Ctx.plug, plug_bal_ok up, Tree.BalOK, Tree.bheight, Ctx.BalOK]
    constructor
    · rintro ⟨⟨h1, h2, h3⟩, h4⟩; exact ⟨h2, h1.symm, h3, h4⟩
    · rintro ⟨h2, h1, h3, h4⟩; exact ⟨⟨h1.symm, h2, h3⟩, h4⟩
  | .R a col k d s up, t => by
    simp only [Ctx.plug, plug_bal_ok up, Tree.BalOK, Tree.bheight, Ctx.BalOK]
    constructor
    · rintro ⟨⟨h1, h2, h3⟩, h4⟩; exact ⟨h3, h1, h2, h1 ▸ h4⟩
    · rintro ⟨h2, h1, h3, h4⟩; exact ⟨⟨h1, h3, h2⟩, h1 ▸ h4⟩

theorem plug_bheight : ∀ (c : Ctx) (t : Tree), c.BalOK t.bheight →
    (c.plug t).bheight = c.total t.bheight
  | .top, t, _ => rfl
  | .L a col k d s up, t, h => by
    simp only [Ctx.plug, Ctx.total]
    exact plug_bheight up _ h.2.2
  | .R a col k d s up, t, h => by
    simp only [Ctx.plug, Ctx.total]
    rw [plug_bheight up _ (by simpa [Tree.bheight, h.1] using h.2.2)]
    simp [Tree.bheight, h.1]

theorem plug_colors_ok : ∀ (c : Ctx) (t : Tree),
    (c.plug t).ColorsOK ↔ t.ColorsOK ∧ c.ColorsOK
  | .top, t => by simp [Ctx.plug, Ctx.ColorsOK]
  | .L a col k d s up, t => by
    simp only [Ctx.plug, plug_colors_ok up, Tree.ColorsOK, Ctx.ColorsOK]; tauto
  | .R a col k d s up, t => by
    simp only [Ctx.plug, plug_colors_ok up, Tree.ColorsOK, Ctx.ColorsOK]; tauto

theorem plug_red_ok : ∀ (c : Ctx) (t : Tree),
    (c.plug t).RedOK ↔
      t.RedOK ∧ c.RedOK ∧ (c.color = RB_NODE_COLOR_RED → t.color ≠ RB_NODE_COLOR_RED)
  | .top, t => by simp [Ctx.plug, Ctx.RedOK, Ctx.color]
  | .L a col k d s up, t => by
    simp only [Ctx.plug, plug_red_ok up, Tree.RedOK, Ctx.RedOK, Tree.color, Ctx.color]; tauto
  | .R a col k d s up, t => by
    simp only [Ctx.plug, plug_red_ok up, Tree.RedOK, Ctx.RedOK, Tree.color, Ctx.color]; tauto

theorem plug_color : ∀ (c : Ctx) (t : Tree), (c.plug t).color = c.rootColor t.color
  | .top, t => rfl
  | .L a col k d s up, t => (plug_color up (.node a col t k d s)).trans rfl
  | .R a col k d s up, t => (plug_color up (.node a col s k d t)).trans rfl

theorem plug_to_list : ∀ (c : Ctx) (t : Tree),
    (c.plug t).toList = c.before ++ t.toList ++ c.after
  | .top, t => by simp [Ctx.plug, Ctx.before, Ctx.after]
  | .L a col k d s up, t => by
    simp [Ctx.plug, plug_to_list up, Ctx.before, Ctx.after, Tree.toList]
  | .R a col k d s up, t => by
    simp [Ctx.plug, plug_to_list up, Ctx.before, Ctx.after, Tree.toList]

/-- Colours of explicit trees and contexts. -/
theorem colS :
    (Tree.leaf.color = RB_NODE_COLOR_BLACK) ∧
    (∀ (a : Ptr) (c : rb_node_color) (l : Tree) (k : Nat) (d : Ptr) (r : Tree),
      (Tree.node a c l k d r).color = c) ∧
    (Ctx.top.color = RB_NODE_COLOR_BLACK) ∧
    (∀ (a : Ptr) (c : rb_node_color) (k : Nat) (d : Ptr) (s : Tree) (up : Ctx),
      (Ctx.L a c k d s up).color = c) ∧
    (∀ (a : Ptr) (c : rb_node_color) (k : Nat) (d : Ptr) (s : Tree) (up : Ctx),
      (Ctx.R a c k d s up).color = c) ∧
    (black_weight RB_NODE_COLOR_RED = 0) ∧
    (black_weight RB_NODE_COLOR_BLACK = 1) ∧
    (black_weight RB_NODE_COLOR_UNDEFINED = 0) :=
  ⟨rfl, fun _ _ _ _ _ _ => rfl, rfl, fun _ _ _ _ _ _ => rfl, fun _ _ _ _ _ _ => rfl, rfl, rfl,
    rfl⟩

theorem ins_post_plug {c : Ctx} {t : Tree} (hp : InsPre c t)
    (hc : c.color = RB_NODE_COLOR_RED → t.color ≠ RB_NODE_COLOR_RED) :
    InsPost (c.total t.bheight) (c.plug t).toList (c.plug t).addrs (c.plug t) :=
  ⟨(plug_colors_ok c t).mpr ⟨hp.t_colors, hp.c_colors⟩,
    (plug_red_ok c t).mpr ⟨hp.t_red_ok, hp.c_red_ok, hc⟩,
    (plug_bal_ok c t).mpr ⟨hp.t_bal, hp.c_bal⟩, plug_bheight c t hp.c_bal, rfl, List.Perm.refl _⟩

theorem ins_post_sub {up : Ctx} {sub sub0 : Tree} {bh : Nat}
    (hc : sub.ColorsOK) (hr : sub.RedOK) (hb : sub.BalOK) (huc : up.ColorsOK) (hur : up.RedOK)
    (hub : up.BalOK sub.bheight) (hbh : up.total sub.bheight = bh)
    (hcol : up.color = RB_NODE_COLOR_RED → sub.color ≠ RB_NODE_COLOR_RED)
    (hl : sub.toList = sub0.toList) (ha : sub.addrs.Perm sub0.addrs) :
    InsPost bh (up.plug sub0).toList (up.plug sub0).addrs (up.plug sub) :=
  ⟨(plug_colors_ok up sub).mpr ⟨hc, huc⟩, (plug_red_ok up sub).mpr ⟨hr, hur, hcol⟩,
    (plug_bal_ok up sub).mpr ⟨hb, hub⟩, (plug_bheight up sub hub).trans hbh,
    by rw [plug_to_list, plug_to_list, hl],
    (addrs_plug_perm up sub).trans (((List.Perm.refl _).append ha).trans
      (addrs_plug_perm up sub0).symm)⟩


theorem ins_fix_step_LL {up : Ctx} {p g z : Ptr} {cp cg : rb_node_color} {kp kg zk : Nat}
    {dp dg zd : Ptr} {s u zl zr : Tree}
    (ih : ∀ (c : Ctx) (z : Ptr) (zl : Tree) (zk : Nat) (zd : Ptr) (zr : Tree),
      c.depth ≤ up.depth → InsPre c (.node z RB_NODE_COLOR_RED zl zk zd zr) →
      ∃ T, ins_fix c (.node z RB_NODE_COLOR_RED zl zk zd zr) = some T ∧
        InsPost (c.total (Tree.node z RB_NODE_COLOR_RED zl zk zd zr).bheight)
          (c.plug (.node z RB_NODE_COLOR_RED zl zk zd zr)).toList
          (c.plug (.node z RB_NODE_COLOR_RED zl zk zd zr)).addrs T)
    (hp : InsPre (.L p cp kp dp s (.L g cg kg dg u up)) (.node z RB_NODE_COLOR_RED zl zk zd zr)) :
    ∃ T, ins_fix (.L p cp kp dp s (.L g cg kg dg u up)) (.node z RB_NODE_COLOR_RED zl zk zd zr)
        = some T ∧
      InsPost ((Ctx.L p cp kp dp s (.L g cg kg dg u up)).total
          (Tree.node z RB_NODE_COLOR_RED zl zk zd zr).bheight)
        ((Ctx.L p cp kp dp s (.L g cg kg dg u up)).plug
          (.node z RB_NODE_COLOR_RED zl zk zd zr)).toList
        ((Ctx.L p cp kp dp s (.L g cg kg dg u up)).plug
          (.node z RB_NODE_COLOR_RED zl zk zd zr)).addrs T := by
  by_cases hcp : cp = RB_NODE_COLOR_RED
  · subst hcp
    obtain ⟨⟨-, a1, a2⟩, ⟨b0, b1, b2⟩, ⟨c0, c1, c2⟩, ⟨-, d1, d0, d2, d3⟩,
      ⟨e0, e1, e2, e3, e4⟩, ⟨f0, f1, f2, f3, f4⟩, hroot⟩ := hp
    simp only [colS, Tree.bheight, Nat.add_zero, ne_eq, true_implies, Ctx.rootColor]
      at b0 c0 e0 e2 f0 f2 f4 hroot
    have hcg : cg = RB_NODE_COLOR_BLACK := by tauto
    subst hcg
    simp only [colS] at f4
    by_cases hu : u.color = RB_NODE_COLOR_RED
    · cases u with
      | leaf => simp [colS] at hu
      | node y cy ul uk ud ur =>
        simp only [colS] at hu
        subst hu
        simp only [ins_fix, if_true]
        obtain ⟨-, d4, d5⟩ := d2
        obtain ⟨e5, e6, e7⟩ := e3
        obtain ⟨f5, f6, f7⟩ := f3
        simp only [colS, Tree.bheight, Nat.add_zero, ne_eq, true_implies] at e5 f2
        obtain ⟨T, hT, q1, q2, q3, q4, q5, q6⟩ := ih up g
          (.node p RB_NODE_COLOR_BLACK (.node z RB_NODE_COLOR_RED zl zk zd zr) kp dp s) kg dg
          (.node y RB_NODE_COLOR_BLACK ul uk ud ur) (le_refl _)
          ⟨by simp only [Tree.ColorsOK]; tauto,
            by simp only [Tree.RedOK, colS]; simp; tauto,
            by simp only [Tree.BalOK, Tree.bheight, colS]
               refine ⟨?_, ⟨?_, ?_, ?_⟩, ?_, ?_, ?_⟩ <;>
                 first | assumption | omega | exact ⟨c0, c1, c2⟩,
            d3, e4,
            by simp only [Tree.bheight, colS]
               convert f4 using 1 <;> omega,
            hroot⟩
        refine ⟨T, hT, q1, q2, q3, q4.trans ?_, q5.trans ?_, q6.trans ?_⟩
        · simp only [Tree.bheight, colS, Ctx.total] <;> congr 1 <;> omega
        · simp [plug_to_list, Tree.toList, Ctx.before, Ctx.after]
        · exact (addrs_plug_perm _ _).trans ((list_perm_of_count fun a => by
            simp [Tree.addrs, Ctx.addrs, List.count_cons]; try omega).trans
            (addrs_plug_perm _ _).symm)
    · have hT : ins_fix (.L p RB_NODE_COLOR_RED kp dp s (.L g RB_NODE_COLOR_BLACK kg dg u up))
          (.node z RB_NODE_COLOR_RED zl zk zd zr) = some (up.plug (.node p RB_NODE_COLOR_BLACK (.node z RB_NODE_COLOR_RED zl zk zd zr) kp dp (.node g RB_NODE_COLOR_RED s kg dg u))) := by
        cases u with
        | leaf => simp [ins_fix]
        | node y cy ul uk ud ur =>
          cases cy <;> simp [colS] at hu <;> simp [ins_fix]
      refine ⟨_, hT, ?_⟩
      show InsPost _ (up.plug (.node g RB_NODE_COLOR_BLACK (.node p RB_NODE_COLOR_RED (.node z RB_NODE_COLOR_RED zl zk zd zr) kp dp s) kg dg u)).toList
        (up.plug (.node g RB_NODE_COLOR_BLACK (.node p RB_NODE_COLOR_RED (.node z RB_NODE_COLOR_RED zl zk zd zr) kp dp s) kg dg u)).addrs _
      refine ins_post_sub ?_ ?_ ?_ d3 e4 ?_ ?_ ?_ ?_ ?_
      · simp only [Tree.ColorsOK]; tauto
      · simp only [Tree.RedOK, colS]; simp; tauto
      · simp only [Tree.BalOK, Tree.bheight, colS]
        refine ⟨?_, ⟨?_, ?_, ?_⟩, ?_, ?_, ?_⟩ <;> first | assumption | omega
      · simp only [Tree.bheight, colS]
        convert f4 using 1 <;> omega
      · simp only [Tree.bheight, colS, Ctx.total] <;> congr 1 <;> omega
      · simp [colS]
      · simp [Tree.toList]
      · exact list_perm_of_count fun a => by
          simp [Tree.addrs, List.count_cons]; try omega
  · exact ⟨_, by simp [ins_fix, hcp],
      ins_post_plug hp (fun h => absurd (by simpa [Ctx.color] using h) hcp)⟩

theorem ins_fix_step_LR {up : Ctx} {p g z : Ptr} {cp cg : rb_node_color} {kp kg zk : Nat}
    {dp dg zd : Ptr} {s u zl zr : Tree}
    (ih : ∀ (c : Ctx) (z : Ptr) (zl : Tree) (zk : Nat) (zd : Ptr) (zr : Tree),
      c.depth ≤ up.depth → InsPre c (.node z RB_NODE_COLOR_RED zl zk zd zr) →
      ∃ T, ins_fix c (.node z RB_NODE_COLOR_RED zl zk zd zr) = some T ∧
        InsPost (c.total (Tree.node z RB_NODE_COLOR_RED zl zk zd zr).bheight)
          (c.plug (.node z RB_NODE_COLOR_RED zl zk zd zr)).toList
          (c.plug (.node z RB_NODE_COLOR_RED zl zk zd zr)).addrs T)
    (hp : InsPre (.L p cp kp dp s (.R g cg kg dg u up)) (.node z RB_NODE_COLOR_RED zl zk zd zr)) :
    ∃ T, ins_fix (.L p cp kp dp s (.R g cg kg dg u up)) (.node z RB_NODE_COLOR_RED zl zk zd zr)
        = some T ∧
      InsPost ((Ctx.L p cp kp dp s (.R g cg kg dg u up)).total
          (Tree.node z RB_NODE_COLOR_RED zl zk zd zr).bheight)
        ((Ctx.L p cp kp dp s (.R g cg kg dg u up)).plug
          (.node z RB_NODE_COLOR_RED zl zk zd zr)).toList
        ((Ctx.L p cp kp dp s (.R g cg kg dg u up)).plug
          (.node z RB_NODE_COLOR_RED zl zk zd zr)).addrs T := by
  by_cases hcp : cp = RB_NODE_COLOR_RED
  · subst hcp
    obtain ⟨⟨-, a1, a2⟩, ⟨b0, b1, b2⟩, ⟨c0, c1, c2⟩, ⟨-, d1, d0, d2, d3⟩,
      ⟨e0, e1, e2, e3, e4⟩, ⟨f0, f1, f2, f3, f4⟩, hroot⟩ := hp
    simp only [colS, Tree.bheight, Nat.add_zero, ne_eq, true_implies, Ctx.rootColor]
      at b0 c0 e0 e2 f0 f2 f4 hroot
    have hcg : cg = RB_NODE_COLOR_BLACK := by tauto
    subst hcg
    simp only [colS] at f4
    by_cases hu : u.color = RB_NODE_COLOR_RED
    · cases u with
      | leaf => simp [colS] at hu
      | node y cy ul uk ud ur =>
        simp only [colS] at hu
        subst hu
        simp only [ins_fix, if_true]
        obtain ⟨-, d4, d5⟩ := d2
        obtain ⟨e5, e6, e7⟩ := e3
        obtain ⟨f5, f6, f7⟩ := f3
        simp only [colS, Tree.bheight, Nat.add_zero, ne_eq, true_implies] at e5 f2
        obtain ⟨T, hT, q1, q2, q3, q4, q5, q6⟩ := ih up g
          (.node y RB_NODE_COLOR_BLACK ul uk ud ur) kg dg
          (.node p RB_NODE_COLOR_BLACK (.node z RB_NODE_COLOR_RED zl zk zd zr) kp dp s) (le_refl _)
          ⟨by simp only [Tree.ColorsOK]; tauto,
            by simp only [Tree.RedOK, colS]; simp; tauto,
            by simp only [Tree.BalOK, Tree.bheight, colS]
               refine ⟨?_, ⟨?_, ?_, ?_⟩, ?_, ?_, ?_⟩ <;>
                 first | assumption | omega | exact ⟨c0, c1, c2⟩,
            d3, e4,
            by simp only [Tree.bheight, colS]
               convert f4 using 1 <;> omega,
            hroot⟩
        refine ⟨T, hT, q1, q2, q3, q4.trans ?_, q5.trans ?_, q6.trans ?_⟩
        · simp only [Tree.bheight, colS, Ctx.total] <;> congr 1 <;> omega
        · simp [plug_to_list, Tree.toList, Ctx.before, Ctx.after]
        · exact (addrs_plug_perm _ _).trans ((list_perm_of_count fun a => by
            simp [Tree.addrs, Ctx.addrs, List.count_cons]; try omega).trans
            (addrs_plug_perm _ _).symm)
    · have hT : ins_fix (.L p RB_NODE_COLOR_RED kp dp s (.R g RB_NODE_COLOR_BLACK kg dg u up))
          (.node z RB_NODE_COLOR_RED zl zk zd zr) = some (up.plug (.node z RB_NODE_COLOR_BLACK (.node g RB_NODE_COLOR_RED u kg dg zl) zk zd (.node p RB_NODE_COLOR_RED zr kp dp s))) := by
        cases u with
        | leaf => simp [ins_fix]
        | node y cy ul uk ud ur =>
          cases cy <;> simp [colS] at hu <;> simp [ins_fix]
      refine ⟨_, hT, ?_⟩
      show InsPost _ (up.plug (.node g RB_NODE_COLOR_BLACK u kg dg (.node p RB_NODE_COLOR_RED (.node z RB_NODE_COLOR_RED zl zk zd zr) kp dp s))).toList
        (up.plug (.node g RB_NODE_COLOR_BLACK u kg dg (.node p RB_NODE_COLOR_RED (.node z RB_NODE_COLOR_RED zl zk zd zr) kp dp s))).addrs _
      refine ins_post_sub ?_ ?_ ?_ d3 e4 ?_ ?_ ?_ ?_ ?_
      · simp only [Tree.ColorsOK]; tauto
      · simp only [Tree.RedOK, colS]; simp; tauto
      · simp only [Tree.BalOK, Tree.bheight, colS]
        refine ⟨?_, ⟨?_, ?_, ?_⟩, ?_, ?_, ?_⟩ <;> first | assumption | omega
      · simp only [Tree.bheight, colS]
        convert f4 using 1 <;> omega
      · simp only [Tree.bheight, colS, Ctx.total] <;> congr 1 <;> omega
      · simp [colS]
      · simp [Tree.toList]
      · exact list_perm_of_count fun a => by
          simp [Tree.addrs, List.count_cons]; try omega
  · exact ⟨_, by simp [ins_fix, hcp],
      ins_post_plug hp (fun h => absurd (by simpa [Ctx.color] using h) hcp)⟩

theorem ins_fix_step_RL {up : Ctx} {p g z : Ptr} {cp cg : rb_node_color} {kp kg zk : Nat}
    {dp dg zd : Ptr} {s u zl zr : Tree}
    (ih : ∀ (c : Ctx) (z : Ptr) (zl : Tree) (zk : Nat) (zd : Ptr) (zr : Tree),
      c.depth ≤ up.depth → InsPre c (.node z RB_NODE_COLOR_RED zl zk zd zr) →
      ∃ T, ins_fix c (.node z RB_NODE_COLOR_RED zl zk zd zr) = some T ∧
        InsPost (c.total (Tree.node z RB_NODE_COLOR_RED zl zk zd zr).bheight)
          (c.plug (.node z RB_NODE_COLOR_RED zl zk zd zr)).toList
          (c.plug (.node z RB_NODE_COLOR_RED zl zk zd zr)).addrs T)
    (hp : InsPre (.R p cp kp dp s (.L g cg kg dg u up)) (.node z RB_NODE_COLOR_RED zl zk zd zr)) :
    ∃ T, ins_fix (.R p cp kp dp s (.L g cg kg dg u up)) (.node z RB_NODE_COLOR_RED zl zk zd zr)
        = some T ∧
      InsPost ((Ctx.R p cp kp dp s (.L g cg kg dg u up)).total
          (Tree.node z RB_NODE_COLOR_RED zl zk zd zr).bheight)
        ((Ctx.R p cp kp dp s (.L g cg kg dg u up)).plug
          (.node z RB_NODE_COLOR_RED zl zk zd zr)).toList
        ((Ctx.R p cp kp dp s (.L g cg kg dg u up)).plug
          (.node z RB_NODE_COLOR_RED zl zk zd zr)).addrs T := by
  by_cases hcp : cp = RB_NODE_COLOR_RED
  · subst hcp
    obtain ⟨⟨-, a1, a2⟩, ⟨b0, b1, b2⟩, ⟨c0, c1, c2⟩, ⟨-, d1, d0, d2, d3⟩,
      ⟨e0, e1, e2, e3, e4⟩, ⟨f0, f1, f2, f3, f4⟩, hroot⟩ := hp
    simp only [colS, Tree.bheight, Nat.add_zero, ne_eq, true_implies, Ctx.rootColor]
      at b0 c0 e0 e2 f0 f2 f4 hroot
    have hcg : cg = RB_NODE_COLOR_BLACK := by tauto
    subst hcg
    simp only [colS] at f4
    by_cases hu : u.color = RB_NODE_COLOR_RED
    · cases u with
      | leaf => simp [colS] at hu
      | node y cy ul uk ud ur =>
        simp only [colS] at hu
        subst hu
        simp only [ins_fix, if_true]
        obtain ⟨-, d4, d5⟩ := d2
        obtain ⟨e5, e6, e7⟩ := e3
        obtain ⟨f5, f6, f7⟩ := f3
        simp only [colS, Tree.bheight, Nat.add_zero, ne_eq, true_implies] at e5 f2
        obtain ⟨T, hT, q1, q2, q3, q4, q5, q6⟩ := ih up g
          (.node p RB_NODE_COLOR_BLACK s kp dp (.node z RB_NODE_COLOR_RED zl zk zd zr)) kg dg
          (.node y RB_NODE_COLOR_BLACK ul uk ud ur) (le_refl _)
          ⟨by simp only [Tree.ColorsOK]; tauto,
            by simp only [Tree.RedOK, colS]; simp; tauto,
            by simp only [Tree.BalOK, Tree.bheight, colS]
               refine ⟨?_, ⟨?_, ?_, ?_⟩, ?_, ?_, ?_⟩ <;>
                 first | assumption | omega | exact ⟨c0, c1, c2⟩,
            d3, e4,
            by simp only [Tree.bheight, colS]
               convert f4 using 1 <;> omega,
            hroot⟩
        refine ⟨T, hT, q1, q2, q3, q4.trans ?_, q5.trans ?_, q6.trans ?_⟩
        · simp only [Tree.bheight, colS, Ctx.total] <;> congr 1 <;> omega
        · simp [plug_to_list, Tree.toList, Ctx.before, Ctx.after]
        · exact (addrs_plug_perm _ _).trans ((list_perm_of_count fun a => by
            simp [Tree.addrs, Ctx.addrs, List.count_cons]; try omega).trans
            (addrs_plug_perm _ _).symm)
    · have hT : ins_fix (.R p RB_NODE_COLOR_RED kp dp s (.L g RB_NODE_COLOR_BLACK kg dg u up))
          (.node z RB_NODE_COLOR_RED zl zk zd zr) = some (up.plug (.node z RB_NODE_COLOR_BLACK (.node p RB_NODE_COLOR_RED s kp dp zl) zk zd (.node g RB_NODE_COLOR_RED zr kg dg u))) := by
        cases u with
        | leaf => simp [ins_fix]
        | node y cy ul uk ud ur =>
          cases cy <;> simp [colS] at hu <;> simp [ins_fix]
      refine ⟨_, hT, ?_⟩
      show InsPost _ (up.plug (.node g RB_NODE_COLOR_BLACK (.node p RB_NODE_COLOR_RED s kp dp (.node z RB_NODE_COLOR_RED zl zk zd zr)) kg dg u)).toList
        (up.plug (.node g RB_NODE_COLOR_BLACK (.node p RB_NODE_COLOR_RED s kp dp (.node z RB_NODE_COLOR_RED zl zk zd zr)) kg dg u)).addrs _
      refine ins_post_sub ?_ ?_ ?_ d3 e4 ?_ ?_ ?_ ?_ ?_
      · simp only [Tree.ColorsOK]; tauto
      · simp only [Tree.RedOK, colS]; simp; tauto
      · simp only [Tree.BalOK, Tree.bheight, colS]
        refine ⟨?_, ⟨?_, ?_, ?_⟩, ?_, ?_, ?_⟩ <;> first | assumption | omega
      · simp only [Tree.bheight, colS]
        convert f4 using 1 <;> omega
      · simp only [Tree.bheight, colS, Ctx.total] <;> congr 1 <;> omega
      · simp [colS]
      · simp [Tree.toList]
      · exact list_perm_of_count fun a => by
          simp [Tree.addrs, List.count_cons]; try omega
  · exact ⟨_, by simp [ins_fix, hcp],
      ins_post_plug hp (fun h => absurd (by simpa [Ctx.color] using h) hcp)⟩

theorem ins_fix_step_RR {up : Ctx} {p g z : Ptr} {cp cg : rb_node_color} {kp kg zk : Nat}
    {dp dg zd : Ptr} {s u zl zr : Tree}
    (ih : ∀ (c : Ctx) (z : Ptr) (zl : Tree) (zk : Nat) (zd : Ptr) (zr : Tree),
      c.depth ≤ up.depth → InsPre c (.node z RB_NODE_COLOR_RED zl zk zd zr) →
      ∃ T, ins_fix c (.node z RB_NODE_COLOR_RED zl zk zd zr) = some T ∧
        InsPost (c.total (Tree.node z RB_NODE_COLOR_RED zl zk zd zr).bheight)
          (c.plug (.node z RB_NODE_COLOR_RED zl zk zd zr)).toList
          (c.plug (.node z RB_NODE_COLOR_RED zl zk zd zr)).addrs T)
    (hp : InsPre (.R p cp kp dp s (.R g cg kg dg u up)) (.node z RB_NODE_COLOR_RED zl zk zd zr)) :
    ∃ T, ins_fix (.R p cp kp dp s (.R g cg kg dg u up)) (.node z RB_NODE_COLOR_RED zl zk zd zr)
        = some T ∧
      InsPost ((Ctx.R p cp kp dp s (.R g cg kg dg u up)).total
          (Tree.node z RB_NODE_COLOR_RED zl zk zd zr).bheight)
        ((Ctx.R p cp kp dp s (.R g cg kg dg u up)).plug
          (.node z RB_NODE_COLOR_RED zl zk zd zr)).toList
        ((Ctx.R p cp kp dp s (.R g cg kg dg u up)).plug
          (.node z RB_NODE_COLOR_RED zl zk zd zr)).addrs T := by
  by_cases hcp : cp = RB_NODE_COLOR_RED
  · subst hcp
    obtain ⟨⟨-, a1, a2⟩, ⟨b0, b1, b2⟩, ⟨c0, c1, c2⟩, ⟨-, d1, d0, d2, d3⟩,
      ⟨e0, e1, e2, e3, e4⟩, ⟨f0, f1, f2, f3, f4⟩, hroot⟩ := hp
    simp only [colS, Tree.bheight, Nat.add_zero, ne_eq, true_implies, Ctx.rootColor]
      at b0 c0 e0 e2 f0 f2 f4 hroot
    have hcg : cg = RB_NODE_COLOR_BLACK := by tauto
    subst hcg
    simp only [colS] at f4
    by_cases hu : u.color = RB_NODE_COLOR_RED
    · cases u with
      | leaf => simp [colS] at hu
      | node y cy ul uk ud ur =>
        simp only [colS] at hu
        subst hu
        simp only [ins_fix, if_true]
        obtain ⟨-, d4, d5⟩ := d2
        obtain ⟨e5, e6, e7⟩ := e3
        obtain ⟨f5, f6, f7⟩ := f3
        simp only [colS, Tree.bheight, Nat.add_zero, ne_eq, true_implies] at e5 f2
        obtain ⟨T, hT, q1, q2, q3, q4, q5, q6⟩ := ih up g
          (.node y RB_NODE_COLOR_BLACK ul uk ud ur) kg dg
          (.node p RB_NODE_COLOR_BLACK s kp dp (.node z RB_NODE_COLOR_RED zl zk zd zr)) (le_refl _)
          ⟨by simp only [Tree.ColorsOK]; tauto,
            by simp only [Tree.RedOK, colS]; simp; tauto,
            by simp only [Tree.BalOK, Tree.bheight, colS]
               refine ⟨?_, ⟨?_, ?_, ?_⟩, ?_, ?_, ?_⟩ <;>
                 first | assumption | omega | exact ⟨c0, c1, c2⟩,
            d3, e4,
            by simp only [Tree.bheight, colS]
               convert f4 using 1 <;> omega,
            hroot⟩
        refine ⟨T, hT, q1, q2, q3, q4.trans ?_, q5.trans ?_, q6.trans ?_⟩
        · simp only [Tree.bheight, colS, Ctx.total] <;> congr 1 <;> omega
        · simp [plug_to_list, Tree.toList, Ctx.before, Ctx.after]
        · exact (addrs_plug_perm _ _).trans ((list_perm_of_count fun a => by
            simp [Tree.addrs, Ctx.addrs, List.count_cons]; try omega).trans
            (addrs_plug_perm _ _).symm)
    · have hT : ins_fix (.R p RB_NODE_COLOR_RED kp dp s (.R g RB_NODE_COLOR_BLACK kg dg u up))
          (.node z RB_NODE_COLOR_RED zl zk zd zr) = some (up.plug (.node p RB_NODE_COLOR_BLACK (.node g RB_NODE_COLOR_RED u kg dg s) kp dp (.node z RB_NODE_COLOR_RED zl zk zd zr))) := by
        cases u with
        | leaf => simp [ins_fix]
        | node y cy ul uk ud ur =>
          cases cy <;> simp [colS] at hu <;> simp [ins_fix]
      refine ⟨_, hT, ?_⟩
      show InsPost _ (up.plug (.node g RB_NODE_COLOR_BLACK u kg dg (.node p RB_NODE_COLOR_RED s kp dp (.node z RB_NODE_COLOR_RED zl zk zd zr)))).toList
        (up.plug (.node g RB_NODE_COLOR_BLACK u kg dg (.node p RB_NODE_COLOR_RED s kp dp (.node z RB_NODE_COLOR_RED zl zk zd zr)))).addrs _
      refine ins_post_sub ?_ ?_ ?_ d3 e4 ?_ ?_ ?_ ?_ ?_
      · simp only [Tree.ColorsOK]; tauto
      · simp only [Tree.RedOK, colS]; simp; tauto
      · simp only [Tree.BalOK, Tree.bheight, colS]
        refine ⟨?_, ⟨?_, ?_, ?_⟩, ?_, ?_, ?_⟩ <;> first | assumption | omega
      · simp only [Tree.bheight, colS]
        convert f4 using 1 <;> omega
      · simp only [Tree.bheight, colS, Ctx.total] <;> congr 1 <;> omega
      · simp [colS]
      · simp [Tree.toList]
      · exact list_perm_of_count fun a => by
          simp [Tree.addrs, List.count_cons]; try omega
  · exact ⟨_, by simp [ins_fix, hcp],
      ins_post_plug hp (fun h => absurd (by simpa [Ctx.color] using h) hcp)⟩

/-- `ins_fix` keeps the invariants: started at a Red node whose subtree and
context satisfy them, it returns a tree that satisfies them, root colour apart,
with the same black count, in-order sequence and nodes. -/
theorem ins_fix_spec : ∀ (n : Nat) (c : Ctx) (z : Ptr) (zl : Tree) (zk : Nat) (zd : Ptr)
    (zr : Tree), c.depth ≤ n → InsPre c (.node z RB_NODE_COLOR_RED zl zk zd zr) →
    ∃ T, ins_fix c (.node z RB_NODE_COLOR_RED zl zk zd zr) = some T ∧
      InsPost (c.total (Tree.node z RB_NODE_COLOR_RED zl zk zd zr).bheight)
        (c.plug (.node z RB_NODE_COLOR_RED zl zk zd zr)).toList
        (c.plug (.node z RB_NODE_COLOR_RED zl zk zd zr)).addrs T := by
  intro n
  induction n using Nat.strong_induction_on with
  | _ n ih =>
    intro c z zl zk zd zr hd hp
    match c, hd, hp with
    | .top, hd, hp =>
      exact ⟨_, by simp [ins_fix, Ctx.plug], ins_post_plug hp (by simp [Ctx.color])⟩
    | .L p cp kp dp s .top, hd, hp =>
      have hcp : cp = RB_NODE_COLOR_BLACK := by simpa [Ctx.rootColor] using hp.root
      subst hcp
      exact ⟨_, by simp [ins_fix], ins_post_plug hp (by simp [Ctx.color])⟩
    | .R p cp kp dp s .top, hd, hp =>
      have hcp : cp = RB_NODE_COLOR_BLACK := by simpa [Ctx.rootColor] using hp.root
      subst hcp
      exact ⟨_, by simp [ins_fix], ins_post_plug hp (by simp [Ctx.color])⟩
    | .L p cp kp dp s (.L g cg kg dg u up), hd, hp =>
      exact ins_fix_step_LL (fun c' z' zl' zk' zd' zr' hd' hp' =>
        ih up.depth (by simp only [Ctx.depth] at hd; omega) c' z' zl' zk' zd' zr' hd' hp') hp
    | .L p cp kp dp s (.R g cg kg dg u up), hd, hp =>
      exact ins_fix_step_LR (fun c' z' zl' zk' zd' zr' hd' hp' =>
        ih up.depth (by simp only [Ctx.depth] at hd; omega) c' z' zl' zk' zd' zr' hd' hp') hp
    | .R p cp kp dp s (.L g cg kg dg u up), hd, hp =>
      exact ins_fix_step_RL (fun c' z' zl' zk' zd' zr' hd' hp' =>
        ih up.depth (by simp only [Ctx.depth] at hd; omega) c' z' zl' zk' zd' zr' hd' hp') hp
    | .R p cp kp dp s (.R g cg kg dg u up), hd, hp =>
      exact ins_fix_step_RR (fun c' z' zl' zk' zd' zr' hd' hp' =>
        ih up.depth (by simp only [Ctx.depth] at hd; omega) c' z' zl' zk' zd' zr' hd' hp') hp

end RedBlack


namespace RedBlack
open Tree Ctx

/-! ## `Tree.insert` keeps the invariants -/

theorem blacken_colors_ok {T : Tree} (h : T.ColorsOK) : T.blacken.ColorsOK := by
  cases T with
  | leaf => trivial
  | node a c l k d r => exact ⟨Or.inr rfl, h.2.1, h.2.2⟩

theorem blacken_red_ok {T : Tree} (h : T.RedOK) : T.blacken.RedOK := by
  cases T with
  | leaf => trivial
  | node a c l k d r => exact ⟨(fun e => by cases e), h.2.1, h.2.2⟩

theorem blacken_bal_ok {T : Tree} (h : T.BalOK) : T.blacken.BalOK := by
  cases T with
  | leaf => trivial
  | node a c l k d r => exact h

theorem blacken_color (T : Tree) : T.blacken.color = RB_NODE_COLOR_BLACK := by
  cases T <;> rfl

theorem blacken_to_list (T : Tree) : T.blacken.toList = T.toList := by
  cases T <;> rfl

theorem blacken_addrs (T : Tree) : T.blacken.addrs = T.addrs := by
  cases T <;> rfl

theorem blacken_bheight {T : Tree} (h : T.ColorsOK) :
    T.blacken.bheight = T.bheight + (if T.color = RB_NODE_COLOR_RED then 1 else 0) := by
  cases T with
  | leaf => simp [Tree.blacken, Tree.bheight, colS]
  | node a c l k d r =>
    rcases h.1 with rfl | rfl <;> simp [Tree.blacken, Tree.bheight, colS]

theorem rbshape_bal {t : Tree} (h : t.RBShape) : t.BalOK := by
  obtain ⟨n, hn⟩ := h.balanced
  exact ((balanced_iff t n).mp hn).1

theorem balanced_bheight {t : Tree} (h : t.BalOK) : t.Balanced t.bheight :=
  (balanced_iff t _).mpr ⟨h, rfl⟩

theorem balanced_eq_bheight {t : Tree} {n : Nat} (h : t.Balanced n) : n = t.bheight :=
  ((balanced_iff t n).mp h).2.symm

/-- In a balanced tree the black count is logarithmic in the number of nodes. -/
theorem two_pow_bheight_le : ∀ {t : Tree}, t.BalOK → 2 ^ t.bheight ≤ t.addrs.length + 1
  | .leaf, _ => by simp [Tree.bheight, Tree.addrs]
  | .node a c l k d r, ⟨h1, h2, h3⟩ => by
    have hl := two_pow_bheight_le h2
    have hr := two_pow_bheight_le h3
    rw [← h1] at hr
    have hw : black_weight c ≤ 1 := by unfold black_weight; split <;> omega
    have : 2 ^ (l.bheight + black_weight c) ≤ 2 ^ (l.bheight + 1) :=
      Nat.pow_le_pow_right (by omega) (by omega)
    simp only [Tree.bheight, Tree.addrs, List.length_append, List.length_cons]
    rw [pow_succ] at this
    omega

theorem nodup_length_le {l : List Ptr} {N : Nat} (hn : l.Nodup) (hb : ∀ a ∈ l, a < N) :
    l.length ≤ N := by
  have h1 : l.toFinset ⊆ Finset.range N := fun a ha => by
    simpa using hb a (List.mem_toFinset.mp ha)
  have h2 := Finset.card_le_card h1
  rwa [List.toFinset_card_of_nodup hn, Finset.card_range] at h2

/-- The black count of a tree that fits in the address space stays far below the
range of `size_t`. -/
theorem bheight_lt_of_represents {h : Heap} {tree : rb_tree} {t : Tree}
    (hr : Represents h tree t) (hb : t.BalOK) : t.bheight + 1 < SIZE_MOD := by
  have hnd : t.addrs.Nodup := by simpa [Ctx.addrs] using hr.focus.sep.nodup
  have hlen := nodup_length_le hnd (fun a ha => lt_of_lt_of_le (hr.bound a ha)
    (le_trans hr.next_le hr.cap_le))
  have hp := two_pow_bheight_le hb
  have h65 : t.bheight < 65 := by
    by_contra hge
    have : 2 ^ 65 ≤ 2 ^ t.bheight := Nat.pow_le_pow_right (by omega) (by omega)
    unfold SIZE_MOD at hlen
    omega
  unfold SIZE_MOD
  omega

/-- The invariants of a tree, read off at a position in it. -/
theorem ins_pre_of_shape {c : Ctx} {z : Ptr} {key : Nat} {data : Ptr}
    (hs : (c.plug .leaf).RBShape) :
    InsPre c (.node z RB_NODE_COLOR_RED .leaf key data .leaf) := by
  obtain ⟨h1, h2, h3, h4⟩ := hs
  have hb := rbshape_bal ⟨h1, h2, h3, h4⟩
  refine ⟨?_, ?_, ?_, ((plug_colors_ok c _).mp h1).2, ((plug_red_ok c _).mp h3).2.1, ?_, ?_⟩
  · simp [Tree.ColorsOK]
  · simp [Tree.RedOK, colS]
  · simp [Tree.BalOK]
  · simpa [Tree.bheight, colS] using ((plug_bal_ok c _).mp hb).2
  · rw [plug_color] at h2; exact h2

theorem ordered_iff (t : Tree) : t.Ordered ↔ t.toList.Pairwise (fun x y => x.1 < y.1) := by
  simp [Tree.Ordered, Tree.keys, List.Sorted, List.pairwise_map]

theorem pairwise_node {a : Ptr} {col : rb_node_color} {l r : Tree} {k : Nat} {d : Ptr}
    {pre post : List (Nat × Ptr)}
    (h : (pre ++ (Tree.node a col l k d r).toList ++ post).Pairwise (fun x y => x.1 < y.1)) :
    (∀ x ∈ l.toList, x.1 < k) ∧ (∀ x ∈ r.toList, k < x.1) ∧ (∀ x ∈ pre, x.1 < k) ∧
      (∀ x ∈ post, k < x.1) := by
  simp only [Tree.toList, List.pairwise_append, List.pairwise_cons, List.mem_append,
    List.mem_cons] at h
  obtain ⟨⟨h1, ⟨h2, ⟨h3, h4⟩, h5⟩, h6⟩, h7, h8⟩ := h
  refine ⟨fun x hx => h5 x hx _ (Or.inl rfl), h3, fun x hx => h6 x hx _ (Or.inr (Or.inl rfl)),
    fun x hx => h8 _ (Or.inr (Or.inr (Or.inl rfl))) x hx⟩

theorem locate_bounds (key : Nat) : ∀ (t : Tree) (c : Ctx),
    (c.plug t).toList.Pairwise (fun x y => x.1 < y.1) →
    (∀ x ∈ c.before, x.1 < key) → (∀ x ∈ c.after, key < x.1) →
    (∀ x ∈ (t.locate key c).1.before, x.1 < key) ∧ (∀ x ∈ (t.locate key c).1.after, key < x.1)
  | .leaf, c, _, hb, ha => ⟨hb, ha⟩
  | .node a col l k d r, c, hs, hb, ha => by
    have hs' := hs
    rw [plug_to_list] at hs'
    obtain ⟨p1, p2, p3, p4⟩ := pairwise_node hs'
    unfold Tree.locate
    split_ifs with h1 h2
    · exact ⟨hb, ha⟩
    · refine locate_bounds key l (.L a col k d r c) hs hb (fun x hx => ?_)
      simp only [Ctx.after, List.cons_append, List.mem_cons, List.mem_append] at hx
      rcases hx with rfl | hx | hx
      · exact h2
      · exact lt_trans h2 (p2 x hx)
      · exact ha x hx
    · refine locate_bounds key r (.R a col k d l c) hs (fun x hx => ?_) ha
      simp only [Ctx.before, List.mem_append, List.mem_singleton] at hx
      have h3 : k < key := by omega
      rcases hx with (hx | hx) | rfl
      · exact hb x hx
      · exact lt_trans (p1 x hx) h3
      · exact h3
/-- Changing the payload of one node does not touch the shape invariants. -/
theorem rbshape_set_data {c : Ctx} {a : Ptr} {col : rb_node_color} {l r : Tree} {k : Nat}
    {d d' : Ptr} (hs : (c.plug (.node a col l k d r)).RBShape) :
    (c.plug (.node a col l k d' r)).RBShape ∧
      (c.plug (.node a col l k d' r)).bheight = (c.plug (.node a col l k d r)).bheight := by
  obtain ⟨h1, h2, h3, h4⟩ := hs
  have hb := rbshape_bal ⟨h1, h2, h3, h4⟩
  have hb' : (c.plug (.node a col l k d' r)).BalOK :=
    (plug_bal_ok c _).mpr ((plug_bal_ok c (.node a col l k d r)).mp hb)
  refine ⟨⟨(plug_colors_ok c _).mpr ((plug_colors_ok c (.node a col l k d r)).mp h1), ?_,
    (plug_red_ok c _).mpr ((plug_red_ok c (.node a col l k d r)).mp h3),
    ⟨_, balanced_bheight hb'⟩⟩, ?_⟩
  · rw [plug_color] at h2 ⊢; exact h2
  · rw [plug_bheight c _ ((plug_bal_ok c _).mp hb').2,
      plug_bheight c _ ((plug_bal_ok c _).mp hb).2]
    rfl

/-- `Tree.insert` on a tree with the shape invariants: it succeeds, the result
has the shape invariants, `bh` follows the black count, and no node but `z` is
new. -/
theorem tree_insert_shape {t : Tree} (z : Ptr) (key : Nat) (data : Ptr) (hs : t.RBShape) :
    ∃ t', t.insert z key data = some t' ∧ t'.RBShape ∧
      (t.bheight + 1 < SIZE_MOD → t.insert_bh z key data t.bheight = t'.bheight) ∧
      (∀ a ∈ t'.addrs, a = z ∨ a ∈ t.addrs) := by
  have hplug := locate_plug key t .top
  unfold Tree.insert Tree.insert_bh
  rcases hloc : t.locate key .top with ⟨c, t1⟩
  rw [hloc] at hplug
  simp only [Ctx.plug] at hplug
  subst hplug
  cases t1 with
  | node a col l k d r =>
    obtain ⟨q1, q2⟩ := @rbshape_set_data _ _ _ _ _ _ _ data hs
    rcases locate_cases key (c.plug (.node a col l k d r)) .top with h | ⟨_, _, _, _, _, h⟩
    · rw [hloc] at h; cases h
    · rw [hloc] at h
      simp only [Tree.node.injEq] at h
      obtain ⟨-, -, -, rfl, -, -⟩ := h
      refine ⟨_, rfl, q1, fun _ => q2.symm, fun b hb => Or.inr ?_⟩
      rw [(addrs_plug_perm _ _).mem_iff] at hb ⊢
      simpa [Tree.addrs] using hb
  | leaf =>
    have hpre : InsPre c (.node z RB_NODE_COLOR_RED .leaf key data .leaf) := ins_pre_of_shape hs
    obtain ⟨T, hT, p1, p2, p3, p4, p5, p6⟩ := ins_fix_spec _ c z .leaf key data .leaf (le_refl _) hpre
    have hb := rbshape_bal hs
    have hbh : (c.plug .leaf).bheight = T.bheight := by
      rw [plug_bheight c _ ((plug_bal_ok c _).mp hb).2, p4]
      simp [Tree.bheight, colS]
    refine ⟨T.blacken, by simp [hT], ⟨blacken_colors_ok p1, blacken_color T, blacken_red_ok p2,
      ⟨_, balanced_bheight (blacken_bal_ok p3)⟩⟩, fun hlt => ?_, fun b hb => ?_⟩
    · simp only [hT, bh_after_insert, blacken_bheight p1, hbh]
      split
      · rw [Nat.mod_eq_of_lt (by omega)]
      · rfl
    · rw [blacken_addrs, p6.mem_iff, (addrs_plug_perm _ _).mem_iff] at hb
      rw [(addrs_plug_perm _ _).mem_iff]
      simp only [Tree.addrs, List.mem_append, List.mem_cons, List.not_mem_nil, or_false,
        false_or, List.nil_append] at hb ⊢
      tauto

theorem represents_nil_ne {h : Heap} {tree : rb_tree} {t : Tree} (hr : Represents h tree t) :
    h.next ≠ tree.nil ∧ h.next ≠ NULL ∧ h.next ∉ t.addrs :=
  ⟨fun e => absurd hr.nil_lt (by rw [e]; exact lt_irrefl _),
    fun e => absurd hr.nil_lt (by rw [e]; exact Nat.not_lt_zero _),
    fun hm => absurd (hr.bound _ hm) (lt_irrefl _)⟩

/-- `rb_tree_insert` realises `Tree.insert` with the freshly allocated address. -/
theorem rb_tree_insert_spec {fuel : Nat} {h : Heap} {tree : rb_tree} {t t' : Tree}
    {key : Nat} {data : Ptr} (hr : Represents h tree t) (hk : key < RB_MAX_KEY)
    (halloc : h.next < h.cap) (hfuel : t.height < fuel)
    (hT : t.insert h.next key data = some t') :
    ∃ r, rb_tree_insert fuel h tree key data = .ok r ∧ r.2.2 = 0 ∧ r.2.1.nil = tree.nil ∧
      r.2.1.bh = t.insert_bh h.next key data tree.bh ∧ r.1.next = h.next + 1 ∧
      r.1.cap = h.cap ∧ r.1.mem tree.nil = h.mem tree.nil ∧ Focus r.1 r.2.1 .top t' := by
  obtain ⟨hz1, hz2, hz3⟩ := represents_nil_ne hr
  have hz1' : ¬tree.nil = h.next := fun e => hz1 e.symm
  have hkey : key ≠ RB_NODE_NIL_KEY_VALUE := by
    unfold RB_NODE_NIL_KEY_VALUE; omega
  unfold rb_tree_insert rb_node_alloc
  simp only [ge_iff_le, not_le.mpr hk, if_false, halloc, if_true, hz2]
  simp only [accS, Heap.put, Function.update_same, res_ok_bind, Function.update_idem]
  refine spec_then (rb_tree_insert_node_spec (?_ : Focus _ tree .top t)
    (?_ : _ = some { color := RB_NODE_COLOR_UNDEFINED, key := key, data := data, left := NULL,
                     right := NULL, parent := NULL }) hz3 hz1 hz2 hkey hfuel hT) ?_
  · refine focus_frame hr.focus (fun a ha => ?_) ?_
    · have : a ≠ h.next := fun e => hz3 (by simpa [Ctx.addrs, e] using ha)
      simp [Function.update_apply, this]
    · simp [Function.update_apply, hz1']
  · simp
  · rintro ⟨h1, t1, rc⟩ ⟨e0, e1, e2, e3, e4, e5, e6⟩
    simp only at e0 e1 e2 e3 e4 e5 e6
    subst e0
    simp [EINVAL, e1, e2, e3, e4, e5, e6, Function.update_apply, hz1']
/-- The in-order sequence after `Tree.insert`: the entry for `key` is put at its
sorted position, replacing the old entry for `key` if there was one. -/
theorem tree_insert_to_list {t t' : Tree} {z : Ptr} {key : Nat} {data : Ptr}
    (hs : t.RBShape) (ho : t.Ordered) (hT : t.insert z key data = some t') :
    ∃ l1 mid l2, t.toList = l1 ++ mid ++ l2 ∧ t'.toList = l1 ++ (key, data) :: l2 ∧
      (mid = [] ∨ ∃ d0, mid = [(key, d0)]) ∧
      (∀ x ∈ l1, x.1 < key) ∧ (∀ x ∈ l2, key < x.1) := by
  have hplug := locate_plug key t .top
  have hso := (ordered_iff t).mp ho
  have hbd := locate_bounds key t .top hso (by simp [Ctx.before]) (by simp [Ctx.after])
  unfold Tree.insert at hT
  rcases hloc : t.locate key .top with ⟨c, t1⟩
  rw [hloc] at hplug hT hbd
  simp only [Ctx.plug] at hplug hbd
  subst hplug
  cases t1 with
  | node a col l k d r =>
    rcases locate_cases key (c.plug (.node a col l k d r)) .top with h | ⟨_, _, _, _, _, h⟩
    · rw [hloc] at h; cases h
    · rw [hloc] at h
      simp only [Tree.node.injEq] at h
      obtain ⟨-, -, -, rfl, -, -⟩ := h
      simp only [Option.some.injEq] at hT
      subst hT
      rw [plug_to_list] at hso
      obtain ⟨p1, p2, p3, p4⟩ := pairwise_node hso
      refine ⟨c.before ++ l.toList, [(k, d)], r.toList ++ c.after, ?_, ?_, Or.inr ⟨d, rfl⟩, ?_, ?_⟩
      · simp [plug_to_list, Tree.toList]
      · simp [plug_to_list, Tree.toList]
      · intro x hx
        rcases List.mem_append.mp hx with hx | hx
        · exact hbd.1 x hx
        · exact p1 x hx
      · intro x hx
        rcases List.mem_append.mp hx with hx | hx
        · exact p2 x hx
        · exact hbd.2 x hx
  | leaf =>
    obtain ⟨T, hT1, rfl⟩ := Option.map_eq_some'.mp hT
    have hpre : InsPre c (.node z RB_NODE_COLOR_RED .leaf key data .leaf) := ins_pre_of_shape hs
    obtain ⟨T', hT', p1, p2, p3, p4, p5, p6⟩ := ins_fix_spec _ c z .leaf key data .leaf
      (le_refl _) hpre
    rw [hT1] at hT'
    cases hT'
    refine ⟨c.before, [], c.after, ?_, ?_, Or.inl rfl, hbd.1, hbd.2⟩
    · simp [plug_to_list, Tree.toList]
    · rw [blacken_to_list, p5]; simp [plug_to_list, Tree.toList]

theorem pairwise_insert_mid {l1 mid l2 : List (Nat × Ptr)} {key : Nat} {data : Ptr}
    (hp : (l1 ++ mid ++ l2).Pairwise (fun x y => x.1 < y.1))
    (h1 : ∀ x ∈ l1, x.1 < key) (h2 : ∀ x ∈ l2, key < x.1) :
    (l1 ++ (key, data) :: l2).Pairwise (fun x y => x.1 < y.1) := by
  simp only [List.pairwise_append, List.pairwise_cons, List.mem_append, List.mem_cons] at hp ⊢
  obtain ⟨⟨q1, q2, q3⟩, q4, q5⟩ := hp
  refine ⟨q1, ⟨h2, q4⟩, fun x hx y hy => ?_⟩
  rcases hy with rfl | hy
  · exact h1 x hx
  · exact q5 x (Or.inl hx) y hy

/-- `Tree.insert` of a key below the reserved one keeps the search-tree order and
the bound on the keys. -/
theorem tree_insert_ordered {t t' : Tree} {z : Ptr} {key : Nat} {data : Ptr}
    (hs : t.RBShape) (ho : t.Ordered) (hn : t.NoNilKey) (hk : key < RB_NODE_NIL_KEY_VALUE)
    (hT : t.insert z key data = some t') : t'.Ordered ∧ t'.NoNilKey := by
  obtain ⟨l1, mid, l2, e1, e2, hmid, b1, b2⟩ := tree_insert_to_list hs ho hT
  have hso := (ordered_iff t).mp ho
  rw [e1] at hso
  refine ⟨(ordered_iff t').mpr (e2 ▸ pairwise_insert_mid hso b1 b2), fun k hk' => ?_⟩
  simp only [Tree.keys, e2, List.map_append, List.map_cons, List.mem_append, List.mem_cons,
    List.mem_map] at hk'
  rcases hk' with ⟨x, hx, rfl⟩ | rfl | ⟨x, hx, rfl⟩
  · exact hn _ (by simp only [Tree.keys, e1, List.map_append, List.mem_append, List.mem_map]
                   exact Or.inl (Or.inl ⟨x, hx, rfl⟩))
  · exact hk
  · exact hn _ (by simp only [Tree.keys, e1, List.map_append, List.mem_append, List.mem_map]
                   exact Or.inr ⟨x, hx, rfl⟩)

/-- `rb_tree_insert` on a valid tree: the call returns 0 and leaves a valid tree
that is the result of `Tree.insert`, with `bh` following the black count. -/
theorem insert_valid {fuel : Nat} {h : Heap} {tree : rb_tree} {t : Tree} {key : Nat}
    {data : Ptr} (hv : RBValid h tree t) (hk : key < RB_MAX_KEY) (halloc : h.next < h.cap)
    (hfuel : t.height < fuel) :
    ∃ r t', rb_tree_insert fuel h tree key data = .ok r ∧ r.2.2 = 0 ∧
      t.insert h.next key data = some t' ∧ RBValid r.1 r.2.1 t' ∧ r.2.1.nil = tree.nil ∧
      r.1.cap = h.cap ∧ r.1.next = h.next + 1 ∧
      r.2.1.bh = t.insert_bh h.next key data tree.bh ∧
      (tree.bh = t.bheight → r.2.1.bh = t'.bheight) := by
  obtain ⟨t', hT, hs', hbh, haddr⟩ := tree_insert_shape h.next key data hv.shape
  obtain ⟨r, hr, e0, e1, e2, e3, e4, e5, e6⟩ := rb_tree_insert_spec hv.repr hk halloc hfuel hT
  have hkey : key < RB_NODE_NIL_KEY_VALUE := by
    unfold RB_NODE_NIL_KEY_VALUE; omega
  obtain ⟨ho', hn'⟩ := tree_insert_ordered hv.shape hv.ordered hv.no_nil_key hkey hT
  refine ⟨r, t', hr, e0, hT, ⟨⟨e6, fun a ha => ?_, ?_, ?_, ?_⟩, hs', ho', hn'⟩, e1, e4, e3, e2,
    fun hb => ?_⟩
  · rw [e3]
    rcases haddr a ha with rfl | hmem
    · exact Nat.lt_succ_self _
    · exact Nat.lt_succ_of_lt (hv.repr.bound a hmem)
  · rw [e3, e1]; exact Nat.lt_succ_of_lt hv.repr.nil_lt
  · rw [e3, e4]; exact halloc
  · rw [e4]; exact hv.repr.cap_le
  · rw [e2, hb]
    exact hbh (bheight_lt_of_represents hv.repr (rbshape_bal hv.shape))
end RedBlack


namespace RedBlack
open Tree Ctx

/-! ## `rb_tree_search` -/

/-- The loop of `__rb_tree_search` follows `Tree.locate`; at a leaf it reads the
sentinel, whose key is the reserved value and whose children are `NULL`. -/
theorem search_loop_spec (key : Nat) : ∀ (t : Tree) (fuel : Nat) (c : Ctx) (h : Heap)
    (tree : rb_tree), Focus h tree c t → t.height + 2 ≤ fuel →
    __rb_tree_search fuel h (t.ptr tree.nil) key = .ok
      (match (t.locate key c).2 with
        | .leaf => if key = RB_NODE_NIL_KEY_VALUE then tree.nil else NULL
        | .node a _ _ _ _ _ => a)
  | .leaf, fuel, c, h, tree, hf, hfuel => by
    obtain ⟨m, rfl⟩ : ∃ m, fuel = m + 2 := ⟨fuel - 2, by omega⟩
    obtain ⟨sp, hsp⟩ := hf.sep.sentinel
    have hne := hf.sep.nil_ne
    simp only [tree_ptr_leaf, Tree.locate]
    rw [__rb_tree_search]
    simp only [hne, if_false, accS, hsp, sentinel_node, res_ok_bind]
    by_cases hk : key = RB_NODE_NIL_KEY_VALUE
    · simp [hk]
    · simp only [hk, if_false]
      split_ifs <;> simp [__rb_tree_search, NULL]
  | .node a col l k d r, fuel, c, h, tree, hf, hfuel => by
    obtain ⟨m, rfl⟩ : ∃ m, fuel = m + 1 := ⟨fuel - 1, by omega⟩
    have hf0 := hf
    obtain ⟨hc, ho, hsep⟩ := hf
    have hnull := hsep.null_not_mem
    simp only [Own, tree_ptr_leaf, tree_ptr_node] at ho
    simp only [sepS, not_or, List.cons_append, not_false_eq_true, true_and, and_true,
      not_true_eq_false, false_or, or_false, List.append_nil] at hnull
    rw [__rb_tree_search]
    unfold Tree.locate
    simp only [tree_ptr_node, hnull, if_false, accS, ho, res_ok_bind]
    by_cases hk : k = key
    · simp [hk]
    · have hk' : ¬key = k := fun e => hk e.symm
      simp only [hk, hk', if_false]
      by_cases hlt : key < k
      · simp only [hlt, if_true]
        exact search_loop_spec key l m (.L a col k d r c) h tree (focus_up_L.mpr hf0)
          (by simp only [Tree.height] at hfuel; omega)
      · simp only [hlt, if_false]
        exact search_loop_spec key r m (.R a col k d l c) h tree (focus_up_R.mpr hf0)
          (by simp only [Tree.height] at hfuel; omega)

/-- In an ordered tree the descent finds every stored entry. -/
theorem locate_found {t : Tree} {key : Nat} {d : Ptr} (ho : t.Ordered)
    (hm : (key, d) ∈ t.toList) :
    ∃ a col l r, (t.locate key .top).2 = .node a col l key d r := by
  have hplug := locate_plug key t .top
  have hso := (ordered_iff t).mp ho
  have hbd := locate_bounds key t .top hso (by simp [Ctx.before]) (by simp [Ctx.after])
  have hcases := locate_cases key t .top
  rcases hloc : t.locate key .top with ⟨c, t1⟩
  rw [hloc] at hplug hbd hcases
  simp only [Ctx.plug] at hplug hbd hcases
  subst hplug
  rw [plug_to_list] at hm hso
  simp only [List.mem_append] at hm
  rcases hm with (hm | hm) | hm
  · exact absurd (hbd.1 _ hm) (lt_irrefl _)
  · rcases hcases with rfl | ⟨a, col, l, d0, r, rfl⟩
    · simp [Tree.toList] at hm
    · obtain ⟨p1, p2, -, -⟩ := pairwise_node hso
      simp only [Tree.toList, List.mem_append, List.mem_cons] at hm
      rcases hm with hm | hm | hm
      · exact absurd (p1 _ hm) (lt_irrefl _)
      · cases hm; exact ⟨a, col, l, r, rfl⟩
      · exact absurd (p2 _ hm) (lt_irrefl _)
  · exact absurd (hbd.2 _ hm) (lt_irrefl _)

/-- The descent ends at a leaf when the key is not stored. -/
theorem locate_not_found {t : Tree} {key : Nat} (hm : key ∉ t.keys) :
    (t.locate key .top).2 = .leaf := by
  have hplug := locate_plug key t .top
  rcases locate_cases key t .top with h | ⟨a, col, l, d, r, h⟩
  · exact h
  · exfalso
    apply hm
    rw [h] at hplug
    simp only [Ctx.plug] at hplug
    rw [← hplug]
    simp [Tree.keys, plug_to_list, Tree.toList]

/-- The cell of a node of the tree. -/
theorem focus_cell {h : Heap} {tree : rb_tree} {c : Ctx} {a : Ptr} {col : rb_node_color}
    {l r : Tree} {k : Nat} {d : Ptr} (hf : Focus h tree c (.node a col l k d r)) :
    h.mem a = some { color := col, key := k, data := d, left := l.ptr tree.nil,
                     right := r.ptr tree.nil, parent := c.par tree.nil } := hf.own.1

/-- `rb_tree_search` finds every stored key, at a node that carries the key and
its payload. -/
theorem search_found {fuel : Nat} {h : Heap} {tree : rb_tree} {t : Tree} {key : Nat} {d : Ptr}
    (hf : Focus h tree .top t) (ho : t.Ordered) (hm : (key, d) ∈ t.toList)
    (hfuel : t.height + 2 ≤ fuel) :
    ∃ a n, rb_tree_search fuel h tree key = .ok a ∧ a ≠ NULL ∧ a ∈ t.addrs ∧
      h.mem a = some n ∧ n.key = key ∧ n.data = d := by
  obtain ⟨a, col, l, r, hloc⟩ := locate_found ho hm
  have hs := search_loop_spec key t fuel .top h tree hf hfuel
  have hroot : tree.root = t.ptr tree.nil := hf.ctx
  have hplug := locate_plug key t .top
  rw [hloc] at hs hplug
  have hf2 : Focus h tree (t.locate key .top).1 (.node a col l key d r) :=
    focus_unplug (hplug ▸ hf)
  have hmem : a ∈ t.addrs := by
    have hplug2 : t = (t.locate key .top).1.plug (.node a col l key d r) := hplug.symm
    rw [hplug2, mem_addrs_plug]; exact Or.inr (by simp [Tree.addrs])
  refine ⟨a, _, by rw [rb_tree_search, hroot]; exact hs, ?_, hmem, focus_cell hf2, rfl, rfl⟩
  intro e
  exact hf.sep.null_not_mem (by simpa [Ctx.addrs, e] using hmem)

/-- `rb_tree_search` on a key that is not stored ends at the sentinel: it returns
`NULL`, except for the reserved key, for which it returns the sentinel itself. -/
theorem search_not_found {fuel : Nat} {h : Heap} {tree : rb_tree} {t : Tree} {key : Nat}
    (hf : Focus h tree .top t) (hm : key ∉ t.keys) (hfuel : t.height + 2 ≤ fuel) :
    rb_tree_search fuel h tree key =
      .ok (if key = RB_NODE_NIL_KEY_VALUE then tree.nil else NULL) := by
  have hs := search_loop_spec key t fuel .top h tree hf hfuel
  have hroot : tree.root = t.ptr tree.nil := hf.ctx
  rw [locate_not_found hm] at hs
  rw [rb_tree_search, hroot]; exact hs

end RedBlack


namespace RedBlack
open Tree Ctx

/-! ## `rb_tree_delete_fixup` against `del_fix` -/

theorem own_cell_par {m : Ptr → Option rb_node} {nil q : Ptr} {u : Tree} (ho : Own m nil u q)
    (hn : NilPar m nil q u) :
    ∃ n, m (u.ptr nil) = some n ∧ n.color = u.color ∧ n.parent = q := by
  cases u with
  | leaf => exact ⟨_, hn rfl, rfl, rfl⟩
  | node a c l k d r => exact ⟨_, ho.1, rfl, rfl⟩

theorem ctx_root_mem {m : Ptr → Option rb_node} {nil root : Ptr} :
    ∀ {c : Ctx} {hp : Ptr}, c ≠ .top → CtxOwn m nil root c hp → root ∈ c.addrs
  | .top, _, hc, _ => absurd rfl hc
  | .L a col k d s .top, _, _, ⟨_, _, hu⟩ => by simp [Ctx.addrs, show root = a from hu]
  | .R a col k d s .top, _, _, ⟨_, _, hu⟩ => by simp [Ctx.addrs, show root = a from hu]
  | .L a col k d s (.L a2 c2 k2 d2 s2 up), _, _, ⟨_, _, hu⟩ => by
    have := ctx_root_mem (c := .L a2 c2 k2 d2 s2 up) (by simp) hu
    simp only [Ctx.addrs, List.mem_cons, List.mem_append] at this ⊢; tauto
  | .L a col k d s (.R a2 c2 k2 d2 s2 up), _, _, ⟨_, _, hu⟩ => by
    have := ctx_root_mem (c := .R a2 c2 k2 d2 s2 up) (by simp) hu
    simp only [Ctx.addrs, List.mem_cons, List.mem_append] at this ⊢; tauto
  | .R a col k d s (.L a2 c2 k2 d2 s2 up), _, _, ⟨_, _, hu⟩ => by
    have := ctx_root_mem (c := .L a2 c2 k2 d2 s2 up) (by simp) hu
    simp only [Ctx.addrs, List.mem_cons, List.mem_append] at this ⊢; tauto
  | .R a col k d s (.R a2 c2 k2 d2 s2 up), _, _, ⟨_, _, hu⟩ => by
    have := ctx_root_mem (c := .R a2 c2 k2 d2 s2 up) (by simp) hu
    simp only [Ctx.addrs, List.mem_cons, List.mem_append] at this ⊢; tauto

theorem focus_ptr_ne_root {h : Heap} {tree : rb_tree} {c : Ctx} {t : Tree}
    (hf : Focus h tree c t) (hc : c ≠ .top) : ¬t.ptr tree.nil = tree.root := by
  have hr := ctx_root_mem hc hf.ctx
  intro e
  rcases tree_ptr_mem_or tree.nil t with h1 | h1
  · exact hf.sep.nil_not_mem (List.mem_append_left _ (by rw [← h1, e]; exact hr))
  · have := hf.sep.nodup
    rw [List.nodup_append] at this
    exact this.2.2 hr (e ▸ h1)
theorem delete_fixup_case1_left_red {h : Heap} {tree : rb_tree} {up : Ctx} {p w : Ptr}
    {cp : rb_node_color} {kp wk : Nat} {dp wd : Ptr} {t wn wf : Tree}
    (hf : Focus h tree up (.node p cp t kp dp (.node w RB_NODE_COLOR_RED wn wk wd wf)))
    (hnp : NilPar h.mem tree.nil p t) :
    ∃ r, rb_tree_delete_fixup_case1_left h tree (t.ptr tree.nil) w = .ok r ∧
      Alloc h r.1 ∧ r.2.2 = wn.ptr tree.nil ∧
      RotPost h tree up (.node w RB_NODE_COLOR_BLACK (.node p RB_NODE_COLOR_RED t kp dp wn) wk wd wf) (r.1, r.2.1) := by
  obtain ⟨hc, ho, hsep⟩ := hf
  have hnd := hsep.nodup
  have hnil := hsep.nil_not_mem
  have hnull := hsep.null_not_mem
  simp only [Own, CtxOwn, tree_ptr_leaf, tree_ptr_node, ctx_par_top, ctx_par_L, ctx_par_R]
    at ho hc
  simp only [sepS, not_or, List.cons_append, not_false_eq_true, true_and, and_true,
    not_true_eq_false, false_or, or_false, List.append_nil] at hnd hnil hnull
  obtain ⟨nx, hnx, hcx, hpx⟩ := own_cell_par ho.2.1 hnp
  unfold rb_tree_delete_fixup_case1_left
  simp [-Prod.exists, accS, res_bind_assoc, ho, hc, hnd, hnil, hnull, eq_tree_ptr_false,
    tree_ptr_eq_false, hnx, hpx]
  refine spec_then (left_rotate_alloc (?_ : Focus _ tree up
    (.node p RB_NODE_COLOR_RED t kp dp (.node w RB_NODE_COLOR_BLACK wn wk wd wf)))) ?_
  · refine ⟨?_, ?_, sep_perm hsep (list_perm_of_count fun a => by
        simp [Tree.addrs, Ctx.addrs, List.count_cons]) (by simp [hnil])⟩ <;>
      simp [Own, CtxOwn, ho, hc, hnd, hnil, hnull, own_put_iff, ctx_own_put_iff]
  · rintro ⟨h1, ⟨root1, nil1, bh1⟩⟩ ⟨hA, e1, e2, e3, e4, e5, hF1⟩
    simp only at hA e1 e2 e3 e4 e5 hF1
    subst e1 e2
    obtain ⟨hc1, ho1, hsep1⟩ := hF1
    simp only [Own, CtxOwn, tree_ptr_leaf, tree_ptr_node] at ho1 hc1
    have hnp1 : NilPar h1.mem tree.nil p t := fun ht => by
      rw [e5]; simpa [hnil] using hnp ht
    obtain ⟨nx1, hnx1, hcx1, hpx1⟩ := own_cell_par ho1.2.1.2.1 hnp1
    simp [-Prod.exists, accS, ho1, hnx1, hpx1, RotPost, e3, e4]
    exact ⟨alloc_trans (by repeat (first | exact alloc_refl _ | apply alloc_put)) hA, by rw [e5]; simp [hnil], hc1, ho1, hsep1⟩

theorem delete_fixup_case1_left_skip {h : Heap} {tree : rb_tree} {x w : Ptr} {n : rb_node}
    (hw : h.mem w = some n) (hc : n.color ≠ RB_NODE_COLOR_RED) :
    rb_tree_delete_fixup_case1_left h tree x w = .ok (h, tree, w) := by
  unfold rb_tree_delete_fixup_case1_left
  simp [accS, hw, hc]

theorem delete_fixup_case2_left {h : Heap} {tree : rb_tree} {c : Ctx} {p w : Ptr}
    {pc cw : rb_node_color} {kp k : Nat} {dp d : Ptr} {t wn wf : Tree}
    (hf : Focus h tree c (.node p pc t kp dp (.node w cw wn k d wf)))
    (hnp : NilPar h.mem tree.nil p t)
    (h1 : wn.color = RB_NODE_COLOR_BLACK) (h2 : wf.color = RB_NODE_COLOR_BLACK) :
    ∃ r, rb_tree_delete_fixup_case234_left h tree (t.ptr tree.nil) w = .ok r ∧
      Alloc h r.1 ∧ r.2.2.2 = false ∧ r.2.2.1 = p ∧
      RotPost h tree c (.node p pc t kp dp (.node w RB_NODE_COLOR_RED wn k d wf)) (r.1, r.2.1) := by
  obtain ⟨hc, ho, hsep⟩ := hf
  have hnd := hsep.nodup
  have hnil := hsep.nil_not_mem
  have hnull := hsep.null_not_mem
  simp only [Own, CtxOwn, tree_ptr_leaf, tree_ptr_node, ctx_par_top, ctx_par_L, ctx_par_R]
    at ho hc
  simp only [sepS, not_or, List.cons_append, not_false_eq_true, true_and, and_true,
    not_true_eq_false, false_or, or_false, List.append_nil] at hnd hnil hnull
  obtain ⟨nx, hnx, hcx, hpx⟩ := own_cell_par ho.2.1 hnp
  obtain ⟨n1, hn1, hc1⟩ := own_cell ho.2.2.2.1 hsep.sentinel
  obtain ⟨n2, hn2, hc2⟩ := own_cell ho.2.2.2.2 hsep.sentinel
  unfold rb_tree_delete_fixup_case234_left
  simp [-Prod.exists, accS, res_bind_assoc, ho, hc, hnd, hnil, hnull, eq_tree_ptr_false,
    tree_ptr_eq_false, hnx, hpx, hn1, hc1, hn2, hc2, h1, h2, RotPost]
  refine ⟨(by repeat (first | exact alloc_refl _ | apply alloc_put)), ?_, ?_, sep_perm hsep (list_perm_of_count fun a => by
        simp [Tree.addrs, Ctx.addrs, List.count_cons]) (by simp [hnil])⟩ <;>
      simp [Own, CtxOwn, ho, hc, hnd, hnil, hnull, own_put_iff, ctx_own_put_iff]

theorem delete_fixup_case34_left {h : Heap} {tree : rb_tree} {c : Ctx} {p w n : Ptr}
    {pc cw cn : rb_node_color} {kp k nk : Nat} {dp d dn : Ptr} {t nn nf wf : Tree}
    (hf : Focus h tree c (.node p pc t kp dp (.node w cw (.node n cn nn nk dn nf) k d wf)))
    (hnp : NilPar h.mem tree.nil p t)
    (h1 : cn ≠ RB_NODE_COLOR_BLACK) (h2 : wf.color = RB_NODE_COLOR_BLACK) :
    ∃ r, rb_tree_delete_fixup_case234_left h tree (t.ptr tree.nil) w = .ok r ∧
      Alloc h r.1 ∧ r.2.2.2 = true ∧ r.2.2.1 = r.2.1.root ∧
      RotPost h tree c (.node n pc (.node p RB_NODE_COLOR_BLACK t kp dp nn) nk dn (.node w RB_NODE_COLOR_BLACK nf k d wf)) (r.1, r.2.1) := by
  obtain ⟨hc, ho, hsep⟩ := hf
  have hnd := hsep.nodup
  have hnil := hsep.nil_not_mem
  have hnull := hsep.null_not_mem
  simp only [Own, CtxOwn, tree_ptr_leaf, tree_ptr_node, ctx_par_top, ctx_par_L, ctx_par_R]
    at ho hc
  simp only [sepS, not_or, List.cons_append, not_false_eq_true, true_and, and_true,
    not_true_eq_false, false_or, or_false, List.append_nil] at hnd hnil hnull
  obtain ⟨nx, hnx, hcx, hpx⟩ := own_cell_par ho.2.1 hnp
  obtain ⟨n2, hn2, hc2⟩ := own_cell ho.2.2.2.2 hsep.sentinel
  unfold rb_tree_delete_fixup_case234_left
  simp [-Prod.exists, accS, res_bind_assoc, ho, hc, hnd, hnil, hnull, eq_tree_ptr_false,
    tree_ptr_eq_false, hnx, hpx, hn2, hc2, h1, h2]
  refine spec_then (right_rotate_alloc (?_ : Focus _ tree (.R p pc kp dp t c)
    (.node w RB_NODE_COLOR_RED (.node n RB_NODE_COLOR_BLACK nn nk dn nf) k d wf))) ?_
  · refine focus_up_R.mpr ?_
    refine ⟨?_, ?_, sep_perm hsep (list_perm_of_count fun a => by
        simp [Tree.addrs, Ctx.addrs, List.count_cons]) (by simp [hnil])⟩ <;>
      simp [Own, CtxOwn, ho, hc, hnd, hnil, hnull, own_put_iff, ctx_own_put_iff]
  · rintro ⟨h1', ⟨root1, nil1, bh1⟩⟩ ⟨hA1, e1, e2, e3, e4, e5, hF1⟩
    simp only at hA1 e1 e2 e3 e4 e5 hF1
    subst e1 e2
    have hnp1 : NilPar h1'.mem tree.nil p t := fun ht => by
      rw [e5]; simpa [hnil] using hnp ht
    clear hc ho hnx hn2
    have hF2 := focus_up_R.mp hF1
    obtain ⟨hc, ho, hsep1⟩ := hF2
    have hndx := hsep1.nodup
    have hnilx := hsep1.nil_not_mem
    have hnullx := hsep1.null_not_mem
    simp only [Own, CtxOwn, tree_ptr_leaf, tree_ptr_node, ctx_par_top, ctx_par_L, ctx_par_R]
      at ho hc
    obtain ⟨nx1, hnx1, hcx1, hpx1⟩ := own_cell_par ho.2.1 hnp1
    simp [-Prod.exists, accS, res_bind_assoc, ho, hc, hnd, hnil, hnull, eq_tree_ptr_false,
      tree_ptr_eq_false, hnx1, hpx1]
    refine spec_then (left_rotate_alloc (?_ : Focus _ _ c
      (.node p RB_NODE_COLOR_BLACK t kp dp (.node n pc nn nk dn (.node w RB_NODE_COLOR_BLACK nf k d wf))))) ?_
    · refine ⟨?_, ?_, sep_perm hsep1 (list_perm_of_count fun a => by
          simp [Tree.addrs, Ctx.addrs, List.count_cons]) (by simp [hnil])⟩ <;>
        simp [Own, CtxOwn, ho, hc, hnd, hnil, hnull, own_put_iff, ctx_own_put_iff]
    · rintro ⟨h2', t2⟩ ⟨hA2, g1, g2, g3, g4, g5, g6⟩
      simp only at hA2 g1 g2 g3 g4 g5 g6
      simp only [res_pure_eq, Res.ok.injEq, exists_eq_left', RotPost, and_true, true_and]
      refine ⟨alloc_trans (alloc_trans (by repeat (first | exact alloc_refl _ | apply alloc_put)) hA1) (alloc_trans (by repeat (first | exact alloc_refl _ | apply alloc_put)) hA2),
        g1, g2, g3.trans e3, g4.trans e4, ?_, g6⟩
      rw [g5]; simp only [heap_put_mem, hnil, if_false]; rw [e5]; simp [hnil]

theorem delete_fixup_case4_left {h : Heap} {tree : rb_tree} {c : Ctx} {p w f : Ptr}
    {pc cw cf : rb_node_color} {kp k fk : Nat} {dp d fd : Ptr} {t wn fn ff : Tree}
    (hf : Focus h tree c (.node p pc t kp dp (.node w cw wn k d (.node f cf fn fk fd ff))))
    (hnp : NilPar h.mem tree.nil p t)
    (h1 : cf ≠ RB_NODE_COLOR_BLACK) :
    ∃ r, rb_tree_delete_fixup_case234_left h tree (t.ptr tree.nil) w = .ok r ∧
      Alloc h r.1 ∧ r.2.2.2 = true ∧ r.2.2.1 = r.2.1.root ∧
      RotPost h tree c (.node w pc (.node p RB_NODE_COLOR_BLACK t kp dp wn) k d (.node f RB_NODE_COLOR_BLACK fn fk fd ff)) (r.1, r.2.1) := by
  obtain ⟨hc, ho, hsep⟩ := hf
  have hnd := hsep.nodup
  have hnil := hsep.nil_not_mem
  have hnull := hsep.null_not_mem
  simp only [Own, CtxOwn, tree_ptr_leaf, tree_ptr_node, ctx_par_top, ctx_par_L, ctx_par_R]
    at ho hc
  simp only [sepS, not_or, List.cons_append, not_false_eq_true, true_and, and_true,
    not_true_eq_false, false_or, or_false, List.append_nil] at hnd hnil hnull
  obtain ⟨nx, hnx, hcx, hpx⟩ := own_cell_par ho.2.1 hnp
  obtain ⟨n1, hn1, hc1⟩ := own_cell ho.2.2.2.1 hsep.sentinel
  unfold rb_tree_delete_fixup_case234_left
  simp [-Prod.exists, accS, res_bind_assoc, ho, hc, hnd, hnil, hnull, eq_tree_ptr_false,
    tree_ptr_eq_false, hnx, hpx, hn1, hc1, h1]
  refine spec_then (left_rotate_alloc (?_ : Focus _ _ c
    (.node p RB_NODE_COLOR_BLACK t kp dp (.node w pc wn k d (.node f RB_NODE_COLOR_BLACK fn fk fd ff))))) ?_
  · refine ⟨?_, ?_, sep_perm hsep (list_perm_of_count fun a => by
        simp [Tree.addrs, Ctx.addrs, List.count_cons]) (by simp [hnil])⟩ <;>
      simp [Own, CtxOwn, ho, hc, hnd, hnil, hnull, own_put_iff, ctx_own_put_iff]
  · rintro ⟨h2', t2⟩ ⟨hA2, g1, g2, g3, g4, g5, g6⟩
    simp only at hA2 g1 g2 g3 g4 g5 g6
    simp only [res_pure_eq, Res.ok.injEq, exists_eq_left', RotPost, and_true, true_and]
    refine ⟨alloc_trans (by repeat (first | exact alloc_refl _ | apply alloc_put)) hA2, g1, g2, g3, g4, ?_, g6⟩
    rw [g5]; simp [hnil]

theorem delete_fixup_case1_right_red {h : Heap} {tree : rb_tree} {up : Ctx} {p w : Ptr}
    {cp : rb_node_color} {kp wk : Nat} {dp wd : Ptr} {t wn wf : Tree}
    (hf : Focus h tree up (.node p cp (.node w RB_NODE_COLOR_RED wf wk wd wn) kp dp t))
    (hnp : NilPar h.mem tree.nil p t) :
    ∃ r, rb_tree_delete_fixup_case1_right h tree (t.ptr tree.nil) w = .ok r ∧
      Alloc h r.1 ∧ r.2.2 = wn.ptr tree.nil ∧
      RotPost h tree up (.node w RB_NODE_COLOR_BLACK wf wk wd (.node p RB_NODE_COLOR_RED wn kp dp t)) (r.1, r.2.1) := by
  obtain ⟨hc, ho, hsep⟩ := hf
  have hnd := hsep.nodup
  have hnil := hsep.nil_not_mem
  have hnull := hsep.null_not_mem
  simp only [Own, CtxOwn, tree_ptr_leaf, tree_ptr_node, ctx_par_top, ctx_par_L, ctx_par_R]
    at ho hc
  simp only [sepS, not_or, List.cons_append, not_false_eq_true, true_and, and_true,
    not_true_eq_false, false_or, or_false, List.append_nil] at hnd hnil hnull
  obtain ⟨nx, hnx, hcx, hpx⟩ := own_cell_par ho.2.2 hnp
  unfold rb_tree_delete_fixup_case1_right
  simp [-Prod.exists, accS, res_bind_assoc, ho, hc, hnd, hnil, hnull, eq_tree_ptr_false,
    tree_ptr_eq_false, hnx, hpx]
  refine spec_then (right_rotate_alloc (?_ : Focus _ tree up
    (.node p RB_NODE_COLOR_RED (.node w RB_NODE_COLOR_BLACK wf wk wd wn) kp dp t))) ?_
  · refine ⟨?_, ?_, sep_perm hsep (list_perm_of_count fun a => by
        simp [Tree.addrs, Ctx.addrs, List.count_cons]) (by simp [hnil])⟩ <;>
      simp [Own, CtxOwn, ho, hc, hnd, hnil, hnull, own_put_iff, ctx_own_put_iff]
  · rintro ⟨h1, ⟨root1, nil1, bh1⟩⟩ ⟨hA, e1, e2, e3, e4, e5, hF1⟩
    simp only at hA e1 e2 e3 e4 e5 hF1
    subst e1 e2
    obtain ⟨hc1, ho1, hsep1⟩ := hF1
    simp only [Own, CtxOwn, tree_ptr_leaf, tree_ptr_node] at ho1 hc1
    have hnp1 : NilPar h1.mem tree.nil p t := fun ht => by
      rw [e5]; simpa [hnil] using hnp ht
    obtain ⟨nx1, hnx1, hcx1, hpx1⟩ := own_cell_par ho1.2.2.2.2 hnp1
    simp [-Prod.exists, accS, ho1, hnx1, hpx1, RotPost, e3, e4]
    exact ⟨alloc_trans (by repeat (first | exact alloc_refl _ | apply alloc_put)) hA, by rw [e5]; simp [hnil], hc1, ho1, hsep1⟩

theorem delete_fixup_case1_right_skip {h : Heap} {tree : rb_tree} {x w : Ptr} {n : rb_node}
    (hw : h.mem w = some n) (hc : n.color ≠ RB_NODE_COLOR_RED) :
    rb_tree_delete_fixup_case1_right h tree x w = .ok (h, tree, w) := by
  unfold rb_tree_delete_fixup_case1_right
  simp [accS, hw, hc]

theorem delete_fixup_case2_right {h : Heap} {tree : rb_tree} {c : Ctx} {p w : Ptr}
    {pc cw : rb_node_color} {kp k : Nat} {dp d : Ptr} {t wn wf : Tree}
    (hf : Focus h tree c (.node p pc (.node w cw wf k d wn) kp dp t))
    (hnp : NilPar h.mem tree.nil p t)
    (h1 : wn.color = RB_NODE_COLOR_BLACK) (h2 : wf.color = RB_NODE_COLOR_BLACK) :
    ∃ r, rb_tree_delete_fixup_case234_right h tree (t.ptr tree.nil) w = .ok r ∧
      Alloc h r.1 ∧ r.2.2.2 = false ∧ r.2.2.1 = p ∧
      RotPost h tree c (.node p pc (.node w RB_NODE_COLOR_RED wf k d wn) kp dp t) (r.1, r.2.1) := by
  obtain ⟨hc, ho, hsep⟩ := hf
  have hnd := hsep.nodup
  have hnil := hsep.nil_not_mem
  have hnull := hsep.null_not_mem
  simp only [Own, CtxOwn, tree_ptr_leaf, tree_ptr_node, ctx_par_top, ctx_par_L, ctx_par_R]
    at ho hc
  simp only [sepS, not_or, List.cons_append, not_false_eq_true, true_and, and_true,
    not_true_eq_false, false_or, or_false, List.append_nil] at hnd hnil hnull
  obtain ⟨nx, hnx, hcx, hpx⟩ := own_cell_par ho.2.2 hnp
  obtain ⟨n1, hn1, hc1⟩ := own_cell ho.2.1.2.2 hsep.sentinel
  obtain ⟨n2, hn2, hc2⟩ := own_cell ho.2.1.2.1 hsep.sentinel
  unfold rb_tree_delete_fixup_case234_right
  simp [-Prod.exists, accS, res_bind_assoc, ho, hc, hnd, hnil, hnull, eq_tree_ptr_false,
    tree_ptr_eq_false, hnx, hpx, hn1, hc1, hn2, hc2, h1, h2, RotPost]
  refine ⟨(by repeat (first | exact alloc_refl _ | apply alloc_put)), ?_, ?_, sep_perm hsep (list_perm_of_count fun a => by
        simp [Tree.addrs, Ctx.addrs, List.count_cons]) (by simp [hnil])⟩ <;>
      simp [Own, CtxOwn, ho, hc, hnd, hnil, hnull, own_put_iff, ctx_own_put_iff]

theorem delete_fixup_case34_right {h : Heap} {tree : rb_tree} {c : Ctx} {p w n : Ptr}
    {pc cw cn : rb_node_color} {kp k nk : Nat} {dp d dn : Ptr} {t nn nf wf : Tree}
    (hf : Focus h tree c (.node p pc (.node w cw wf k d (.node n cn nf nk dn nn)) kp dp t))
    (hnp : NilPar h.mem tree.nil p t)
    (h1 : cn ≠ RB_NODE_COLOR_BLACK) (h2 : wf.color = RB_NODE_COLOR_BLACK) :
    ∃ r, rb_tree_delete_fixup_case234_right h tree (t.ptr tree.nil) w = .ok r ∧
      Alloc h r.1 ∧ r.2.2.2 = true ∧ r.2.2.1 = r.2.1.root ∧
      RotPost h tree c (.node n pc (.node w RB_NODE_COLOR_BLACK wf k d nf) nk dn (.node p RB_NODE_COLOR_BLACK nn kp dp t)) (r.1, r.2.1) := by
  obtain ⟨hc, ho, hsep⟩ := hf
  have hnd := hsep.nodup
  have hnil := hsep.nil_not_mem
  have hnull := hsep.null_not_mem
  simp only [Own, CtxOwn, tree_ptr_leaf, tree_ptr_node, ctx_par_top, ctx_par_L, ctx_par_R]
    at ho hc
  simp only [sepS, not_or, List.cons_append, not_false_eq_true, true_and, and_true,
    not_true_eq_false, false_or, or_false, List.append_nil] at hnd hnil hnull
  obtain ⟨nx, hnx, hcx, hpx⟩ := own_cell_par ho.2.2 hnp
  obtain ⟨n2, hn2, hc2⟩ := own_cell ho.2.1.2.1 hsep.sentinel
  unfold rb_tree_delete_fixup_case234_right
  simp [-Prod.exists, accS, res_bind_assoc, ho, hc, hnd, hnil, hnull, eq_tree_ptr_false,
    tree_ptr_eq_false, hnx, hpx, hn2, hc2, h1, h2]
  refine spec_then (left_rotate_alloc (?_ : Focus _ tree (.L p pc kp dp t c)
    (.node w RB_NODE_COLOR_RED wf k d (.node n RB_NODE_COLOR_BLACK nf nk dn nn)))) ?_
  · refine focus_up_L.mpr ?_
    refine ⟨?_, ?_, sep_perm hsep (list_perm_of_count fun a => by
        simp [Tree.addrs, Ctx.addrs, List.count_cons]) (by simp [hnil])⟩ <;>
      simp [Own, CtxOwn, ho, hc, hnd, hnil, hnull, own_put_iff, ctx_own_put_iff]
  · rintro ⟨h1', ⟨root1, nil1, bh1⟩⟩ ⟨hA1, e1, e2, e3, e4, e5, hF1⟩
    simp only at hA1 e1 e2 e3 e4 e5 hF1
    subst e1 e2
    have hnp1 : NilPar h1'.mem tree.nil p t := fun ht => by
      rw [e5]; simpa [hnil] using hnp ht
    clear hc ho hnx hn2
    have hF2 := focus_up_L.mp hF1
    obtain ⟨hc, ho, hsep1⟩ := hF2
    have hndx := hsep1.nodup
    have hnilx := hsep1.nil_not_mem
    have hnullx := hsep1.null_not_mem
    simp only [Own, CtxOwn, tree_ptr_leaf, tree_ptr_node, ctx_par_top, ctx_par_L, ctx_par_R]
      at ho hc
    obtain ⟨nx1, hnx1, hcx1, hpx1⟩ := own_cell_par ho.2.2 hnp1
    simp [-Prod.exists, accS, res_bind_assoc, ho, hc, hnd, hnil, hnull, eq_tree_ptr_false,
      tree_ptr_eq_false, hnx1, hpx1]
    refine spec_then (right_rotate_alloc (?_ : Focus _ _ c
      (.node p RB_NODE_COLOR_BLACK (.node n pc (.node w RB_NODE_COLOR_BLACK wf k d nf) nk dn nn) kp dp t))) ?_
    · refine ⟨?_, ?_, sep_perm hsep1 (list_perm_of_count fun a => by
          simp [Tree.addrs, Ctx.addrs, List.count_cons]) (by simp [hnil])⟩ <;>
        simp [Own, CtxOwn, ho, hc, hnd, hnil, hnull, own_put_iff, ctx_own_put_iff]
    · rintro ⟨h2', t2⟩ ⟨hA2, g1, g2, g3, g4, g5, g6⟩
      simp only at hA2 g1 g2 g3 g4 g5 g6
      simp only [res_pure_eq, Res.ok.injEq, exists_eq_left', RotPost, and_true, true_and]
      refine ⟨alloc_trans (alloc_trans (by repeat (first | exact alloc_refl _ | apply alloc_put)) hA1) (alloc_trans (by repeat (first | exact alloc_refl _ | apply alloc_put)) hA2),
        g1, g2, g3.trans e3, g4.trans e4, ?_, g6⟩
      rw [g5]; simp only [heap_put_mem, hnil, if_false]; rw [e5]; simp [hnil]

theorem delete_fixup_case4_right {h : Heap} {tree : rb_tree} {c : Ctx} {p w f : Ptr}
    {pc cw cf : rb_node_color} {kp k fk : Nat} {dp d fd : Ptr} {t wn fn ff : Tree}
    (hf : Focus h tree c (.node p pc (.node w cw (.node f cf ff fk fd fn) k d wn) kp dp t))
    (hnp : NilPar h.mem tree.nil p t)
    (h1 : cf ≠ RB_NODE_COLOR_BLACK) :
    ∃ r, rb_tree_delete_fixup_case234_right h tree (t.ptr tree.nil) w = .ok r ∧
      Alloc h r.1 ∧ r.2.2.2 = true ∧ r.2.2.1 = r.2.1.root ∧
      RotPost h tree c (.node w pc (.node f RB_NODE_COLOR_BLACK ff fk fd fn) k d (.node p RB_NODE_COLOR_BLACK wn kp dp t)) (r.1, r.2.1) := by
  obtain ⟨hc, ho, hsep⟩ := hf
  have hnd := hsep.nodup
  have hnil := hsep.nil_not_mem
  have hnull := hsep.null_not_mem
  simp only [Own, CtxOwn, tree_ptr_leaf, tree_ptr_node, ctx_par_top, ctx_par_L, ctx_par_R]
    at ho hc
  simp only [sepS, not_or, List.cons_append, not_false_eq_true, true_and, and_true,
    not_true_eq_false, false_or, or_false, List.append_nil] at hnd hnil hnull
  obtain ⟨nx, hnx, hcx, hpx⟩ := own_cell_par ho.2.2 hnp
  obtain ⟨n1, hn1, hc1⟩ := own_cell ho.2.1.2.2 hsep.sentinel
  unfold rb_tree_delete_fixup_case234_right
  simp [-Prod.exists, accS, res_bind_assoc, ho, hc, hnd, hnil, hnull, eq_tree_ptr_false,
    tree_ptr_eq_false, hnx, hpx, hn1, hc1, h1]
  refine spec_then (right_rotate_alloc (?_ : Focus _ _ c
    (.node p RB_NODE_COLOR_BLACK (.node w pc (.node f RB_NODE_COLOR_BLACK ff fk fd fn) k d wn) kp dp t))) ?_
  · refine ⟨?_, ?_, sep_perm hsep (list_perm_of_count fun a => by
        simp [Tree.addrs, Ctx.addrs, List.count_cons]) (by simp [hnil])⟩ <;>
      simp [Own, CtxOwn, ho, hc, hnd, hnil, hnull, own_put_iff, ctx_own_put_iff]
  · rintro ⟨h2', t2⟩ ⟨hA2, g1, g2, g3, g4, g5, g6⟩
    simp only at hA2 g1 g2 g3 g4 g5 g6
    simp only [res_pure_eq, Res.ok.injEq, exists_eq_left', RotPost, and_true, true_and]
    refine ⟨alloc_trans (by repeat (first | exact alloc_refl _ | apply alloc_put)) hA2, g1, g2, g3, g4, ?_, g6⟩
    rw [g5]; simp [hnil]

end RedBlack


namespace RedBlack
open Tree Ctx

theorem tree_color_ne_black {t : Tree} (h : t.color ≠ RB_NODE_COLOR_BLACK) :
    ∃ a c l k d r, t = .node a c l k d r := by
  cases t with
  | leaf => exact absurd rfl h
  | node a c l k d r => exact ⟨a, c, l, k, d, r, rfl⟩

theorem delete_fixup_loop_exit {h : Heap} {tree : rb_tree} {c : Ctx} {t : Tree} {f g : Bool}
    (fuel : Nat) (hf : Focus h tree c t) (hx : c = .top ∨ t.color ≠ RB_NODE_COLOR_BLACK) :
    rb_tree_delete_fixup_loop (fuel + 1) h tree (t.ptr tree.nil) f g =
      .ok { heap := h, tree := tree, x := t.ptr tree.nil, is_forced := f, is_goes_up := g } := by
  unfold rb_tree_delete_fixup_loop
  by_cases hc : c = .top
  · subst hc
    have : tree.root = t.ptr tree.nil := hf.ctx
    simp [this]
  · have hcol := hx.resolve_left hc
    obtain ⟨a, col, l, k, d, r, rfl⟩ := tree_color_ne_black hcol
    have hne := focus_ptr_ne_root hf hc
    have ho := hf.own
    simp only [Own, tree_ptr_node] at ho hne
    simp only [Tree.color] at hcol
    simp [accS, hne, ho.1, hcol]

theorem rotpost_trans {h h1 : Heap} {tree tree1 : rb_tree} {c c1 : Ctx} {t t1 : Tree}
    {r : Heap × rb_tree}
    (h1p : RotPost h tree c t (h1, tree1)) (h2p : RotPost h1 tree1 c1 t1 r) :
    RotPost h tree c1 t1 r := by
  obtain ⟨a1, a2, a3, a4, a5, _⟩ := h1p
  obtain ⟨b1, b2, b3, b4, b5, b6⟩ := h2p
  simp only at a1 a2 a3 a4 a5
  rw [a1] at b1 b5
  exact ⟨b1, b2.trans a2, b3.trans a3, b4.trans a4, b5.trans a5, b6⟩

theorem del_case_L_false {pc : rb_node_color} {p : Ptr} {kp : Nat} {dp : Ptr} {x w sub : Tree}
    (hd : del_case_L pc p kp dp x w = some (false, sub)) :
    ∃ w', sub = (.node p pc x kp dp w') := by
  cases w with
  | leaf => simp [del_case_L] at hd
  | node w cw a k d b =>
    simp only [del_case_L] at hd
    split_ifs at hd with h1 h2
    · simp only [Option.some.injEq, Prod.mk.injEq, true_and] at hd
      exact ⟨_, hd.symm⟩
    · cases a <;> simp at hd
    · cases b <;> simp at hd

theorem delete_fixup_case234_left_spec {h : Heap} {tree : rb_tree} {c : Ctx} {p : Ptr}
    {pc : rb_node_color} {kp : Nat} {dp : Ptr} {t W sub : Tree} {forced : Bool}
    (hf : Focus h tree c (.node p pc t kp dp W))
    (hnp : NilPar h.mem tree.nil p t)
    (hd : del_case_L pc p kp dp t W = some (forced, sub)) :
    ∃ r, rb_tree_delete_fixup_case234_left h tree (t.ptr tree.nil) (W.ptr tree.nil) = .ok r ∧
      Alloc h r.1 ∧ r.2.2.2 = forced ∧ r.2.2.1 = (if forced = true then r.2.1.root else p) ∧
      RotPost h tree c sub (r.1, r.2.1) := by
  cases W with
  | leaf => simp [del_case_L] at hd
  | node w cw a k d b =>
    simp only [del_case_L] at hd
    split_ifs at hd with h1 h2
    · simp only [Option.some.injEq, Prod.mk.injEq] at hd
      obtain ⟨e1, e2⟩ := hd
      subst e1 e2
      obtain ⟨r, hr, hA, g1, g2, g3⟩ := delete_fixup_case2_left hf hnp h1.1 h1.2
      exact ⟨r, hr, hA, g1, by simp [g2], g3⟩
    · cases a with
      | leaf => simp at hd
      | node n cn nn nk dn nf =>
        simp only [Option.some.injEq, Prod.mk.injEq] at hd
        obtain ⟨e1, e2⟩ := hd
        subst e1 e2
        have hcn : cn ≠ RB_NODE_COLOR_BLACK := fun e => h1 ⟨by simp [Tree.color, e], h2⟩
        obtain ⟨r, hr, hA, g1, g2, g3⟩ := delete_fixup_case34_left hf hnp hcn h2
        exact ⟨r, hr, hA, g1, by simp [g2], g3⟩
    · cases b with
      | leaf => simp at hd
      | node f cf fn fk fd ff =>
        simp only [Option.some.injEq, Prod.mk.injEq] at hd
        obtain ⟨e1, e2⟩ := hd
        subst e1 e2
        have hcf : cf ≠ RB_NODE_COLOR_BLACK := fun e => h2 (by simp [Tree.color, e])
        obtain ⟨r, hr, hA, g1, g2, g3⟩ := delete_fixup_case4_left hf hnp hcf
        exact ⟨r, hr, hA, g1, by simp [g2], g3⟩

theorem del_fix_L_red {p : Ptr} {cp : rb_node_color} {kp : Nat} {dp : Ptr} {up : Ctx} {t : Tree}
    {f g : Bool} {w : Ptr} {wl : Tree} {wk : Nat} {wd : Ptr} {wr : Tree}
    (hcol : t.color = RB_NODE_COLOR_BLACK) :
    del_fix (.L p cp kp dp (.node w RB_NODE_COLOR_RED wl wk wd wr) up) t f g =
      match del_case_L RB_NODE_COLOR_RED p kp dp t wl with
      | none => none
      | some (false, sub) => some ⟨.L w RB_NODE_COLOR_BLACK wk wd wr up, sub, f, true⟩
      | some (true, sub) =>
        some ⟨.top, (Ctx.L w RB_NODE_COLOR_BLACK wk wd wr up).plug sub, true, true⟩ := by
  simp only [del_fix, hcol, if_true]
  try (rcases del_case_L RB_NODE_COLOR_RED p kp dp t wl with _ | ⟨_ | _, sub⟩ <;> rfl)

theorem del_fix_L_black {p : Ptr} {cp : rb_node_color} {kp : Nat} {dp : Ptr} {up : Ctx} {t : Tree}
    {f g : Bool} {w : Ptr} {cw : rb_node_color} {wl : Tree} {wk : Nat} {wd : Ptr} {wr : Tree}
    (hcol : t.color = RB_NODE_COLOR_BLACK) (hcw : cw ≠ RB_NODE_COLOR_RED) :
    del_fix (.L p cp kp dp (.node w cw wl wk wd wr) up) t f g =
      match del_case_L cp p kp dp t (.node w cw wl wk wd wr) with
      | none => none
      | some (false, sub) => del_fix up sub f true
      | some (true, sub) => some ⟨.top, up.plug sub, true, true⟩ := by
  cases cw
  · exact absurd rfl hcw
  all_goals
    simp only [del_fix, hcol, if_true]
    try (rcases del_case_L cp p kp dp t _ with _ | ⟨_ | _, sub⟩ <;> rfl)

/-- One turn of the loop of `rb_tree_delete_fixup` for `x` a left child: what is
left to run is the loop on the state that `del_case_L` describes. -/
theorem delete_fixup_step_left {h : Heap} {tree : rb_tree} {up : Ctx} {p : Ptr}
    {cp : rb_node_color} {kp : Nat} {dp : Ptr} {t w : Tree} {f g : Bool} {e : DelExit}
    (fuel : Nat)
    (ih : ∀ (c : Ctx) (t : Tree) (f g : Bool) (e : DelExit) (h1 : Heap) (tree1 : rb_tree),
      Focus h1 tree1 c t → NilPar h1.mem tree1.nil (c.par tree1.nil) t →
      del_fix c t f g = some e → c.depth < fuel →
      ∃ s, rb_tree_delete_fixup_loop fuel h1 tree1 (t.ptr tree1.nil) f g = .ok s ∧
        Alloc h1 s.heap ∧ s.x = e.sub.ptr tree1.nil ∧ s.is_forced = e.is_forced ∧ s.is_goes_up = e.is_goes_up ∧
        RotPost h1 tree1 e.ctx e.sub (s.heap, s.tree))
    (hf : Focus h tree (.L p cp kp dp w up) t)
    (hnp : NilPar h.mem tree.nil p t)
    (hd : del_fix (.L p cp kp dp w up) t f g = some e)
    (hfuel : up.depth + 1 < fuel + 1) :
    ∃ s, rb_tree_delete_fixup_loop (fuel + 1) h tree (t.ptr tree.nil) f g = .ok s ∧
      Alloc h s.heap ∧ s.x = e.sub.ptr tree.nil ∧ s.is_forced = e.is_forced ∧ s.is_goes_up = e.is_goes_up ∧
      RotPost h tree e.ctx e.sub (s.heap, s.tree) := by
  by_cases hcol : t.color = RB_NODE_COLOR_BLACK
  swap
  · simp only [del_fix, hcol, if_false, Option.some.injEq] at hd
    subst hd
    exact ⟨_, delete_fixup_loop_exit fuel hf (Or.inr hcol), alloc_refl _, rfl, rfl, rfl,
      rotpost_self hf⟩
  cases w with
  | leaf => simp [del_fix, hcol, del_case_L] at hd
  | node w cw wl wk wd wr =>
    have hne := focus_ptr_ne_root hf (by simp)
    obtain ⟨nx, hnx, hcx, hpx⟩ := own_cell_par hf.own hnp
    have hpc := hf.ctx.1
    have hfu := focus_up_L.mp hf
    have hnd := hf.sep.nodup
    have hnil := hf.sep.nil_not_mem
    simp only [sepS, not_or, List.cons_append, not_false_eq_true, true_and, and_true,
      not_true_eq_false, false_or, or_false, List.append_nil] at hnd hnil
    obtain ⟨fuel, rfl⟩ : ∃ k, fuel = k + 1 := ⟨fuel - 1, by omega⟩
    unfold rb_tree_delete_fixup_loop
    simp only [ctx_par_L] at hpx
    simp only [tree_ptr_node] at hpc ⊢
    simp [-Prod.exists, accS, res_bind_assoc, hne, hnx, hcx, hcol, hpx, hpc, hnd, hnil,
      eq_tree_ptr_false, tree_ptr_eq_false]
    by_cases hcw : cw = RB_NODE_COLOR_RED
    · subst hcw
      rw [del_fix_L_red hcol] at hd
      cases hdc : del_case_L RB_NODE_COLOR_RED p kp dp t wl with
      | none => simp [hdc] at hd
      | some fs =>
        obtain ⟨forced, sub⟩ := fs
        refine spec_then (delete_fixup_case1_left_red hfu hnp) ?_
        rintro ⟨h1, ⟨root1, nil1, bh1⟩, x1⟩ ⟨hA1, e1, hr1⟩
        simp only at hA1 e1 hr1
        have hr1c := hr1
        obtain ⟨a1, a2, a3, a4, a5, hF1⟩ := hr1
        simp only at a1 a2 a3 a4 a5 hF1
        subst a1 e1
        have hF2 := focus_up_L.mpr hF1
        have hnp1 : NilPar h1.mem tree.nil p t := fun ht => by rw [a5]; exact hnp ht
        refine spec_then (delete_fixup_case234_left_spec hF2 hnp1 hdc) ?_
        rintro ⟨h2, ⟨root2, nil2, bh2⟩, x2, f2⟩ ⟨hA2, e1, e2, hr2⟩
        simp only at hA2 e1 e2 hr2
        have hA3 := alloc_trans hA1 hA2
        have hr3 := rotpost_trans hr1c hr2
        obtain ⟨b1, b2, b3, b4, b5, hF3⟩ := hr2
        simp only at b1 b2 b3 b4 b5 hF3
        subst b1 e1
        cases f2 with
        | false =>
          simp only [hdc, Option.some.injEq] at hd
          subst hd
          obtain ⟨w2, rfl⟩ := del_case_L_false hdc
          simp only [Bool.false_eq_true, if_false] at e2
          subst e2
          have := delete_fixup_loop_exit (f := f) (g := true) fuel hF3
            (Or.inr (by simp [Tree.color]))
          simp only [tree_ptr_node] at this
          simp only [Bool.or_false]
          exact ⟨_, this, hA3, by simp, rfl, rfl, hr3⟩
        | true =>
          simp only [hdc, Option.some.injEq] at hd
          subst hd
          simp only [if_true] at e2
          subst e2
          have hF4 := focus_plug hF3
          have hx : ((Ctx.L w RB_NODE_COLOR_BLACK wk wd wr up).plug sub).ptr tree.nil = x2 :=
            hF4.ctx.symm
          have := delete_fixup_loop_exit (f := true) (g := true) fuel hF4 (Or.inl rfl)
          simp only [hx] at this
          simp only [Bool.or_true]
          exact ⟨_, this, hA3, hx.symm, rfl, rfl, rotpost_plug hr3⟩
    · rw [del_fix_L_black hcol hcw] at hd
      have hw := hfu.own.2.2.1
      rw [delete_fixup_case1_left_skip hw hcw]
      simp only [res_ok_bind]
      cases hdc : del_case_L cp p kp dp t (.node w cw wl wk wd wr) with
      | none => simp [hdc] at hd
      | some fs =>
        obtain ⟨forced, sub⟩ := fs
        have h234 := delete_fixup_case234_left_spec hfu hnp hdc
        simp only [tree_ptr_node] at h234
        refine spec_then h234 ?_
        rintro ⟨h2, ⟨root2, nil2, bh2⟩, x2, f2⟩ ⟨hA3, e1, e2, hr2⟩
        simp only at hA3 e1 e2 hr2
        have hr3 := hr2
        obtain ⟨b1, b2, b3, b4, b5, hF3⟩ := hr2
        simp only at b1 b2 b3 b4 b5 hF3
        subst b1 e1
        cases f2 with
        | false =>
          simp only [hdc] at hd
          obtain ⟨w2, rfl⟩ := del_case_L_false hdc
          simp only [Bool.false_eq_true, if_false] at e2
          subst e2
          obtain ⟨s, hs, gA, g1, g2, g3, g4⟩ := ih up _ f true e h2 _ hF3
            (fun ht => by cases ht) hd (by omega)
          simp only [tree_ptr_node] at hs g1
          simp only [Bool.or_false]
          exact ⟨s, hs, alloc_trans hA3 gA, g1, g2, g3, rotpost_trans hr3 g4⟩
        | true =>
          simp only [hdc, Option.some.injEq] at hd
          subst hd
          simp only [if_true] at e2
          subst e2
          have hF4 := focus_plug hF3
          have hx : (up.plug sub).ptr tree.nil = x2 := hF4.ctx.symm
          have := delete_fixup_loop_exit (f := true) (g := true) fuel hF4 (Or.inl rfl)
          simp only [hx] at this
          simp only [Bool.or_true]
          exact ⟨_, this, hA3, hx.symm, rfl, rfl, rotpost_plug hr3⟩

theorem del_case_R_false {pc : rb_node_color} {p : Ptr} {kp : Nat} {dp : Ptr} {x w sub : Tree}
    (hd : del_case_R pc p kp dp x w = some (false, sub)) :
    ∃ w', sub = (.node p pc w' kp dp x) := by
  cases w with
  | leaf => simp [del_case_R] at hd
  | node w cw a k d b =>
    simp only [del_case_R] at hd
    split_ifs at hd with h1 h2
    · simp only [Option.some.injEq, Prod.mk.injEq, true_and] at hd
      exact ⟨_, hd.symm⟩
    · cases b <;> simp at hd
    · cases a <;> simp at hd

theorem delete_fixup_case234_right_spec {h : Heap} {tree : rb_tree} {c : Ctx} {p : Ptr}
    {pc : rb_node_color} {kp : Nat} {dp : Ptr} {t W sub : Tree} {forced : Bool}
    (hf : Focus h tree c (.node p pc W kp dp t))
    (hnp : NilPar h.mem tree.nil p t)
    (hd : del_case_R pc p kp dp t W = some (forced, sub)) :
    ∃ r, rb_tree_delete_fixup_case234_right h tree (t.ptr tree.nil) (W.ptr tree.nil) = .ok r ∧
      Alloc h r.1 ∧ r.2.2.2 = forced ∧ r.2.2.1 = (if forced = true then r.2.1.root else p) ∧
      RotPost h tree c sub (r.1, r.2.1) := by
  cases W with
  | leaf => simp [del_case_R] at hd
  | node w cw a k d b =>
    simp only [del_case_R] at hd
    split_ifs at hd with h1 h2
    · simp only [Option.some.injEq, Prod.mk.injEq] at hd
      obtain ⟨e1, e2⟩ := hd
      subst e1 e2
      obtain ⟨r, hr, hA, g1, g2, g3⟩ := delete_fixup_case2_right hf hnp h1.1 h1.2
      exact ⟨r, hr, hA, g1, by simp [g2], g3⟩
    · cases b with
      | leaf => simp at hd
      | node n cn nn nk dn nf =>
        simp only [Option.some.injEq, Prod.mk.injEq] at hd
        obtain ⟨e1, e2⟩ := hd
        subst e1 e2
        have hcn : cn ≠ RB_NODE_COLOR_BLACK := fun e => h1 ⟨by simp [Tree.color, e], h2⟩
        obtain ⟨r, hr, hA, g1, g2, g3⟩ := delete_fixup_case34_right hf hnp hcn h2
        exact ⟨r, hr, hA, g1, by simp [g2], g3⟩
    · cases a with
      | leaf => simp at hd
      | node f cf fn fk fd ff =>
        simp only [Option.some.injEq, Prod.mk.injEq] at hd
        obtain ⟨e1, e2⟩ := hd
        subst e1 e2
        have hcf : cf ≠ RB_NODE_COLOR_BLACK := fun e => h2 (by simp [Tree.color, e])
        obtain ⟨r, hr, hA, g1, g2, g3⟩ := delete_fixup_case4_right hf hnp hcf
        exact ⟨r, hr, hA, g1, by simp [g2], g3⟩

theorem del_fix_R_red {p : Ptr} {cp : rb_node_color} {kp : Nat} {dp : Ptr} {up : Ctx} {t : Tree}
    {f g : Bool} {w : Ptr} {wl : Tree} {wk : Nat} {wd : Ptr} {wr : Tree}
    (hcol : t.color = RB_NODE_COLOR_BLACK) :
    del_fix (.R p cp kp dp (.node w RB_NODE_COLOR_RED wl wk wd wr) up) t f g =
      match del_case_R RB_NODE_COLOR_RED p kp dp t wr with
      | none => none
      | some (false, sub) => some ⟨.R w RB_NODE_COLOR_BLACK wk wd wl up, sub, f, true⟩
      | some (true, sub) =>
        some ⟨.top, (Ctx.R w RB_NODE_COLOR_BLACK wk wd wl up).plug sub, true, true⟩ := by
  simp only [del_fix, hcol, if_true]
  try (rcases del_case_R RB_NODE_COLOR_RED p kp dp t wr with _ | ⟨_ | _, sub⟩ <;> rfl)

theorem del_fix_R_black {p : Ptr} {cp : rb_node_color} {kp : Nat} {dp : Ptr} {up : Ctx} {t : Tree}
    {f g : Bool} {w : Ptr} {cw : rb_node_color} {wl : Tree} {wk : Nat} {wd : Ptr} {wr : Tree}
    (hcol : t.color = RB_NODE_COLOR_BLACK) (hcw : cw ≠ RB_NODE_COLOR_RED) :
    del_fix (.R p cp kp dp (.node w cw wl wk wd wr) up) t f g =
      match del_case_R cp p kp dp t (.node w cw wl wk wd wr) with
      | none => none
      | some (false, sub) => del_fix up sub f true
      | some (true, sub) => some ⟨.top, up.plug sub, true, true⟩ := by
  cases cw
  · exact absurd rfl hcw
  all_goals
    simp only [del_fix, hcol, if_true]
    try (rcases del_case_R cp p kp dp t _ with _ | ⟨_ | _, sub⟩ <;> rfl)

/-- One turn of the loop of `rb_tree_delete_fixup` for `x` a right child: what is
left to run is the loop on the state that `del_case_R` describes. -/
theorem delete_fixup_step_right {h : Heap} {tree : rb_tree} {up : Ctx} {p : Ptr}
    {cp : rb_node_color} {kp : Nat} {dp : Ptr} {t w : Tree} {f g : Bool} {e : DelExit}
    (fuel : Nat)
    (ih : ∀ (c : Ctx) (t : Tree) (f g : Bool) (e : DelExit) (h1 : Heap) (tree1 : rb_tree),
      Focus h1 tree1 c t → NilPar h1.mem tree1.nil (c.par tree1.nil) t →
      del_fix c t f g = some e → c.depth < fuel →
      ∃ s, rb_tree_delete_fixup_loop fuel h1 tree1 (t.ptr tree1.nil) f g = .ok s ∧
        Alloc h1 s.heap ∧ s.x = e.sub.ptr tree1.nil ∧ s.is_forced = e.is_forced ∧ s.is_goes_up = e.is_goes_up ∧
        RotPost h1 tree1 e.ctx e.sub (s.heap, s.tree))
    (hf : Focus h tree (.R p cp kp dp w up) t)
    (hnp : NilPar h.mem tree.nil p t)
    (hd : del_fix (.R p cp kp dp w up) t f g = some e)
    (hfuel : up.depth + 1 < fuel + 1) :
    ∃ s, rb_tree_delete_fixup_loop (fuel + 1) h tree (t.ptr tree.nil) f g = .ok s ∧
      Alloc h s.heap ∧ s.x = e.sub.ptr tree.nil ∧ s.is_forced = e.is_forced ∧ s.is_goes_up = e.is_goes_up ∧
      RotPost h tree e.ctx e.sub (s.heap, s.tree) := by
  by_cases hcol : t.color = RB_NODE_COLOR_BLACK
  swap
  · simp only [del_fix, hcol, if_false, Option.some.injEq] at hd
    subst hd
    exact ⟨_, delete_fixup_loop_exit fuel hf (Or.inr hcol), alloc_refl _, rfl, rfl, rfl,
      rotpost_self hf⟩
  cases w with
  | leaf => simp [del_fix, hcol, del_case_R] at hd
  | node w cw wl wk wd wr =>
    have hne := focus_ptr_ne_root hf (by simp)
    obtain ⟨nx, hnx, hcx, hpx⟩ := own_cell_par hf.own hnp
    have hpc := hf.ctx.1
    have hfu := focus_up_R.mp hf
    have hnd := hf.sep.nodup
    have hnil := hf.sep.nil_not_mem
    simp only [sepS, not_or, List.cons_append, not_false_eq_true, true_and, and_true,
      not_true_eq_false, false_or, or_false, List.append_nil] at hnd hnil
    obtain ⟨fuel, rfl⟩ : ∃ k, fuel = k + 1 := ⟨fuel - 1, by omega⟩
    unfold rb_tree_delete_fixup_loop
    simp only [ctx_par_R] at hpx
    simp only [tree_ptr_node] at hpc ⊢
    simp [-Prod.exists, accS, res_bind_assoc, hne, hnx, hcx, hcol, hpx, hpc, hnd, hnil,
      eq_tree_ptr_false, tree_ptr_eq_false]
    by_cases hcw : cw = RB_NODE_COLOR_RED
    · subst hcw
      rw [del_fix_R_red hcol] at hd
      cases hdc : del_case_R RB_NODE_COLOR_RED p kp dp t wr with
      | none => simp [hdc] at hd
      | some fs =>
        obtain ⟨forced, sub⟩ := fs
        refine spec_then (delete_fixup_case1_right_red hfu hnp) ?_
        rintro ⟨h1, ⟨root1, nil1, bh1⟩, x1⟩ ⟨hA1, e1, hr1⟩
        simp only at hA1 e1 hr1
        have hr1c := hr1
        obtain ⟨a1, a2, a3, a4, a5, hF1⟩ := hr1
        simp only at a1 a2 a3 a4 a5 hF1
        subst a1 e1
        have hF2 := focus_up_R.mpr hF1
        have hnp1 : NilPar h1.mem tree.nil p t := fun ht => by rw [a5]; exact hnp ht
        refine spec_then (delete_fixup_case234_right_spec hF2 hnp1 hdc) ?_
        rintro ⟨h2, ⟨root2, nil2, bh2⟩, x2, f2⟩ ⟨hA2, e1, e2, hr2⟩
        simp only at hA2 e1 e2 hr2
        have hA3 := alloc_trans hA1 hA2
        have hr3 := rotpost_trans hr1c hr2
        obtain ⟨b1, b2, b3, b4, b5, hF3⟩ := hr2
        simp only at b1 b2 b3 b4 b5 hF3
        subst b1 e1
        cases f2 with
        | false =>
          simp only [hdc, Option.some.injEq] at hd
          subst hd
          obtain ⟨w2, rfl⟩ := del_case_R_false hdc
          simp only [Bool.false_eq_true, if_false] at e2
          subst e2
          have := delete_fixup_loop_exit (f := f) (g := true) fuel hF3
            (Or.inr (by simp [Tree.color]))
          simp only [tree_ptr_node] at this
          simp only [Bool.or_false]
          exact ⟨_, this, hA3, by simp, rfl, rfl, hr3⟩
        | true =>
          simp only [hdc, Option.some.injEq] at hd
          subst hd
          simp only [if_true] at e2
          subst e2
          have hF4 := focus_plug hF3
          have hx : ((Ctx.R w RB_NODE_COLOR_BLACK wk wd wl up).plug sub).ptr tree.nil = x2 :=
            hF4.ctx.symm
          have := delete_fixup_loop_exit (f := true) (g := true) fuel hF4 (Or.inl rfl)
          simp only [hx] at this
          simp only [Bool.or_true]
          exact ⟨_, this, hA3, hx.symm, rfl, rfl, rotpost_plug hr3⟩
    · rw [del_fix_R_black hcol hcw] at hd
      have hw := hfu.own.2.1.1
      rw [delete_fixup_case1_right_skip hw hcw]
      simp only [res_ok_bind]
      cases hdc : del_case_R cp p kp dp t (.node w cw wl wk wd wr) with
      | none => simp [hdc] at hd
      | some fs =>
        obtain ⟨forced, sub⟩ := fs
        have h234 := delete_fixup_case234_right_spec hfu hnp hdc
        simp only [tree_ptr_node] at h234
        refine spec_then h234 ?_
        rintro ⟨h2, ⟨root2, nil2, bh2⟩, x2, f2⟩ ⟨hA3, e1, e2, hr2⟩
        simp only at hA3 e1 e2 hr2
        have hr3 := hr2
        obtain ⟨b1, b2, b3, b4, b5, hF3⟩ := hr2
        simp only at b1 b2 b3 b4 b5 hF3
        subst b1 e1
        cases f2 with
        | false =>
          simp only [hdc] at hd
          obtain ⟨w2, rfl⟩ := del_case_R_false hdc
          simp only [Bool.false_eq_true, if_false] at e2
          subst e2
          obtain ⟨s, hs, gA, g1, g2, g3, g4⟩ := ih up _ f true e h2 _ hF3
            (fun ht => by cases ht) hd (by omega)
          simp only [tree_ptr_node] at hs g1
          simp only [Bool.or_false]
          exact ⟨s, hs, alloc_trans hA3 gA, g1, g2, g3, rotpost_trans hr3 g4⟩
        | true =>
          simp only [hdc, Option.some.injEq] at hd
          subst hd
          simp only [if_true] at e2
          subst e2
          have hF4 := focus_plug hF3
          have hx : (up.plug sub).ptr tree.nil = x2 := hF4.ctx.symm
          have := delete_fixup_loop_exit (f := true) (g := true) fuel hF4 (Or.inl rfl)
          simp only [hx] at this
          simp only [Bool.or_true]
          exact ⟨_, this, hA3, hx.symm, rfl, rfl, rotpost_plug hr3⟩

/-- The loop of `rb_tree_delete_fixup` computes `del_fix`: started at `x`, the
root of the subtree `t` below the path `c`, with fuel above the length of the
path, it stops in the state `del_fix` yields. -/
theorem delete_fixup_loop_spec : ∀ (fuel : Nat) (c : Ctx) (t : Tree) (f g : Bool) (e : DelExit)
    (h : Heap) (tree : rb_tree),
    Focus h tree c t → NilPar h.mem tree.nil (c.par tree.nil) t →
    del_fix c t f g = some e → c.depth < fuel →
    ∃ s, rb_tree_delete_fixup_loop fuel h tree (t.ptr tree.nil) f g = .ok s ∧
      Alloc h s.heap ∧ s.x = e.sub.ptr tree.nil ∧ s.is_forced = e.is_forced ∧ s.is_goes_up = e.is_goes_up ∧
      RotPost h tree e.ctx e.sub (s.heap, s.tree)
  | 0, _, _, _, _, _, _, _, _, _, _, hfuel => absurd hfuel (Nat.not_lt_zero _)
  | fuel + 1, .top, t, f, g, e, h, tree, hf, _, hd, _ => by
    simp only [del_fix, Option.some.injEq] at hd
    subst hd
    exact ⟨_, delete_fixup_loop_exit fuel hf (Or.inl rfl), alloc_refl _, rfl, rfl, rfl,
      rotpost_self hf⟩
  | fuel + 1, .L p cp kp dp w up, t, f, g, e, h, tree, hf, hnp, hd, hfuel =>
    delete_fixup_step_left fuel (delete_fixup_loop_spec fuel) hf hnp hd hfuel
  | fuel + 1, .R p cp kp dp w up, t, f, g, e, h, tree, hf, hnp, hd, hfuel =>
    delete_fixup_step_right fuel (delete_fixup_loop_spec fuel) hf hnp hd hfuel

end RedBlack


namespace RedBlack
open Tree Ctx

theorem focus_ptr_eq_root_iff {h : Heap} {tree : rb_tree} {c : Ctx} {t : Tree}
    (hf : Focus h tree c t) : t.ptr tree.nil = tree.root ↔ c = .top := by
  constructor
  · intro e
    by_contra hc
    exact focus_ptr_ne_root hf hc e
  · rintro rfl
    exact hf.ctx.symm

/-- `rb_tree_delete_fixup` runs the loop, adjusts `bh` as `bh_after_delete` says
and paints `x` black. -/
theorem delete_fixup_spec {fuel : Nat} {h : Heap} {tree : rb_tree} {c : Ctx} {t : Tree}
    {e : DelExit} (hf : Focus h tree c t) (hnp : NilPar h.mem tree.nil (c.par tree.nil) t)
    (hd : del_fix c t false false = some e) (hfuel : c.depth < fuel) :
    ∃ r, rb_tree_delete_fixup fuel h tree (t.ptr tree.nil) = .ok r ∧
      Alloc h r.1 ∧ r.2.nil = tree.nil ∧ r.2.bh = bh_after_delete e tree.bh ∧
      r.1.next = h.next ∧ r.1.cap = h.cap ∧
      Focus r.1 r.2 .top (e.ctx.plug e.sub.blacken) := by
  unfold rb_tree_delete_fixup
  refine spec_then (delete_fixup_loop_spec fuel c t false false e h tree hf hnp hd hfuel) ?_
  rintro ⟨h1, ⟨root1, nil1, bh1⟩, x1, f1, g1⟩ ⟨hA, e1, e2, e3, a1, a2, a3, a4, a5, hF⟩
  simp only at hA e1 e2 e3 a1 a2 a3 a4 a5 hF
  subst a1 a2 e1 e2 e3
  have hroot := focus_ptr_eq_root_iff hF
  simp only at hroot
  obtain ⟨ec, es, ef, eg⟩ := e
  simp only at hroot hF ⊢
  obtain ⟨hc, ho, hsep⟩ := hF
  have hnd := hsep.nodup
  have hnil := hsep.nil_not_mem
  have hnull := hsep.null_not_mem
  obtain ⟨sp, hsp⟩ := hsep.sentinel
  simp only at hsp hc ho
  cases es with
  | leaf =>
    simp only [tree_ptr_leaf] at hc hroot ⊢
    simp [-Prod.exists, accS, res_bind_assoc, hsp, bh_after_delete, a3, a4, Tree.blacken]
    refine ⟨alloc_put _ _ hA, ?_⟩
    refine focus_plug (c := ec) (t := .leaf) ⟨?_, trivial, sep_perm hsep (List.Perm.refl _)
      (by simp [sentinel_node, hsp])⟩
    exact (ctx_own_put_iff (by
      intro hm; exact hnil (List.mem_append_left _ hm))).mpr hc
  | node a ct l k d r =>
    simp only [Own, tree_ptr_node] at ho hc hroot ⊢
    simp only [sepS, not_or, List.cons_append, not_false_eq_true, true_and, and_true,
      not_true_eq_false, false_or, or_false, List.append_nil, List.nil_append, Tree.addrs]
      at hnd hnil hnull
    have hFnew : ∀ B, Focus (h1.put a
          { color := RB_NODE_COLOR_BLACK, key := k, data := d, left := l.ptr tree.nil,
            right := r.ptr tree.nil, parent := ec.par tree.nil })
        { root := root1, nil := tree.nil, bh := B } .top
        (ec.plug (.node a RB_NODE_COLOR_BLACK l k d r)) := by
      intro B
      refine focus_plug (c := ec) (t := .node a RB_NODE_COLOR_BLACK l k d r) ?_
      refine ⟨?_, ?_, sep_perm hsep (List.Perm.refl _) ?_⟩
      · simp [tree_ptr_node, ctx_own_put_iff, hnd, hc]
      · simp [Own, own_put_iff, hnd, ho]
      · simp [hnil]
    simp [-Prod.exists, accS, res_bind_assoc, ho, bh_after_delete, a3, a4, Tree.blacken, hnil,
      hroot]
    refine ⟨alloc_put _ _ hA, ?_, ?_, ?_⟩
    all_goals split_ifs
    all_goals first | rfl | exact hFnew _

/-- `rb_tree_transplant` puts the subtree `T` at the place of the node `u`, whose
cell stays as it is; the parent field of the root of `T` (the sentinel's when `T`
is empty) is set to the node above. -/
theorem transplant_spec {h : Heap} {tree : rb_tree} {c : Ctx} {u q : Ptr} {T : Tree}
    {nu : rb_node}
    (hc : CtxOwn h.mem tree.nil tree.root c u)
    (hu : h.mem u = some nu) (hup : nu.parent = c.par tree.nil)
    (hT : Own h.mem tree.nil T q)
    (hsep : Sep h.mem tree.nil (c.addrs ++ T.addrs))
    (hu1 : u ∉ c.addrs ++ T.addrs) (hu2 : ¬u = tree.nil) :
    ∃ r, rb_tree_transplant h tree u (T.ptr tree.nil) = .ok r ∧
      Alloc h r.1 ∧ r.2.nil = tree.nil ∧ r.2.bh = tree.bh ∧ r.1.next = h.next ∧
      r.1.cap = h.cap ∧
      (∀ a, a ∉ c.addrs → ¬a = T.ptr tree.nil → r.1.mem a = h.mem a) ∧
      Focus r.1 r.2 c T ∧ NilPar r.1.mem tree.nil (c.par tree.nil) T := by
  have hnd := hsep.nodup
  have hnil := hsep.nil_not_mem
  have hnull := hsep.null_not_mem
  obtain ⟨sp, hsp⟩ := hsep.sentinel
  unfold rb_tree_transplant
  cases c <;> cases T <;>
    simp only [Own, CtxOwn, tree_ptr_leaf, tree_ptr_node, ctx_par_top, ctx_par_L, ctx_par_R]
      at hT hc hup <;>
    simp only [sepS, not_or, List.cons_append, not_false_eq_true, true_and, and_true,
      not_true_eq_false, false_or, or_false, List.append_nil, List.nil_append, Tree.addrs,
      Ctx.addrs] at hnd hnil hnull hu1 <;>
    simp [-Prod.exists, accS, res_bind_assoc, hu, hup, hT, hc, hnd, hnil, hnull, hu1, hu2, hsp,
      eq_tree_ptr_false, tree_ptr_eq_false, sentinel_node]
  all_goals
    refine ⟨by repeat (first | exact alloc_refl _ | apply alloc_put), ?_, ⟨?_, ?_,
      ⟨hsep.nodup, hsep.nil_not_mem, hsep.null_not_mem, hsep.nil_ne, ?_⟩⟩, ?_⟩
  all_goals
    first
    | (intro a ha hne
       simp only [Ctx.addrs, sepS, not_or] at ha
       simp [hne, ha]
       done)
    | (simp [Own, CtxOwn, NilPar, sentinel_node, hT, hc, hnd, hnil, hnull, hsp, own_put_iff,
        ctx_own_put_iff]
       done)

theorem plug_append : ∀ (cm outer : Ctx) (t : Tree),
    (cm.append outer).plug t = outer.plug (cm.plug t)
  | .top, _, _ => rfl
  | .L a c k d s up, outer, t => plug_append up outer (.node a c t k d s)
  | .R a c k d s up, outer, t => plug_append up outer (.node a c s k d t)

theorem focus_append {h : Heap} {tree : rb_tree} {outer : Ctx} :
    ∀ {cm : Ctx} {t : Tree}, Focus h tree (cm.append outer) t ↔ Focus h tree outer (cm.plug t)
  | .top, _ => Iff.rfl
  | .L a c k d s up, t =>
    focus_up_L.trans (@focus_append _ _ _ up (.node a c t k d s))
  | .R a c k d s up, t =>
    focus_up_R.trans (@focus_append _ _ _ up (.node a c s k d t))

theorem append_par {nil : Ptr} {cm outer : Ctx} (hc : cm ≠ .top) :
    (cm.append outer).par nil = cm.par nil := by
  cases cm with
  | top => exact absurd rfl hc
  | L a c k d s up => rfl
  | R a c k d s up => rfl

theorem append_depth : ∀ (cm outer : Ctx), (cm.append outer).depth = cm.depth + outer.depth
  | .top, outer => by simp [Ctx.append, Ctx.depth]
  | .L a c k d s up, outer => by simp [Ctx.append, Ctx.depth, append_depth up outer]; omega
  | .R a c k d s up, outer => by simp [Ctx.append, Ctx.depth, append_depth up outer]; omega

theorem append_assoc : ∀ (c1 c2 c3 : Ctx), (c1.append c2).append c3 = c1.append (c2.append c3)
  | .top, _, _ => rfl
  | .L a c k d s up, c2, c3 => by simp [Ctx.append, append_assoc up c2 c3]
  | .R a c k d s up, c2, c3 => by simp [Ctx.append, append_assoc up c2 c3]

/-- The descent of `rb_tree_minimum` ends at a node without left child, and the
path it records leads back to where it started. -/
theorem min_locate_spec : ∀ (t : Tree) (c : Ctx), t ≠ .leaf →
    ∃ (cm : Ctx) (y : Ptr) (cy : rb_node_color) (ky : Nat) (dy : Ptr) (yr : Tree),
      t.minLocate c = (cm.append c, .node y cy .leaf ky dy yr) ∧
      t = cm.plug (.node y cy .leaf ky dy yr) ∧ cm.depth < t.height
  | .leaf, _, h => absurd rfl h
  | .node a col .leaf k d r, c, _ =>
    ⟨.top, a, col, k, d, r, rfl, rfl, by simp [Tree.height, Ctx.depth]⟩
  | .node a col (.node la lc ll lk ld lr) k d r, c, _ => by
    obtain ⟨cm, y, cy, ky, dy, yr, h1, h2, h3⟩ :=
      min_locate_spec (.node la lc ll lk ld lr) (.L a col k d r c) (by simp)
    refine ⟨cm.append (.L a col k d r .top), y, cy, ky, dy, yr, ?_, ?_, ?_⟩
    · rw [Tree.minLocate, h1]
      rw [append_assoc]
      rfl
    · rw [plug_append, ← h2]; rfl
    · rw [append_depth]; simp only [Tree.height, Ctx.depth] at h3 ⊢; omega

/-- The loop of `rb_tree_minimum` walks to the node `Tree.minLocate` ends at. -/
theorem minimum_loop_spec {h : Heap} {tree : rb_tree} : ∀ (fuel : Nat) (t : Tree) (c : Ctx)
    (q : Ptr), Own h.mem tree.nil t q → tree.nil ∉ t.addrs → t ≠ .leaf → t.height ≤ fuel →
    rb_tree_minimum_loop fuel h tree (t.ptr tree.nil) = .ok ((t.minLocate c).2.ptr tree.nil)
  | _, .leaf, _, _, _, _, hne, _ => absurd rfl hne
  | 0, .node a col l k d r, _, _, _, _, _, hfuel => by simp [Tree.height] at hfuel
  | fuel + 1, .node a col .leaf k d r, c, q, ho, _, _, _ => by
    simp only [Own, tree_ptr_leaf, tree_ptr_node] at ho
    simp [rb_tree_minimum_loop, accS, ho.1, Tree.minLocate]
  | fuel + 1, .node a col (.node la lc ll lk ld lr) k d r, c, q, ho, hnil, _, hfuel => by
    have ih := @minimum_loop_spec h tree fuel (.node la lc ll lk ld lr)
      (.L a col k d r c) a ho.2.1
      (fun hm => hnil (by simp only [Tree.addrs, sepS] at hm ⊢; tauto)) (by simp)
      (by simp only [Tree.height] at hfuel ⊢; omega)
    have hla : ¬la = tree.nil := fun e => hnil (by simp [Tree.addrs, e])
    simp only [Own, tree_ptr_leaf, tree_ptr_node] at ho ih
    simp [rb_tree_minimum_loop, accS, ho.1, Tree.minLocate, hla, ih]

theorem sep_of_count {m m' : Ptr → Option rb_node} {nil : Ptr} {l l' : List Ptr}
    (hs : Sep m nil l) (hcnt : ∀ a, l'.count a ≤ l.count a)
    (hm : ∃ p, m' nil = some (sentinel_node p)) : Sep m' nil l' := by
  have hmem : ∀ a, a ∈ l' → a ∈ l := fun a ha => by
    have h1 := List.count_pos_iff.mpr ha
    exact List.count_pos_iff.mp (lt_of_lt_of_le h1 (hcnt a))
  refine ⟨?_, fun hx => hs.nil_not_mem (hmem _ hx), fun hx => hs.null_not_mem (hmem _ hx),
    hs.nil_ne, hm⟩
  rw [List.nodup_iff_count_le_one]
  intro a
  exact le_trans (hcnt a) (List.nodup_iff_count_le_one.mp hs.nodup a)

/-- The end of the third branch of `__rb_tree_delete`: `y`, detached and with
the subtree `R` on its right, takes the place, the left subtree and the colour
of `z`. -/
theorem delete_replace_spec {h : Heap} {tree : rb_tree} {c : Ctx} {z y la q zr' : Ptr}
    {cz cy lc : rb_node_color} {zk ky lk : Nat} {zd dy ld : Ptr} {ll lr R : Tree}
    (hc : CtxOwn h.mem tree.nil tree.root c z)
    (hz : h.mem z = some
      { color := cz, key := zk, data := zd, left := la, right := zr', parent := c.par tree.nil })
    (hl : Own h.mem tree.nil (.node la lc ll lk ld lr) z)
    (hy : h.mem y = some
      { color := cy, key := ky, data := dy, left := tree.nil, right := R.ptr tree.nil,
        parent := q })
    (hR : Own h.mem tree.nil R y)
    (hsep : Sep h.mem tree.nil
      (c.addrs ++ ((Tree.node la lc ll lk ld lr).addrs ++ z :: y :: R.addrs))) :
    ∃ r, __rb_tree_delete_replace h tree z y = .ok r ∧
      Alloc h r.1 ∧ r.2.nil = tree.nil ∧ r.2.bh = tree.bh ∧ r.1.next = h.next ∧
      r.1.cap = h.cap ∧ r.1.mem tree.nil = h.mem tree.nil ∧
      Focus r.1 r.2 c (.node y cz (.node la lc ll lk ld lr) ky dy R) := by
  have hnd := hsep.nodup
  have hnil := hsep.nil_not_mem
  have hnull := hsep.null_not_mem
  simp only [sepS, not_or, List.cons_append, not_false_eq_true, true_and, and_true,
    not_true_eq_false, false_or, or_false, List.append_nil, List.nil_append, Tree.addrs]
    at hnd hnil hnull
  have hT : Own h.mem tree.nil (.node y cy .leaf ky dy R) q := ⟨hy, trivial, hR⟩
  have hsepT : Sep h.mem tree.nil (c.addrs ++ (Tree.node y cy .leaf ky dy R).addrs) :=
    sep_of_count hsep (fun a => by simp [Tree.addrs, List.count_cons]; omega) hsep.sentinel
  unfold __rb_tree_delete_replace
  refine spec_then (transplant_spec (T := .node y cy .leaf ky dy R) hc hz rfl hT hsepT
    (by simp [Tree.addrs, sepS, hnd]) (by simp [hnil])) ?_
  rintro ⟨h1, ⟨root1, nil1, bh1⟩⟩ ⟨hA, e1, e2, e3, e4, hfr, hF, -⟩
  simp only at hA e1 e2 e3 e4 hfr hF
  subst e1 e2
  have hz1 : h1.mem z = _ := (hfr z (by simp [hnd]) (by simp [hnd])).trans hz
  have hla1 : h1.mem la = _ := (hfr la (by simp [hnd]) (by simp [hnd])).trans hl.1
  have hn1 : h1.mem tree.nil = h.mem tree.nil := hfr _ (by simp [hnil]) (by simp [hnil])
  have hcnt := fun a => List.nodup_iff_count_le_one.mp hsep.nodup a
  simp only [Tree.addrs, List.count_append, List.count_cons, List.count_nil] at hcnt
  have hll : Own h1.mem tree.nil ll la := own_frame (fun a ha => hfr a
    (fun hm => by
      have h1 := List.count_pos_iff.mpr hm
      have h2 := List.count_pos_iff.mpr ha
      have h3 := hcnt a
      omega)
    (fun e => by
      rw [e] at ha
      simp only [tree_ptr_node] at ha
      have h2 := List.count_pos_iff.mpr ha
      have h3 := hcnt y
      simp only [beq_self_eq_true, if_true] at h3
      omega)) hl.2.1
  have hlr : Own h1.mem tree.nil lr la := own_frame (fun a ha => hfr a
    (fun hm => by
      have h1 := List.count_pos_iff.mpr hm
      have h2 := List.count_pos_iff.mpr ha
      have h3 := hcnt a
      omega)
    (fun e => by
      rw [e] at ha
      simp only [tree_ptr_node] at ha
      have h2 := List.count_pos_iff.mpr ha
      have h3 := hcnt y
      simp only [beq_self_eq_true, if_true] at h3
      omega)) hl.2.2
  obtain ⟨hc1, ho1, hsep1⟩ := hF
  simp only [Own, tree_ptr_leaf, tree_ptr_node] at ho1 hc1
  simp [-Prod.exists, accS, res_bind_assoc, hz1, hla1, ho1, hnd, hnil, hnull, e3, e4, hn1]
  refine ⟨by repeat (first | exact hA | apply alloc_put), ?_, ?_, ?_⟩
  · simp [ctx_own_put_iff, hnd, hc1]
  · simp [Own, own_put_iff, hnd, hll, hlr, ho1]
  · refine sep_of_count hsep (fun a => by simp [Tree.addrs, List.count_cons] <;> omega) ?_
    obtain ⟨sp, hsp⟩ := hsep.sentinel
    exact ⟨sp, by simp [hnil, hn1, hsp]⟩

theorem delete_unlink_left_nil {fuel : Nat} {h : Heap} {tree : rb_tree} {c : Ctx} {z : Ptr}
    {cz : rb_node_color} {zk : Nat} {zd : Ptr} {zr : Tree}
    (hf : Focus h tree c (.node z cz .leaf zk zd zr)) :
    ∃ s, __rb_tree_delete_unlink fuel h tree z = .ok s ∧ UnlinkPost h tree c zr cz s := by
  obtain ⟨hc, ho, hsep⟩ := hf
  have hnd := hsep.nodup
  have hnil := hsep.nil_not_mem
  simp only [sepS, not_or, List.cons_append, not_false_eq_true, true_and, and_true,
    not_true_eq_false, false_or, or_false, List.append_nil, List.nil_append, Tree.addrs]
    at hnd hnil
  simp only [Own, tree_ptr_leaf, tree_ptr_node] at ho hc
  unfold __rb_tree_delete_unlink
  simp [-Prod.exists, accS, res_bind_assoc, ho]
  refine spec_then (transplant_spec hc ho.1 rfl ho.2.2
    (sep_of_count hsep (fun a => by simp [Tree.addrs, List.count_cons]) hsep.sentinel)
    (by simp [sepS, hnd]) (by simp [hnil])) ?_
  rintro ⟨h1, t1⟩ ⟨hA, e1, e2, e3, e4, -, hF, hN⟩
  exact ⟨_, rfl, hA, e1, e2, e3, e4, rfl, rfl, hF, hN⟩

theorem delete_unlink_right_nil {fuel : Nat} {h : Heap} {tree : rb_tree} {c : Ctx} {z la : Ptr}
    {cz lc : rb_node_color} {zk lk : Nat} {zd ld : Ptr} {ll lr : Tree}
    (hf : Focus h tree c (.node z cz (.node la lc ll lk ld lr) zk zd .leaf)) :
    ∃ s, __rb_tree_delete_unlink fuel h tree z = .ok s ∧
      UnlinkPost h tree c (.node la lc ll lk ld lr) cz s := by
  obtain ⟨hc, ho, hsep⟩ := hf
  have hnd := hsep.nodup
  have hnil := hsep.nil_not_mem
  simp only [sepS, not_or, List.cons_append, not_false_eq_true, true_and, and_true,
    not_true_eq_false, false_or, or_false, List.append_nil, List.nil_append, Tree.addrs]
    at hnd hnil
  have hol := ho.2.1
  simp only [Own, tree_ptr_leaf, tree_ptr_node] at ho hc
  unfold __rb_tree_delete_unlink
  simp [-Prod.exists, accS, res_bind_assoc, ho, hnil]
  refine spec_then (transplant_spec (T := .node la lc ll lk ld lr) hc ho.1 rfl hol
    (sep_of_count hsep (fun a => by simp [Tree.addrs, List.count_cons]) hsep.sentinel)
    (by simp [sepS, hnd, Tree.addrs]) (by simp [hnil])) ?_
  rintro ⟨h1, t1⟩ ⟨hA, e1, e2, e3, e4, -, hF, hN⟩
  exact ⟨_, rfl, hA, e1, e2, e3, e4, rfl, rfl, hF, hN⟩

theorem append_top : ∀ (c : Ctx), c.append .top = c
  | .top => rfl
  | .L a col k d s up => by simp [Ctx.append, append_top up]
  | .R a col k d s up => by simp [Ctx.append, append_top up]

theorem count_addrs_plug (a : Ptr) : ∀ (c : Ctx) (t : Tree),
    (c.plug t).addrs.count a = c.addrs.count a + t.addrs.count a
  | .top, t => by simp [Ctx.plug, Ctx.addrs]
  | .L b col k d s up, t => by
    rw [Ctx.plug, count_addrs_plug a up]
    simp [Tree.addrs, Ctx.addrs, List.count_cons]; omega
  | .R b col k d s up, t => by
    rw [Ctx.plug, count_addrs_plug a up]
    simp [Tree.addrs, Ctx.addrs, List.count_cons]; omega

theorem count_addrs_append (a : Ptr) : ∀ (c outer : Ctx),
    (c.append outer).addrs.count a = c.addrs.count a + outer.addrs.count a
  | .top, outer => by simp [Ctx.append, Ctx.addrs]
  | .L b col k d s up, outer => by
    simp [Ctx.append, Ctx.addrs, List.count_cons, count_addrs_append a up outer]; omega
  | .R b col k d s up, outer => by
    simp [Ctx.append, Ctx.addrs, List.count_cons, count_addrs_append a up outer]; omega

theorem mem_addrs_append {a : Ptr} {c outer : Ctx} :
    a ∈ (c.append outer).addrs ↔ a ∈ c.addrs ∨ a ∈ outer.addrs := by
  rw [← List.count_pos_iff, count_addrs_append, ← List.count_pos_iff, ← List.count_pos_iff]
  omega

theorem plug_node_of_ne_top : ∀ (c : Ctx) (t : Tree), c ≠ .top →
    ∃ a col l k d r, c.plug t = .node a col l k d r
  | .top, _, hc => absurd rfl hc
  | .L b col k d s .top, t, _ => ⟨_, _, _, _, _, _, rfl⟩
  | .R b col k d s .top, t, _ => ⟨_, _, _, _, _, _, rfl⟩
  | .L b col k d s (.L b2 c2 k2 d2 s2 up), t, _ =>
    plug_node_of_ne_top (.L b2 c2 k2 d2 s2 up) _ (by simp)
  | .L b col k d s (.R b2 c2 k2 d2 s2 up), t, _ =>
    plug_node_of_ne_top (.R b2 c2 k2 d2 s2 up) _ (by simp)
  | .R b col k d s (.L b2 c2 k2 d2 s2 up), t, _ =>
    plug_node_of_ne_top (.L b2 c2 k2 d2 s2 up) _ (by simp)
  | .R b col k d s (.R b2 c2 k2 d2 s2 up), t, _ =>
    plug_node_of_ne_top (.R b2 c2 k2 d2 s2 up) _ (by simp)

theorem ctx_par_mem {nil : Ptr} {c : Ctx} (hc : c ≠ .top) : c.par nil ∈ c.addrs := by
  cases c with
  | top => exact absurd rfl hc
  | L a col k d s up => simp [Ctx.par, Ctx.addrs]
  | R a col k d s up => simp [Ctx.par, Ctx.addrs]

/-- Third branch of `__rb_tree_delete` when the successor `y` is the right child
of `z`. -/
theorem delete_unlink_succ_child {fuel : Nat} {h : Heap} {tree : rb_tree} {c : Ctx}
    {z la y : Ptr} {cz lc cy : rb_node_color} {zk lk ky : Nat} {zd ld dy : Ptr}
    {ll lr yr : Tree}
    (hf : Focus h tree c (.node z cz (.node la lc ll lk ld lr) zk zd (.node y cy .leaf ky dy yr)))
    (hmin : rb_tree_minimum fuel h tree y = .ok y) :
    ∃ s, __rb_tree_delete_unlink fuel h tree z = .ok s ∧
      UnlinkPost h tree (.R y cz ky dy (.node la lc ll lk ld lr) c) yr cy s := by
  obtain ⟨hc, ho, hsep⟩ := hf
  have hnd := hsep.nodup
  have hnil := hsep.nil_not_mem
  have hnull := hsep.null_not_mem
  obtain ⟨sp, hsp⟩ := hsep.sentinel
  simp only [sepS, not_or, List.cons_append, not_false_eq_true, true_and, and_true,
    not_true_eq_false, false_or, or_false, List.append_nil, List.nil_append, Tree.addrs]
    at hnd hnil hnull
  have hol := ho.2.1
  have hoy := ho.2.2.2.2
  simp only [Own, tree_ptr_leaf, tree_ptr_node] at ho hc
  unfold __rb_tree_delete_unlink
  simp only [UnlinkPost]
  cases yr with
  | leaf =>
    simp [-Prod.exists, accS, res_bind_assoc, ho, hnil, hmin, hsp, sentinel_node]
    refine spec_then (delete_replace_spec (R := .leaf)
      (?_ : CtxOwn _ tree.nil tree.root c z)
      (?_ : _ = some { color := cz, key := zk, data := zd, left := la, right := y,
                       parent := c.par tree.nil })
      (?_ : Own _ tree.nil (.node la lc ll lk ld lr) z)
      (?_ : _ = some { color := cy, key := ky, data := dy, left := tree.nil,
                       right := tree.nil, parent := z })
      (?_ : Own _ tree.nil .leaf y)
      (?_ : Sep _ tree.nil _)) ?_
    · simp [ctx_own_put_iff, hnil, hc]
    · simp [hnil, ho]
    · simp [Own, own_put_iff, hnil, hol, ho]
    · simp [hnil, ho]
    · trivial
    · exact sep_of_count hsep (fun a => by simp [Tree.addrs, List.count_cons] <;> omega)
        ⟨y, by simp [sentinel_node]⟩
    · rintro ⟨h2, t2⟩ ⟨hA, e1, e2, e3, e4, e5, hF⟩
      exact ⟨_, rfl, alloc_trans (alloc_put _ _ (alloc_refl _)) hA, e1, e2, e3, e4, rfl, rfl,
        focus_up_R.mpr hF, fun _ => by rw [e5]; simp [sentinel_node]⟩
  | node b cb bl bk bd br =>
    simp only [sepS, not_or, List.cons_append, not_false_eq_true, true_and, and_true,
      not_true_eq_false, false_or, or_false, List.append_nil, List.nil_append, Tree.addrs]
      at hnd hnil hnull
    simp only [Own, tree_ptr_leaf, tree_ptr_node] at ho hoy
    simp [-Prod.exists, accS, res_bind_assoc, ho, hnil, hnd, hmin]
    refine spec_then (delete_replace_spec (R := .node b cb bl bk bd br)
      (?_ : CtxOwn _ tree.nil tree.root c z)
      (?_ : _ = some { color := cz, key := zk, data := zd, left := la, right := y,
                       parent := c.par tree.nil })
      (?_ : Own _ tree.nil (.node la lc ll lk ld lr) z)
      (?_ : _ = some { color := cy, key := ky, data := dy, left := tree.nil,
                       right := b, parent := z })
      (?_ : Own _ tree.nil (.node b cb bl bk bd br) y)
      (?_ : Sep _ tree.nil _)) ?_
    · simp [ctx_own_put_iff, hnd, hc]
    · simp [hnd, ho]
    · simp [Own, own_put_iff, hnd, hol, ho]
    · simp [hnd, ho]
    · simp [Own, own_put_iff, hnd, hoy]
    · exact sep_of_count hsep (fun a => by simp [Tree.addrs, List.count_cons] <;> omega)
        ⟨sp, by simp [hnil, hsp]⟩
    · rintro ⟨h2, t2⟩ ⟨hA, e1, e2, e3, e4, e5, hF⟩
      exact ⟨_, rfl, alloc_trans (alloc_put _ _ (alloc_refl _)) hA, e1, e2, e3, e4, rfl, rfl,
        focus_up_R.mpr hF, fun hx => by cases hx⟩

/-- Third branch of `__rb_tree_delete` when the successor `y` lies deeper in the
right subtree of `z`, at the end of the path `cm`. -/
theorem delete_unlink_succ_deep {fuel : Nat} {h : Heap} {tree : rb_tree} {c cm : Ctx}
    {z la y : Ptr} {cz lc cy : rb_node_color} {zk lk ky : Nat} {zd ld dy : Ptr}
    {ll lr yr : Tree} (hcm : cm ≠ .top)
    (hf : Focus h tree c (.node z cz (.node la lc ll lk ld lr) zk zd
      (cm.plug (.node y cy .leaf ky dy yr))))
    (hmin : rb_tree_minimum fuel h tree ((cm.plug (.node y cy .leaf ky dy yr)).ptr tree.nil) =
      .ok y) :
    ∃ s, __rb_tree_delete_unlink fuel h tree z = .ok s ∧
      UnlinkPost h tree (cm.append (.R y cz ky dy (.node la lc ll lk ld lr) c)) yr cy s := by
  have hfy : Focus h tree (cm.append (.R z cz zk zd (.node la lc ll lk ld lr) c))
      (.node y cy .leaf ky dy yr) := focus_append.mpr (focus_up_R.mpr hf)
  have hb : Sep h.mem tree.nil (c.addrs ++ ((Tree.node la lc ll lk ld lr).addrs ++
      z :: y :: (cm.addrs ++ yr.addrs))) :=
    sep_of_count hf.sep (fun a => by
      simp [Tree.addrs, List.count_cons, count_addrs_plug] <;> omega) hf.sep.sentinel
  have hnd := hb.nodup
  have hnil := hb.nil_not_mem
  have hnull := hb.null_not_mem
  obtain ⟨sp, hsp⟩ := hb.sentinel
  simp only [sepS, not_or, List.cons_append, not_false_eq_true, true_and, and_true,
    not_true_eq_false, false_or, or_false, List.append_nil, List.nil_append, Tree.addrs]
    at hnd hnil hnull
  obtain ⟨ra, rc, rl, rk, rd, rr, hZ⟩ := plug_node_of_ne_top cm (.node y cy .leaf ky dy yr) hcm
  have hra : ¬ra = tree.nil := by
    intro e
    have h1 : ra ∈ (cm.plug (.node y cy .leaf ky dy yr)).addrs := by
      rw [hZ]; simp [Tree.addrs]
    rw [mem_addrs_plug] at h1
    simp only [Tree.addrs, sepS] at h1
    rw [e] at h1
    tauto
  have hz := hf.own.1
  have hol := hf.own.2.1
  have hy := hfy.own.1
  have hoyr := hfy.own.2.2
  rw [hZ] at hz hmin
  simp only [tree_ptr_leaf, tree_ptr_node, append_par hcm] at hz hy hmin
  have hpz : ¬cm.par tree.nil = z := by
    intro e
    have := @ctx_par_mem tree.nil _ hcm
    rw [e] at this
    tauto
  unfold __rb_tree_delete_unlink
  simp only [UnlinkPost]
  simp [-Prod.exists, accS, res_bind_assoc, hz, hy, hnil, hnd, hmin, hra, hpz]
  refine spec_then (transplant_spec (T := yr) hfy.ctx hy (append_par hcm).symm hoyr
    (sep_of_count hfy.sep (fun a => by simp [Tree.addrs, List.count_cons]) hfy.sep.sentinel)
    (by simp [mem_addrs_append, Ctx.addrs, sepS, hnd]) (by simp [hnil])) ?_
  rintro ⟨h1, ⟨root1, nil1, bh1⟩⟩ ⟨hA1, e1, e2, e3, e4, hfr, hF1, hN1⟩
  simp only at hA1 e1 e2 e3 e4 hfr hF1 hN1
  subst e1 e2
  have hF2 := focus_up_R.mp (focus_append.mp hF1)
  obtain ⟨rb, rcb, rlb, rkb, rdb, rrb, hR⟩ := plug_node_of_ne_top cm yr hcm
  have hb2 : Sep h1.mem tree.nil (c.addrs ++ ((Tree.node la lc ll lk ld lr).addrs ++
      z :: y :: (Tree.node rb rcb rlb rkb rdb rrb).addrs)) := by
    rw [← hR]
    exact sep_of_count hb (fun a => by
      simp [Tree.addrs, List.count_cons, count_addrs_plug]) hF1.sep.sentinel
  rw [hR] at hF2
  have hy1 : h1.mem y = _ := (hfr y (by simp [mem_addrs_append, Ctx.addrs, sepS, hnd])
    (by simp [hnd, hnil, tree_ptr_eq_false, eq_tree_ptr_false])).trans hy
  clear hnd hnil hnull hsp
  have hnd := hb2.nodup
  have hnil := hb2.nil_not_mem
  have hnull := hb2.null_not_mem
  obtain ⟨sp, hsp⟩ := hb2.sentinel
  simp only [sepS, not_or, List.cons_append, not_false_eq_true, true_and, and_true,
    not_true_eq_false, false_or, or_false, List.append_nil, List.nil_append, Tree.addrs]
    at hnd hnil hnull
  obtain ⟨hc2, ho2, -⟩ := hF2
  have hol2 := ho2.2.1
  simp only [Own, tree_ptr_leaf, tree_ptr_node] at ho2 hc2
  simp [-Prod.exists, accS, res_bind_assoc, ho2, hy1, hnil, hnd]

  refine spec_then (delete_replace_spec (R := .node rb rcb rlb rkb rdb rrb)
    (?_ : CtxOwn _ tree.nil root1 c z)
    (?_ : _ = some { color := cz, key := zk, data := zd, left := la, right := rb,
                     parent := c.par tree.nil })
    (?_ : Own _ tree.nil (.node la lc ll lk ld lr) z)
    (?_ : _ = some { color := cy, key := ky, data := dy, left := tree.nil,
                     right := rb, parent := cm.par tree.nil })
    (?_ : Own _ tree.nil (.node rb rcb rlb rkb rdb rrb) y)
    (?_ : Sep _ tree.nil _)) ?_
  · simp [ctx_own_put_iff, hnd, hc2]
  · simp [hnd, ho2]
  · simp [Own, own_put_iff, hnd, hol2, ho2]
  · simp [hnd]
  · simp [Own, own_put_iff, hnd, ho2]
  · exact sep_of_count hb2 (fun a => le_refl _) ⟨sp, by simp [hnil, hsp]⟩
  · rintro ⟨h2, t2⟩ ⟨hA2, g1, g2, g3, g4, g5, hF⟩
    simp only at hA2 g1 g2 g3 g4 g5 hF
    rw [← hR] at hF
    refine ⟨_, rfl, alloc_trans hA1 (alloc_trans (alloc_put _ _ (alloc_put _ _ (alloc_refl _)))
      hA2), g1, g2, g3.trans e3, g4.trans e4, rfl, rfl, focus_append.mpr (focus_up_R.mpr hF), ?_⟩
    intro hx
    have := hN1 hx
    rw [append_par hcm] at this ⊢
    simp only at this ⊢
    rw [g5]
    simp [hnil, this]

/-- The first half of `__rb_tree_delete` realises `del_unlink`. -/
theorem delete_unlink_spec {fuel : Nat} {h : Heap} {tree : rb_tree} {c cx : Ctx} {z : Ptr}
    {cz yc : rb_node_color} {zk : Nat} {zd : Ptr} {zl zr x : Tree}
    (hf : Focus h tree c (.node z cz zl zk zd zr))
    (hu : del_unlink c (.node z cz zl zk zd zr) = some (cx, x, yc))
    (hfuel : zr.height ≤ fuel) :
    ∃ s, __rb_tree_delete_unlink fuel h tree z = .ok s ∧ UnlinkPost h tree cx x yc s := by
  cases zl with
  | leaf =>
    simp only [del_unlink, Option.some.injEq, Prod.mk.injEq] at hu
    obtain ⟨rfl, rfl, rfl⟩ := hu
    exact delete_unlink_left_nil hf
  | node la lc ll lk ld lr =>
    cases zr with
    | leaf =>
      simp only [del_unlink, Option.some.injEq, Prod.mk.injEq] at hu
      obtain ⟨rfl, rfl, rfl⟩ := hu
      exact delete_unlink_right_nil hf
    | node ra rc rl rk rd rr =>
      obtain ⟨cm, y, cy, ky, dy, yr, h1, h2, -⟩ :=
        min_locate_spec (.node ra rc rl rk rd rr) .top (by simp)
      rw [append_top] at h1
      simp only [del_unlink, h1, Option.some.injEq, Prod.mk.injEq] at hu
      obtain ⟨rfl, rfl, rfl⟩ := hu
      have hnil : tree.nil ∉ (Tree.node ra rc rl rk rd rr).addrs := fun hm =>
        hf.sep.nil_not_mem (by simp only [Tree.addrs, sepS] at hm ⊢; tauto)
      have hra : ¬ra = tree.nil := fun e => hnil (by simp [Tree.addrs, e])
      have hmin : rb_tree_minimum fuel h tree ra = .ok y := by
        have := @minimum_loop_spec h tree fuel (.node ra rc rl rk rd rr) .top z
          hf.own.2.2 hnil (by simp) hfuel
        rw [h1] at this
        simpa [rb_tree_minimum, hra] using this
      by_cases hcm : cm = .top
      · subst hcm
        simp only [Ctx.plug] at h2
        cases h2
        exact delete_unlink_succ_child hf hmin
      · rw [h2] at hf
        exact delete_unlink_succ_deep hcm hf (by rw [← h2]; exact hmin)

theorem del_unlink_depth {c cx : Ctx} {z : Ptr} {cz yc : rb_node_color} {zk : Nat} {zd : Ptr}
    {zl zr x : Tree} (hu : del_unlink c (.node z cz zl zk zd zr) = some (cx, x, yc)) :
    cx.depth ≤ c.depth + zr.height := by
  cases zl with
  | leaf =>
    simp only [del_unlink, Option.some.injEq, Prod.mk.injEq] at hu
    obtain ⟨rfl, rfl, rfl⟩ := hu
    omega
  | node la lc ll lk ld lr =>
    cases zr with
    | leaf =>
      simp only [del_unlink, Option.some.injEq, Prod.mk.injEq] at hu
      obtain ⟨rfl, rfl, rfl⟩ := hu
      omega
    | node ra rc rl rk rd rr =>
      obtain ⟨cm, y, cy, ky, dy, yr, h1, h2, h3⟩ :=
        min_locate_spec (.node ra rc rl rk rd rr) .top (by simp)
      rw [append_top] at h1
      simp only [del_unlink, h1, Option.some.injEq, Prod.mk.injEq] at hu
      obtain ⟨rfl, rfl, rfl⟩ := hu
      rw [append_depth]
      simp only [Ctx.depth]
      omega

end RedBlack


namespace RedBlack
open Tree Ctx

theorem bw_red : black_weight RB_NODE_COLOR_RED = 0 := rfl

theorem bw_black : black_weight RB_NODE_COLOR_BLACK = 1 := rfl

/-- Cases 2 to 4 of `rb_tree_delete_fixup` on a subtree that satisfies the
invariants except that the side of `x` is one Black node short. -/
theorem del_case_L_spec {pc : rb_node_color} {p : Ptr} {kp : Nat} {dp : Ptr} {x w : Tree}
    {m : Nat} (hpc : pc = RB_NODE_COLOR_RED ∨ pc = RB_NODE_COLOR_BLACK)
    (hxc : x.ColorsOK) (hxr : x.RedOK) (hxb : x.BalOK) (hxh : x.bheight = m)
    (hwc : w.ColorsOK) (hwr : w.RedOK) (hwb : w.BalOK) (hwh : w.bheight = m + 1)
    (hwk : w.color = RB_NODE_COLOR_BLACK) :
    ∃ f sub, del_case_L pc p kp dp x w = some (f, sub) ∧
      DelCasePost m pc (.node p pc x kp dp w) f sub := by
  cases w with
  | leaf => simp [Tree.bheight] at hwh
  | node w cw a k d b =>
    simp only [colS] at hwk
    subst hwk
    simp only [Tree.ColorsOK, Tree.RedOK, Tree.BalOK, Tree.bheight, bw_black]
      at hwc hwr hwb hwh
    obtain ⟨-, hac, hbc⟩ := hwc
    obtain ⟨-, har, hbr⟩ := hwr
    obtain ⟨hab, hab1, hbb1⟩ := hwb
    have hah : a.bheight = m := by omega
    have hbh : b.bheight = m := by omega
    simp only [del_case_L]
    split_ifs with h1 h2
    · refine ⟨false, _, rfl, ?_⟩
      constructor
      · simp [Tree.ColorsOK, hxc, hac, hbc, hpc]
      · simp [Tree.BalOK, Tree.bheight, bw_red, bw_black, hxb, hab1, hbb1, hxh, hah, hbh]
      · simp [Tree.blacken, Tree.RedOK, colS, hxr, har, hbr, h1]
      · simp [colS]
      · simp [Tree.toList]
      · intro e; simp [Tree.addrs, List.count_cons]
      · intro e; cases e
      · intro _; simp [Tree.bheight, bw_red, hxh, hah, hbh]
    · cases a with
      | leaf => exact absurd ⟨rfl, h2⟩ h1
      | node n cn nn nk dn nf =>
        have hcn : cn = RB_NODE_COLOR_RED := by
          rcases hac.1 with e | e
          · exact e
          · exact absurd ⟨by simp [colS, e], h2⟩ h1
        subst hcn
        simp only [Tree.ColorsOK, Tree.RedOK, Tree.BalOK, Tree.bheight, bw_red, bw_black, colS,
          add_zero] at hac har hbc hbr hab1 hbb1 hah hbh hab h2
        refine ⟨true, _, rfl, ?_⟩
        constructor
        · simp [Tree.ColorsOK, hxc, hac, hbc, hpc]
        · simp [Tree.BalOK, Tree.bheight, bw_black, hxb, hab1, hbb1, hxh, hah, hbh] <;> omega
        · simp [Tree.blacken, Tree.RedOK, colS, hxr, har, hbr]
        · simp [colS]
        · simp [Tree.toList]
        · intro e; simp [Tree.addrs, List.count_cons] <;> omega
        · intro _
          refine ⟨by simp [Tree.RedOK, colS, hxr, har, hbr], ?_⟩
          simp [Tree.bheight, bw_black, hxh, hah, hbh]
        · intro e; cases e
    · cases b with
      | leaf => exact absurd rfl h2
      | node f cf fn fk fd ff =>
        have hcf : cf = RB_NODE_COLOR_RED := by
          rcases hbc.1 with e | e
          · exact e
          · exact absurd (by simp [colS, e]) h2
        subst hcf
        simp only [Tree.ColorsOK, Tree.RedOK, Tree.BalOK, Tree.bheight, bw_red, bw_black, colS,
          add_zero] at hac har hbc hbr hab1 hbb1 hah hbh hab
        refine ⟨true, _, rfl, ?_⟩
        constructor
        · simp [Tree.ColorsOK, hxc, hac, hbc, hpc]
        · simp [Tree.BalOK, Tree.bheight, bw_black, hxb, hab1, hbb1, hxh, hah, hbh] <;> omega
        · simp [Tree.blacken, Tree.RedOK, colS, hxr, har, hbr]
        · simp [colS]
        · simp [Tree.toList]
        · intro e; simp [Tree.addrs, List.count_cons] <;> omega
        · intro _
          refine ⟨by simp [Tree.RedOK, colS, hxr, har, hbr], ?_⟩
          simp [Tree.bheight, bw_black, hxh, hah, hbh]
        · intro e; cases e

/-- Cases 2 to 4 of `rb_tree_delete_fixup` on a subtree that satisfies the
invariants except that the side of `x` is one Black node short. -/
theorem del_case_R_spec {pc : rb_node_color} {p : Ptr} {kp : Nat} {dp : Ptr} {x w : Tree}
    {m : Nat} (hpc : pc = RB_NODE_COLOR_RED ∨ pc = RB_NODE_COLOR_BLACK)
    (hxc : x.ColorsOK) (hxr : x.RedOK) (hxb : x.BalOK) (hxh : x.bheight = m)
    (hwc : w.ColorsOK) (hwr : w.RedOK) (hwb : w.BalOK) (hwh : w.bheight = m + 1)
    (hwk : w.color = RB_NODE_COLOR_BLACK) :
    ∃ f sub, del_case_R pc p kp dp x w = some (f, sub) ∧
      DelCasePost m pc (.node p pc w kp dp x) f sub := by
  cases w with
  | leaf => simp [Tree.bheight] at hwh
  | node w cw a k d b =>
    simp only [colS] at hwk
    subst hwk
    simp only [Tree.ColorsOK, Tree.RedOK, Tree.BalOK, Tree.bheight, bw_black]
      at hwc hwr hwb hwh
    obtain ⟨-, hac, hbc⟩ := hwc
    obtain ⟨-, har, hbr⟩ := hwr
    obtain ⟨hab, hab1, hbb1⟩ := hwb
    have hah : a.bheight = m := by omega
    have hbh : b.bheight = m := by omega
    simp only [del_case_R]
    split_ifs with h1 h2
    · refine ⟨false, _, rfl, ?_⟩
      constructor
      · simp [Tree.ColorsOK, hxc, hac, hbc, hpc]
      · simp [Tree.BalOK, Tree.bheight, bw_red, bw_black, hxb, hab1, hbb1, hxh, hah, hbh]
      · simp [Tree.blacken, Tree.RedOK, colS, hxr, har, hbr, h1]
      · simp [colS]
      · simp [Tree.toList]
      · intro e; simp [Tree.addrs, List.count_cons]
      · intro e; cases e
      · intro _; simp [Tree.bheight, bw_red, hxh, hah, hbh]
    · cases b with
      | leaf => exact absurd ⟨rfl, h2⟩ h1
      | node n cn nn nk dn nf =>
        have hcn : cn = RB_NODE_COLOR_RED := by
          rcases hbc.1 with e | e
          · exact e
          · exact absurd ⟨by simp [colS, e], h2⟩ h1
        subst hcn
        simp only [Tree.ColorsOK, Tree.RedOK, Tree.BalOK, Tree.bheight, bw_red, bw_black, colS,
          add_zero] at hac har hbc hbr hab1 hbb1 hah hbh hab h2
        refine ⟨true, _, rfl, ?_⟩
        constructor
        · simp [Tree.ColorsOK, hxc, hac, hbc, hpc]
        · simp [Tree.BalOK, Tree.bheight, bw_black, hxb, hab1, hbb1, hxh, hah, hbh] <;> omega
        · simp [Tree.blacken, Tree.RedOK, colS, hxr, har, hbr]
        · simp [colS]
        · simp [Tree.toList]
        · intro e; simp [Tree.addrs, List.count_cons] <;> omega
        · intro _
          refine ⟨by simp [Tree.RedOK, colS, hxr, har, hbr], ?_⟩
          simp [Tree.bheight, bw_black, hxh, hah, hbh]
        · intro e; cases e
    · cases a with
      | leaf => exact absurd rfl h2
      | node f cf fn fk fd ff =>
        have hcf : cf = RB_NODE_COLOR_RED := by
          rcases hac.1 with e | e
          · exact e
          · exact absurd (by simp [colS, e]) h2
        subst hcf
        simp only [Tree.ColorsOK, Tree.RedOK, Tree.BalOK, Tree.bheight, bw_red, bw_black, colS,
          add_zero] at hac har hbc hbr hab1 hbb1 hah hbh hab
        refine ⟨true, _, rfl, ?_⟩
        constructor
        · simp [Tree.ColorsOK, hxc, hac, hbc, hpc]
        · simp [Tree.BalOK, Tree.bheight, bw_black, hxb, hab1, hbb1, hxh, hah, hbh] <;> omega
        · simp [Tree.blacken, Tree.RedOK, colS, hxr, har, hbr]
        · simp [colS]
        · simp [Tree.toList]
        · intro e; simp [Tree.addrs, List.count_cons] <;> omega
        · intro _
          refine ⟨by simp [Tree.RedOK, colS, hxr, har, hbr], ?_⟩
          simp [Tree.bheight, bw_black, hxh, hah, hbh]
        · intro e; cases e

end RedBlack


namespace RedBlack
open Tree Ctx

theorem blacken_of_black {t : Tree} (h : t.color = RB_NODE_COLOR_BLACK) : t.blacken = t := by
  cases t with
  | leaf => rfl
  | node a c l k d r =>
    simp only [colS] at h
    subst h
    rfl

theorem color_black_of_ne_red {t : Tree} (hc : t.ColorsOK) (h : t.color ≠ RB_NODE_COLOR_RED) :
    t.color = RB_NODE_COLOR_BLACK := by
  cases t with
  | leaf => rfl
  | node a c l k d r =>
    simp only [colS] at h ⊢
    rcases hc.1 with e | e
    · exact absurd e h
    · exact e

theorem color_red_of_ne_black {t : Tree} (hc : t.ColorsOK) (h : t.color ≠ RB_NODE_COLOR_BLACK) :
    t.color = RB_NODE_COLOR_RED := by
  cases t with
  | leaf => exact absurd rfl h
  | node a c l k d r =>
    simp only [colS] at h ⊢
    rcases hc.1 with e | e
    · exact e
    · exact absurd e h

theorem root_color_black {c : Ctx} {x : rb_node_color}
    (h : c.rootColor x = RB_NODE_COLOR_BLACK) :
    c.rootColor RB_NODE_COLOR_BLACK = RB_NODE_COLOR_BLACK := by
  cases c with
  | top => rfl
  | L a col k d s up => exact h
  | R a col k d s up => exact h

theorem plug_eq_leaf : ∀ {c : Ctx} {t : Tree}, c.plug t = .leaf → c = .top ∧ t = .leaf
  | .top, _, h => ⟨rfl, h⟩
  | .L a col k d s up, t, h => by
    have := (plug_eq_leaf (c := up) h).2
    cases this
  | .R a col k d s up, t, h => by
    have := (plug_eq_leaf (c := up) h).2
    cases this

theorem total_ge : ∀ (c : Ctx) (n : Nat), n ≤ c.total n
  | .top, n => le_refl n
  | .L a col k d s up, n => le_trans (Nat.le_add_right _ _) (total_ge up _)
  | .R a col k d s up, n => le_trans (Nat.le_add_right _ _) (total_ge up _)

theorem ins_post_congr {bh bh' : Nat} {l l' : List (Nat × Ptr)} {as as' : List Ptr} {T : Tree}
    (hp : InsPost bh l as T) (hb : bh = bh') (hl : l = l') (ha : as.Perm as') :
    InsPost bh' l' as' T :=
  ⟨hp.colors, hp.red_ok, hp.bal, hp.bheight.trans hb, hp.to_list.trans hl, hp.addrs.trans ha⟩

theorem plug_perm_of_count {up : Ctx} {sub orig : Tree}
    (h : ∀ a, sub.addrs.count a = orig.addrs.count a) :
    (up.plug sub).addrs.Perm (up.plug orig).addrs :=
  list_perm_of_count fun a => by rw [count_addrs_plug, count_addrs_plug, h]

theorem plug_to_list_congr {up : Ctx} {sub orig : Tree} (h : sub.toList = orig.toList) :
    (up.plug sub).toList = (up.plug orig).toList := by
  rw [plug_to_list, plug_to_list, h]

/-- The exit of `del_fix` at the root. -/
theorem del_fix_top {t : Tree} {m : Nat} {g : Bool} (hp : DelPre .top t m g) :
    ∃ e, del_fix .top t false g = some e ∧ DelFixPost .top t m e := by
  refine ⟨_, rfl, ?_, blacken_color _⟩
  simp only [Ctx.plug, Ctx.total]
  refine ⟨blacken_colors_ok hp.t_colors, hp.t_red_ok, blacken_bal_ok hp.t_bal, ?_,
    blacken_to_list _, by rw [blacken_addrs]⟩
  rw [blacken_bheight hp.t_colors, hp.t_bheight]
  have har := hp.at_root rfl
  by_cases hc : t.color = RB_NODE_COLOR_BLACK
  · cases g with
    | true => simp [hc]
    | false =>
      simp only [Bool.false_eq_true, if_false] at har
      simp [har hc, colS]
  · have hr := color_red_of_ne_black hp.t_colors hc
    cases g with
    | true => simp only [if_true] at har; exact absurd har hc
    | false =>
      have hne : t ≠ .leaf := fun e => hc (by rw [e]; rfl)
      simp [hr, hne]

theorem del_fix_step_L {up : Ctx} {p : Ptr} {cp : rb_node_color} {kp : Nat} {dp : Ptr}
    {w t : Tree} {m : Nat} {g : Bool}
    (ih : ∀ (t : Tree) (m : Nat), DelPre up t m true →
      ∃ e, del_fix up t false true = some e ∧ DelFixPost up t m e)
    (hp : DelPre (.L p cp kp dp w up) t m g) :
    ∃ e, del_fix (.L p cp kp dp w up) t false g = some e ∧
      DelFixPost (.L p cp kp dp w up) t m e := by
  obtain ⟨htc, htr, htb, hth, hcc, hcr, hcb, hroot, -⟩ := hp
  simp only [Ctx.ColorsOK, Ctx.RedOK, Ctx.BalOK, Ctx.rootColor] at hcc hcr hcb hroot
  obtain ⟨hcp, hwc, huc⟩ := hcc
  obtain ⟨hcpr, hwr, hur⟩ := hcr
  obtain ⟨hwh, hwb, hub⟩ := hcb
  by_cases hcol : t.color = RB_NODE_COLOR_BLACK
  swap
  · have hr := color_red_of_ne_black htc hcol
    have hne : t ≠ .leaf := fun e => hcol (by rw [e]; rfl)
    have htbh : t.blacken.bheight = m + 1 := by
      rw [blacken_bheight htc, hr, hth]; simp
    refine ⟨⟨.L p cp kp dp w up, t, false, g⟩, by simp [del_fix, hcol], ?_, ?_⟩
    · simp only [hne, false_or, reduceCtorEq, and_false, if_false, Nat.sub_zero, Ctx.plug,
        Ctx.total]
      refine @ins_post_sub _ (.node p cp t.blacken kp dp w)
        (.node p cp t kp dp w) _
        ?_ ?_ ?_ huc hur ?_ ?_ ?_ (by simp [Tree.toList, blacken_to_list])
        (by simp [Tree.addrs, blacken_addrs])
      · exact ⟨hcp, blacken_colors_ok htc, hwc⟩
      · exact ⟨fun e => ⟨by simp [blacken_color], (hcpr e).1⟩, htr, hwr⟩
      · exact ⟨htbh.trans hwh.symm, blacken_bal_ok htb, hwb⟩
      · simp only [Tree.bheight, htbh, hwh]; exact hub
      · simp only [Tree.bheight, htbh, hwh]
      · intro e; simp only [colS]; intro e2; exact (hcpr e2).2 e
    · simp only [Ctx.plug]
      rw [plug_color]; exact hroot
  have htr2 : t.RedOK := by rw [blacken_of_black hcol] at htr; exact htr
  cases w with
  | leaf => simp [Tree.bheight] at hwh
  | node w cw wl wk wd wr =>
    by_cases hcw : cw = RB_NODE_COLOR_RED
    · subst hcw
      have hcpb : cp = RB_NODE_COLOR_BLACK := by
        rcases hcp with e | e
        · exact absurd rfl (hcpr e).1
        · exact e
      subst hcpb
      simp only [Tree.ColorsOK, Tree.RedOK, Tree.BalOK, Tree.bheight, bw_red, bw_black, colS,
        add_zero, true_implies] at hwc hwr hwb hwh hub hroot
      have hwlh : wl.bheight = m + 1 := hwh
      have hwrh : wr.bheight = m + 1 := hwb.1 ▸ hwh
      obtain ⟨f, sub, hdc, hpost⟩ := @del_case_L_spec RB_NODE_COLOR_RED p
        kp dp _ _ _ (Or.inl rfl) htc htr2 htb hth hwc.2.1 hwr.2.1 hwb.2.1 hwlh
        (color_black_of_ne_red hwc.2.1 hwr.1.1)
      rw [del_fix_L_red hcol, hdc]
      have hsne : sub ≠ .leaf := fun e => by
        have := hpost.color; rw [e] at this; cases this
      cases f with
      | false =>
        have hsb : sub.blacken.bheight = m + 1 := by
          rw [blacken_bheight hpost.colors, hpost.color, hpost.moved rfl]
          simp [bw_red]
        refine ⟨_, rfl, ?_, ?_⟩
        · simp only [hsne, false_or, reduceCtorEq, and_false, if_false, Nat.sub_zero, Ctx.plug,
            Ctx.total, bw_black]
          refine @ins_post_sub _ (.node w RB_NODE_COLOR_BLACK sub.blacken wk wd wr)
            (.node p RB_NODE_COLOR_BLACK t kp dp (.node w RB_NODE_COLOR_RED wl wk wd wr)) _
            ?_ ?_ ?_ huc hur ?_ ?_ ?_ ?_ ?_
          · exact ⟨Or.inr rfl, blacken_colors_ok hpost.colors, hwc.2.2⟩
          · exact ⟨(fun e => by cases e), hpost.red_below, hwr.2.2⟩
          · exact ⟨hsb.trans hwrh.symm, blacken_bal_ok hpost.bal, hwb.2.2⟩
          · simp only [Tree.bheight, bw_black, hsb, hwlh]; exact hub
          · simp only [Tree.bheight, bw_black, hsb, hwlh, hth]
          · intro _; simp [colS]
          · simp [Tree.toList, blacken_to_list, hpost.to_list]
          · exact list_perm_of_count fun a => by
              simp [Tree.addrs, List.count_cons, blacken_addrs, hpost.addrs a] <;> omega
        · simp only [Ctx.plug]
          rw [plug_color]; exact hroot
      | true =>
        have hsb : sub.bheight = m + 1 := by
          rw [(hpost.forced rfl).2]; simp [bw_red]
        have hT0 : InsPost (up.total (m + 1 + 1))
            (up.plug (.node p RB_NODE_COLOR_BLACK t kp dp (.node w RB_NODE_COLOR_RED wl wk wd wr))).toList
            (up.plug (.node p RB_NODE_COLOR_BLACK t kp dp (.node w RB_NODE_COLOR_RED wl wk wd wr))).addrs
            (up.plug (.node w RB_NODE_COLOR_BLACK sub wk wd wr)) := by
          refine @ins_post_sub _ (.node w RB_NODE_COLOR_BLACK sub wk wd wr)
            (.node p RB_NODE_COLOR_BLACK t kp dp (.node w RB_NODE_COLOR_RED wl wk wd wr)) _
            ?_ ?_ ?_ huc hur ?_ ?_ ?_ ?_ ?_
          · exact ⟨Or.inr rfl, hpost.colors, hwc.2.2⟩
          · exact ⟨(fun e => by cases e), (hpost.forced rfl).1, hwr.2.2⟩
          · exact ⟨hsb.trans hwrh.symm, hpost.bal, hwb.2.2⟩
          · simp only [Tree.bheight, bw_black, hsb, hwlh]; exact hub
          · simp only [Tree.bheight, bw_black, hsb, hwlh, hth]
          · intro _; simp [colS]
          · simp [Tree.toList, hpost.to_list]
          · exact list_perm_of_count fun a => by
              simp [Tree.addrs, List.count_cons, hpost.addrs a] <;> omega
        have hcolT : (up.plug (.node w RB_NODE_COLOR_BLACK sub wk wd wr)).color =
            RB_NODE_COLOR_BLACK := by rw [plug_color]; exact hroot
        refine ⟨_, rfl, ?_, ?_⟩
        · simp only [Ctx.plug, Ctx.total, bw_black, blacken_of_black hcolT]
          have hne : up.plug (.node w RB_NODE_COLOR_BLACK sub wk wd wr) ≠ .leaf := fun e => by
            have := (plug_eq_leaf e).2; cases this
          simpa [hne] using hT0
        · simp only [Ctx.plug, blacken_of_black hcolT]
          exact hcolT
    · have hcwb : cw = RB_NODE_COLOR_BLACK := by
        rcases hwc.1 with e | e
        · exact absurd e hcw
        · exact e
      obtain ⟨f, sub, hdc, hpost⟩ := @del_case_L_spec cp p kp dp _ _ _
        hcp htc htr2 htb hth hwc hwr hwb hwh (by simp [colS, hcwb])
      rw [del_fix_L_black hcol hcw, hdc]
      have hsub_col : up.color = RB_NODE_COLOR_RED → sub.color ≠ RB_NODE_COLOR_RED := by
        intro e; rw [hpost.color]; intro e2; exact (hcpr e2).2 e
      cases f with
      | false =>
        obtain ⟨e, he, hpe, hce⟩ := ih sub (m + black_weight cp)
          ⟨hpost.colors, hpost.red_below, hpost.bal, hpost.moved rfl, huc, hur,
            (by rw [show m + black_weight cp + 1 = m + 1 + black_weight cp by omega]; exact hub),
            root_color_black hroot, fun hup => by
              subst hup
              simp only [if_true, hpost.color]
              exact hroot⟩
        refine ⟨e, he, ?_, hce⟩
        simp only [Ctx.plug, Ctx.total]
        exact ins_post_congr hpe
          (by rw [show m + black_weight cp + 1 = m + 1 + black_weight cp by omega])
          (plug_to_list_congr hpost.to_list) (plug_perm_of_count hpost.addrs)
      | true =>
        have hT0 : InsPost (up.total (m + 1 + black_weight cp))
            (up.plug (.node p cp t kp dp (.node w cw wl wk wd wr))).toList
            (up.plug (.node p cp t kp dp (.node w cw wl wk wd wr))).addrs (up.plug sub) :=
          ins_post_sub hpost.colors (hpost.forced rfl).1 hpost.bal huc hur
            (by rw [(hpost.forced rfl).2]; exact hub) (by rw [(hpost.forced rfl).2]) hsub_col
            hpost.to_list (list_perm_of_count hpost.addrs)
        have hcolT : (up.plug sub).color = RB_NODE_COLOR_BLACK := by
          rw [plug_color, hpost.color]; exact hroot
        have hne : up.plug sub ≠ .leaf := fun e => by
          have := (plug_eq_leaf e).2
          have h2 := hpost.forced rfl
          rw [this] at h2
          have h3 := h2.2
          simp only [Tree.bheight] at h3
          omega
        refine ⟨_, rfl, ?_, ?_⟩
        · simp only [Ctx.plug, Ctx.total, blacken_of_black hcolT]
          simpa [hne] using hT0
        · simp only [Ctx.plug, blacken_of_black hcolT]
          exact hcolT

theorem del_fix_step_R {up : Ctx} {p : Ptr} {cp : rb_node_color} {kp : Nat} {dp : Ptr}
    {w t : Tree} {m : Nat} {g : Bool}
    (ih : ∀ (t : Tree) (m : Nat), DelPre up t m true →
      ∃ e, del_fix up t false true = some e ∧ DelFixPost up t m e)
    (hp : DelPre (.R p cp kp dp w up) t m g) :
    ∃ e, del_fix (.R p cp kp dp w up) t false g = some e ∧
      DelFixPost (.R p cp kp dp w up) t m e := by
  obtain ⟨htc, htr, htb, hth, hcc, hcr, hcb, hroot, -⟩ := hp
  simp only [Ctx.ColorsOK, Ctx.RedOK, Ctx.BalOK, Ctx.rootColor] at hcc hcr hcb hroot
  obtain ⟨hcp, hwc, huc⟩ := hcc
  obtain ⟨hcpr, hwr, hur⟩ := hcr
  obtain ⟨hwh, hwb, hub⟩ := hcb
  by_cases hcol : t.color = RB_NODE_COLOR_BLACK
  swap
  · have hr := color_red_of_ne_black htc hcol
    have hne : t ≠ .leaf := fun e => hcol (by rw [e]; rfl)
    have htbh : t.blacken.bheight = m + 1 := by
      rw [blacken_bheight htc, hr, hth]; simp
    refine ⟨⟨.R p cp kp dp w up, t, false, g⟩, by simp [del_fix, hcol], ?_, ?_⟩
    · simp only [hne, false_or, reduceCtorEq, and_false, if_false, Nat.sub_zero, Ctx.plug,
        Ctx.total]
      refine @ins_post_sub _ (.node p cp w kp dp t.blacken)
        (.node p cp w kp dp t) _
        ?_ ?_ ?_ huc hur ?_ ?_ ?_ (by simp [Tree.toList, blacken_to_list])
        (by simp [Tree.addrs, blacken_addrs])
      · exact ⟨hcp, hwc, blacken_colors_ok htc⟩
      · exact ⟨fun e => ⟨(hcpr e).1, by simp [blacken_color]⟩, hwr, htr⟩
      · exact ⟨(htbh.trans hwh.symm).symm, hwb, blacken_bal_ok htb⟩
      · simp only [Tree.bheight, htbh, hwh]; exact hub
      · simp only [Tree.bheight, htbh, hwh]
      · intro e; simp only [colS]; intro e2; exact (hcpr e2).2 e
    · simp only [Ctx.plug]
      rw [plug_color]; exact hroot
  have htr2 : t.RedOK := by rw [blacken_of_black hcol] at htr; exact htr
  cases w with
  | leaf => simp [Tree.bheight] at hwh
  | node w cw wl wk wd wr =>
    by_cases hcw : cw = RB_NODE_COLOR_RED
    · subst hcw
      have hcpb : cp = RB_NODE_COLOR_BLACK := by
        rcases hcp with e | e
        · exact absurd rfl (hcpr e).1
        · exact e
      subst hcpb
      simp only [Tree.ColorsOK, Tree.RedOK, Tree.BalOK, Tree.bheight, bw_red, bw_black, colS,
        add_zero, true_implies] at hwc hwr hwb hwh hub hroot
      have hwlh : wl.bheight = m + 1 := hwh
      have hwrh : wr.bheight = m + 1 := hwb.1 ▸ hwh
      obtain ⟨f, sub, hdc, hpost⟩ := @del_case_R_spec RB_NODE_COLOR_RED p
        kp dp _ _ _ (Or.inl rfl) htc htr2 htb hth hwc.2.2 hwr.2.2 hwb.2.2 hwrh
        (color_black_of_ne_red hwc.2.2 hwr.1.2)
      rw [del_fix_R_red hcol, hdc]
      have hsne : sub ≠ .leaf := fun e => by
        have := hpost.color; rw [e] at this; cases this
      cases f with
      | false =>
        have hsb : sub.blacken.bheight = m + 1 := by
          rw [blacken_bheight hpost.colors, hpost.color, hpost.moved rfl]
          simp [bw_red]
        refine ⟨_, rfl, ?_, ?_⟩
        · simp only [hsne, false_or, reduceCtorEq, and_false, if_false, Nat.sub_zero, Ctx.plug,
            Ctx.total, bw_black]
          refine @ins_post_sub _ (.node w RB_NODE_COLOR_BLACK wl wk wd sub.blacken)
            (.node p RB_NODE_COLOR_BLACK (.node w RB_NODE_COLOR_RED wl wk wd wr) kp dp t) _
            ?_ ?_ ?_ huc hur ?_ ?_ ?_ ?_ ?_
          · exact ⟨Or.inr rfl, hwc.2.1, blacken_colors_ok hpost.colors⟩
          · exact ⟨(fun e => by cases e), hwr.2.1, hpost.red_below⟩
          · exact ⟨(hsb.trans hwlh.symm).symm, hwb.2.1, blacken_bal_ok hpost.bal⟩
          · simp only [Tree.bheight, bw_black, hsb, hwlh]; exact hub
          · simp only [Tree.bheight, bw_black, hsb, hwlh, hth]
          · intro _; simp [colS]
          · simp [Tree.toList, blacken_to_list, hpost.to_list]
          · exact list_perm_of_count fun a => by
              simp [Tree.addrs, List.count_cons, blacken_addrs, hpost.addrs a] <;> omega
        · simp only [Ctx.plug]
          rw [plug_color]; exact hroot
      | true =>
        have hsb : sub.bheight = m + 1 := by
          rw [(hpost.forced rfl).2]; simp [bw_red]
        have hT0 : InsPost (up.total (m + 1 + 1))
            (up.plug (.node p RB_NODE_COLOR_BLACK (.node w RB_NODE_COLOR_RED wl wk wd wr) kp dp t)).toList
            (up.plug (.node p RB_NODE_COLOR_BLACK (.node w RB_NODE_COLOR_RED wl wk wd wr) kp dp t)).addrs
            (up.plug (.node w RB_NODE_COLOR_BLACK wl wk wd sub)) := by
          refine @ins_post_sub _ (.node w RB_NODE_COLOR_BLACK wl wk wd sub)
            (.node p RB_NODE_COLOR_BLACK (.node w RB_NODE_COLOR_RED wl wk wd wr) kp dp t) _
            ?_ ?_ ?_ huc hur ?_ ?_ ?_ ?_ ?_
          · exact ⟨Or.inr rfl, hwc.2.1, hpost.colors⟩
          · exact ⟨(fun e => by cases e), hwr.2.1, (hpost.forced rfl).1⟩
          · exact ⟨(hsb.trans hwlh.symm).symm, hwb.2.1, hpost.bal⟩
          · simp only [Tree.bheight, bw_black, hsb, hwlh]; exact hub
          · simp only [Tree.bheight, bw_black, hsb, hwlh, hth]
          · intro _; simp [colS]
          · simp [Tree.toList, hpost.to_list]
          · exact list_perm_of_count fun a => by
              simp [Tree.addrs, List.count_cons, hpost.addrs a] <;> omega
        have hcolT : (up.plug (.node w RB_NODE_COLOR_BLACK wl wk wd sub)).color =
            RB_NODE_COLOR_BLACK := by rw [plug_color]; exact hroot
        refine ⟨_, rfl, ?_, ?_⟩
        · simp only [Ctx.plug, Ctx.total, bw_black, blacken_of_black hcolT]
          have hne : up.plug (.node w RB_NODE_COLOR_BLACK wl wk wd sub) ≠ .leaf := fun e => by
            have := (plug_eq_leaf e).2; cases this
          simpa [hne] using hT0
        · simp only [Ctx.plug, blacken_of_black hcolT]
          exact hcolT
    · have hcwb : cw = RB_NODE_COLOR_BLACK := by
        rcases hwc.1 with e | e
        · exact absurd e hcw
        · exact e
      obtain ⟨f, sub, hdc, hpost⟩ := @del_case_R_spec cp p kp dp _ _ _
        hcp htc htr2 htb hth hwc hwr hwb hwh (by simp [colS, hcwb])
      rw [del_fix_R_black hcol hcw, hdc]
      have hsub_col : up.color = RB_NODE_COLOR_RED → sub.color ≠ RB_NODE_COLOR_RED := by
        intro e; rw [hpost.color]; intro e2; exact (hcpr e2).2 e
      cases f with
      | false =>
        obtain ⟨e, he, hpe, hce⟩ := ih sub (m + black_weight cp)
          ⟨hpost.colors, hpost.red_below, hpost.bal, hpost.moved rfl, huc, hur,
            (by rw [show m + black_weight cp + 1 = m + 1 + black_weight cp by omega]; exact hub),
            root_color_black hroot, fun hup => by
              subst hup
              simp only [if_true, hpost.color]
              exact hroot⟩
        refine ⟨e, he, ?_, hce⟩
        simp only [Ctx.plug, Ctx.total]
        exact ins_post_congr hpe
          (by rw [show m + black_weight cp + 1 = m + 1 + black_weight cp by omega])
          (plug_to_list_congr hpost.to_list) (plug_perm_of_count hpost.addrs)
      | true =>
        have hT0 : InsPost (up.total (m + 1 + black_weight cp))
            (up.plug (.node p cp (.node w cw wl wk wd wr) kp dp t)).toList
            (up.plug (.node p cp (.node w cw wl wk wd wr) kp dp t)).addrs (up.plug sub) :=
          ins_post_sub hpost.colors (hpost.forced rfl).1 hpost.bal huc hur
            (by rw [(hpost.forced rfl).2]; exact hub) (by rw [(hpost.forced rfl).2]) hsub_col
            hpost.to_list (list_perm_of_count hpost.addrs)
        have hcolT : (up.plug sub).color = RB_NODE_COLOR_BLACK := by
          rw [plug_color, hpost.color]; exact hroot
        have hne : up.plug sub ≠ .leaf := fun e => by
          have := (plug_eq_leaf e).2
          have h2 := hpost.forced rfl
          rw [this] at h2
          have h3 := h2.2
          simp only [Tree.bheight] at h3
          omega
        refine ⟨_, rfl, ?_, ?_⟩
        · simp only [Ctx.plug, Ctx.total, blacken_of_black hcolT]
          simpa [hne] using hT0
        · simp only [Ctx.plug, blacken_of_black hcolT]
          exact hcolT

/-- On a tree that satisfies the invariants up to one missing Black node at
`x`, the loop of `rb_tree_delete_fixup` never dereferences `NULL`, and the final
recolouring yields a tree that satisfies them, with the black count that
`bh_after_delete` computes. -/
theorem del_fix_spec : ∀ (c : Ctx) (t : Tree) (m : Nat) (g : Bool), DelPre c t m g →
    ∃ e, del_fix c t false g = some e ∧ DelFixPost c t m e
  | .top, _, _, _, hp => del_fix_top hp
  | .L _ _ _ _ _ up, _, _, _, hp => del_fix_step_L (fun t m h => del_fix_spec up t m true h) hp
  | .R _ _ _ _ _ up, _, _, _, hp => del_fix_step_R (fun t m h => del_fix_spec up t m true h) hp

theorem append_colors_ok : ∀ (cm o : Ctx), (cm.append o).ColorsOK ↔ cm.ColorsOK ∧ o.ColorsOK
  | .top, o => by simp [Ctx.append, Ctx.ColorsOK]
  | .L a c k d s up, o => by simp [Ctx.append, Ctx.ColorsOK, append_colors_ok up o, and_assoc]
  | .R a c k d s up, o => by simp [Ctx.append, Ctx.ColorsOK, append_colors_ok up o, and_assoc]

theorem append_total : ∀ (cm o : Ctx) (n : Nat), (cm.append o).total n = o.total (cm.total n)
  | .top, _, _ => rfl
  | .L a c k d s up, o, n => append_total up o _
  | .R a c k d s up, o, n => append_total up o _

theorem append_bal_ok : ∀ (cm o : Ctx) (n : Nat),
    (cm.append o).BalOK n ↔ cm.BalOK n ∧ o.BalOK (cm.total n)
  | .top, o, n => by simp [Ctx.append, Ctx.BalOK, Ctx.total]
  | .L a c k d s up, o, n => by
    simp [Ctx.append, Ctx.BalOK, Ctx.total, append_bal_ok up o, and_assoc]
  | .R a c k d s up, o, n => by
    simp [Ctx.append, Ctx.BalOK, Ctx.total, append_bal_ok up o, and_assoc]

theorem append_root_color : ∀ (cm o : Ctx) (x : rb_node_color),
    (cm.append o).rootColor x = o.rootColor (cm.rootColor x)
  | .top, _, _ => rfl
  | .L a c k d s up, o, x => append_root_color up o c
  | .R a c k d s up, o, x => append_root_color up o c

theorem append_color {cm o : Ctx} (hc : cm ≠ .top) : (cm.append o).color = cm.color := by
  cases cm with
  | top => exact absurd rfl hc
  | L a c k d s up => rfl
  | R a c k d s up => rfl

theorem append_red_ok_aux (o : Ctx) : ∀ (cm : Ctx) (x : rb_node_color),
    ((cm.append o).RedOK ∧ (x = RB_NODE_COLOR_RED → (cm.append o).color ≠ RB_NODE_COLOR_RED)) ↔
      (cm.RedOK ∧ (x = RB_NODE_COLOR_RED → cm.color ≠ RB_NODE_COLOR_RED)) ∧ o.RedOK ∧
        (cm.rootColor x = RB_NODE_COLOR_RED → o.color ≠ RB_NODE_COLOR_RED)
  | .top, x => by
    simp only [Ctx.append, Ctx.RedOK, Ctx.rootColor, colS]
    constructor
    · rintro ⟨h1, h2⟩; exact ⟨⟨trivial, fun _ e => by cases e⟩, h1, h2⟩
    · rintro ⟨-, h1, h2⟩; exact ⟨h1, h2⟩
  | .L a c k d s up, x => by
    have ih := append_red_ok_aux o up c
    simp only [Ctx.append, Ctx.RedOK, Ctx.rootColor, colS]
    constructor
    · rintro ⟨⟨h1, h2, h3⟩, h4⟩
      have h5 := ih.mp ⟨h3, fun e => (h1 e).2⟩
      exact ⟨⟨⟨fun e => ⟨(h1 e).1, h5.1.2 e⟩, h2, h5.1.1⟩, h4⟩, h5.2.1, h5.2.2⟩
    · rintro ⟨⟨⟨h1, h2, h3⟩, h4⟩, h5, h6⟩
      have h7 := ih.mpr ⟨⟨h3, fun e => (h1 e).2⟩, h5, h6⟩
      exact ⟨⟨fun e => ⟨(h1 e).1, h7.2 e⟩, h2, h7.1⟩, h4⟩
  | .R a c k d s up, x => by
    have ih := append_red_ok_aux o up c
    simp only [Ctx.append, Ctx.RedOK, Ctx.rootColor, colS]
    constructor
    · rintro ⟨⟨h1, h2, h3⟩, h4⟩
      have h5 := ih.mp ⟨h3, fun e => (h1 e).2⟩
      exact ⟨⟨⟨fun e => ⟨(h1 e).1, h5.1.2 e⟩, h2, h5.1.1⟩, h4⟩, h5.2.1, h5.2.2⟩
    · rintro ⟨⟨⟨h1, h2, h3⟩, h4⟩, h5, h6⟩
      have h7 := ih.mpr ⟨⟨h3, fun e => (h1 e).2⟩, h5, h6⟩
      exact ⟨⟨fun e => ⟨(h1 e).1, h7.2 e⟩, h2, h7.1⟩, h4⟩

theorem append_red_ok (cm o : Ctx) : (cm.append o).RedOK ↔
    cm.RedOK ∧ o.RedOK ∧
      (cm.rootColor RB_NODE_COLOR_BLACK = RB_NODE_COLOR_RED → o.color ≠ RB_NODE_COLOR_RED) := by
  have h := append_red_ok_aux o cm RB_NODE_COLOR_BLACK
  constructor
  · intro h1
    have h2 := h.mp ⟨h1, fun e => by cases e⟩
    exact ⟨h2.1.1, h2.2.1, h2.2.2⟩
  · rintro ⟨h1, h2, h3⟩
    exact (h.mpr ⟨⟨h1, fun e => by cases e⟩, h2, h3⟩).1

theorem append_before : ∀ (cm o : Ctx), (cm.append o).before = o.before ++ cm.before
  | .top, o => by simp [Ctx.append, Ctx.before]
  | .L a c k d s up, o => by simp [Ctx.append, Ctx.before, append_before up o]
  | .R a c k d s up, o => by simp [Ctx.append, Ctx.before, append_before up o]

theorem append_after : ∀ (cm o : Ctx), (cm.append o).after = cm.after ++ o.after
  | .top, o => by simp [Ctx.append, Ctx.after]
  | .L a c k d s up, o => by simp [Ctx.append, Ctx.after, append_after up o]
  | .R a c k d s up, o => by simp [Ctx.append, Ctx.after, append_after up o]

/-- The path of `rb_tree_minimum` only goes left: nothing comes before the node
it ends at. -/
theorem min_locate_before : ∀ (t : Tree) (c : Ctx),
    (t.minLocate c).1.before = c.before
  | .leaf, _ => rfl
  | .node a col .leaf k d r, c => rfl
  | .node a col (.node la lc ll lk ld lr) k d r, c => by
    rw [Tree.minLocate, min_locate_before]
    rfl

theorem root_color_indep {c : Ctx} (hc : c ≠ .top) (x y : rb_node_color) :
    c.rootColor x = c.rootColor y := by
  cases c with
  | top => exact absurd rfl hc
  | L a col k d s up => rfl
  | R a col k d s up => rfl

theorem leaf_of_bheight_zero {t : Tree} (hb : t.bheight = 0)
    (hc : t.color = RB_NODE_COLOR_BLACK) : t = .leaf := by
  cases t with
  | leaf => rfl
  | node a c l k d r =>
    simp only [colS] at hc
    subst hc
    simp [Tree.bheight, bw_black] at hb

/-- Unlinking a node with an empty subtree on one side: the other subtree `x`
moves up. -/
theorem del_unlink_simple {c : Ctx} {cz : rb_node_color} {x : Tree} {n : Nat}
    (hcz : cz = RB_NODE_COLOR_RED ∨ cz = RB_NODE_COLOR_BLACK)
    (hxc : x.ColorsOK) (hxr : x.RedOK) (hxb : x.BalOK) (hxh : x.bheight = 0)
    (hxk : cz = RB_NODE_COLOR_RED → x.color ≠ RB_NODE_COLOR_RED)
    (hcc : c.ColorsOK) (hcr : c.RedOK) (hcb : c.BalOK (0 + black_weight cz))
    (hlink : c.color = RB_NODE_COLOR_RED → cz ≠ RB_NODE_COLOR_RED)
    (hroot : c.rootColor cz = RB_NODE_COLOR_BLACK) (hn : n = c.total (0 + black_weight cz)) :
    (cz = RB_NODE_COLOR_BLACK → ∃ m, DelPre c x m false ∧ c.total (m + 1) = n) ∧
    (cz ≠ RB_NODE_COLOR_BLACK →
      InsPost n (c.plug x).toList (c.plug x).addrs (c.plug x) ∧
        (c.plug x).color = RB_NODE_COLOR_BLACK) := by
  constructor
  · intro e
    subst e
    refine ⟨0, ⟨hxc, blacken_red_ok hxr, hxb, hxh, hcc, hcr, by simpa [bw_black] using hcb,
      root_color_black hroot, fun _ => ?_⟩, by simp [hn, bw_black]⟩
    simp only [Bool.false_eq_true, if_false]
    exact leaf_of_bheight_zero hxh
  · intro e
    have hred : cz = RB_NODE_COLOR_RED := hcz.resolve_right e
    subst hred
    simp only [bw_red, add_zero] at hcb hn
    have hct : c ≠ .top := fun e2 => by
      subst e2
      simp [Ctx.rootColor] at hroot
    refine ⟨ins_post_sub hxc hxr hxb hcc hcr (by rw [hxh]; exact hcb) (by rw [hxh, hn])
      (fun e2 => absurd rfl (hlink e2)) rfl (List.Perm.refl _), ?_⟩
    rw [plug_color, root_color_indep hct _ RB_NODE_COLOR_RED]
    exact hroot

/-- What `del_unlink` leaves for the fixup, on a node `z` of a tree that
satisfies the invariants: the entry of `z` is gone from the in-order sequence and
`z` from the nodes; when a Black node was removed the place of `x` is one Black
node short, otherwise the invariants hold already. -/
theorem del_unlink_pure {c : Ctx} {z : Ptr} {cz : rb_node_color} {zk : Nat} {zd : Ptr}
    {zl zr : Tree}
    (hNc : (Tree.node z cz zl zk zd zr).ColorsOK) (hNr : (Tree.node z cz zl zk zd zr).RedOK)
    (hNb : (Tree.node z cz zl zk zd zr).BalOK)
    (hcc : c.ColorsOK) (hcr : c.RedOK) (hcb : c.BalOK (Tree.node z cz zl zk zd zr).bheight)
    (hlink : c.color = RB_NODE_COLOR_RED → cz ≠ RB_NODE_COLOR_RED)
    (hroot : c.rootColor cz = RB_NODE_COLOR_BLACK) :
    ∃ cx x yc, del_unlink c (.node z cz zl zk zd zr) = some (cx, x, yc) ∧
      (cx.plug x).toList = c.before ++ zl.toList ++ zr.toList ++ c.after ∧
      (∀ a, (c.plug (.node z cz zl zk zd zr)).addrs.count a =
        (cx.plug x).addrs.count a + if z = a then 1 else 0) ∧
      (yc = RB_NODE_COLOR_BLACK → ∃ m, DelPre cx x m false ∧
        cx.total (m + 1) = c.total (Tree.node z cz zl zk zd zr).bheight) ∧
      (yc ≠ RB_NODE_COLOR_BLACK →
        InsPost (c.total (Tree.node z cz zl zk zd zr).bheight) (cx.plug x).toList
          (cx.plug x).addrs (cx.plug x) ∧ (cx.plug x).color = RB_NODE_COLOR_BLACK) := by
  have hB : (Tree.node z cz zl zk zd zr).bheight = zl.bheight + black_weight cz := rfl
  rw [hB]
  replace hcb : c.BalOK (zl.bheight + black_weight cz) := hcb
  obtain ⟨hcz, hlc, hrc⟩ : (cz = RB_NODE_COLOR_RED ∨ cz = RB_NODE_COLOR_BLACK) ∧ zl.ColorsOK ∧
    zr.ColorsOK := hNc
  obtain ⟨hzr, hlr, hrr⟩ : (cz = RB_NODE_COLOR_RED → zl.color ≠ RB_NODE_COLOR_RED ∧
    zr.color ≠ RB_NODE_COLOR_RED) ∧ zl.RedOK ∧ zr.RedOK := hNr
  obtain ⟨hbal, hlb, hrb⟩ : zl.bheight = zr.bheight ∧ zl.BalOK ∧ zr.BalOK := hNb
  clear hB
  cases zl with
  | leaf =>
    replace hbal : 0 = zr.bheight := hbal
    replace hcb : c.BalOK (0 + black_weight cz) := hcb
    have hs := del_unlink_simple (c := c) (x := zr) (n := c.total (0 + black_weight cz)) hcz hrc
      hrr hrb hbal.symm (fun e => (hzr e).2) hcc hcr hcb hlink hroot rfl
    refine ⟨c, zr, cz, rfl, by simp [plug_to_list, Tree.toList], fun a => ?_, hs.1, hs.2⟩
    simp [count_addrs_plug, Tree.addrs, List.count_cons]; omega
  | node la lc ll lk ld lr =>
    cases zr with
    | leaf =>
      replace hbal : (Tree.node la lc ll lk ld lr).bheight = 0 := hbal
      rw [hbal] at hcb ⊢
      have hs := del_unlink_simple (c := c) (x := .node la lc ll lk ld lr)
        (n := c.total (0 + black_weight cz)) hcz hlc hlr hlb hbal (fun e => (hzr e).1) hcc hcr
        hcb hlink hroot rfl
      refine ⟨c, .node la lc ll lk ld lr, cz, rfl, by simp [plug_to_list, Tree.toList],
        fun a => ?_, ?_, ?_⟩
      · simp [count_addrs_plug, Tree.addrs, List.count_cons]; omega
      · exact hs.1
      · exact hs.2
    | node ra rc rl rk rd rr =>
      obtain ⟨cm, y, cy, ky, dy, yr, h1, h2, -⟩ :=
        min_locate_spec (.node ra rc rl rk rd rr) .top (by simp)
      have hbef := min_locate_before (.node ra rc rl rk rd rr) .top
      rw [h1, append_top] at hbef
      rw [append_top] at h1
      replace hbef : cm.before = [] := hbef
      have hdu : del_unlink c (.node z cz (.node la lc ll lk ld lr) zk zd
          (.node ra rc rl rk rd rr)) =
          some (cm.append (.R y cz ky dy (.node la lc ll lk ld lr) c), yr, cy) := by
        simp [del_unlink, h1]
      generalize Tree.node ra rc rl rk rd rr = zr at *
      generalize Tree.node la lc ll lk ld lr = zl at *
      subst h2
      have hYc := (plug_colors_ok cm _).mp hrc
      have hYr := (plug_red_ok cm _).mp hrr
      have hYb := (plug_bal_ok cm _).mp hrb
      have hzrh := plug_bheight cm _ hYb.2
      have hzrc := plug_color cm (.node y cy .leaf ky dy yr)
      simp only [colS] at hzrc hYr
      obtain ⟨⟨hcy, -, hyrc⟩, hcmc⟩ := hYc
      obtain ⟨⟨hyr1, -, hyrr⟩, hcmr, hcml⟩ := hYr
      obtain ⟨⟨hybal, -, hyrb⟩, hcmb⟩ := hYb
      replace hybal : 0 = yr.bheight := hybal
      replace hcmb : cm.BalOK (0 + black_weight cy) := hcmb
      replace hzrh : (cm.plug (.node y cy .leaf ky dy yr)).bheight =
        cm.total (0 + black_weight cy) := hzrh
      have hred := (append_red_ok_aux (.R y cz ky dy zl c) cm cy).mpr
        ⟨⟨hcmr, fun e e2 => hcml e2 e⟩,
          ⟨fun e => ⟨(hzr e).1, fun e2 => hlink e2 e⟩, hlr, hcr⟩,
          fun e e2 => (hzr e2).2 (hzrc.trans e)⟩
      have hs := del_unlink_simple (c := cm.append (.R y cz ky dy zl c)) (x := yr)
        (n := c.total (zl.bheight + black_weight cz)) hcy hyrc hyrr hyrb hybal.symm
        (fun e => (hyr1 e).2)
        ((append_colors_ok _ _).mpr ⟨hcmc, hcz, hlc, hcc⟩) hred.1
        ((append_bal_ok _ _ _).mpr ⟨hcmb, by rw [← hzrh]; exact hbal, hlb,
          by rw [← hzrh, ← hbal]; exact hcb⟩)
        (fun e e2 => hred.2 e2 e)
        (by rw [append_root_color]; exact hroot)
        (by rw [append_total, ← hzrh, ← hbal]; rfl)
      refine ⟨_, yr, cy, hdu, ?_, fun a => ?_, hs.1, hs.2⟩
      · simp [plug_to_list, append_before, append_after, Ctx.before, Ctx.after, hbef,
          Tree.toList]
      · simp [count_addrs_plug, count_addrs_append, Tree.addrs, Ctx.addrs, List.count_cons]
        omega

/-- On a tree with the shape invariants and the search-tree order,
`Tree.delete` of a stored key yields a tree with the shape invariants, whose
in-order sequence is the old one without the entry of the key, whose nodes are
the old ones without the node `z` that carried the key, and whose black count is
what `Tree.delete_bh` makes of the old one. -/
theorem tree_delete_spec {t : Tree} {key : Nat} {d : Ptr} (hs : t.RBShape) (ho : t.Ordered)
    (hm : (key, d) ∈ t.toList) :
    ∃ (t' : Tree) (z : Ptr) (l1 l2 : List (Nat × Ptr)),
      (t.locate key .top).2.ptr 0 = z ∧ (t.locate key .top).2 ≠ .leaf ∧
      t.delete key = some t' ∧ t'.RBShape ∧
      t.toList = l1 ++ (key, d) :: l2 ∧ t'.toList = l1 ++ l2 ∧
      (∀ a, t.addrs.count a = t'.addrs.count a + if z = a then 1 else 0) ∧
      (t.bheight < SIZE_MOD → t.delete_bh key t.bheight = t'.bheight) ∧
      (t'.bheight = t.bheight ∨ t'.bheight + 1 = t.bheight) := by
  obtain ⟨z, cz, zl, zr, hloc2⟩ := locate_found ho hm
  have hplug := locate_plug key t .top
  rcases hloc : t.locate key .top with ⟨c, N⟩
  rw [hloc] at hplug hloc2
  simp only [Ctx.plug] at hplug hloc2
  subst hloc2
  have hbalok := rbshape_bal hs
  have hroot := hs.root_black
  obtain ⟨hcol, -, hred, -⟩ := hs
  subst hplug
  have hc1 := (plug_colors_ok c _).mp hcol
  have hc2 := (plug_red_ok c _).mp hred
  have hc3 := (plug_bal_ok c _).mp hbalok
  rw [plug_color] at hroot
  simp only [colS] at hroot hc2
  obtain ⟨cx, x, yc, hdu, hl, ha, hblack, hnb⟩ := del_unlink_pure hc1.1 hc2.1 hc3.1 hc1.2
    hc2.2.1 hc3.2 hc2.2.2 hroot
  have hbh := plug_bheight c _ hc3.2
  by_cases hyc : yc = RB_NODE_COLOR_BLACK
  · obtain ⟨m, hpre, htot⟩ := hblack hyc
    obtain ⟨e, he, hpost, hce⟩ := del_fix_spec cx x m false hpre
    refine ⟨e.ctx.plug e.sub.blacken, z, c.before ++ zl.toList, zr.toList ++ c.after, rfl,
      by simp, by simp [Tree.delete, hloc, hdu, hyc, he], ?_, ?_, ?_, ?_, ?_, ?_⟩
    · exact ⟨hpost.colors, hce, hpost.red_ok, _, balanced_bheight hpost.bal⟩
    · simp [plug_to_list, Tree.toList]
    · rw [hpost.to_list, hl]; simp
    · intro a; rw [ha a, hpost.addrs.count_eq]
    · intro hlt
      simp only [Tree.delete_bh, hloc, hdu, hyc, if_true, he, bh_after_delete]
      rw [hpost.bheight, htot, hbh]
      have hge := total_ge cx (m + 1)
      rw [htot] at hge
      rw [hbh] at hlt
      split_ifs
      · have : c.total (Tree.node z cz zl key d zr).bheight + SIZE_MOD - 1 =
            (c.total (Tree.node z cz zl key d zr).bheight - 1) % SIZE_MOD +
              1 * SIZE_MOD := by
          rw [Nat.mod_eq_of_lt (by omega)]; omega
        rw [this, Nat.add_mul_mod_self_right, Nat.mod_mod]
        rw [Nat.mod_eq_of_lt (by omega)]
      · simp
    · rw [hpost.bheight, htot, hbh]
      have hge := total_ge cx (m + 1)
      rw [htot] at hge
      split_ifs <;> omega
  · obtain ⟨hpost, hce⟩ := hnb hyc
    refine ⟨cx.plug x, z, c.before ++ zl.toList, zr.toList ++ c.after, rfl,
      by simp, by simp [Tree.delete, hloc, hdu, hyc], ?_, ?_, ?_, ?_, ?_, ?_⟩
    · exact ⟨hpost.colors, hce, hpost.red_ok, _, balanced_bheight hpost.bal⟩
    · simp [plug_to_list, Tree.toList]
    · rw [hl]; simp
    · intro a; rw [ha a]
    · intro _
      simp only [Tree.delete_bh, hloc, hdu, hyc, if_false]
      rw [hpost.bheight, hbh]
    · left; rw [hpost.bheight, hbh]

end RedBlack


namespace RedBlack
open Tree Ctx

/-- `__rb_tree_delete` when the removed node was Black: unlinking, then the
fixup. -/
theorem delete_node_black {fuel : Nat} {h : Heap} {tree : rb_tree} {c cx : Ctx} {z : Ptr}
    {cz : rb_node_color} {zk : Nat} {zd : Ptr} {zl zr x : Tree} {e : DelExit}
    (hf : Focus h tree c (.node z cz zl zk zd zr))
    (hu : del_unlink c (.node z cz zl zk zd zr) = some (cx, x, RB_NODE_COLOR_BLACK))
    (he : del_fix cx x false false = some e)
    (hfuel : zr.height ≤ fuel) (hfuel2 : cx.depth < fuel) :
    ∃ r, __rb_tree_delete fuel h tree z = .ok r ∧ Alloc h r.1 ∧ r.2.nil = tree.nil ∧
      r.2.bh = bh_after_delete e tree.bh ∧ r.1.next = h.next ∧ r.1.cap = h.cap ∧
      Focus r.1 r.2 .top (e.ctx.plug e.sub.blacken) := by
  unfold __rb_tree_delete
  refine spec_then (delete_unlink_spec hf hu hfuel) ?_
  rintro ⟨h1, ⟨root1, nil1, bh1⟩, x1, yc1⟩ ⟨hA, e1, e2, e3, e4, e5, e6, hF, hN⟩
  simp only at hA e1 e2 e3 e4 e5 e6 hF hN
  subst e1 e2 e5 e6
  simp only [if_true]
  obtain ⟨r, hr, gA, g1, g2, g3, g4, g5⟩ := delete_fixup_spec hF hN he hfuel2
  exact ⟨r, hr, alloc_trans hA gA, g1, g2, g3.trans e3, g4.trans e4, g5⟩

/-- `__rb_tree_delete` when the removed node was not Black: unlinking only. -/
theorem delete_node_red {fuel : Nat} {h : Heap} {tree : rb_tree} {c cx : Ctx} {z : Ptr}
    {cz yc : rb_node_color} {zk : Nat} {zd : Ptr} {zl zr x : Tree}
    (hf : Focus h tree c (.node z cz zl zk zd zr))
    (hu : del_unlink c (.node z cz zl zk zd zr) = some (cx, x, yc))
    (hyc : yc ≠ RB_NODE_COLOR_BLACK) (hfuel : zr.height ≤ fuel) :
    ∃ r, __rb_tree_delete fuel h tree z = .ok r ∧ Alloc h r.1 ∧ r.2.nil = tree.nil ∧
      r.2.bh = tree.bh ∧ r.1.next = h.next ∧ r.1.cap = h.cap ∧
      Focus r.1 r.2 .top (cx.plug x) := by
  unfold __rb_tree_delete
  refine spec_then (delete_unlink_spec hf hu hfuel) ?_
  rintro ⟨h1, ⟨root1, nil1, bh1⟩, x1, yc1⟩ ⟨hA, e1, e2, e3, e4, e5, e6, hF, hN⟩
  simp only at hA e1 e2 e3 e4 e5 e6 hF hN
  subst e1 e2 e5 e6
  simp only [hyc, if_false]
  exact ⟨_, rfl, hA, rfl, rfl, e3, e4, focus_plug hF⟩

theorem locate_depth_height (key : Nat) : ∀ (t : Tree) (c : Ctx),
    (t.locate key c).1.depth + (t.locate key c).2.height ≤ c.depth + t.height
  | .leaf, c => by simp [Tree.locate]
  | .node a col l k d r, c => by
    unfold Tree.locate
    split_ifs
    · simp
    · have := locate_depth_height key l (.L a col k d r c)
      simp only [Ctx.depth, Tree.height] at this ⊢
      omega
    · have := locate_depth_height key r (.R a col k d l c)
      simp only [Ctx.depth, Tree.height] at this ⊢
      omega

/-- `rb_tree_delete` of a key for which `Tree.delete` yields `t'`: the node is
found, unlinked and released, and the heap holds `t'`. -/
theorem rb_tree_delete_spec {fuel : Nat} {h : Heap} {tree : rb_tree} {t t' : Tree} {key : Nat}
    (hf : Focus h tree .top t) (hT : t.delete key = some t')
    (hz : (t.locate key .top).2.ptr tree.nil ∉ t'.addrs) (hfuel : t.height + 2 ≤ fuel) :
    ∃ r, rb_tree_delete fuel h tree key = .ok r ∧ r.2.2 = 0 ∧ r.2.1.nil = tree.nil ∧
      r.2.1.bh = t.delete_bh key tree.bh ∧ r.1.next = h.next ∧ r.1.cap = h.cap ∧
      Focus r.1 r.2.1 .top t' := by
  have hs := search_loop_spec key t fuel .top h tree hf hfuel
  have hroot : tree.root = t.ptr tree.nil := hf.ctx
  have hplug := locate_plug key t .top
  have hdh := locate_depth_height key t .top
  rcases hloc : t.locate key .top with ⟨c, N⟩
  rw [hloc] at hs hplug hdh hz
  simp only [Ctx.plug, Ctx.depth] at hplug hdh hz
  cases N with
  | leaf => simp [Tree.delete, hloc] at hT
  | node z cz zl zk zd zr =>
    simp only [tree_ptr_node] at hs hz
    have hfz : Focus h tree c (.node z cz zl zk zd zr) := focus_unplug (hplug ▸ hf)
    have hznull : ¬z = NULL := fun e => hfz.sep.null_not_mem (by simp [Tree.addrs, e])
    have hznil : ¬z = tree.nil := fun e => hfz.sep.nil_not_mem (by simp [Tree.addrs, e])
    have hzcell := hfz.own.1
    simp only [Tree.height] at hdh
    have hfuel1 : zr.height ≤ fuel := by omega
    cases hdu : del_unlink c (.node z cz zl zk zd zr) with
    | none => simp [Tree.delete, hloc, hdu] at hT
    | some s =>
      obtain ⟨cx, x, yc⟩ := s
      have hcxd := del_unlink_depth hdu
      have hfuel2 : cx.depth < fuel := by omega
      have key1 : ∃ r, __rb_tree_delete fuel h tree z = .ok r ∧ Alloc h r.1 ∧
          r.2.nil = tree.nil ∧ r.2.bh = t.delete_bh key tree.bh ∧ r.1.next = h.next ∧
          r.1.cap = h.cap ∧ Focus r.1 r.2 .top t' := by
        by_cases hyc : yc = RB_NODE_COLOR_BLACK
        · subst hyc
          cases he : del_fix cx x false false with
          | none => simp [Tree.delete, hloc, hdu, he] at hT
          | some e =>
            simp only [Tree.delete, hloc, hdu, he, if_true, Option.map_some',
              Option.some.injEq] at hT
            subst hT
            have := delete_node_black hfz hdu he hfuel1 hfuel2
            simpa [Tree.delete_bh, hloc, hdu, he] using this
        · simp only [Tree.delete, hloc, hdu, hyc, if_false, Option.some.injEq] at hT
          subst hT
          have := delete_node_red hfz hdu hyc hfuel1
          simpa [Tree.delete_bh, hloc, hdu, hyc] using this
      unfold rb_tree_delete
      rw [rb_tree_search, hroot, hs]
      simp only [res_ok_bind, hznull, if_false]
      refine spec_then key1 ?_
      rintro ⟨h1, t1⟩ ⟨hA, e1, e2, e3, e4, hF⟩
      simp only at hA e1 e2 e3 e4 hF
      have hsome := hA z (by rw [hzcell]; rfl)
      obtain ⟨nz, hnz⟩ := Option.isSome_iff_exists.mp hsome
      simp only [rb_node_dealloc, accS, hnz, res_ok_bind, res_pure_eq]
      refine ⟨_, rfl, rfl, e1, e2, e3, e4, ?_⟩
      refine focus_frame hF (fun a ha => ?_) ?_
      · have : a ≠ z := fun e => hz (by simpa [Ctx.addrs, e] using ha)
        simp [this]
      · simp only [heap_free_mem]
        rw [if_neg]
        rw [e1]; exact fun e => hznil e.symm

/-- `rb_tree_delete` of a stored key on a valid tree: it returns 0, the tree is
valid again, the entry of the key is gone from the in-order sequence and `bh`
follows the black count. -/
theorem delete_valid {fuel : Nat} {h : Heap} {tree : rb_tree} {t : Tree} {key : Nat} {d : Ptr}
    (hv : RBValid h tree t) (hm : (key, d) ∈ t.toList) (hfuel : t.height + 2 ≤ fuel) :
    ∃ r t' l1 l2, rb_tree_delete fuel h tree key = .ok r ∧ r.2.2 = 0 ∧
      t.delete key = some t' ∧ RBValid r.1 r.2.1 t' ∧ r.2.1.nil = tree.nil ∧
      r.1.cap = h.cap ∧ r.1.next = h.next ∧
      t.toList = l1 ++ (key, d) :: l2 ∧ t'.toList = l1 ++ l2 ∧
      r.2.1.bh = t.delete_bh key tree.bh ∧
      (tree.bh = t.bheight → r.2.1.bh = t'.bheight) ∧
      (t'.bheight = t.bheight ∨ t'.bheight + 1 = t.bheight) := by
  obtain ⟨t', z, l1, l2, hz, hne, hT, hs', hl, hl', hcnt, hbh, hstep⟩ :=
    tree_delete_spec hv.shape hv.ordered hm
  have hnd := hv.repr.focus.sep.nodup
  simp only [Ctx.addrs, List.nil_append] at hnd
  have hzt : z ∉ t'.addrs := by
    intro hmem
    have h1 := List.count_pos_iff.mpr hmem
    have h2 := hcnt z
    have h3 := List.nodup_iff_count_le_one.mp hnd z
    simp only [if_true] at h2
    omega
  have hsub : ∀ a, a ∈ t'.addrs → a ∈ t.addrs := fun a ha => by
    have h1 := List.count_pos_iff.mpr ha
    have h2 := hcnt a
    exact List.count_pos_iff.mp (by omega)
  have hz2 : (t.locate key .top).2.ptr tree.nil ∉ t'.addrs := by
    cases hN : (t.locate key .top).2 with
    | leaf => exact absurd hN hne
    | node a col l k dd r =>
      rw [hN] at hz
      simp only [tree_ptr_node] at hz ⊢
      rw [hz]; exact hzt
  obtain ⟨r, hr, e0, e1, e2, e3, e4, hF⟩ := rb_tree_delete_spec hv.repr.focus hT hz2 hfuel
  have hsl : t'.toList.Sublist t.toList := by
    rw [hl, hl']
    exact List.Sublist.append (List.Sublist.refl _) (List.sublist_cons_self _ _)
  refine ⟨r, t', l1, l2, hr, e0, hT, ⟨⟨hF, fun a ha => ?_, ?_, ?_, ?_⟩, hs', ?_, ?_⟩, e1, e4, e3,
    hl, hl', e2, fun hb => ?_, hstep⟩
  · rw [e3]; exact hv.repr.bound a (hsub a ha)
  · rw [e3, e1]; exact hv.repr.nil_lt
  · rw [e3, e4]; exact hv.repr.next_le
  · rw [e4]; exact hv.repr.cap_le
  · exact (ordered_iff t').mpr (((ordered_iff t).mp hv.ordered).sublist hsl)
  · intro k hk
    exact hv.no_nil_key k ((hsl.map Prod.fst).subset hk)
  · rw [e2, hb]
    exact hbh (Nat.lt_of_succ_lt (bheight_lt_of_represents hv.repr (rbshape_bal hv.shape)))

end RedBlack


namespace RedBlack
open Tree Ctx

/-- The empty tree that `rb_tree_alloc` returns on the initial heap is valid. -/
theorem rbvalid_init {cap : Ptr} (h2 : 2 ≤ cap) (hc : cap ≤ SIZE_MOD) :
    RBValid (Heap.init cap) rb_tree_alloc .leaf := by
  refine ⟨⟨⟨rfl, trivial, ⟨by simp [Ctx.addrs, Tree.addrs], by simp [Ctx.addrs, Tree.addrs],
    by simp [Ctx.addrs, Tree.addrs], by decide, ⟨NULL, ?_⟩⟩⟩, ?_, ?_, ?_, hc⟩,
    ⟨trivial, rfl, trivial, ⟨0, (balanced_leaf_iff 0).mpr rfl⟩⟩, ?_, ?_⟩
  · simp [Heap.init, rb_tree_alloc, rb_info_nil_init, sentinel_node]
  · intro a ha; simp [Tree.addrs] at ha
  · simp [Heap.init, rb_tree_alloc, rb_info_nil]
  · simpa [Heap.init, rb_info_nil] using h2
  · simp [Tree.Ordered, Tree.keys, Tree.toList]
  · intro k hk; simp [Tree.keys, Tree.toList] at hk

theorem height_le_length : ∀ t : Tree, t.height ≤ t.toList.length
  | .leaf => le_refl _
  | .node a c l k d r => by
    have h1 := height_le_length l
    have h2 := height_le_length r
    simp only [Tree.height, Tree.toList, List.length_append, List.length_cons]
    omega

/-- The sentinel of a represented tree is Black. -/
theorem sentinel_black {h : Heap} {tree : rb_tree} {t : Tree} (hr : Represents h tree t) :
    ∃ n, h.mem tree.nil = some n ∧ n.color = RB_NODE_COLOR_BLACK := by
  obtain ⟨p, hp⟩ := hr.focus.sep.sentinel
  exact ⟨_, hp, rfl⟩

theorem mem_keys_iff {t : Tree} {key : Nat} : key ∈ t.keys ↔ ∃ d, (key, d) ∈ t.toList := by
  simp [Tree.keys]

theorem set_data_of_not_mem (key : Nat) (data : Ptr) : ∀ (t : Tree),
    (∀ x ∈ t.toList, x.1 ≠ key) → t.setData key data = t
  | .leaf, _ => rfl
  | .node a c l k d r, h => by
    have hk : k ≠ key := h (k, d) (by simp [Tree.toList])
    rw [Tree.setData, set_data_of_not_mem key data l (fun x hx => h x (by simp [Tree.toList, hx])),
      set_data_of_not_mem key data r (fun x hx => h x (by simp [Tree.toList, hx])), if_neg hk]

/-- On an ordered tree, replacing the payload at the node that `Tree.locate`
finds is `Tree.setData`: no other node carries the key. -/
theorem locate_set_data (key : Nat) (data : Ptr) : ∀ (t : Tree) (c : Ctx),
    t.toList.Pairwise (fun x y => x.1 < y.1) →
    ∀ {a : Ptr} {col : rb_node_color} {l r : Tree} {k : Nat} {d : Ptr},
      (t.locate key c).2 = .node a col l k d r →
      (t.locate key c).1.plug (.node a col l key data r) = c.plug (t.setData key data)
  | .leaf, c, _, _, _, _, _, _, _, h => by simp [Tree.locate] at h
  | .node a0 c0 l0 k0 d0 r0, c, hs, a, col, l, r, k, d, h => by
    obtain ⟨p1, p2, -, -⟩ := @pairwise_node _ _ _ _ _ _ [] [] (by simpa using hs)
    have hsl : l0.toList.Pairwise (fun x y => x.1 < y.1) := by
      simp only [Tree.toList, List.pairwise_append] at hs; exact hs.1
    have hsr : r0.toList.Pairwise (fun x y => x.1 < y.1) := by
      simp only [Tree.toList, List.pairwise_append, List.pairwise_cons] at hs; exact hs.2.1.2
    unfold Tree.locate at h ⊢
    split_ifs at h ⊢ with h1 h2
    · simp only [Tree.node.injEq] at h
      obtain ⟨rfl, rfl, rfl, rfl, rfl, rfl⟩ := h
      subst h1
      rw [Tree.setData, set_data_of_not_mem k0 data l0 (fun x hx => (p1 x hx).ne),
        set_data_of_not_mem k0 data r0 (fun x hx => (p2 x hx).ne'), if_pos rfl]
    · rw [locate_set_data key data l0 _ hsl h]
      rw [Tree.setData, if_neg h1,
        set_data_of_not_mem key data r0 (fun x hx => (lt_trans h2 (p2 x hx)).ne')]
      rfl
    · have h3 : k0 < key := by omega
      rw [locate_set_data key data r0 _ hsr h]
      rw [Tree.setData, if_neg h1,
        set_data_of_not_mem key data l0 (fun x hx => (lt_trans (p1 x hx) h3).ne)]
      rfl

/-- `Tree.insert` of a key that is stored is `Tree.setData`, and `bh` stays. -/
theorem insert_present {t : Tree} {key : Nat} {d : Ptr} (z : Ptr) (data : Ptr)
    (ho : t.Ordered) (hm : (key, d) ∈ t.toList) :
    t.insert z key data = some (t.setData key data) ∧ ∀ bh, t.insert_bh z key data bh = bh := by
  obtain ⟨a, col, l, r, hloc⟩ := locate_found ho hm
  have hsd := locate_set_data key data t .top ((ordered_iff t).mp ho) hloc
  rcases hl : t.locate key .top with ⟨c, N⟩
  rw [hl] at hloc hsd
  simp only at hloc hsd
  subst hloc
  simp only [Ctx.plug] at hsd
  exact ⟨by simp [Tree.insert, hl, hsd], fun bh => by simp [Tree.insert_bh, hl]⟩

theorem set_data_to_list (key : Nat) (data : Ptr) : ∀ (t : Tree),
    (t.setData key data).toList = t.toList.map (fun x => if x.1 = key then (x.1, data) else x)
  | .leaf => rfl
  | .node a c l k d r => by
    simp only [Tree.setData, Tree.toList, set_data_to_list key data l,
      set_data_to_list key data r, List.map_append, List.map_cons]
    split_ifs <;> simp_all

/-- The entries of the tree after `Tree.insert`: the new entry, and the old ones
for the other keys. -/
theorem tree_insert_mem {t t' : Tree} {z : Ptr} {key : Nat} {data : Ptr}
    (hs : t.RBShape) (ho : t.Ordered) (hT : t.insert z key data = some t') :
    (∀ k d, (k, d) ∈ t'.toList ↔ (k = key ∧ d = data) ∨ (k ≠ key ∧ (k, d) ∈ t.toList)) ∧
      t'.toList.length ≤ t.toList.length + 1 := by
  obtain ⟨l1, mid, l2, e1, e2, hmid, b1, b2⟩ := tree_insert_to_list hs ho hT
  refine ⟨fun k d => ?_, ?_⟩
  · rw [e1, e2]
    simp only [List.mem_append, List.mem_cons, Prod.mk.injEq]
    constructor
    · rintro (h | h | h)
      · exact Or.inr ⟨(b1 _ h).ne, Or.inl (Or.inl h)⟩
      · exact Or.inl h
      · exact Or.inr ⟨(b2 _ h).ne', Or.inr h⟩
    · rintro (h | ⟨hne, (h | h) | h⟩)
      · exact Or.inr (Or.inl h)
      · exact Or.inl h
      · rcases hmid with rfl | ⟨d0, rfl⟩
        · simp at h
        · simp only [List.mem_singleton, Prod.mk.injEq] at h
          exact absurd h.1 hne
      · exact Or.inr (Or.inr h)
  · rw [e1, e2]
    simp only [List.length_append, List.length_cons]
    omega

/-- When the key is refused or no memory is left, `rb_tree_insert` returns
`-ENOMEM` and touches nothing. -/
theorem insert_fails (fuel : Nat) (h : Heap) (tree : rb_tree) (key : Nat) (data : Ptr)
    (hf : ¬ (key < RB_MAX_KEY ∧ h.next < h.cap)) :
    rb_tree_insert fuel h tree key data = .ok (h, tree, -ENOMEM) := by
  unfold rb_tree_insert rb_node_alloc
  by_cases hk : key ≥ RB_MAX_KEY
  · simp [hk]
  · have hm : ¬ h.next < h.cap := fun hm => hf ⟨Nat.lt_of_not_le hk, hm⟩
    simp [hk, hm]

theorem enomem_ne_zero : -ENOMEM ≠ 0 := by decide

/-- A run of `rb_tree_insert` calls on a valid tree with fuel above the final
size always returns and keeps the tree valid.  All calls return 0 exactly when
every key is accepted and memory is left for one node per call, and then the
tree holds for each key the payload written last (or the old one where the run
does not write the key). -/
theorem insert_all_total (fuel : Nat) : ∀ (kvs : List (Nat × Ptr)) (h : Heap) (tree : rb_tree)
    (t : Tree), RBValid h tree t → t.toList.length + kvs.length < fuel →
    ∃ r t', rb_tree_insert_all fuel kvs h tree = .ok r ∧
      RBValid r.1 r.2.1 t' ∧ t'.toList.length ≤ t.toList.length + kvs.length ∧
      ((∀ c ∈ r.2.2, c = 0) ↔
        ((∀ kv ∈ kvs, kv.1 < RB_MAX_KEY) ∧ h.next + kvs.length ≤ h.cap)) ∧
      ((∀ c ∈ r.2.2, c = 0) → ∀ k d, (k, d) ∈ t'.toList ↔
        (last_write kvs k = some d ∨ (last_write kvs k = none ∧ (k, d) ∈ t.toList)))
  | [], h, tree, t, hv, _ =>
    ⟨(h, tree, []), t, rfl, hv, by simp, by simpa using hv.repr.next_le,
      fun _ k d => by simp [last_write]⟩
  | (key, data) :: rest, h, tree, t, hv, hfuel => by
    simp only [List.length_cons] at hfuel
    have hh := height_le_length t
    by_cases hok : key < RB_MAX_KEY ∧ h.next < h.cap
    · obtain ⟨hk, hcap⟩ := hok
      obtain ⟨r1, t1, hr1, hc1, hT1, hv1, -, hcap1, hnext1, -, -⟩ :=
        @insert_valid fuel _ _ _ _ data hv hk hcap (by omega)
      obtain ⟨hmem1, hlen1⟩ := tree_insert_mem hv.shape hv.ordered hT1
      obtain ⟨r2, t2, hr2, hv2, hlen2, hiff2, hmem2⟩ :=
        insert_all_total fuel rest r1.1 r1.2.1 t1 hv1 (by omega)
      refine ⟨(r2.1, r2.2.1, r1.2.2 :: r2.2.2), t2, ?_, hv2,
        by simp only [List.length_cons]; omega, ?_, fun h0 k d => ?_⟩
      · simp [rb_tree_insert_all, hr1, hr2]
      · simp only [List.mem_cons, forall_eq_or_imp, hc1, true_and, hk, hiff2, hnext1, hcap1,
          List.length_cons]
        rw [Nat.add_assoc, Nat.add_comm 1]
      · have h0' : ∀ c ∈ r2.2.2, c = 0 := fun c hc => h0 c (List.mem_cons_of_mem _ hc)
        rw [hmem2 h0' k d, hmem1 k d]
        simp only [last_write]
        cases hlw : last_write rest k with
        | some d' => simp
        | none =>
          by_cases hkk : k = key
          · subst hkk; simp [eq_comm]
          · simp [hkk]
    · have hr1 := insert_fails fuel h tree key data hok
      obtain ⟨r2, t2, hr2, hv2, hlen2, -, -⟩ :=
        insert_all_total fuel rest h tree t hv (by omega)
      have hne : ¬ ∀ c ∈ (-ENOMEM) :: r2.2.2, c = 0 := fun h0 =>
        enomem_ne_zero (h0 _ (List.mem_cons_self _ _))
      refine ⟨(r2.1, r2.2.1, (-ENOMEM) :: r2.2.2), t2, ?_, hv2,
        by simp only [List.length_cons]; omega, ?_, fun h0 => absurd h0 hne⟩
      · simp [rb_tree_insert_all, hr1, hr2]
      · refine ⟨fun h0 => absurd h0 hne, fun ⟨hk, hcap⟩ => absurd ⟨hk (key, data) (by simp), ?_⟩ hok⟩
        simp only [List.length_cons] at hcap
        exact Nat.lt_of_lt_of_le (Nat.lt_add_of_pos_right (Nat.succ_pos _)) hcap

theorem last_write_of_mem : ∀ (kvs : List (Nat × Ptr)) (k : Nat),
    k ∈ kvs.map Prod.fst → ∃ d, last_write kvs k = some d
  | [], k, h => by simp at h
  | (key, data) :: rest, k, h => by
    simp only [List.map_cons, List.mem_cons] at h
    simp only [last_write]
    cases hlw : last_write rest k with
    | some d' => exact ⟨d', rfl⟩
    | none =>
      rcases h with rfl | h
      · exact ⟨data, by simp⟩
      · obtain ⟨d, hd⟩ := last_write_of_mem rest k h
        rw [hlw] at hd; cases hd

/-- The one-node tree `single_tree` is valid in `single_heap`. -/
theorem rbvalid_single : RBValid single_heap single_hdr single_tree := by
  refine ⟨⟨⟨rfl, ⟨rfl, trivial, trivial⟩, ⟨by decide, by decide, by decide, by decide,
    ⟨NULL, rfl⟩⟩⟩, ?_, by decide, by decide, by decide⟩,
    ⟨⟨Or.inr rfl, trivial, trivial⟩, rfl, ⟨(fun e => by cases e), trivial, trivial⟩,
      ⟨1, ?_⟩⟩, ?_, ?_⟩
  · intro a ha
    simp only [single_tree, Tree.addrs, List.nil_append, List.mem_singleton] at ha
    subst ha; decide
  · intro m hm
    simp [single_tree, Tree.pathBlacks, black_weight] at hm
    exact hm
  · simp [Tree.Ordered, Tree.keys, single_tree, Tree.toList]
  · intro k hk
    simp only [Tree.keys, single_tree, Tree.toList, List.nil_append, List.map_cons,
      List.map_nil, List.mem_singleton] at hk
    subst hk; decide

end RedBlack


namespace RedBlack
open Tree Ctx

theorem set_data_ptr (key : Nat) (data : Ptr) (nil : Ptr) (t : Tree) :
    (t.setData key data).ptr nil = t.ptr nil := by
  cases t <;> rfl

theorem set_data_addrs (key : Nat) (data : Ptr) : ∀ t : Tree,
    (t.setData key data).addrs = t.addrs
  | .leaf => rfl
  | .node a c l k d r => by
    simp only [Tree.setData, Tree.addrs, set_data_addrs key data l, set_data_addrs key data r]

/-- Two layouts, of a tree and of the tree with the payload of `key` replaced,
differ on the nodes of the tree in the payload of the nodes with that key
only. -/
theorem own_set_data_cell {m m' : Ptr → Option rb_node} {nil : Ptr} {key : Nat} {d2 : Ptr} :
    ∀ (t : Tree) (p : Ptr), Own m nil t p → Own m' nil (t.setData key d2) p →
      ∀ a ∈ t.addrs, ∀ n, m a = some n →
        m' a = some (if n.key = key then { n with data := d2 } else n)
  | .leaf, _, _, _, a, ha, _, _ => by simp [Tree.addrs] at ha
  | .node a0 c l k d r, p, ho, ho', a, ha, n, hn => by
    simp only [Tree.setData, Own, set_data_ptr] at ho ho'
    simp only [Tree.addrs, List.mem_append, List.mem_cons] at ha
    rcases ha with ha | rfl | ha
    · exact own_set_data_cell l a0 ho.2.1 ho'.2.1 a ha n hn
    · rw [ho.1] at hn
      cases hn
      rw [ho'.1]
      by_cases hk : k = key <;> simp [hk]
    · exact own_set_data_cell r a0 ho.2.2 ho'.2.2 a ha n hn

/-- In a strictly increasing list the entries before a position are smaller and
the entries after it are larger. -/
theorem sorted_split {l1 l2 : List (Nat × Ptr)} {key : Nat} {d : Ptr}
    (h : (l1 ++ (key, d) :: l2).Pairwise (fun x y => x.1 < y.1)) :
    (∀ x ∈ l1, x.1 < key) ∧ (∀ x ∈ l2, key < x.1) ∧
      (l1 ++ l2).Pairwise (fun x y => x.1 < y.1) := by
  simp only [List.pairwise_append, List.pairwise_cons, List.mem_cons, forall_eq_or_imp] at h ⊢
  exact ⟨fun x hx => (h.2.2 x hx).1, h.2.1.1, h.1, h.2.1.2, fun x hx y hy => (h.2.2 x hx).2 y hy⟩

end RedBlack


namespace RedBlack
open Tree Ctx

/-! ## Validity of two larger concrete trees -/

/-- The tree `six_tree` is valid in `six_heap`. -/
theorem rbvalid_six : RBValid six_heap six_hdr six_tree := by
  refine ⟨⟨⟨rfl, ⟨rfl, ⟨rfl, ⟨rfl, trivial, trivial⟩, ⟨rfl, ⟨rfl, trivial, trivial⟩, trivial⟩⟩,
    ⟨rfl, trivial, trivial⟩⟩,
    ⟨by decide, by decide, by decide, by decide, ⟨NULL, rfl⟩⟩⟩, by decide, by decide,
    by decide, by decide⟩,
    ⟨by simp [six_tree, Tree.ColorsOK], rfl, by simp [six_tree, Tree.RedOK, Tree.color],
      ⟨2, by decide⟩⟩, ?_, ?_⟩
  · simp [Tree.Ordered, Tree.keys, six_tree, Tree.toList]
  · intro k hk
    simp only [Tree.keys, six_tree, Tree.toList, List.nil_append, List.map_cons,
      List.map_nil, List.mem_cons, List.mem_singleton, List.cons_append, List.not_mem_nil,
      or_false, List.map_append, List.mem_append] at hk
    have hle : k ≤ 11 := by omega
    exact lt_of_le_of_lt hle (by decide)

/-- The tree `tri_tree` is valid in `tri_heap`. -/
theorem rbvalid_tri : RBValid tri_heap tri_hdr tri_tree := by
  refine ⟨⟨⟨rfl, ⟨rfl, ⟨rfl, trivial, trivial⟩, ⟨rfl, trivial, trivial⟩⟩,
    ⟨by decide, by decide, by decide, by decide, ⟨NULL, rfl⟩⟩⟩, by decide, by decide,
    by decide, by decide⟩,
    ⟨by simp [tri_tree, Tree.ColorsOK], rfl, by simp [tri_tree, Tree.RedOK, Tree.color],
      ⟨1, by decide⟩⟩, ?_, ?_⟩
  · simp [Tree.Ordered, Tree.keys, tri_tree, Tree.toList]
  · intro k hk
    simp only [Tree.keys, tri_tree, Tree.toList, List.nil_append, List.map_cons,
      List.map_nil, List.mem_cons, List.mem_singleton, List.cons_append, List.not_mem_nil,
      or_false, List.map_append, List.mem_append] at hk
    have hle : k ≤ 11 := by omega
    exact lt_of_le_of_lt hle (by decide)

end RedBlack


namespace RedBlack
open Tree Ctx

/-! ## Properties of the public operations -/

/-- C1: on a valid tree, `rb_tree_insert` of a key below `RB_MAX_KEY` returns
(given fuel above the height), it returns 0 exactly when memory is left for the
new node, and after it has returned 0 the tree satisfies the shape invariants:
every node is Red or Black, the root and the sentinel are Black, no Red node
has a Red child, and every root-to-sentinel path contains the same number of
Black nodes.  This holds for a key that is not in the tree and also for one
that is. -/
theorem insert_restores_shape {fuel : Nat} {h : Heap} {tree : rb_tree} {t : Tree} {key : Nat}
    (data : Ptr) (hv : RBValid h tree t) (hk : key < RB_MAX_KEY) (hfuel : t.height < fuel) :
    ∃ r, rb_tree_insert fuel h tree key data = .ok r ∧ (r.2.2 = 0 ↔ h.next < h.cap) ∧
      (r.2.2 = 0 → ∃ t', Represents r.1 r.2.1 t' ∧ t'.ColorsOK ∧
        t'.color = RB_NODE_COLOR_BLACK ∧
        (∃ n, r.1.mem r.2.1.nil = some n ∧ n.color = RB_NODE_COLOR_BLACK) ∧
        t'.RedOK ∧ ∃ n, t'.Balanced n) := by
  by_cases halloc : h.next < h.cap
  · obtain ⟨r, t', hr, h0, -, hv', -⟩ := insert_valid hv hk halloc hfuel
    exact ⟨r, hr, iff_of_true h0 halloc, fun _ => ⟨t', hv'.repr, hv'.shape.colors,
      hv'.shape.root_black, sentinel_black hv'.repr, hv'.shape.red_ok, hv'.shape.balanced⟩⟩
  · exact ⟨_, insert_fails fuel h tree key data (fun hh => halloc hh.2),
      iff_of_false enomem_ne_zero halloc, fun h0 => absurd h0 enomem_ne_zero⟩

/-- Instance on the six-node tree of `six_heap`: the key 6 goes in as the Red
right child of the Red node with key 5, and `rb_tree_insert_fixup` answers with
a left rotation at that node and a right rotation at the node with key 7. -/
theorem insert_restores_shape_witness :
    RBValid six_heap six_hdr six_tree ∧ 6 < RB_MAX_KEY ∧ six_tree.height < 5 ∧
      ∃ r, rb_tree_insert 5 six_heap six_hdr 6 NULL = .ok r ∧
        (r.2.2 = 0 ↔ six_heap.next < six_heap.cap) ∧
        (r.2.2 = 0 → ∃ t', Represents r.1 r.2.1 t' ∧ t'.ColorsOK ∧
          t'.color = RB_NODE_COLOR_BLACK ∧
          (∃ n, r.1.mem r.2.1.nil = some n ∧ n.color = RB_NODE_COLOR_BLACK) ∧
          t'.RedOK ∧ ∃ n, t'.Balanced n) :=
  ⟨rbvalid_six, by decide, by decide,
    insert_restores_shape NULL rbvalid_six (by decide) (by decide)⟩

/-- C2: on a valid tree whose `bh` field is the number of Black nodes on each
root-to-sentinel path, `rb_tree_insert` of a key below `RB_MAX_KEY` returns,
and in the tree it leaves `bh` is again the number of Black nodes on every
root-to-sentinel path.  It returns 0 exactly when memory is left for the new
node; then, for a new key, `bh` is one more than before exactly when the root
of the tree that the fixup loop leaves (`ins_fix`) is Red, that is right before
it is forced Black. -/
theorem insert_maintains_bh {fuel : Nat} {h : Heap} {tree : rb_tree} {t : Tree} {key : Nat}
    (data : Ptr) (hv : RBValid h tree t) (hbh : t.Balanced tree.bh) (hk : key < RB_MAX_KEY)
    (hfuel : t.height < fuel) :
    ∃ r t', rb_tree_insert fuel h tree key data = .ok r ∧ (r.2.2 = 0 ↔ h.next < h.cap) ∧
      Represents r.1 r.2.1 t' ∧ t'.Balanced r.2.1.bh ∧
      (r.2.2 = 0 → ∀ c, t.locate key .top = (c, .leaf) →
        ∃ T, ins_fix c (.node h.next RB_NODE_COLOR_RED .leaf key data .leaf) = some T ∧
          t' = T.blacken ∧
          r.2.1.bh = if T.color = RB_NODE_COLOR_RED then tree.bh + 1 else tree.bh) := by
  by_cases halloc : h.next < h.cap
  · obtain ⟨r, t', hr, h0, hT, hv', -, -, -, hbh1, hbh2⟩ :=
      insert_valid hv hk halloc hfuel
    have he := balanced_eq_bheight hbh
    have hlt := bheight_lt_of_represents hv.repr (rbshape_bal hv.shape)
    refine ⟨r, t', hr, iff_of_true h0 halloc, hv'.repr, ?_, fun _ c hc => ?_⟩
    · rw [hbh2 he]
      exact balanced_bheight (rbshape_bal hv'.shape)
    · simp only [Tree.insert, hc] at hT
      obtain ⟨T, hT1, hT2⟩ := Option.map_eq_some'.mp hT
      refine ⟨T, hT1, hT2.symm, ?_⟩
      rw [hbh1]
      simp only [Tree.insert_bh, hc, hT1, bh_after_insert]
      split_ifs
      · rw [Nat.mod_eq_of_lt (by omega)]
      · rfl
  · exact ⟨_, t, insert_fails fuel h tree key data (fun hh => halloc hh.2),
      iff_of_false enomem_ne_zero halloc, hv.repr, hbh, fun h0 => absurd h0 enomem_ne_zero⟩

theorem insert_maintains_bh_witness :
    RBValid (Heap.init 8) rb_tree_alloc .leaf ∧ Tree.leaf.Balanced rb_tree_alloc.bh ∧
      5 < RB_MAX_KEY ∧ Tree.leaf.height < 1 ∧
      ∃ r t', rb_tree_insert 1 (Heap.init 8) rb_tree_alloc 5 NULL = .ok r ∧
        (r.2.2 = 0 ↔ (Heap.init 8).next < (Heap.init 8).cap) ∧
        Represents r.1 r.2.1 t' ∧ t'.Balanced r.2.1.bh ∧
        (r.2.2 = 0 → ∀ c, Tree.leaf.locate 5 .top = (c, .leaf) →
          ∃ T, ins_fix c (.node (Heap.init 8).next RB_NODE_COLOR_RED .leaf 5 NULL .leaf) =
              some T ∧ t' = T.blacken ∧
            r.2.1.bh = if T.color = RB_NODE_COLOR_RED then rb_tree_alloc.bh + 1
              else rb_tree_alloc.bh) :=
  ⟨rbvalid_init (by decide) (by decide), (balanced_leaf_iff 0).mpr rfl, by decide, by decide,
    insert_maintains_bh NULL (rbvalid_init (by decide) (by decide))
      ((balanced_leaf_iff 0).mpr rfl) (by decide) (by decide)⟩

/-- C3: on a valid tree, `rb_tree_delete` of a key that is in the tree (with
fuel above the height) returns 0, and the tree it leaves satisfies the shape
invariants: the root and the sentinel are Black, every node is Red or Black, no
Red node has a Red child, and every root-to-sentinel path contains the same
number of Black nodes. -/
theorem delete_restores_shape {fuel : Nat} {h : Heap} {tree : rb_tree} {t : Tree} {key : Nat}
    (hv : RBValid h tree t) (hm : key ∈ t.keys) (hfuel : t.height + 2 ≤ fuel) :
    ∃ r t', rb_tree_delete fuel h tree key = .ok r ∧ r.2.2 = 0 ∧
      Represents r.1 r.2.1 t' ∧ t'.color = RB_NODE_COLOR_BLACK ∧
      (∃ n, r.1.mem r.2.1.nil = some n ∧ n.color = RB_NODE_COLOR_BLACK) ∧
      t'.ColorsOK ∧ t'.RedOK ∧ ∃ n, t'.Balanced n := by
  obtain ⟨d, hd⟩ := mem_keys_iff.mp hm
  obtain ⟨r, t', -, -, hr, h0, -, hv', -⟩ := delete_valid hv hd hfuel
  exact ⟨r, t', hr, h0, hv'.repr, hv'.shape.root_black, sentinel_black hv'.repr,
    hv'.shape.colors, hv'.shape.red_ok, hv'.shape.balanced⟩

/-- Instance on the six-node tree of `six_heap`: the key 11 sits in a Black leaf
whose sibling is Red, so `rb_tree_delete_fixup` rotates at the root, recolours
and rotates again; the tree that is left has the five keys 1, 3, 5, 7, 9. -/
theorem delete_restores_shape_witness :
    RBValid six_heap six_hdr six_tree ∧ 11 ∈ six_tree.keys ∧
      six_tree.height + 2 ≤ 6 ∧
      ∃ r t', rb_tree_delete 6 six_heap six_hdr 11 = .ok r ∧ r.2.2 = 0 ∧
        Represents r.1 r.2.1 t' ∧ t'.color = RB_NODE_COLOR_BLACK ∧
        (∃ n, r.1.mem r.2.1.nil = some n ∧ n.color = RB_NODE_COLOR_BLACK) ∧
        t'.ColorsOK ∧ t'.RedOK ∧ ∃ n, t'.Balanced n :=
  ⟨rbvalid_six, by decide, by decide, delete_restores_shape rbvalid_six (by decide) (by decide)⟩

/-- C4: on a valid tree whose `bh` field is the number of Black nodes on each
root-to-sentinel path, `rb_tree_delete` of a key that is in the tree returns 0
and leaves a tree in which `bh` is the number of Black nodes on every
root-to-sentinel path (0 for the empty tree).  The value that the flags
`is_goes_up` and `is_forced` produce (`Tree.delete_bh`) is that number: `bh`
stays or goes down by one, and it goes down exactly when the black count of the
tree does. -/
theorem delete_maintains_bh {fuel : Nat} {h : Heap} {tree : rb_tree} {t : Tree} {key : Nat}
    (hv : RBValid h tree t) (hbh : t.Balanced tree.bh) (hm : key ∈ t.keys)
    (hfuel : t.height + 2 ≤ fuel) :
    ∃ r t', rb_tree_delete fuel h tree key = .ok r ∧ r.2.2 = 0 ∧
      Represents r.1 r.2.1 t' ∧ t'.Balanced r.2.1.bh ∧ (t' = .leaf → r.2.1.bh = 0) ∧
      r.2.1.bh = t.delete_bh key tree.bh ∧ (r.2.1.bh = tree.bh ∨ r.2.1.bh + 1 = tree.bh) ∧
      (r.2.1.bh + 1 = tree.bh ↔ t'.bheight + 1 = t.bheight) := by
  obtain ⟨d, hd⟩ := mem_keys_iff.mp hm
  obtain ⟨r, t', -, -, hr, h0, -, hv', -, -, -, -, -, hb1, hb2, hstep⟩ := delete_valid hv hd hfuel
  have he := balanced_eq_bheight hbh
  have hb3 := hb2 he
  refine ⟨r, t', hr, h0, hv'.repr, ?_, fun hl => ?_, hb1, ?_, ?_⟩
  · rw [hb3]; exact balanced_bheight (rbshape_bal hv'.shape)
  · rw [hb3, hl]; rfl
  · rw [hb3, he]; exact hstep
  · rw [hb3, he]

theorem delete_maintains_bh_witness :
    RBValid single_heap single_hdr single_tree ∧ single_tree.Balanced single_hdr.bh ∧
      7 ∈ single_tree.keys ∧ single_tree.height + 2 ≤ 3 ∧
      ∃ r t', rb_tree_delete 3 single_heap single_hdr 7 = .ok r ∧ r.2.2 = 0 ∧
        Represents r.1 r.2.1 t' ∧ t'.Balanced r.2.1.bh ∧ (t' = .leaf → r.2.1.bh = 0) ∧
        r.2.1.bh = single_tree.delete_bh 7 single_hdr.bh ∧
        (r.2.1.bh = single_hdr.bh ∨ r.2.1.bh + 1 = single_hdr.bh) ∧
        (r.2.1.bh + 1 = single_hdr.bh ↔ t'.bheight + 1 = single_tree.bheight) :=
  ⟨rbvalid_single, balanced_bheight (rbshape_bal rbvalid_single.shape),
    by simp [Tree.keys, single_tree, Tree.toList], by decide,
    delete_maintains_bh rbvalid_single (balanced_bheight (rbshape_bal rbvalid_single.shape))
      (by simp [Tree.keys, single_tree, Tree.toList]) (by decide)⟩

/-- C5: on a valid tree, `rb_tree_insert(tree, k, d)` of a key below
`RB_MAX_KEY` that is not in the tree returns, with 0 exactly when memory is
left for the new node; after it has returned 0 the in-order traversal is the
previous one with `(k, d)` put at its sorted position: the entries before it
are the previous entries with a smaller key, the entries after it the previous
entries with a larger key, with their payloads, and the keys are strictly
increasing. -/
theorem insert_inorder {fuel : Nat} {h : Heap} {tree : rb_tree} {t : Tree} {key : Nat}
    (data : Ptr) (hv : RBValid h tree t) (hk : key < RB_MAX_KEY) (hnew : key ∉ t.keys)
    (hfuel : t.height < fuel) :
    ∃ r, rb_tree_insert fuel h tree key data = .ok r ∧ (r.2.2 = 0 ↔ h.next < h.cap) ∧
      (r.2.2 = 0 → ∃ t' l1 l2, Represents r.1 r.2.1 t' ∧ t.toList = l1 ++ l2 ∧
        t'.toList = l1 ++ (key, data) :: l2 ∧ (∀ x ∈ l1, x.1 < key) ∧
        (∀ x ∈ l2, key < x.1) ∧ t'.Ordered) := by
  by_cases halloc : h.next < h.cap
  · obtain ⟨r, t', hr, h0, hT, hv', -⟩ := insert_valid hv hk halloc hfuel
    obtain ⟨l1, mid, l2, e1, e2, hmid, b1, b2⟩ := tree_insert_to_list hv.shape hv.ordered hT
    refine ⟨r, hr, iff_of_true h0 halloc, fun _ => ⟨t', l1, l2, hv'.repr, ?_, e2, b1, b2,
      hv'.ordered⟩⟩
    rcases hmid with rfl | ⟨d0, rfl⟩
    · simpa using e1
    · exact absurd (mem_keys_iff.mpr ⟨d0, by rw [e1]; simp⟩) hnew
  · exact ⟨_, insert_fails fuel h tree key data (fun hh => halloc hh.2),
      iff_of_false enomem_ne_zero halloc, fun h0 => absurd h0 enomem_ne_zero⟩

/-- Instance on the six-node tree of `six_heap`: the key 4 goes between the keys
1, 3 and the keys 5, 7, 9, 11. -/
theorem insert_inorder_witness :
    RBValid six_heap six_hdr six_tree ∧ 4 < RB_MAX_KEY ∧ 4 ∉ six_tree.keys ∧
      six_tree.height < 5 ∧
      ∃ r, rb_tree_insert 5 six_heap six_hdr 4 NULL = .ok r ∧
        (r.2.2 = 0 ↔ six_heap.next < six_heap.cap) ∧
        (r.2.2 = 0 → ∃ t' l1 l2, Represents r.1 r.2.1 t' ∧ six_tree.toList = l1 ++ l2 ∧
          t'.toList = l1 ++ (4, NULL) :: l2 ∧ (∀ x ∈ l1, x.1 < 4) ∧
          (∀ x ∈ l2, 4 < x.1) ∧ t'.Ordered) :=
  ⟨rbvalid_six, by decide, by decide, by decide,
    insert_inorder NULL rbvalid_six (by decide) (by decide) (by decide)⟩

/-- C6: on a valid tree, `rb_tree_delete(tree, k)` of a key that is in the tree
(with fuel above the number of nodes) returns 0, and afterwards the in-order
traversal is the previous one with exactly the entry of `k` removed:
`rb_tree_search` does not find `k` any more (it returns `NULL`) and finds every
other key of the tree, at a node that holds the payload the key had before. -/
theorem delete_inorder {fuel : Nat} {h : Heap} {tree : rb_tree} {t : Tree} {key : Nat}
    (hv : RBValid h tree t) (hm : key ∈ t.keys) (hfuel : t.toList.length + 2 ≤ fuel) :
    ∃ r t' l1 d l2, rb_tree_delete fuel h tree key = .ok r ∧ r.2.2 = 0 ∧
      Represents r.1 r.2.1 t' ∧ t.toList = l1 ++ (key, d) :: l2 ∧ t'.toList = l1 ++ l2 ∧
      t'.Ordered ∧ key ∉ t'.keys ∧ rb_tree_search fuel r.1 r.2.1 key = .ok NULL ∧
      ∀ k' d', (k', d') ∈ t.toList → k' ≠ key →
        ∃ a n, rb_tree_search fuel r.1 r.2.1 k' = .ok a ∧ a ≠ NULL ∧
          r.1.mem a = some n ∧ n.key = k' ∧ n.data = d' := by
  obtain ⟨d, hd⟩ := mem_keys_iff.mp hm
  have hh := height_le_length t
  obtain ⟨r, t', l1, l2, hr, h0, -, hv', -, -, -, e1, e2, -⟩ :=
    delete_valid hv hd (show t.height + 2 ≤ fuel by omega)
  have hso := (ordered_iff t).mp hv.ordered
  rw [e1] at hso
  obtain ⟨b1, b2, -⟩ := sorted_split hso
  have hh' := height_le_length t'
  have hlen : t'.toList.length ≤ t.toList.length := by
    rw [e1, e2]; simp
  have hnot : key ∉ t'.keys := by
    intro hc
    obtain ⟨d', hd'⟩ := mem_keys_iff.mp hc
    rw [e2, List.mem_append] at hd'
    rcases hd' with hd' | hd'
    · exact absurd (b1 _ hd') (lt_irrefl _)
    · exact absurd (b2 _ hd') (lt_irrefl _)
  have hkn : key ≠ RB_NODE_NIL_KEY_VALUE := (hv.no_nil_key key hm).ne
  refine ⟨r, t', l1, d, l2, hr, h0, hv'.repr, e1, e2, hv'.ordered, hnot, ?_, fun k' d' hm' hne => ?_⟩
  · have hs := search_not_found hv'.repr.focus hnot (show t'.height + 2 ≤ fuel by omega)
    rw [if_neg hkn] at hs
    exact hs
  · have hm2 : (k', d') ∈ t'.toList := by
      rw [e1] at hm'
      rw [e2]
      simp only [List.mem_append, List.mem_cons, Prod.mk.injEq] at hm' ⊢
      rcases hm' with hm' | ⟨rfl, -⟩ | hm'
      · exact Or.inl hm'
      · exact absurd rfl hne
      · exact Or.inr hm'
    obtain ⟨a, n, hs, ha, -, hn, hnk, hnd⟩ :=
      search_found hv'.repr.focus hv'.ordered hm2 (show t'.height + 2 ≤ fuel by omega)
    exact ⟨a, n, hs, ha, hn, hnk, hnd⟩

/-- Instance on the six-node tree of `six_heap`: the key 3 sits in a node with two
children; the keys 1, 5, 7, 9 and 11 stay. -/
theorem delete_inorder_witness :
    RBValid six_heap six_hdr six_tree ∧ 3 ∈ six_tree.keys ∧
      six_tree.toList.length + 2 ≤ 8 ∧
      ∃ r t' l1 d l2, rb_tree_delete 8 six_heap six_hdr 3 = .ok r ∧ r.2.2 = 0 ∧
        Represents r.1 r.2.1 t' ∧ six_tree.toList = l1 ++ (3, d) :: l2 ∧
        t'.toList = l1 ++ l2 ∧
        t'.Ordered ∧ 3 ∉ t'.keys ∧ rb_tree_search 8 r.1 r.2.1 3 = .ok NULL ∧
        ∀ k' d', (k', d') ∈ six_tree.toList → k' ≠ 3 →
          ∃ a n, rb_tree_search 8 r.1 r.2.1 k' = .ok a ∧ a ≠ NULL ∧
            r.1.mem a = some n ∧ n.key = k' ∧ n.data = d' :=
  ⟨rbvalid_six, by decide, by decide, delete_inorder rbvalid_six (by decide) (by decide)⟩

/-- C7: a run of `rb_tree_insert` calls on a fresh tree (keys may repeat, fuel
above the number of calls) returns; all calls return 0 exactly when every key
is below `RB_MAX_KEY` and memory is left for one node per call; and when all
calls have returned 0, `rb_tree_search` of every key that was inserted returns
a node whose key is that key and whose payload is the one given by the most
recent insert of the key. -/
theorem search_finds_last_write {fuel : Nat} {cap : Ptr} (kvs : List (Nat × Ptr))
    (h2 : 2 ≤ cap) (hc : cap ≤ SIZE_MOD) (hfuel : kvs.length + 2 ≤ fuel) :
    ∃ r, rb_tree_insert_all fuel kvs (Heap.init cap) rb_tree_alloc = .ok r ∧
      ((∀ c ∈ r.2.2, c = 0) ↔
        ((∀ kv ∈ kvs, kv.1 < RB_MAX_KEY) ∧ (Heap.init cap).next + kvs.length ≤ cap)) ∧
      ((∀ c ∈ r.2.2, c = 0) → ∀ k ∈ kvs.map Prod.fst,
        ∃ d a n, last_write kvs k = some d ∧ rb_tree_search fuel r.1 r.2.1 k = .ok a ∧
          a ≠ NULL ∧ r.1.mem a = some n ∧ n.key = k ∧ n.data = d) := by
  obtain ⟨r, t', hr, hv', hlen, hiff, hmem⟩ :=
    insert_all_total fuel kvs (Heap.init cap) rb_tree_alloc .leaf (rbvalid_init h2 hc)
      (by simp only [Tree.toList, List.length_nil]; omega)
  refine ⟨r, hr, hiff, fun h0 k hk => ?_⟩
  obtain ⟨d, hd⟩ := last_write_of_mem kvs k hk
  have hm : (k, d) ∈ t'.toList := (hmem h0 k d).mpr (Or.inl hd)
  have hh := height_le_length t'
  simp only [Tree.toList, List.length_nil] at hlen
  obtain ⟨a, n, hs, ha, -, hn, hnk, hnd⟩ :=
    search_found hv'.repr.focus hv'.ordered hm (show t'.height + 2 ≤ fuel by omega)
  exact ⟨d, a, n, hd, hs, ha, hn, hnk, hnd⟩

theorem search_finds_last_write_witness :
    (2 : Nat) ≤ 8 ∧ 8 ≤ SIZE_MOD ∧ [((5 : Nat), (1 : Ptr)), (3, 2), (5, 4)].length + 2 ≤ 5 ∧
      ∃ r, rb_tree_insert_all 5 [(5, 1), (3, 2), (5, 4)] (Heap.init 8) rb_tree_alloc = .ok r ∧
        ((∀ c ∈ r.2.2, c = 0) ↔
          ((∀ kv ∈ [((5 : Nat), (1 : Ptr)), (3, 2), (5, 4)], kv.1 < RB_MAX_KEY) ∧
            (Heap.init 8).next + [((5 : Nat), (1 : Ptr)), (3, 2), (5, 4)].length ≤ 8)) ∧
        ((∀ c ∈ r.2.2, c = 0) → ∀ k ∈ [((5 : Nat), (1 : Ptr)), (3, 2), (5, 4)].map Prod.fst,
          ∃ d a n, last_write [(5, 1), (3, 2), (5, 4)] k = some d ∧
            rb_tree_search 5 r.1 r.2.1 k = .ok a ∧
            a ≠ NULL ∧ r.1.mem a = some n ∧ n.key = k ∧ n.data = d) :=
  ⟨by decide, by decide, by decide,
    search_finds_last_write [(5, 1), (3, 2), (5, 4)] (by decide) (by decide) (by decide)⟩

/-- C8: on the empty tree, which is valid and stores no key, `rb_tree_search`
of the key `RB_NODE_NIL_KEY_VALUE` (2^63 - 1) returns the sentinel, which is not
`NULL`: the loop of `__rb_tree_search` runs while the node is not `NULL` and
stops at the sentinel, whose key is the one looked for. -/
theorem search_reserved_key_returns_sentinel :
    RBValid (Heap.init 8) rb_tree_alloc .leaf ∧ RB_NODE_NIL_KEY_VALUE ∉ Tree.leaf.keys ∧
      rb_tree_search 2 (Heap.init 8) rb_tree_alloc RB_NODE_NIL_KEY_VALUE = .ok rb_info_nil ∧
      rb_info_nil ≠ NULL :=
  ⟨rbvalid_init (by decide) (by decide), by simp [Tree.keys, Tree.toList],
    by
      have hs := @search_not_found 2 _ _ _ RB_NODE_NIL_KEY_VALUE
        (rbvalid_init (by decide : 2 ≤ 8) (by decide)).repr.focus
        (by simp [Tree.keys, Tree.toList]) (by decide)
      rw [if_pos rfl] at hs
      exact hs,
    by decide⟩

/-- C9: on a valid tree, `rb_tree_insert(tree, k, d2)` of a key that is in the
tree (with memory left for the node that the call allocates and releases, and
fuel above the height) returns 0 and leaves the tree header (root, sentinel,
`bh`) as it was; every node of the tree keeps its address, colour, key, children
and parent, and its payload unless its key is `k`; exactly one node has key `k`,
and it now holds `d2`. -/
theorem insert_existing_key {fuel : Nat} {h : Heap} {tree : rb_tree} {t : Tree} {key : Nat}
    (d2 : Ptr) (hv : RBValid h tree t) (hm : key ∈ t.keys) (halloc : h.next < h.cap)
    (hfuel : t.height < fuel) :
    ∃ r, rb_tree_insert fuel h tree key d2 = .ok r ∧ r.2.2 = 0 ∧ r.2.1 = tree ∧
      RBValid r.1 r.2.1 (t.setData key d2) ∧
      (∀ a ∈ t.addrs, ∀ n, h.mem a = some n →
        r.1.mem a = some (if n.key = key then { n with data := d2 } else n)) ∧
      ∃ l1 d l2, t.toList = l1 ++ (key, d) :: l2 ∧
        (t.setData key d2).toList = l1 ++ (key, d2) :: l2 ∧
        (∀ x ∈ l1, x.1 < key) ∧ (∀ x ∈ l2, key < x.1) := by
  obtain ⟨d, hd⟩ := mem_keys_iff.mp hm
  have hk : key < RB_MAX_KEY := hv.no_nil_key key hm
  obtain ⟨r, t', hr, h0, hT, hv', hnil, -, -, hbh, -⟩ := insert_valid hv hk halloc hfuel
  obtain ⟨hT2, hbh2⟩ := insert_present h.next d2 hv.ordered hd
  rw [hT2] at hT
  cases hT
  rw [hbh2] at hbh
  have hroot : r.2.1.root = tree.root := by
    have e1 : r.2.1.root = (t.setData key d2).ptr r.2.1.nil := hv'.repr.focus.ctx
    have e2 : tree.root = t.ptr tree.nil := hv.repr.focus.ctx
    rw [e1, e2, set_data_ptr, hnil]
  have htree : r.2.1 = tree := by
    rcases r with ⟨h1, ⟨root1, nil1, bh1⟩, c1⟩
    rcases tree with ⟨root0, nil0, bh0⟩
    simp only at hroot hnil hbh
    subst hroot hnil hbh
    rfl
  refine ⟨r, hr, h0, htree, hv', ?_, ?_⟩
  · have ho := hv.repr.focus.own
    have ho' := hv'.repr.focus.own
    rw [htree] at ho'
    exact own_set_data_cell t _ ho ho'
  · obtain ⟨l1, mid, l2, e1, e2, hmid, b1, b2⟩ := tree_insert_to_list hv.shape hv.ordered hT2
    rcases hmid with rfl | ⟨d0, rfl⟩
    · exfalso
      rw [e1] at hd
      simp only [List.append_nil, List.mem_append] at hd
      rcases hd with hd | hd
      · exact absurd (b1 _ hd) (lt_irrefl _)
      · exact absurd (b2 _ hd) (lt_irrefl _)
    · exact ⟨l1, d0, l2, by simpa using e1, e2, b1, b2⟩

theorem insert_existing_key_witness :
    RBValid single_heap single_hdr single_tree ∧ 7 ∈ single_tree.keys ∧
      single_heap.next < single_heap.cap ∧ single_tree.height < 2 ∧
      ∃ r, rb_tree_insert 2 single_heap single_hdr 7 9 = .ok r ∧ r.2.2 = 0 ∧
        r.2.1 = single_hdr ∧ RBValid r.1 r.2.1 (single_tree.setData 7 9) ∧
        (∀ a ∈ single_tree.addrs, ∀ n, single_heap.mem a = some n →
          r.1.mem a = some (if n.key = 7 then { n with data := 9 } else n)) ∧
        ∃ l1 d l2, single_tree.toList = l1 ++ (7, d) :: l2 ∧
          (single_tree.setData 7 9).toList = l1 ++ (7, 9) :: l2 ∧
          (∀ x ∈ l1, x.1 < 7) ∧ (∀ x ∈ l2, 7 < x.1) :=
  ⟨rbvalid_single, by simp [Tree.keys, single_tree, Tree.toList], by decide, by decide,
    insert_existing_key 9 rbvalid_single (by simp [Tree.keys, single_tree, Tree.toList])
      (by decide) (by decide)⟩

/-- C10: on the empty tree, which is valid and stores no key, `rb_tree_delete`
of the key `RB_NODE_NIL_KEY_VALUE` (2^63 - 1) does not return `-ENODATA`:
`rb_tree_search` hands it the sentinel, `__rb_tree_delete` is run on the
sentinel and `rb_tree_minimum` dereferences the sentinel's right child, which
is `NULL`. -/
theorem delete_reserved_key_faults :
    RBValid (Heap.init 8) rb_tree_alloc .leaf ∧ RB_NODE_NIL_KEY_VALUE ∉ Tree.leaf.keys ∧
      rb_tree_delete 5 (Heap.init 8) rb_tree_alloc RB_NODE_NIL_KEY_VALUE = .fault :=
  ⟨rbvalid_init (by decide) (by decide), by simp [Tree.keys, Tree.toList], by
    have hs := @search_not_found 5 _ _ _ RB_NODE_NIL_KEY_VALUE
      (rbvalid_init (by decide : 2 ≤ 8) (by decide)).repr.focus
      (by simp [Tree.keys, Tree.toList]) (by decide)
    rw [if_pos rfl] at hs
    simp [rb_tree_delete, hs]
    rfl⟩

end RedBlack


namespace RedBlack
open Tree Ctx

/-! ## Validity of the small concrete trees -/

/-- The empty tree is valid in every heap that holds the sentinel. -/
theorem rbvalid_empty_of {h : Heap} (hs : h.mem rb_info_nil = some rb_info_nil_init)
    (h1 : rb_info_nil < h.next) (h2 : h.next ≤ h.cap) (h3 : h.cap ≤ SIZE_MOD) :
    RBValid h rb_tree_alloc .leaf := by
  refine ⟨⟨⟨rfl, trivial, ⟨by simp [Ctx.addrs, Tree.addrs], by simp [Ctx.addrs, Tree.addrs],
    by simp [Ctx.addrs, Tree.addrs], by decide, ⟨NULL, hs⟩⟩⟩, by simp [Tree.addrs], h1, h2, h3⟩,
    ⟨trivial, rfl, trivial, ⟨0, by simp [Tree.Balanced, Tree.pathBlacks]⟩⟩, ?_, ?_⟩
  · simp [Tree.Ordered, Tree.keys, Tree.toList]
  · intro k hk; simp [Tree.keys, Tree.toList] at hk

/-- The tree `single_tree` is valid in every heap that stores it as
`single_heap` does. -/
theorem rbvalid_single_of {h : Heap} (hs : h.mem rb_info_nil = some rb_info_nil_init)
    (h2 : h.mem 2 = single_heap.mem 2) (hn : 2 < h.next) (hc : h.next ≤ h.cap)
    (hm : h.cap ≤ SIZE_MOD) : RBValid h single_hdr single_tree := by
  refine ⟨⟨⟨rfl, ⟨by rw [h2]; rfl, trivial, trivial⟩, ⟨by decide, by decide, by decide,
    by decide, ⟨NULL, hs⟩⟩⟩, ?_, Nat.lt_trans (by decide) hn, hc, hm⟩,
    rbvalid_single.shape, rbvalid_single.ordered, rbvalid_single.no_nil_key⟩
  intro a ha
  simp only [single_tree, Tree.addrs, List.nil_append, List.mem_singleton] at ha
  subst ha; exact hn

/-- The tree `pair_tree` is valid in every heap that stores it as `pair_heap`
does. -/
theorem rbvalid_pair_of {h : Heap} (hs : h.mem rb_info_nil = some rb_info_nil_init)
    (h2 : h.mem 2 = pair_heap.mem 2) (h3 : h.mem 3 = pair_heap.mem 3) (hn : 3 < h.next)
    (hc : h.next ≤ h.cap) (hm : h.cap ≤ SIZE_MOD) : RBValid h pair_hdr pair_tree := by
  refine ⟨⟨⟨rfl, ⟨by rw [h2]; rfl, ⟨by rw [h3]; rfl, trivial, trivial⟩, trivial⟩,
    ⟨by decide, by decide, by decide, by decide, ⟨NULL, hs⟩⟩⟩, ?_, Nat.lt_trans (by decide) hn,
    hc, hm⟩,
    ⟨by simp [pair_tree, Tree.ColorsOK], rfl, by simp [pair_tree, Tree.RedOK, Tree.color],
      ⟨1, ?_⟩⟩, ?_, ?_⟩
  · intro a ha
    simp only [pair_tree, Tree.addrs, List.nil_append, List.mem_cons, List.cons_append,
      List.mem_singleton, List.not_mem_nil, or_false] at ha
    rcases ha with rfl | rfl
    · exact hn
    · exact Nat.lt_trans (by decide) hn
  · intro m hm
    simp [pair_tree, Tree.pathBlacks, black_weight] at hm
    exact hm
  · simp [Tree.Ordered, Tree.keys, pair_tree, Tree.toList]
  · intro k hk
    simp only [Tree.keys, pair_tree, Tree.toList, List.nil_append, List.map_cons,
      List.map_nil, List.mem_cons, List.mem_singleton, List.cons_append, List.not_mem_nil,
      or_false] at hk
    rcases hk with rfl | rfl <;> decide

/-- The tree `two_tree1` is valid in every heap that stores it as `two_heap`
does. -/
theorem rbvalid_two1_of {h : Heap} (hs : h.mem rb_info_nil = some rb_info_nil_init)
    (h2 : h.mem 2 = two_heap.mem 2) (hn : 2 < h.next) (hc : h.next ≤ h.cap)
    (hm : h.cap ≤ SIZE_MOD) : RBValid h two_hdr1 two_tree1 :=
  rbvalid_single_of hs (by rw [h2]; rfl) hn hc hm

/-- The tree `two_tree2` is valid in every heap that stores it as `two_heap`
does. -/
theorem rbvalid_two2_of {h : Heap} (hs : h.mem rb_info_nil = some rb_info_nil_init)
    (h3 : h.mem 3 = two_heap.mem 3) (h4 : h.mem 4 = two_heap.mem 4) (hn : 4 < h.next)
    (hc : h.next ≤ h.cap) (hm : h.cap ≤ SIZE_MOD) : RBValid h two_hdr2 two_tree2 := by
  refine ⟨⟨⟨rfl, ⟨by rw [h3]; rfl, trivial, ⟨by rw [h4]; rfl, trivial, trivial⟩⟩,
    ⟨by decide, by decide, by decide, by decide, ⟨NULL, hs⟩⟩⟩, ?_, Nat.lt_trans (by decide) hn,
    hc, hm⟩,
    ⟨by simp [two_tree2, Tree.ColorsOK], rfl, by simp [two_tree2, Tree.RedOK, Tree.color],
      ⟨1, ?_⟩⟩, ?_, ?_⟩
  · intro a ha
    simp only [two_tree2, Tree.addrs, List.nil_append, List.mem_cons, List.cons_append,
      List.mem_singleton, List.not_mem_nil, or_false] at ha
    rcases ha with rfl | rfl
    · exact Nat.lt_trans (by decide) hn
    · exact hn
  · intro m hm
    simp [two_tree2, Tree.pathBlacks, black_weight] at hm
    exact hm
  · simp [Tree.Ordered, Tree.keys, two_tree2, Tree.toList]
  · intro k hk
    simp only [Tree.keys, two_tree2, Tree.toList, List.nil_append, List.map_cons,
      List.map_nil, List.mem_cons, List.mem_singleton, List.cons_append, List.not_mem_nil,
      or_false] at hk
    rcases hk with rfl | rfl <;> decide

end RedBlack


namespace RedBlack
open Tree Ctx

/-! ## Helpers for `rb_tree_concat` -/

/-- The loop of `rb_tree_maximum` on a non-empty subtree returns the node that
holds the last key of the in-order sequence. -/
theorem maximum_loop_key {h : Heap} {tree : rb_tree} : ∀ (t : Tree) (fuel : Nat) (q : Ptr),
    Own h.mem tree.nil t q → tree.nil ∉ t.addrs → t ≠ .leaf → t.height ≤ fuel →
    ∃ a n pre, rb_tree_maximum_loop fuel h tree (t.ptr tree.nil) = .ok a ∧ h.mem a = some n ∧
      a ∈ t.addrs ∧ t.keys = pre ++ [n.key]
  | .leaf, _, _, _, _, hne, _ => absurd rfl hne
  | .node a col l k d .leaf, fuel, q, ho, _, _, hfuel => by
    obtain ⟨m, rfl⟩ : ∃ m, fuel = m + 1 := ⟨fuel - 1, by simp [Tree.height] at hfuel; omega⟩
    simp only [Own, tree_ptr_leaf, tree_ptr_node] at ho
    refine ⟨a, _, l.keys, ?_, ho.1, by simp [Tree.addrs], ?_⟩
    · simp [rb_tree_maximum_loop, accS, ho.1]
    · simp [Tree.keys, Tree.toList]
  | .node a col l k d (.node ra rc rl rk rd rr), fuel, q, ho, hnil, _, hfuel => by
    obtain ⟨m, rfl⟩ : ∃ m, fuel = m + 1 := ⟨fuel - 1, by simp [Tree.height] at hfuel; omega⟩
    have ho' := ho
    simp only [Own, tree_ptr_leaf, tree_ptr_node] at ho
    have hra : ra ≠ tree.nil := fun e => hnil (by simp [Tree.addrs, e])
    obtain ⟨b, n, pre, hb, hn, hmem, hlast⟩ :=
      maximum_loop_key (.node ra rc rl rk rd rr) m a ho'.2.2
        (fun hm => hnil (by
          rw [Tree.addrs, List.mem_append, List.mem_cons]; exact Or.inr (Or.inr hm)))
        (by simp) (by simp only [Tree.height] at hfuel ⊢; omega)
    refine ⟨b, n, l.keys ++ k :: pre, ?_, hn, ?_, ?_⟩
    · simp only [tree_ptr_node] at hb
      simp [rb_tree_maximum_loop, accS, ho.1, hra, hb]
    · rw [Tree.addrs, List.mem_append, List.mem_cons]; exact Or.inr (Or.inr hmem)
    · simp only [Tree.keys] at hlast
      simp only [Tree.keys, Tree.toList.eq_2 _ _ l, List.map_append, List.map_cons, hlast,
        List.append_assoc, List.cons_append]

/-- The loop of `rb_tree_minimum` on a non-empty subtree returns the node that
holds the first key of the in-order sequence. -/
theorem minimum_loop_key {h : Heap} {tree : rb_tree} : ∀ (t : Tree) (fuel : Nat) (q : Ptr),
    Own h.mem tree.nil t q → tree.nil ∉ t.addrs → t ≠ .leaf → t.height ≤ fuel →
    ∃ a n post, rb_tree_minimum_loop fuel h tree (t.ptr tree.nil) = .ok a ∧ h.mem a = some n ∧
      a ∈ t.addrs ∧ t.keys = n.key :: post
  | .leaf, _, _, _, _, hne, _ => absurd rfl hne
  | .node a col .leaf k d r, fuel, q, ho, _, _, hfuel => by
    obtain ⟨m, rfl⟩ : ∃ m, fuel = m + 1 := ⟨fuel - 1, by simp [Tree.height] at hfuel; omega⟩
    simp only [Own, tree_ptr_leaf, tree_ptr_node] at ho
    refine ⟨a, _, r.keys, ?_, ho.1, by simp [Tree.addrs], ?_⟩
    · simp [rb_tree_minimum_loop, accS, ho.1]
    · simp [Tree.keys, Tree.toList]
  | .node a col (.node la lc ll lk ld lr) k d r, fuel, q, ho, hnil, _, hfuel => by
    obtain ⟨m, rfl⟩ : ∃ m, fuel = m + 1 := ⟨fuel - 1, by simp [Tree.height] at hfuel; omega⟩
    have ho' := ho
    simp only [Own, tree_ptr_leaf, tree_ptr_node] at ho
    have hla : la ≠ tree.nil := fun e => hnil (by simp [Tree.addrs, e])
    obtain ⟨b, n, post, hb, hn, hmem, hfirst⟩ :=
      minimum_loop_key (.node la lc ll lk ld lr) m a ho'.2.1
        (fun hm => hnil (by
          rw [Tree.addrs, List.mem_append]; exact Or.inl hm))
        (by simp) (by simp only [Tree.height] at hfuel ⊢; omega)
    refine ⟨b, n, post ++ k :: r.keys, ?_, hn, ?_, ?_⟩
    · simp only [tree_ptr_node] at hb
      simp [rb_tree_minimum_loop, accS, ho.1, hla, hb]
    · rw [Tree.addrs, List.mem_append]; exact Or.inl hmem
    · simp only [Tree.keys] at hfirst
      simp only [Tree.keys, Tree.toList.eq_2 _ _ (.node la lc ll lk ld lr), List.map_append,
        List.map_cons, hfirst, List.append_assoc, List.cons_append]

theorem ptr_ne_nil_of_sep {nil : Ptr} {t : Tree}
    (hn : nil ∉ t.addrs) (hne : t ≠ .leaf) : t.ptr nil ≠ nil := by
  cases t with
  | leaf => exact absurd rfl hne
  | node a c l k d r =>
    intro e
    simp only [Tree.ptr] at e
    exact hn (by simp [Tree.addrs, e])

theorem all_pure {α : Type} {P : α → Prop} {a : α} (h : P a) : Res.All P (pure a) := h

theorem all_ok {α : Type} {P : α → Prop} {a : α} (h : P a) : Res.All P (Res.ok a) := h

theorem all_bind {α β : Type} {m : Res α} {f : α → Res β} {Q : α → Prop} {P : β → Prop}
    (hm : Res.All Q m) (hf : ∀ a, Q a → Res.All P (f a)) : Res.All P (m >>= f) := by
  cases m with
  | ok a => exact hf a hm
  | fault => trivial
  | timeout => trivial

theorem all_bind_any {α β : Type} {m : Res α} {f : α → Res β} {P : β → Prop}
    (hf : ∀ a, Res.All P (f a)) : Res.All P (m >>= f) := by
  cases m with
  | ok a => exact hf a
  | fault => trivial
  | timeout => trivial

theorem all_of_eq {α : Type} {P : α → Prop} {m : Res α} {a : α} (h : Res.All P m)
    (e : m = .ok a) : P a := by
  rw [e] at h; exact h

/-- `rb_tree_left_rotate` keeps `nil` and `bh`. -/
theorem left_rotate_hdr (h : Heap) (tree : rb_tree) (x : Ptr) (n b : Nat)
    (hn : tree.nil = n) (hb : tree.bh = b) :
    Res.All (fun r => r.2.nil = n ∧ r.2.bh = b) (rb_tree_left_rotate h tree x) := by
  unfold rb_tree_left_rotate
  repeat' (first
    | exact all_ok ⟨hn, hb⟩
    | (simp only [res_pure_eq, res_ok_bind])
    | split_ifs
    | (refine all_bind_any fun _ => ?_))

/-- `rb_tree_right_rotate` keeps `nil` and `bh`. -/
theorem right_rotate_hdr (h : Heap) (tree : rb_tree) (y : Ptr) (n b : Nat)
    (hn : tree.nil = n) (hb : tree.bh = b) :
    Res.All (fun r => r.2.nil = n ∧ r.2.bh = b) (rb_tree_right_rotate h tree y) := by
  unfold rb_tree_right_rotate
  repeat' (first
    | exact all_ok ⟨hn, hb⟩
    | (simp only [res_pure_eq, res_ok_bind])
    | split_ifs
    | (refine all_bind_any fun _ => ?_))

/-- `rb_tree_transplant` keeps `nil` and `bh`. -/
theorem transplant_hdr (h : Heap) (tree : rb_tree) (u v : Ptr) (n b : Nat)
    (hn : tree.nil = n) (hb : tree.bh = b) :
    Res.All (fun r => r.2.nil = n ∧ r.2.bh = b) (rb_tree_transplant h tree u v) := by
  unfold rb_tree_transplant
  repeat' (first
    | exact all_ok ⟨hn, hb⟩
    | (simp only [res_pure_eq, res_ok_bind])
    | split_ifs
    | (refine all_bind_any fun _ => ?_))

/-- The loop of `rb_tree_insert_fixup` keeps `nil` and `bh`. -/
theorem insert_fixup_loop_hdr : ∀ (fuel : Nat) (h : Heap) (tree : rb_tree) (z : Ptr) (n b : Nat),
    tree.nil = n → tree.bh = b →
    Res.All (fun r => r.2.nil = n ∧ r.2.bh = b) (rb_tree_insert_fixup_loop fuel h tree z)
  | 0, _, _, _, _, _, _, _ => trivial
  | fuel + 1, h, tree, z, n, b, hn, hb => by
    have ih := insert_fixup_loop_hdr fuel
    unfold rb_tree_insert_fixup_loop
    repeat' (first
      | exact all_ok ⟨hn, hb⟩
      | exact ih _ _ _ _ _ (by assumption) (by assumption)
      | (refine all_bind (left_rotate_hdr _ _ _ _ _ (by assumption) (by assumption)) ?_
         rintro _ ⟨_, _⟩)
      | (refine all_bind (right_rotate_hdr _ _ _ _ _ (by assumption) (by assumption)) ?_
         rintro _ ⟨_, _⟩)
      | (simp only [res_pure_eq, res_ok_bind])
      | split_ifs
      | (refine all_bind_any fun _ => ?_))

/-- `rb_tree_insert_fixup` keeps `nil`, and `bh` or adds one to it. -/
theorem insert_fixup_hdr (fuel : Nat) (h : Heap) (tree : rb_tree) (z : Ptr) :
    Res.All (fun r => r.2.nil = tree.nil ∧
        (r.2.bh = tree.bh ∨ r.2.bh = (tree.bh + 1) % SIZE_MOD))
      (rb_tree_insert_fixup fuel h tree z) := by
  unfold rb_tree_insert_fixup
  refine all_bind (insert_fixup_loop_hdr fuel h tree z _ _ rfl rfl) ?_
  rintro ht ⟨h1, h2⟩
  repeat' (first
    | exact all_ok ⟨h1, Or.inl h2⟩
    | exact all_ok ⟨h1, Or.inr (congrArg (fun b => (b + 1) % SIZE_MOD) h2)⟩
    | (simp only [res_pure_eq, res_ok_bind])
    | split_ifs
    | (refine all_bind_any fun _ => ?_))

/-- The tree that `rb_tree_concat_join` returns has the `bh` of the taller of
the two trees, or one more. -/
theorem concat_join_bh (fuel : Nat) (h : Heap) (t1 t2 : rb_tree) (x : Ptr) :
    Res.All (fun r => ∃ t, r.2.2.2 = some t ∧
        (t.bh = max t1.bh t2.bh ∨ t.bh = (max t1.bh t2.bh + 1) % SIZE_MOD))
      (rb_tree_concat_join fuel h t1 t2 x) := by
  unfold rb_tree_concat_join
  split_ifs with hge
  · refine all_bind_any fun y => all_bind (transplant_hdr _ _ _ _ _ _ rfl rfl) ?_
    rintro ht ⟨-, hb⟩
    refine all_bind_any fun _ => all_bind_any fun _ => all_bind_any fun _ => all_bind_any fun _ =>
      all_bind (insert_fixup_hdr _ _ _ _) ?_
    rintro r ⟨-, hr⟩
    refine all_pure ⟨_, rfl, ?_⟩
    rw [hb] at hr
    rw [max_eq_left hge]
    exact hr
  · refine all_bind_any fun y => all_bind (transplant_hdr _ _ _ _ _ _ rfl rfl) ?_
    rintro ht ⟨-, hb⟩
    refine all_bind_any fun _ => all_bind_any fun _ => all_bind_any fun _ => all_bind_any fun _ =>
      all_bind (insert_fixup_hdr _ _ _ _) ?_
    rintro r ⟨-, hr⟩
    refine all_pure ⟨_, rfl, ?_⟩
    rw [hb] at hr
    rw [max_eq_right (le_of_lt (not_le.mp hge))]
    exact hr

theorem bind_eq_ok {α β : Type} {m : Res α} {f : α → Res β} {r : β}
    (h : (m >>= f) = .ok r) : ∃ a, m = .ok a ∧ f a = .ok r := by
  cases m with
  | ok a => exact ⟨a, rfl, h⟩
  | fault => cases h
  | timeout => cases h

/-- Whenever `rb_tree_concat` returns a tree, the keys of the maximum of `t1`, of
`x` and of the minimum of `t2` are in order, and the `bh` field of the tree
returned is the larger of the `bh` fields of the two trees, or that plus one
(modulo `2^64`); the two trees are taken as the duplicate-collapse step leaves
them, which is as they were passed when the key of `x` is neither boundary
key. -/
theorem concat_bh_of_ok {fuel : Nat} {h : Heap} {t1 t2 : rb_tree} {x : Ptr}
    {r : Heap × rb_tree × rb_tree × Option rb_tree} {t : rb_tree}
    (hr : rb_tree_concat fuel h t1 t2 x = .ok r) (ht : r.2.2.2 = some t) :
    ∃ m1 m2 k1 k2 kx s1 s2,
      rb_tree_maximum fuel h t1 t1.root = .ok m1 ∧ get_key h m1 = .ok k1 ∧
      rb_tree_minimum fuel h t2 t2.root = .ok m2 ∧ get_key h m2 = .ok k2 ∧
      get_key h x = .ok kx ∧ k1 ≤ kx ∧ kx ≤ k2 ∧
      ((kx ≠ k1 ∧ kx ≠ k2 ∧ s1 = t1 ∧ s2 = t2) ∨
        ((kx = k1 ∨ kx = k2) ∧ ∃ s, rb_tree_concat_collapse fuel h t1 t2 x k1 = .ok s ∧
          s1 = s.2.1 ∧ s2 = s.2.2.1)) ∧
      (t.bh = max s1.bh s2.bh ∨ t.bh = (max s1.bh s2.bh + 1) % SIZE_MOD) := by
  unfold rb_tree_concat at hr
  obtain ⟨m1, e1, hr⟩ := bind_eq_ok hr
  obtain ⟨m2, e2, hr⟩ := bind_eq_ok hr
  obtain ⟨k1, e3, hr⟩ := bind_eq_ok hr
  obtain ⟨k2, e4, hr⟩ := bind_eq_ok hr
  obtain ⟨kx, e5, hr⟩ := bind_eq_ok hr
  split_ifs at hr with hc
  · obtain ⟨kx', e6, hr⟩ := bind_eq_ok hr
    rw [e5] at e6
    cases e6
    dsimp only at hr
    refine ⟨m1, m2, k1, k2, kx, ?_⟩
    split_ifs at hr with hd
    · obtain ⟨s, es, hr⟩ := bind_eq_ok hr
      obtain ⟨t', ht', hbh⟩ := all_of_eq (concat_join_bh fuel s.1 s.2.1 s.2.2.1 s.2.2.2) hr
      rw [ht] at ht'
      cases ht'
      exact ⟨s.2.1, s.2.2.1, e1, e3, e2, e4, e5, hc.1, hc.2, Or.inr ⟨hd, s, es, rfl, rfl⟩, hbh⟩
    · obtain ⟨s, es, hr⟩ := bind_eq_ok hr
      cases es
      obtain ⟨t', ht', hbh⟩ := all_of_eq (concat_join_bh fuel h t1 t2 x) hr
      rw [ht] at ht'
      cases ht'
      exact ⟨t1, t2, e1, e3, e2, e4, e5, hc.1, hc.2,
        Or.inl ⟨fun e => hd (Or.inl e), fun e => hd (Or.inr e), rfl, rfl⟩, hbh⟩
  · cases hr
    cases ht

end RedBlack


namespace RedBlack
open Tree Ctx

/-! ## Runs in a larger heap -/

theorem join_mem_of_some {h : Heap} {g : Ptr → Option rb_node} {p : Ptr} {n : rb_node}
    (hd : h.Apart g) (hp : h.mem p = some n) : (h.join g).mem p = some n := by
  have hg : g p = none := by
    cases e : g p with
    | none => rfl
    | some m => have := (hd p (by simp [e])).1; rw [hp] at this; cases this
  simp [Heap.join, hg, hp]

theorem own_alloc {m : Ptr → Option rb_node} {nil : Ptr} : ∀ {t : Tree} {p : Ptr},
    Own m nil t p → ∀ a ∈ t.addrs, (m a).isSome = true
  | .leaf, _, _, a, ha => by simp [Tree.addrs] at ha
  | .node b c l k d r, p, ⟨hb, hl, hr⟩, a, ha => by
    simp only [Tree.addrs, List.mem_append, List.mem_cons] at ha
    rcases ha with ha | rfl | ha
    · exact own_alloc hl a ha
    · simp [hb]
    · exact own_alloc hr a ha

theorem join_mem_of_is_some {h : Heap} {g : Ptr → Option rb_node} {a : Ptr}
    (hd : h.Apart g) (ha : (h.mem a).isSome = true) : (h.join g).mem a = h.mem a := by
  obtain ⟨n, hn⟩ := Option.isSome_iff_exists.mp ha
  rw [join_mem_of_some hd hn, hn]

theorem own_join {h : Heap} {g : Ptr → Option rb_node} {nil : Ptr} {t : Tree} {p : Ptr}
    (ho : Own h.mem nil t p) (hd : h.Apart g) : Own (h.join g).mem nil t p :=
  own_frame (fun a ha => join_mem_of_is_some hd (own_alloc ho a ha)) ho

end RedBlack


namespace RedBlack
open Tree Ctx

/-! ## `rb_tree_split` -/

/-- `ins_fix` delivers a tree whenever the root above the hole is not Red, with
the in-order sequence and the nodes of the tree it is given. -/
theorem ins_fix_total : ∀ (n : Nat) (c : Ctx) (t : Tree), c.depth ≤ n →
    c.rootColor RB_NODE_COLOR_BLACK ≠ RB_NODE_COLOR_RED →
    ∃ T, ins_fix c t = some T ∧ T.toList = (c.plug t).toList ∧
      ∀ a, T.addrs.count a = (c.plug t).addrs.count a := by
  intro n
  induction n using Nat.strong_induction_on with
  | _ n ih =>
    intro c t hd hroot
    cases t with
    | leaf => exact ⟨_, by simp [ins_fix], rfl, fun _ => rfl⟩
    | node z cz zl zk zd zr =>
      match c, hd, hroot with
      | .top, _, _ => exact ⟨.node z cz zl zk zd zr, by simp [ins_fix], rfl, fun _ => rfl⟩
      | .L p cp kp dp s .top, _, hroot =>
        have hcp : cp ≠ RB_NODE_COLOR_RED := by simpa [Ctx.rootColor] using hroot
        exact ⟨_, by simp [ins_fix, hcp], rfl, fun _ => rfl⟩
      | .R p cp kp dp s .top, _, hroot =>
        have hcp : cp ≠ RB_NODE_COLOR_RED := by simpa [Ctx.rootColor] using hroot
        exact ⟨_, by simp [ins_fix, hcp], rfl, fun _ => rfl⟩
      | .L p cp kp dp s (.L g cg kg dg u up), hd, hroot =>
        have hup : up.rootColor RB_NODE_COLOR_BLACK ≠ RB_NODE_COLOR_RED := by
          cases up <;> simp_all [Ctx.rootColor]
        have hdu : up.depth < n := by simp only [Ctx.depth] at hd; omega
        by_cases hcp : cp = RB_NODE_COLOR_RED
        · subst hcp
          have hrec : ∀ t' : Tree,
              t'.toList = (Tree.node g cg (Tree.node p RB_NODE_COLOR_RED (Tree.node z cz zl zk zd zr) kp dp s) kg dg u).toList →
              (∀ a, t'.addrs.count a = (Tree.node g cg (Tree.node p RB_NODE_COLOR_RED (Tree.node z cz zl zk zd zr) kp dp s) kg dg u).addrs.count a) →
              ∃ T, ins_fix up t' = some T ∧
                T.toList = (up.plug (Tree.node g cg (Tree.node p RB_NODE_COLOR_RED (Tree.node z cz zl zk zd zr) kp dp s) kg dg u)).toList ∧
                ∀ a, T.addrs.count a = (up.plug (Tree.node g cg (Tree.node p RB_NODE_COLOR_RED (Tree.node z cz zl zk zd zr) kp dp s) kg dg u)).addrs.count a := by
            intro t' h1 h2
            obtain ⟨T, e, l, a⟩ := ih up.depth hdu up t' (le_refl _) hup
            exact ⟨T, e, l.trans (plug_to_list_congr h1),
              fun b => (a b).trans (by rw [count_addrs_plug, count_addrs_plug, h2])⟩
          have hrot : ∀ t' : Tree,
              t'.toList = (Tree.node g cg (Tree.node p RB_NODE_COLOR_RED (Tree.node z cz zl zk zd zr) kp dp s) kg dg u).toList →
              (∀ a, t'.addrs.count a = (Tree.node g cg (Tree.node p RB_NODE_COLOR_RED (Tree.node z cz zl zk zd zr) kp dp s) kg dg u).addrs.count a) →
              ∃ T, some (up.plug t') = some T ∧
                T.toList = (up.plug (Tree.node g cg (Tree.node p RB_NODE_COLOR_RED (Tree.node z cz zl zk zd zr) kp dp s) kg dg u)).toList ∧
                ∀ a, T.addrs.count a = (up.plug (Tree.node g cg (Tree.node p RB_NODE_COLOR_RED (Tree.node z cz zl zk zd zr) kp dp s) kg dg u)).addrs.count a :=
            fun t' h1 h2 => ⟨_, rfl, plug_to_list_congr h1,
              fun b => by rw [count_addrs_plug, count_addrs_plug, h2]⟩
          cases u with
          | leaf =>
            simp only [ins_fix, if_true, Ctx.plug]
            refine hrot _ (by simp [Tree.toList]) (fun a => ?_)
            simp [Tree.addrs, List.count_cons]
          | node y cu ul uk ud ur =>
            cases cu
            · simp only [ins_fix, if_true, Ctx.plug]
              refine hrec _ (by simp [Tree.toList]) (fun a => ?_)
              simp [Tree.addrs, List.count_cons]
            · simp only [ins_fix, if_true, Ctx.plug]
              refine hrot _ (by simp [Tree.toList]) (fun a => ?_)
              simp [Tree.addrs, List.count_cons]
            · simp only [ins_fix, if_true, Ctx.plug]
              refine hrot _ (by simp [Tree.toList]) (fun a => ?_)
              simp [Tree.addrs, List.count_cons]
        · exact ⟨_, by simp [ins_fix, hcp], rfl, fun _ => rfl⟩
      | .L p cp kp dp s (.R g cg kg dg u up), hd, hroot =>
        have hup : up.rootColor RB_NODE_COLOR_BLACK ≠ RB_NODE_COLOR_RED := by
          cases up <;> simp_all [Ctx.rootColor]
        have hdu : up.depth < n := by simp only [Ctx.depth] at hd; omega
        by_cases hcp : cp = RB_NODE_COLOR_RED
        · subst hcp
          have hrec : ∀ t' : Tree,
              t'.toList = (Tree.node g cg u kg dg (Tree.node p RB_NODE_COLOR_RED (Tree.node z cz zl zk zd zr) kp dp s)).toList →
              (∀ a, t'.addrs.count a = (Tree.node g cg u kg dg (Tree.node p RB_NODE_COLOR_RED (Tree.node z cz zl zk zd zr) kp dp s)).addrs.count a) →
              ∃ T, ins_fix up t' = some T ∧
                T.toList = (up.plug (Tree.node g cg u kg dg (Tree.node p RB_NODE_COLOR_RED (Tree.node z cz zl zk zd zr) kp dp s))).toList ∧
                ∀ a, T.addrs.count a = (up.plug (Tree.node g cg u kg dg (Tree.node p RB_NODE_COLOR_RED (Tree.node z cz zl zk zd zr) kp dp s))).addrs.count a := by
            intro t' h1 h2
            obtain ⟨T, e, l, a⟩ := ih up.depth hdu up t' (le_refl _) hup
            exact ⟨T, e, l.trans (plug_to_list_congr h1),
              fun b => (a b).trans (by rw [count_addrs_plug, count_addrs_plug, h2])⟩
          have hrot : ∀ t' : Tree,
              t'.toList = (Tree.node g cg u kg dg (Tree.node p RB_NODE_COLOR_RED (Tree.node z cz zl zk zd zr) kp dp s)).toList →
              (∀ a, t'.addrs.count a = (Tree.node g cg u kg dg (Tree.node p RB_NODE_COLOR_RED (Tree.node z cz zl zk zd zr) kp dp s)).addrs.count a) →
              ∃ T, some (up.plug t') = some T ∧
                T.toList = (up.plug (Tree.node g cg u kg dg (Tree.node p RB_NODE_COLOR_RED (Tree.node z cz zl zk zd zr) kp dp s))).toList ∧
                ∀ a, T.addrs.count a = (up.plug (Tree.node g cg u kg dg (Tree.node p RB_NODE_COLOR_RED (Tree.node z cz zl zk zd zr) kp dp s))).addrs.count a :=
            fun t' h1 h2 => ⟨_, rfl, plug_to_list_congr h1,
              fun b => by rw [count_addrs_plug, count_addrs_plug, h2]⟩
          cases u with
          | leaf =>
            simp only [ins_fix, if_true, Ctx.plug]
            refine hrot _ (by simp [Tree.toList]) (fun a => ?_)
            simp [Tree.addrs, List.count_cons]
          | node y cu ul uk ud ur =>
            cases cu
            · simp only [ins_fix, if_true, Ctx.plug]
              refine hrec _ (by simp [Tree.toList]) (fun a => ?_)
              simp [Tree.addrs, List.count_cons]
            · simp only [ins_fix, if_true, Ctx.plug]
              refine hrot _ (by simp [Tree.toList]) (fun a => ?_)
              simp [Tree.addrs, List.count_cons]
            · simp only [ins_fix, if_true, Ctx.plug]
              refine hrot _ (by simp [Tree.toList]) (fun a => ?_)
              simp [Tree.addrs, List.count_cons]
        · exact ⟨_, by simp [ins_fix, hcp], rfl, fun _ => rfl⟩
      | .R p cp kp dp s (.L g cg kg dg u up), hd, hroot =>
        have hup : up.rootColor RB_NODE_COLOR_BLACK ≠ RB_NODE_COLOR_RED := by
          cases up <;> simp_all [Ctx.rootColor]
        have hdu : up.depth < n := by simp only [Ctx.depth] at hd; omega
        by_cases hcp : cp = RB_NODE_COLOR_RED
        · subst hcp
          have hrec : ∀ t' : Tree,
              t'.toList = (Tree.node g cg (Tree.node p RB_NODE_COLOR_RED s kp dp (Tree.node z cz zl zk zd zr)) kg dg u).toList →
              (∀ a, t'.addrs.count a = (Tree.node g cg (Tree.node p RB_NODE_COLOR_RED s kp dp (Tree.node z cz zl zk zd zr)) kg dg u).addrs.count a) →
              ∃ T, ins_fix up t' = some T ∧
                T.toList = (up.plug (Tree.node g cg (Tree.node p RB_NODE_COLOR_RED s kp dp (Tree.node z cz zl zk zd zr)) kg dg u)).toList ∧
                ∀ a, T.addrs.count a = (up.plug (Tree.node g cg (Tree.node p RB_NODE_COLOR_RED s kp dp (Tree.node z cz zl zk zd zr)) kg dg u)).addrs.count a := by
            intro t' h1 h2
            obtain ⟨T, e, l, a⟩ := ih up.depth hdu up t' (le_refl _) hup
            exact ⟨T, e, l.trans (plug_to_list_congr h1),
              fun b => (a b).trans (by rw [count_addrs_plug, count_addrs_plug, h2])⟩
          have hrot : ∀ t' : Tree,
              t'.toList = (Tree.node g cg (Tree.node p RB_NODE_COLOR_RED s kp dp (Tree.node z cz zl zk zd zr)) kg dg u).toList →
              (∀ a, t'.addrs.count a = (Tree.node g cg (Tree.node p RB_NODE_COLOR_RED s kp dp (Tree.node z cz zl zk zd zr)) kg dg u).addrs.count a) →
              ∃ T, some (up.plug t') = some T ∧
                T.toList = (up.plug (Tree.node g cg (Tree.node p RB_NODE_COLOR_RED s kp dp (Tree.node z cz zl zk zd zr)) kg dg u)).toList ∧
                ∀ a, T.addrs.count a = (up.plug (Tree.node g cg (Tree.node p RB_NODE_COLOR_RED s kp dp (Tree.node z cz zl zk zd zr)) kg dg u)).addrs.count a :=
            fun t' h1 h2 => ⟨_, rfl, plug_to_list_congr h1,
              fun b => by rw [count_addrs_plug, count_addrs_plug, h2]⟩
          cases u with
          | leaf =>
            simp only [ins_fix, if_true, Ctx.plug]
            refine hrot _ (by simp [Tree.toList]) (fun a => ?_)
            simp [Tree.addrs, List.count_cons]
          | node y cu ul uk ud ur =>
            cases cu
            · simp only [ins_fix, if_true, Ctx.plug]
              refine hrec _ (by simp [Tree.toList]) (fun a => ?_)
              simp [Tree.addrs, List.count_cons]
            · simp only [ins_fix, if_true, Ctx.plug]
              refine hrot _ (by simp [Tree.toList]) (fun a => ?_)
              simp [Tree.addrs, List.count_cons]
            · simp only [ins_fix, if_true, Ctx.plug]
              refine hrot _ (by simp [Tree.toList]) (fun a => ?_)
              simp [Tree.addrs, List.count_cons]
        · exact ⟨_, by simp [ins_fix, hcp], rfl, fun _ => rfl⟩
      | .R p cp kp dp s (.R g cg kg dg u up), hd, hroot =>
        have hup : up.rootColor RB_NODE_COLOR_BLACK ≠ RB_NODE_COLOR_RED := by
          cases up <;> simp_all [Ctx.rootColor]
        have hdu : up.depth < n := by simp only [Ctx.depth] at hd; omega
        by_cases hcp : cp = RB_NODE_COLOR_RED
        · subst hcp
          have hrec : ∀ t' : Tree,
              t'.toList = (Tree.node g cg u kg dg (Tree.node p RB_NODE_COLOR_RED s kp dp (Tree.node z cz zl zk zd zr))).toList →
              (∀ a, t'.addrs.count a = (Tree.node g cg u kg dg (Tree.node p RB_NODE_COLOR_RED s kp dp (Tree.node z cz zl zk zd zr))).addrs.count a) →
              ∃ T, ins_fix up t' = some T ∧
                T.toList = (up.plug (Tree.node g cg u kg dg (Tree.node p RB_NODE_COLOR_RED s kp dp (Tree.node z cz zl zk zd zr)))).toList ∧
                ∀ a, T.addrs.count a = (up.plug (Tree.node g cg u kg dg (Tree.node p RB_NODE_COLOR_RED s kp dp (Tree.node z cz zl zk zd zr)))).addrs.count a := by
            intro t' h1 h2
            obtain ⟨T, e, l, a⟩ := ih up.depth hdu up t' (le_refl _) hup
            exact ⟨T, e, l.trans (plug_to_list_congr h1),
              fun b => (a b).trans (by rw [count_addrs_plug, count_addrs_plug, h2])⟩
          have hrot : ∀ t' : Tree,
              t'.toList = (Tree.node g cg u kg dg (Tree.node p RB_NODE_COLOR_RED s kp dp (Tree.node z cz zl zk zd zr))).toList →
              (∀ a, t'.addrs.count a = (Tree.node g cg u kg dg (Tree.node p RB_NODE_COLOR_RED s kp dp (Tree.node z cz zl zk zd zr))).addrs.count a) →
              ∃ T, some (up.plug t') = some T ∧
                T.toList = (up.plug (Tree.node g cg u kg dg (Tree.node p RB_NODE_COLOR_RED s kp dp (Tree.node z cz zl zk zd zr)))).toList ∧
                ∀ a, T.addrs.count a = (up.plug (Tree.node g cg u kg dg (Tree.node p RB_NODE_COLOR_RED s kp dp (Tree.node z cz zl zk zd zr)))).addrs.count a :=
            fun t' h1 h2 => ⟨_, rfl, plug_to_list_congr h1,
              fun b => by rw [count_addrs_plug, count_addrs_plug, h2]⟩
          cases u with
          | leaf =>
            simp only [ins_fix, if_true, Ctx.plug]
            refine hrot _ (by simp [Tree.toList]) (fun a => ?_)
            simp [Tree.addrs, List.count_cons]
          | node y cu ul uk ud ur =>
            cases cu
            · simp only [ins_fix, if_true, Ctx.plug]
              refine hrec _ (by simp [Tree.toList]) (fun a => ?_)
              simp [Tree.addrs, List.count_cons]
            · simp only [ins_fix, if_true, Ctx.plug]
              refine hrot _ (by simp [Tree.toList]) (fun a => ?_)
              simp [Tree.addrs, List.count_cons]
            · simp only [ins_fix, if_true, Ctx.plug]
              refine hrot _ (by simp [Tree.toList]) (fun a => ?_)
              simp [Tree.addrs, List.count_cons]
        · exact ⟨_, by simp [ins_fix, hcp], rfl, fun _ => rfl⟩

end RedBlack


namespace RedBlack
open Tree Ctx

/-! ## `rb_tree_concat` returns -/

/-- The descent loop of `rb_tree_concat` (right branch) started at the root of a
non-empty subtree ends at a node of that subtree. -/
theorem descend_right_spec (target : Nat) : ∀ (t : Tree) (fuel : Nat) (c : Ctx) (h : Heap)
    (tree : rb_tree) (bh : Nat), Focus h tree c t → t ≠ .leaf → t.height ≤ fuel →
    ∃ y c' a col l k d r, rb_tree_concat_descend_right fuel h tree target (t.ptr tree.nil) bh = .ok y ∧
      y = a ∧ Focus h tree c' (.node a col l k d r) ∧ c'.plug (.node a col l k d r) = c.plug t
  | .leaf, _, _, _, _, _, _, hne, _ => absurd rfl hne
  | .node a col l k d r, fuel, c, h, tree, bh, hf, _, hfuel => by
    simp only [Tree.height] at hfuel
    obtain ⟨m, rfl⟩ : ∃ m, fuel = m + 1 := ⟨fuel - 1, by omega⟩
    have hf0 := hf
    obtain ⟨hc, ho, hsep⟩ := hf
    have hnd := hsep.nodup
    have hnil := hsep.nil_not_mem
    have hnull := hsep.null_not_mem
    simp only [Own, tree_ptr_leaf, tree_ptr_node] at ho hc
    simp only [sepS, not_or, List.cons_append, not_false_eq_true, true_and, and_true,
      not_true_eq_false, false_or, or_false, List.append_nil] at hnd hnil hnull
    rw [rb_tree_concat_descend_right]
    by_cases hbh : bh = target
    · simp only [hbh, ne_eq, not_true_eq_false, if_false]
      exact ⟨a, c, a, col, l, k, d, r, rfl, rfl, hf0, rfl⟩
    · simp only [ne_eq, hbh, not_false_eq_true, if_true, tree_ptr_node]
      cases r with
      | node b cb bl bk bd br =>
        have hbn : ¬b = tree.nil := by
          intro e
          simp [Tree.addrs, e] at hnil
        simp only [Own, tree_ptr_node] at ho
        simp only [accS, ho.1, ho.2.2.1, res_ok_bind, res_pure_eq, tree_ptr_node, ne_eq, hbn,
          not_false_eq_true, if_true]
        obtain ⟨y, c', a', col', l', k', d', r', hy, e1, hF, hp⟩ :=
          descend_right_spec target (.node b cb bl bk bd br) m (.R a col k d l c) h tree
            (if cb = RB_NODE_COLOR_BLACK then (bh + SIZE_MOD - 1) % SIZE_MOD else bh)
            (focus_up_R.mpr hf0) (by simp) (by simp only [Tree.height] at hfuel ⊢; omega)
        simp only [tree_ptr_node] at hy
        exact ⟨y, c', a', col', l', k', d', r', hy, e1, hF, hp⟩
      | leaf =>
        cases l with
        | node b cb bl bk bd br =>
          have hbn : ¬b = tree.nil := by
            intro e
            simp [Tree.addrs, e] at hnil
          simp only [Own, tree_ptr_node, tree_ptr_leaf] at ho
          simp only [accS, ho.1, ho.2.1.1, res_ok_bind, res_pure_eq, tree_ptr_node,
            tree_ptr_leaf, ne_eq, hbn, not_false_eq_true, if_true, not_true_eq_false, if_false]
          obtain ⟨y, c', a', col', l', k', d', r', hy, e1, hF, hp⟩ :=
            descend_right_spec target (.node b cb bl bk bd br) m (.L a col k d .leaf c) h tree
              (if cb = RB_NODE_COLOR_BLACK then (bh + SIZE_MOD - 1) % SIZE_MOD else bh)
              (focus_up_L.mpr hf0) (by simp) (by simp only [Tree.height] at hfuel ⊢; omega)
          simp only [tree_ptr_node] at hy
          exact ⟨y, c', a', col', l', k', d', r', hy, e1, hF, hp⟩
        | leaf =>
          simp only [accS, ho.1, res_ok_bind, res_pure_eq, tree_ptr_leaf, ne_eq,
            not_true_eq_false, if_false]
          exact ⟨a, c, a, col, .leaf, k, d, .leaf, rfl, rfl, hf0, rfl⟩

/-- The descent loop of `rb_tree_concat` (left branch) started at the root of a
non-empty subtree ends at a node of that subtree. -/
theorem descend_left_spec (target : Nat) : ∀ (t : Tree) (fuel : Nat) (c : Ctx) (h : Heap)
    (tree : rb_tree) (bh : Nat), Focus h tree c t → t ≠ .leaf → t.height ≤ fuel →
    ∃ y c' a col l k d r, rb_tree_concat_descend_left fuel h tree target (t.ptr tree.nil) bh = .ok y ∧
      y = a ∧ Focus h tree c' (.node a col l k d r) ∧ c'.plug (.node a col l k d r) = c.plug t
  | .leaf, _, _, _, _, _, _, hne, _ => absurd rfl hne
  | .node a col l k d r, fuel, c, h, tree, bh, hf, _, hfuel => by
    simp only [Tree.height] at hfuel
    obtain ⟨m, rfl⟩ : ∃ m, fuel = m + 1 := ⟨fuel - 1, by omega⟩
    have hf0 := hf
    obtain ⟨hc, ho, hsep⟩ := hf
    have hnd := hsep.nodup
    have hnil := hsep.nil_not_mem
    have hnull := hsep.null_not_mem
    simp only [Own, tree_ptr_leaf, tree_ptr_node] at ho hc
    simp only [sepS, not_or, List.cons_append, not_false_eq_true, true_and, and_true,
      not_true_eq_false, false_or, or_false, List.append_nil] at hnd hnil hnull
    rw [rb_tree_concat_descend_left]
    by_cases hbh : bh = target
    · simp only [hbh, ne_eq, not_true_eq_false, if_false]
      exact ⟨a, c, a, col, l, k, d, r, rfl, rfl, hf0, rfl⟩
    · simp only [ne_eq, hbh, not_false_eq_true, if_true, tree_ptr_node]
      cases l with
      | node b cb bl bk bd br =>
        have hbn : ¬b = tree.nil := by
          intro e
          simp [Tree.addrs, e] at hnil
        simp only [Own, tree_ptr_node] at ho
        simp only [accS, ho.1, ho.2.1.1, res_ok_bind, res_pure_eq, tree_ptr_node, ne_eq, hbn,
          not_false_eq_true, if_true]
        obtain ⟨y, c', a', col', l', k', d', r', hy, e1, hF, hp⟩ :=
          descend_left_spec target (.node b cb bl bk bd br) m (.L a col k d r c) h tree
            (if cb = RB_NODE_COLOR_BLACK then (bh + SIZE_MOD - 1) % SIZE_MOD else bh)
            (focus_up_L.mpr hf0) (by simp) (by simp only [Tree.height] at hfuel ⊢; omega)
        simp only [tree_ptr_node] at hy
        exact ⟨y, c', a', col', l', k', d', r', hy, e1, hF, hp⟩
      | leaf =>
        cases r with
        | node b cb bl bk bd br =>
          have hbn : ¬b = tree.nil := by
            intro e
            simp [Tree.addrs, e] at hnil
          simp only [Own, tree_ptr_node, tree_ptr_leaf] at ho
          simp only [accS, ho.1, ho.2.2.1, res_ok_bind, res_pure_eq, tree_ptr_node,
            tree_ptr_leaf, ne_eq, hbn, not_false_eq_true, if_true, not_true_eq_false, if_false]
          obtain ⟨y, c', a', col', l', k', d', r', hy, e1, hF, hp⟩ :=
            descend_left_spec target (.node b cb bl bk bd br) m (.R a col k d .leaf c) h tree
              (if cb = RB_NODE_COLOR_BLACK then (bh + SIZE_MOD - 1) % SIZE_MOD else bh)
              (focus_up_R.mpr hf0) (by simp) (by simp only [Tree.height] at hfuel ⊢; omega)
          simp only [tree_ptr_node] at hy
          exact ⟨y, c', a', col', l', k', d', r', hy, e1, hF, hp⟩
        | leaf =>
          simp only [accS, ho.1, res_ok_bind, res_pure_eq, tree_ptr_leaf, ne_eq,
            not_true_eq_false, if_false]
          exact ⟨a, c, a, col, .leaf, k, d, .leaf, rfl, rfl, hf0, rfl⟩

/-- The splice of `rb_tree_concat`: `x` takes the place of `y` in the first tree, with `y` as its left child and the
root of the other tree as its right child. -/
theorem splice_right_spec {β : Type} {h : Heap} {tree : rb_tree} {c : Ctx} {y : Ptr}
    {yc : rb_node_color} {yl yr T2 : Tree} {yk : Nat} {yd p2 x : Ptr} {xn : rb_node}
    {K : Heap → rb_tree → Res β} {P : β → Prop}
    (hf : Focus h tree c (.node y yc yl yk yd yr)) (ho2 : Own h.mem tree.nil T2 p2)
    (hx : h.mem x = some xn)
    (hd2 : (c.addrs ++ (Tree.node y yc yl yk yd yr).addrs).Disjoint T2.addrs)
    (hnd2 : T2.addrs.Nodup) (hn2 : tree.nil ∉ T2.addrs) (h02 : NULL ∉ T2.addrs)
    (hxa : x ∉ c.addrs ++ (Tree.node y yc yl yk yd yr).addrs ++ T2.addrs)
    (hxn : x ≠ tree.nil) (hx0 : x ≠ NULL)
    (hK : ∀ (h' : Heap) (tree' : rb_tree), tree'.nil = tree.nil → tree'.bh = tree.bh →
      Focus h' tree' c (.node x xn.color (.node y yc yl yk yd yr) xn.key xn.data T2) →
      ∃ b, K h' tree' = .ok b ∧ P b) :
    ∃ b, (do
          let ht ← rb_tree_transplant h tree y x
          let h ← set_left ht.1 x y
          let h ← set_right h x (T2.ptr tree.nil)
          let h ← set_parent h y x
          let h ← set_parent h (T2.ptr tree.nil) x
          K h ht.2) = .ok b ∧ P b := by
  have hxn' : ¬tree.nil = x := fun e => hxn e.symm
  have hx0' : ¬NULL = x := fun e => hx0 e.symm
  obtain ⟨hc, ho, hsep⟩ := hf
  have hnd := hsep.nodup
  have hnil := hsep.nil_not_mem
  have hnull := hsep.null_not_mem
  have hd2s := hd2.symm
  cases c with
    | top =>
      cases T2 with
      | leaf =>
        simp only [Own, CtxOwn, tree_ptr_leaf, tree_ptr_node, ctx_par_top, ctx_par_L, ctx_par_R]
          at ho hc ho2
        simp only [sepS, not_or, List.cons_append, not_false_eq_true, true_and, and_true,
          not_true_eq_false, false_or, or_false, List.append_nil] at hnd hnil hnull hxa hn2 h02 hd2 hnd2 hd2s
        obtain ⟨sp, hsp⟩ := hsep.sentinel
        simp [-Prod.exists, rb_tree_transplant, accS, res_bind_assoc, ho, hc, hx, hnd, hnil,
          hnull, hxa, hxn, hxn', hx0, hsp, sentinel_node, eq_tree_ptr_false, tree_ptr_eq_false]
        refine hK _ _ rfl rfl ⟨?_, ?_, ?_⟩
        · simp [Own, CtxOwn, ho, hc, hnd, hnil, hnull, hxa, hxn, hxn', own_put_iff,
            ctx_own_put_iff, sentinel_node]
        · simp [Own, CtxOwn, ho, hc, hnd, hnil, hnull, hxa, hxn, hxn', own_put_iff,
            ctx_own_put_iff, sentinel_node]
        · refine ⟨?_, ?_, ?_, hsep.nil_ne, ?_⟩
          · simp [sepS, hnd, hnil, hnull, hxa, hxn, hxn']
          · simp [sepS, hnd, hnil, hnull, hxa, hxn, hxn']
          · simp [sepS, hnd, hnil, hnull, hxa, hxn, hxn', hx0, hx0']
          · simp [hxn, hxn', hnil, sentinel_node]
      | node z zc zl zk zd zr =>
        simp only [Own, CtxOwn, tree_ptr_leaf, tree_ptr_node, ctx_par_top, ctx_par_L, ctx_par_R]
          at ho hc ho2
        simp only [sepS, not_or, List.cons_append, not_false_eq_true, true_and, and_true,
          not_true_eq_false, false_or, or_false, List.append_nil] at hnd hnil hnull hxa hn2 h02 hd2 hnd2 hd2s
        obtain ⟨sp, hsp⟩ := hsep.sentinel
        simp [-Prod.exists, rb_tree_transplant, accS, res_bind_assoc, ho, hc, ho2, hx, hnd, hnil,
          hnull, hxa, hxn, hxn', hx0, hn2, h02, hd2, hnd2, hd2s, hsp, sentinel_node, eq_tree_ptr_false,
          tree_ptr_eq_false]
        refine hK _ _ rfl rfl ⟨?_, ?_, ?_⟩
        · simp [Own, CtxOwn, ho, hc, ho2, hnd, hnil, hnull, hxa, hxn, hxn', hn2, h02, hd2, hnd2, hd2s,
            own_put_iff, ctx_own_put_iff, sentinel_node]
        · simp [Own, CtxOwn, ho, hc, ho2, hnd, hnil, hnull, hxa, hxn, hxn', hn2, h02, hd2, hnd2, hd2s,
            own_put_iff, ctx_own_put_iff, sentinel_node]
        · refine ⟨?_, ?_, ?_, hsep.nil_ne, ?_⟩
          · simp [sepS, hnd, hnil, hnull, hxa, hxn, hxn', hn2, h02, hd2, hnd2, hd2s]
          · simp [sepS, hnd, hnil, hnull, hxa, hxn, hxn', hn2, h02, hd2, hnd2, hd2s]
          · simp [sepS, hnd, hnil, hnull, hxa, hxn, hxn', hx0, hx0', hn2, h02, hd2, hnd2, hd2s]
          · simp [hxn, hxn', hnil, hn2, hsp, sentinel_node]
    | L a ca ka da s up =>
      cases T2 with
      | leaf =>
        simp only [Own, CtxOwn, tree_ptr_leaf, tree_ptr_node, ctx_par_top, ctx_par_L, ctx_par_R]
          at ho hc ho2
        simp only [sepS, not_or, List.cons_append, not_false_eq_true, true_and, and_true,
          not_true_eq_false, false_or, or_false, List.append_nil] at hnd hnil hnull hxa hn2 h02 hd2 hnd2 hd2s
        obtain ⟨sp, hsp⟩ := hsep.sentinel
        simp [-Prod.exists, rb_tree_transplant, accS, res_bind_assoc, ho, hc, hx, hnd, hnil,
          hnull, hxa, hxn, hxn', hx0, hsp, sentinel_node, eq_tree_ptr_false, tree_ptr_eq_false]
        refine hK _ _ rfl rfl ⟨?_, ?_, ?_⟩
        · simp [Own, CtxOwn, ho, hc, hnd, hnil, hnull, hxa, hxn, hxn', own_put_iff,
            ctx_own_put_iff, sentinel_node]
        · simp [Own, CtxOwn, ho, hc, hnd, hnil, hnull, hxa, hxn, hxn', own_put_iff,
            ctx_own_put_iff, sentinel_node]
        · refine ⟨?_, ?_, ?_, hsep.nil_ne, ?_⟩
          · simp [sepS, hnd, hnil, hnull, hxa, hxn, hxn']
          · simp [sepS, hnd, hnil, hnull, hxa, hxn, hxn']
          · simp [sepS, hnd, hnil, hnull, hxa, hxn, hxn', hx0, hx0']
          · simp [hxn, hxn', hnil, sentinel_node]
      | node z zc zl zk zd zr =>
        simp only [Own, CtxOwn, tree_ptr_leaf, tree_ptr_node, ctx_par_top, ctx_par_L, ctx_par_R]
          at ho hc ho2
        simp only [sepS, not_or, List.cons_append, not_false_eq_true, true_and, and_true,
          not_true_eq_false, false_or, or_false, List.append_nil] at hnd hnil hnull hxa hn2 h02 hd2 hnd2 hd2s
        obtain ⟨sp, hsp⟩ := hsep.sentinel
        simp [-Prod.exists, rb_tree_transplant, accS, res_bind_assoc, ho, hc, ho2, hx, hnd, hnil,
          hnull, hxa, hxn, hxn', hx0, hn2, h02, hd2, hnd2, hd2s, hsp, sentinel_node, eq_tree_ptr_false,
          tree_ptr_eq_false]
        refine hK _ _ rfl rfl ⟨?_, ?_, ?_⟩
        · simp [Own, CtxOwn, ho, hc, ho2, hnd, hnil, hnull, hxa, hxn, hxn', hn2, h02, hd2, hnd2, hd2s,
            own_put_iff, ctx_own_put_iff, sentinel_node]
        · simp [Own, CtxOwn, ho, hc, ho2, hnd, hnil, hnull, hxa, hxn, hxn', hn2, h02, hd2, hnd2, hd2s,
            own_put_iff, ctx_own_put_iff, sentinel_node]
        · refine ⟨?_, ?_, ?_, hsep.nil_ne, ?_⟩
          · simp [sepS, hnd, hnil, hnull, hxa, hxn, hxn', hn2, h02, hd2, hnd2, hd2s]
          · simp [sepS, hnd, hnil, hnull, hxa, hxn, hxn', hn2, h02, hd2, hnd2, hd2s]
          · simp [sepS, hnd, hnil, hnull, hxa, hxn, hxn', hx0, hx0', hn2, h02, hd2, hnd2, hd2s]
          · simp [hxn, hxn', hnil, hn2, hsp, sentinel_node]
    | R a ca ka da s up =>
      cases T2 with
      | leaf =>
        simp only [Own, CtxOwn, tree_ptr_leaf, tree_ptr_node, ctx_par_top, ctx_par_L, ctx_par_R]
          at ho hc ho2
        simp only [sepS, not_or, List.cons_append, not_false_eq_true, true_and, and_true,
          not_true_eq_false, false_or, or_false, List.append_nil] at hnd hnil hnull hxa hn2 h02 hd2 hnd2 hd2s
        obtain ⟨sp, hsp⟩ := hsep.sentinel
        simp [-Prod.exists, rb_tree_transplant, accS, res_bind_assoc, ho, hc, hx, hnd, hnil,
          hnull, hxa, hxn, hxn', hx0, hsp, sentinel_node, eq_tree_ptr_false, tree_ptr_eq_false]
        refine hK _ _ rfl rfl ⟨?_, ?_, ?_⟩
        · simp [Own, CtxOwn, ho, hc, hnd, hnil, hnull, hxa, hxn, hxn', own_put_iff,
            ctx_own_put_iff, sentinel_node]
        · simp [Own, CtxOwn, ho, hc, hnd, hnil, hnull, hxa, hxn, hxn', own_put_iff,
            ctx_own_put_iff, sentinel_node]
        · refine ⟨?_, ?_, ?_, hsep.nil_ne, ?_⟩
          · simp [sepS, hnd, hnil, hnull, hxa, hxn, hxn']
          · simp [sepS, hnd, hnil, hnull, hxa, hxn, hxn']
          · simp [sepS, hnd, hnil, hnull, hxa, hxn, hxn', hx0, hx0']
          · simp [hxn, hxn', hnil, sentinel_node]
      | node z zc zl zk zd zr =>
        simp only [Own, CtxOwn, tree_ptr_leaf, tree_ptr_node, ctx_par_top, ctx_par_L, ctx_par_R]
          at ho hc ho2
        simp only [sepS, not_or, List.cons_append, not_false_eq_true, true_and, and_true,
          not_true_eq_false, false_or, or_false, List.append_nil] at hnd hnil hnull hxa hn2 h02 hd2 hnd2 hd2s
        obtain ⟨sp, hsp⟩ := hsep.sentinel
        simp [-Prod.exists, rb_tree_transplant, accS, res_bind_assoc, ho, hc, ho2, hx, hnd, hnil,
          hnull, hxa, hxn, hxn', hx0, hn2, h02, hd2, hnd2, hd2s, hsp, sentinel_node, eq_tree_ptr_false,
          tree_ptr_eq_false]
        refine hK _ _ rfl rfl ⟨?_, ?_, ?_⟩
        · simp [Own, CtxOwn, ho, hc, ho2, hnd, hnil, hnull, hxa, hxn, hxn', hn2, h02, hd2, hnd2, hd2s,
            own_put_iff, ctx_own_put_iff, sentinel_node]
        · simp [Own, CtxOwn, ho, hc, ho2, hnd, hnil, hnull, hxa, hxn, hxn', hn2, h02, hd2, hnd2, hd2s,
            own_put_iff, ctx_own_put_iff, sentinel_node]
        · refine ⟨?_, ?_, ?_, hsep.nil_ne, ?_⟩
          · simp [sepS, hnd, hnil, hnull, hxa, hxn, hxn', hn2, h02, hd2, hnd2, hd2s]
          · simp [sepS, hnd, hnil, hnull, hxa, hxn, hxn', hn2, h02, hd2, hnd2, hd2s]
          · simp [sepS, hnd, hnil, hnull, hxa, hxn, hxn', hx0, hx0', hn2, h02, hd2, hnd2, hd2s]
          · simp [hxn, hxn', hnil, hn2, hsp, sentinel_node]

/-- The splice of `rb_tree_concat`: `x` takes the place of `y` in the second tree, with the root of the other tree as
its left child and `y` as its right child. -/
theorem splice_left_spec {β : Type} {h : Heap} {tree : rb_tree} {c : Ctx} {y : Ptr}
    {yc : rb_node_color} {yl yr T2 : Tree} {yk : Nat} {yd p2 x : Ptr} {xn : rb_node}
    {K : Heap → rb_tree → Res β} {P : β → Prop}
    (hf : Focus h tree c (.node y yc yl yk yd yr)) (ho2 : Own h.mem tree.nil T2 p2)
    (hx : h.mem x = some xn)
    (hd2 : (c.addrs ++ (Tree.node y yc yl yk yd yr).addrs).Disjoint T2.addrs)
    (hnd2 : T2.addrs.Nodup) (hn2 : tree.nil ∉ T2.addrs) (h02 : NULL ∉ T2.addrs)
    (hxa : x ∉ c.addrs ++ (Tree.node y yc yl yk yd yr).addrs ++ T2.addrs)
    (hxn : x ≠ tree.nil) (hx0 : x ≠ NULL)
    (hK : ∀ (h' : Heap) (tree' : rb_tree), tree'.nil = tree.nil → tree'.bh = tree.bh →
      Focus h' tree' c (.node x xn.color T2 xn.key xn.data (.node y yc yl yk yd yr)) →
      ∃ b, K h' tree' = .ok b ∧ P b) :
    ∃ b, (do
          let ht ← rb_tree_transplant h tree y x
          let h ← set_left ht.1 x (T2.ptr tree.nil)
          let h ← set_right h x y
          let h ← set_parent h y x
          let h ← set_parent h (T2.ptr tree.nil) x
          K h ht.2) = .ok b ∧ P b := by
  have hxn' : ¬tree.nil = x := fun e => hxn e.symm
  have hx0' : ¬NULL = x := fun e => hx0 e.symm
  obtain ⟨hc, ho, hsep⟩ := hf
  have hnd := hsep.nodup
  have hnil := hsep.nil_not_mem
  have hnull := hsep.null_not_mem
  have hd2s := hd2.symm
  cases c with
    | top =>
      cases T2 with
      | leaf =>
        simp only [Own, CtxOwn, tree_ptr_leaf, tree_ptr_node, ctx_par_top, ctx_par_L, ctx_par_R]
          at ho hc ho2
        simp only [sepS, not_or, List.cons_append, not_false_eq_true, true_and, and_true,
          not_true_eq_false, false_or, or_false, List.append_nil] at hnd hnil hnull hxa hn2 h02 hd2 hnd2 hd2s
        obtain ⟨sp, hsp⟩ := hsep.sentinel
        simp [-Prod.exists, rb_tree_transplant, accS, res_bind_assoc, ho, hc, hx, hnd, hnil,
          hnull, hxa, hxn, hxn', hx0, hsp, sentinel_node, eq_tree_ptr_false, tree_ptr_eq_false]
        refine hK _ _ rfl rfl ⟨?_, ?_, ?_⟩
        · simp [Own, CtxOwn, ho, hc, hnd, hnil, hnull, hxa, hxn, hxn', own_put_iff,
            ctx_own_put_iff, sentinel_node]
        · simp [Own, CtxOwn, ho, hc, hnd, hnil, hnull, hxa, hxn, hxn', own_put_iff,
            ctx_own_put_iff, sentinel_node]
        · refine ⟨?_, ?_, ?_, hsep.nil_ne, ?_⟩
          · simp [sepS, hnd, hnil, hnull, hxa, hxn, hxn']
          · simp [sepS, hnd, hnil, hnull, hxa, hxn, hxn']
          · simp [sepS, hnd, hnil, hnull, hxa, hxn, hxn', hx0, hx0']
          · simp [hxn, hxn', hnil, sentinel_node]
      | node z zc zl zk zd zr =>
        simp only [Own, CtxOwn, tree_ptr_leaf, tree_ptr_node, ctx_par_top, ctx_par_L, ctx_par_R]
          at ho hc ho2
        simp only [sepS, not_or, List.cons_append, not_false_eq_true, true_and, and_true,
          not_true_eq_false, false_or, or_false, List.append_nil] at hnd hnil hnull hxa hn2 h02 hd2 hnd2 hd2s
        obtain ⟨sp, hsp⟩ := hsep.sentinel
        simp [-Prod.exists, rb_tree_transplant, accS, res_bind_assoc, ho, hc, ho2, hx, hnd, hnil,
          hnull, hxa, hxn, hxn', hx0, hn2, h02, hd2, hnd2, hd2s, hsp, sentinel_node, eq_tree_ptr_false,
          tree_ptr_eq_false]
        refine hK _ _ rfl rfl ⟨?_, ?_, ?_⟩
        · simp [Own, CtxOwn, ho, hc, ho2, hnd, hnil, hnull, hxa, hxn, hxn', hn2, h02, hd2, hnd2, hd2s,
            own_put_iff, ctx_own_put_iff, sentinel_node]
        · simp [Own, CtxOwn, ho, hc, ho2, hnd, hnil, hnull, hxa, hxn, hxn', hn2, h02, hd2, hnd2, hd2s,
            own_put_iff, ctx_own_put_iff, sentinel_node]
        · refine ⟨?_, ?_, ?_, hsep.nil_ne, ?_⟩
          · simp [sepS, hnd, hnil, hnull, hxa, hxn, hxn', hn2, h02, hd2, hnd2, hd2s]
          · simp [sepS, hnd, hnil, hnull, hxa, hxn, hxn', hn2, h02, hd2, hnd2, hd2s]
          · simp [sepS, hnd, hnil, hnull, hxa, hxn, hxn', hx0, hx0', hn2, h02, hd2, hnd2, hd2s]
          · simp [hxn, hxn', hnil, hn2, hsp, sentinel_node]
    | L a ca ka da s up =>
      cases T2 with
      | leaf =>
        simp only [Own, CtxOwn, tree_ptr_leaf, tree_ptr_node, ctx_par_top, ctx_par_L, ctx_par_R]
          at ho hc ho2
        simp only [sepS, not_or, List.cons_append, not_false_eq_true, true_and, and_true,
          not_true_eq_false, false_or, or_false, List.append_nil] at hnd hnil hnull hxa hn2 h02 hd2 hnd2 hd2s
        obtain ⟨sp, hsp⟩ := hsep.sentinel
        simp [-Prod.exists, rb_tree_transplant, accS, res_bind_assoc, ho, hc, hx, hnd, hnil,
          hnull, hxa, hxn, hxn', hx0, hsp, sentinel_node, eq_tree_ptr_false, tree_ptr_eq_false]
        refine hK _ _ rfl rfl ⟨?_, ?_, ?_⟩
        · simp [Own, CtxOwn, ho, hc, hnd, hnil, hnull, hxa, hxn, hxn', own_put_iff,
            ctx_own_put_iff, sentinel_node]
        · simp [Own, CtxOwn, ho, hc, hnd, hnil, hnull, hxa, hxn, hxn', own_put_iff,
            ctx_own_put_iff, sentinel_node]
        · refine ⟨?_, ?_, ?_, hsep.nil_ne, ?_⟩
          · simp [sepS, hnd, hnil, hnull, hxa, hxn, hxn']
          · simp [sepS, hnd, hnil, hnull, hxa, hxn, hxn']
          · simp [sepS, hnd, hnil, hnull, hxa, hxn, hxn', hx0, hx0']
          · simp [hxn, hxn', hnil, sentinel_node]
      | node z zc zl zk zd zr =>
        simp only [Own, CtxOwn, tree_ptr_leaf, tree_ptr_node, ctx_par_top, ctx_par_L, ctx_par_R]
          at ho hc ho2
        simp only [sepS, not_or, List.cons_append, not_false_eq_true, true_and, and_true,
          not_true_eq_false, false_or, or_false, List.append_nil] at hnd hnil hnull hxa hn2 h02 hd2 hnd2 hd2s
        obtain ⟨sp, hsp⟩ := hsep.sentinel
        simp [-Prod.exists, rb_tree_transplant, accS, res_bind_assoc, ho, hc, ho2, hx, hnd, hnil,
          hnull, hxa, hxn, hxn', hx0, hn2, h02, hd2, hnd2, hd2s, hsp, sentinel_node, eq_tree_ptr_false,
          tree_ptr_eq_false]
        refine hK _ _ rfl rfl ⟨?_, ?_, ?_⟩
        · simp [Own, CtxOwn, ho, hc, ho2, hnd, hnil, hnull, hxa, hxn, hxn', hn2, h02, hd2, hnd2, hd2s,
            own_put_iff, ctx_own_put_iff, sentinel_node]
        · simp [Own, CtxOwn, ho, hc, ho2, hnd, hnil, hnull, hxa, hxn, hxn', hn2, h02, hd2, hnd2, hd2s,
            own_put_iff, ctx_own_put_iff, sentinel_node]
        · refine ⟨?_, ?_, ?_, hsep.nil_ne, ?_⟩
          · simp [sepS, hnd, hnil, hnull, hxa, hxn, hxn', hn2, h02, hd2, hnd2, hd2s]
          · simp [sepS, hnd, hnil, hnull, hxa, hxn, hxn', hn2, h02, hd2, hnd2, hd2s]
          · simp [sepS, hnd, hnil, hnull, hxa, hxn, hxn', hx0, hx0', hn2, h02, hd2, hnd2, hd2s]
          · simp [hxn, hxn', hnil, hn2, hsp, sentinel_node]
    | R a ca ka da s up =>
      cases T2 with
      | leaf =>
        simp only [Own, CtxOwn, tree_ptr_leaf, tree_ptr_node, ctx_par_top, ctx_par_L, ctx_par_R]
          at ho hc ho2
        simp only [sepS, not_or, List.cons_append, not_false_eq_true, true_and, and_true,
          not_true_eq_false, false_or, or_false, List.append_nil] at hnd hnil hnull hxa hn2 h02 hd2 hnd2 hd2s
        obtain ⟨sp, hsp⟩ := hsep.sentinel
        simp [-Prod.exists, rb_tree_transplant, accS, res_bind_assoc, ho, hc, hx, hnd, hnil,
          hnull, hxa, hxn, hxn', hx0, hsp, sentinel_node, eq_tree_ptr_false, tree_ptr_eq_false]
        refine hK _ _ rfl rfl ⟨?_, ?_, ?_⟩
        · simp [Own, CtxOwn, ho, hc, hnd, hnil, hnull, hxa, hxn, hxn', own_put_iff,
            ctx_own_put_iff, sentinel_node]
        · simp [Own, CtxOwn, ho, hc, hnd, hnil, hnull, hxa, hxn, hxn', own_put_iff,
            ctx_own_put_iff, sentinel_node]
        · refine ⟨?_, ?_, ?_, hsep.nil_ne, ?_⟩
          · simp [sepS, hnd, hnil, hnull, hxa, hxn, hxn']
          · simp [sepS, hnd, hnil, hnull, hxa, hxn, hxn']
          · simp [sepS, hnd, hnil, hnull, hxa, hxn, hxn', hx0, hx0']
          · simp [hxn, hxn', hnil, sentinel_node]
      | node z zc zl zk zd zr =>
        simp only [Own, CtxOwn, tree_ptr_leaf, tree_ptr_node, ctx_par_top, ctx_par_L, ctx_par_R]
          at ho hc ho2
        simp only [sepS, not_or, List.cons_append, not_false_eq_true, true_and, and_true,
          not_true_eq_false, false_or, or_false, List.append_nil] at hnd hnil hnull hxa hn2 h02 hd2 hnd2 hd2s
        obtain ⟨sp, hsp⟩ := hsep.sentinel
        simp [-Prod.exists, rb_tree_transplant, accS, res_bind_assoc, ho, hc, ho2, hx, hnd, hnil,
          hnull, hxa, hxn, hxn', hx0, hn2, h02, hd2, hnd2, hd2s, hsp, sentinel_node, eq_tree_ptr_false,
          tree_ptr_eq_false]
        refine hK _ _ rfl rfl ⟨?_, ?_, ?_⟩
        · simp [Own, CtxOwn, ho, hc, ho2, hnd, hnil, hnull, hxa, hxn, hxn', hn2, h02, hd2, hnd2, hd2s,
            own_put_iff, ctx_own_put_iff, sentinel_node]
        · simp [Own, CtxOwn, ho, hc, ho2, hnd, hnil, hnull, hxa, hxn, hxn', hn2, h02, hd2, hnd2, hd2s,
            own_put_iff, ctx_own_put_iff, sentinel_node]
        · refine ⟨?_, ?_, ?_, hsep.nil_ne, ?_⟩
          · simp [sepS, hnd, hnil, hnull, hxa, hxn, hxn', hn2, h02, hd2, hnd2, hd2s]
          · simp [sepS, hnd, hnil, hnull, hxa, hxn, hxn', hn2, h02, hd2, hnd2, hd2s]
          · simp [sepS, hnd, hnil, hnull, hxa, hxn, hxn', hx0, hx0', hn2, h02, hd2, hnd2, hd2s]
          · simp [hxn, hxn', hnil, hn2, hsp, sentinel_node]

theorem plug_height : ∀ (c : Ctx) (t : Tree), c.depth + t.height ≤ (c.plug t).height
  | .top, t => by simp [Ctx.depth, Ctx.plug]
  | .L a col k d s up, t => by
    have := plug_height up (.node a col t k d s)
    simp only [Ctx.depth, Ctx.plug, Tree.height] at this ⊢
    omega
  | .R a col k d s up, t => by
    have := plug_height up (.node a col s k d t)
    simp only [Ctx.depth, Ctx.plug, Tree.height] at this ⊢
    omega

/-- The root above a hole is not Red when the whole tree has a root that is not
Red. -/
theorem root_color_of_plug {c : Ctx} {t : Tree} (h : (c.plug t).color ≠ RB_NODE_COLOR_RED) :
    c.rootColor RB_NODE_COLOR_BLACK ≠ RB_NODE_COLOR_RED := by
  cases c with
  | top => simp [Ctx.rootColor]
  | L a col k d s up =>
    rw [plug_color] at h
    rw [root_color_indep (by simp) RB_NODE_COLOR_BLACK t.color]
    exact h
  | R a col k d s up =>
    rw [plug_color] at h
    rw [root_color_indep (by simp) RB_NODE_COLOR_BLACK t.color]
    exact h

/-- The second half of `rb_tree_concat` returns a tree when both trees are laid
out in the heap apart from each other with roots that are not Red, the taller
one is not empty and `x` is a node outside both. -/
theorem concat_join_total {fuel : Nat} {h : Heap} {t1 t2 : rb_tree} {T1 T2 : Tree} {x : Ptr}
    {xn : rb_node}
    (hf1 : Focus h t1 .top T1) (hf2 : Focus h t2 .top T2) (hnil : t1.nil = t2.nil)
    (hd : T1.addrs.Disjoint T2.addrs) (hx : h.mem x = some xn)
    (hxa : x ∉ T1.addrs ++ T2.addrs) (hxn : x ≠ t1.nil) (hx0 : x ≠ NULL)
    (hc1 : T1.color ≠ RB_NODE_COLOR_RED) (hc2 : T2.color ≠ RB_NODE_COLOR_RED)
    (hne1 : T1 ≠ .leaf) (hne2 : t1.bh < t2.bh → T2 ≠ .leaf)
    (hfuel1 : T1.height < fuel) (hfuel2 : T2.height < fuel) :
    ∃ r, rb_tree_concat_join fuel h t1 t2 x = .ok r ∧ ∃ t, r.2.2.2 = some t := by
  have hroot1 : t1.root = T1.ptr t1.nil := hf1.ctx
  have hroot2 : t2.root = T2.ptr t2.nil := hf2.ctx
  have hnd1 : T1.addrs.Nodup := by simpa [Ctx.addrs] using hf1.sep.nodup
  have hnd2 : T2.addrs.Nodup := by simpa [Ctx.addrs] using hf2.sep.nodup
  have hn1 : t1.nil ∉ T1.addrs := by simpa [Ctx.addrs] using hf1.sep.nil_not_mem
  have hn2 : t2.nil ∉ T2.addrs := by simpa [Ctx.addrs] using hf2.sep.nil_not_mem
  have h01 : NULL ∉ T1.addrs := by simpa [Ctx.addrs] using hf1.sep.null_not_mem
  have h02 : NULL ∉ T2.addrs := by simpa [Ctx.addrs] using hf2.sep.null_not_mem
  unfold rb_tree_concat_join
  by_cases hge : t1.bh ≥ t2.bh
  · simp only [hge, if_true]
    obtain ⟨y, c, a, col, l, k, d, r, hy, rfl, hF, hp⟩ :=
      descend_right_spec t2.bh T1 fuel .top h t1 t1.bh hf1 hne1 (le_of_lt hfuel1)
    simp only [Ctx.plug] at hp
    rw [hroot1, hy, hroot2, ← hnil]
    simp only [res_ok_bind]
    have hmemc : ∀ b, b ∈ c.addrs ++ (Tree.node y col l k d r).addrs → b ∈ T1.addrs := by
      intro b hb
      rw [← hp, mem_addrs_plug]
      exact List.mem_append.mp hb
    refine splice_right_spec (P := fun r : Heap × rb_tree × rb_tree × Option rb_tree => ∃ t, r.2.2.2 = some t)
      (K := fun h tr => do
        let ht ← rb_tree_insert_fixup fuel h tr x
        pure (ht.1, ht.2, t2, some ht.2)) hF
      (by rw [hnil]; exact hf2.own) hx
      (fun b hb hb2 => hd (hmemc b hb) hb2) hnd2 (by rw [hnil]; exact hn2) h02
      (fun hm => hxa (by
        rcases List.mem_append.mp hm with hm | hm
        · exact List.mem_append_left _ (hmemc x hm)
        · exact List.mem_append_right _ hm)) hxn hx0 (fun h' tree' en eb hF' => ?_)
    obtain ⟨T, hT, -, -⟩ := ins_fix_total c.depth c
      (.node x xn.color (.node y col l k d r) xn.key xn.data T2) (le_refl _)
      (root_color_of_plug (by rw [hp]; exact hc1))
    have hdep := plug_height c (.node y col l k d r)
    rw [hp] at hdep
    obtain ⟨r', hr', -, -⟩ := insert_fixup_spec hF' hT (show c.depth < fuel by omega)
    simp only [hr', res_ok_bind, res_pure_eq]
    exact ⟨_, rfl, _, rfl⟩
  · simp only [hge, if_false]
    have hlt : t1.bh < t2.bh := not_le.mp hge
    obtain ⟨y, c, a, col, l, k, d, r, hy, rfl, hF, hp⟩ :=
      descend_left_spec t1.bh T2 fuel .top h t2 t2.bh hf2 (hne2 hlt) (le_of_lt hfuel2)
    simp only [Ctx.plug] at hp
    rw [hroot2, hy, hroot1, hnil]
    simp only [res_ok_bind]
    have hmemc : ∀ b, b ∈ c.addrs ++ (Tree.node y col l k d r).addrs → b ∈ T2.addrs := by
      intro b hb
      rw [← hp, mem_addrs_plug]
      exact List.mem_append.mp hb
    refine splice_left_spec (P := fun r : Heap × rb_tree × rb_tree × Option rb_tree => ∃ t, r.2.2.2 = some t)
      (K := fun h tr => do
        let ht ← rb_tree_insert_fixup fuel h tr x
        pure (ht.1, t1, ht.2, some ht.2)) hF
      (by rw [← hnil]; exact hf1.own) hx
      (fun b hb hb2 => hd hb2 (hmemc b hb)) hnd1 (by rw [← hnil]; exact hn1) h01
      (fun hm => hxa (by
        rcases List.mem_append.mp hm with hm | hm
        · exact List.mem_append_right _ (hmemc x hm)
        · exact List.mem_append_left _ hm)) (by rw [← hnil]; exact hxn) hx0
      (fun h' tree' en eb hF' => ?_)
    obtain ⟨T, hT, -, -⟩ := ins_fix_total c.depth c
      (.node x xn.color T1 xn.key xn.data (.node y col l k d r)) (le_refl _)
      (root_color_of_plug (by rw [hp]; exact hc2))
    have hdep := plug_height c (.node y col l k d r)
    rw [hp] at hdep
    obtain ⟨r', hr', -, -⟩ := insert_fixup_spec hF' hT (show c.depth < fuel by omega)
    simp only [hr', res_ok_bind, res_pure_eq]
    exact ⟨_, rfl, _, rfl⟩

end RedBlack


namespace RedBlack
open Tree Ctx

/-! ## Properties of `rb_tree_concat` and `rb_tree_split`, and the reserved key in `rb_tree_insert` -/

/-- C11: `rb_tree_insert` with the reserved key `RB_NODE_NIL_KEY_VALUE` leaves the
heap and the tree as they were, and the value it returns is `-ENOMEM`, the
allocation-failure error, which is not `-EINVAL`: `rb_node_alloc` refuses the
key before `__rb_tree_insert` can report it. -/
theorem insert_reserved_key_enomem (fuel : Nat) (h : Heap) (tree : rb_tree) (data : Ptr) :
    rb_tree_insert fuel h tree RB_NODE_NIL_KEY_VALUE data = .ok (h, tree, -ENOMEM) ∧
      -ENOMEM ≠ -EINVAL :=
  ⟨insert_fails fuel h tree RB_NODE_NIL_KEY_VALUE data (fun hh => absurd hh.1 (by decide)),
    by decide⟩

/-- C12: `rb_tree_concat` of the valid tree with keys 5 and 10 (10 Black at the
root, 5 its Red left child), the empty tree and a fresh node with key 20, which
lies above every key of the first tree: the tree returned has the in-order key
sequence 5, 20, 10, which is not increasing, and `rb_tree_search` does not find
20 in it. -/
theorem concat_breaks_order :
    RBValid (rb_node_alloc pair_heap 20).2 pair_hdr pair_tree ∧
      RBValid (rb_node_alloc pair_heap 20).2 rb_tree_alloc .leaf ∧
      (rb_node_alloc pair_heap 20).1 = 4 ∧ (∀ k ∈ pair_tree.keys, k < 20) ∧
      ∃ r t, rb_tree_concat 3 (rb_node_alloc pair_heap 20).2 pair_hdr rb_tree_alloc 4 = .ok r ∧
        r.2.2.2 = some t ∧
        Represents r.1 t (.node 2 RB_NODE_COLOR_BLACK
          (.node 4 RB_NODE_COLOR_UNDEFINED (.node 3 RB_NODE_COLOR_RED .leaf 5 NULL .leaf) 20 NULL
            .leaf) 10 NULL .leaf) ∧
        (Tree.node 2 RB_NODE_COLOR_BLACK
          (.node 4 RB_NODE_COLOR_UNDEFINED (.node 3 RB_NODE_COLOR_RED .leaf 5 NULL .leaf) 20 NULL
            .leaf) 10 NULL .leaf).keys = [5, 20, 10] ∧
        rb_tree_search 3 r.1 t 20 = .ok NULL := by
  refine ⟨rbvalid_pair_of rfl rfl rfl (by decide) (by decide) (by decide),
    rbvalid_empty_of rfl (by decide) (by decide) (by decide), rfl,
    by decide, _, _, rfl, rfl, ?_, rfl, rfl⟩
  exact ⟨⟨rfl, ⟨rfl, ⟨rfl, ⟨rfl, trivial, trivial⟩, trivial⟩, trivial⟩, ⟨by decide, by decide,
    by decide, by decide, ⟨4, rfl⟩⟩⟩, by decide, by decide, by decide, by decide⟩

/-- C13: `rb_tree_concat` of the valid tree with the single key 7, the empty
tree and a fresh node with key 9: the tree returned has the node 9 at the root
with the node 7, Black, as its left child and nothing on the right, so the paths
from the root to the sentinel do not hold the same number of Black nodes. -/
theorem concat_breaks_balance :
    RBValid (rb_node_alloc single_heap 9).2 single_hdr single_tree ∧
      RBValid (rb_node_alloc single_heap 9).2 rb_tree_alloc .leaf ∧
      (rb_node_alloc single_heap 9).1 = 3 ∧ (∀ k ∈ single_tree.keys, k < 9) ∧
      ∃ r t, rb_tree_concat 3 (rb_node_alloc single_heap 9).2 single_hdr rb_tree_alloc 3 = .ok r ∧
        r.2.2.2 = some t ∧
        Represents r.1 t (.node 3 RB_NODE_COLOR_BLACK
          (.node 2 RB_NODE_COLOR_BLACK .leaf 7 NULL .leaf) 9 NULL .leaf) ∧
        ¬ ∃ n, (Tree.node 3 RB_NODE_COLOR_BLACK
          (.node 2 RB_NODE_COLOR_BLACK .leaf 7 NULL .leaf) 9 NULL .leaf).Balanced n := by
  refine ⟨rbvalid_single_of rfl rfl (by decide) (by decide) (by decide),
    rbvalid_empty_of rfl (by decide) (by decide) (by decide), rfl,
    by decide, _, _, rfl, rfl, ?_, ?_⟩
  · exact ⟨⟨rfl, ⟨rfl, ⟨rfl, trivial, trivial⟩, trivial⟩, ⟨by decide, by decide,
      by decide, by decide, ⟨_, rfl⟩⟩⟩, by decide, by decide, by decide, by decide⟩
  · rintro ⟨n, hn⟩
    have h1 := hn 2 (by simp [Tree.pathBlacks, black_weight])
    have h2 := hn 1 (by simp [Tree.pathBlacks, black_weight])
    omega

/-- C14: `rb_tree_concat` of the valid trees with keys 7 and 9, 10, called with
the minimum node of the second tree as `x` (as the test does): the tree returned
has 9 at the root with the Black children 7 and 10, so every path from the root
to the sentinel holds 2 Black nodes, and its `bh` field is 1. -/
theorem concat_bh_too_small :
    RBValid two_heap two_hdr1 two_tree1 ∧ RBValid two_heap two_hdr2 two_tree2 ∧
      rb_tree_minimum 3 two_heap two_hdr2 two_hdr2.root = .ok 3 ∧
      ∃ r t, rb_tree_concat 3 two_heap two_hdr1 two_hdr2 3 = .ok r ∧ r.2.2.2 = some t ∧
        Represents r.1 t (.node 5 RB_NODE_COLOR_BLACK
          (.node 2 RB_NODE_COLOR_BLACK .leaf 7 NULL .leaf) 9 NULL
          (.node 4 RB_NODE_COLOR_BLACK .leaf 10 NULL .leaf)) ∧
        (Tree.node 5 RB_NODE_COLOR_BLACK
          (.node 2 RB_NODE_COLOR_BLACK .leaf 7 NULL .leaf) 9 NULL
          (.node 4 RB_NODE_COLOR_BLACK .leaf 10 NULL .leaf)).Balanced 2 ∧ t.bh = 1 := by
  refine ⟨rbvalid_two1_of rfl rfl (by decide) (by decide) (by decide),
    rbvalid_two2_of rfl rfl rfl (by decide) (by decide) (by decide), rfl,
    _, _, rfl, rfl, ?_, ?_, rfl⟩
  · exact ⟨⟨rfl, ⟨rfl, ⟨rfl, trivial, trivial⟩, ⟨rfl, trivial, trivial⟩⟩, ⟨by decide, by decide,
      by decide, by decide, ⟨_, rfl⟩⟩⟩, by decide, by decide, by decide, by decide⟩
  · intro m hm
    simp [Tree.pathBlacks, black_weight] at hm
    exact hm

/-- C15, the claim as stated fails: `rb_tree_concat` of the valid trees with
keys 7 and 9, 10, both with `bh` 1, and a Red node with key 8 returns a tree
whose `bh` field is 2, while the larger of the two `bh` fields is 1. -/
theorem concat_bh_above_max :
    RBValid red_heap two_hdr1 two_tree1 ∧ RBValid red_heap two_hdr2 two_tree2 ∧
      (∀ k ∈ two_tree1.keys, k < 8) ∧ (∀ k ∈ two_tree2.keys, 8 < k) ∧
      ∃ r t, rb_tree_concat 3 red_heap two_hdr1 two_hdr2 5 = .ok r ∧ r.2.2.2 = some t ∧
        t.bh = 2 ∧ max two_hdr1.bh two_hdr2.bh = 1 := by
  refine ⟨rbvalid_two1_of rfl rfl (by decide) (by decide) (by decide),
    rbvalid_two2_of rfl rfl rfl (by decide) (by decide) (by decide),
    by decide, by decide, _, _, rfl, rfl, rfl, rfl⟩

/-- C15, amended: for valid trees `t1` (not empty) and `t2` (its `bh` field the
number of Black nodes on its paths) that share the sentinel and lie apart in the
heap, and a node `x` outside both whose key lies above every key of `t1` and
below every key of `t2`, `rb_tree_concat` returns a tree, and the `bh` field of
that tree is the larger of the `bh` fields of `t1` and `t2`, or that plus one
(modulo `2^64`). -/
theorem concat_bh_range {fuel : Nat} {h : Heap} {t1 t2 : rb_tree} {T1 T2 : Tree} {x : Ptr}
    {xn : rb_node}
    (hv1 : RBValid h t1 T1) (hv2 : RBValid h t2 T2) (hbh2 : T2.Balanced t2.bh)
    (hnil : t1.nil = t2.nil) (hd : T1.addrs.Disjoint T2.addrs)
    (hx : h.mem x = some xn) (hxa : x ∉ T1.addrs ++ T2.addrs) (hxn : x ≠ t1.nil)
    (hx0 : x ≠ NULL) (hne1 : T1 ≠ .leaf)
    (hk1 : ∀ k ∈ T1.keys, k < xn.key) (hk2 : ∀ k ∈ T2.keys, xn.key < k)
    (hxk : xn.key < RB_MAX_KEY) (hfuel1 : T1.height < fuel) (hfuel2 : T2.height < fuel) :
    ∃ r t, rb_tree_concat fuel h t1 t2 x = .ok r ∧ r.2.2.2 = some t ∧
      (t.bh = max t1.bh t2.bh ∨ t.bh = (max t1.bh t2.bh + 1) % SIZE_MOD) := by
  have hf1 := hv1.repr.focus
  have hf2 := hv2.repr.focus
  have hn1 : t1.nil ∉ T1.addrs := by simpa [Ctx.addrs] using hf1.sep.nil_not_mem
  have hn2 : t2.nil ∉ T2.addrs := by simpa [Ctx.addrs] using hf2.sep.nil_not_mem
  have hr1 : t1.root = T1.ptr t1.nil := hf1.ctx
  have hr2 : t2.root = T2.ptr t2.nil := hf2.ctx
  have hne2 : t1.bh < t2.bh → T2 ≠ .leaf := by
    rintro hlt rfl
    have := (balanced_leaf_iff t2.bh).mp hbh2
    omega
  obtain ⟨a1, n1, pre, ha1, hm1, -, hkeys1⟩ :=
    maximum_loop_key T1 fuel _ hf1.own hn1 hne1 (le_of_lt hfuel1)
  have hlt1 : n1.key < xn.key := hk1 _ (by rw [hkeys1]; simp)
  obtain ⟨r, hr, t, ht⟩ := concat_join_total hf1 hf2 hnil hd hx hxa hxn hx0
    (by rw [hv1.shape.root_black]; decide) (by rw [hv2.shape.root_black]; decide) hne1 hne2
    hfuel1 hfuel2
  obtain ⟨t', ht', hbh⟩ := all_of_eq (concat_join_bh fuel h t1 t2 x) hr
  have hmin : ∃ a2 n2, rb_tree_minimum fuel h t2 t2.root = .ok a2 ∧ h.mem a2 = some n2 ∧
      xn.key < n2.key := by
    by_cases hT2 : T2 = .leaf
    · subst hT2
      obtain ⟨sp, hsp⟩ := hf2.sep.sentinel
      exact ⟨t2.nil, _, by simp [rb_tree_minimum, hr2], hsp, hxk⟩
    · obtain ⟨a2, n2, post, ha2, hm2, -, hkeys2⟩ :=
        minimum_loop_key T2 fuel _ hf2.own hn2 hT2 (le_of_lt hfuel2)
      refine ⟨a2, n2, ?_, hm2, hk2 _ (by rw [hkeys2]; simp)⟩
      simp [rb_tree_minimum, hr2, ptr_ne_nil_of_sep hn2 hT2, ha2]
  obtain ⟨a2, n2, hmin1, hmin2, hlt2⟩ := hmin
  refine ⟨r, t, ?_, ht, ?_⟩
  · have hcond : n1.key ≤ xn.key ∧ xn.key ≤ n2.key := ⟨le_of_lt hlt1, le_of_lt hlt2⟩
    have hc1 : ¬xn.key = n1.key := by omega
    have hc2 : ¬xn.key = n2.key := by omega
    have hc3 : ¬n2.key < xn.key := by omega
    have hc4 : ¬xn.key < n1.key := by omega
    simp [rb_tree_concat, rb_tree_maximum, hr1, ptr_ne_nil_of_sep hn1 hne1, ha1, hmin1, hmin2,
      accS, hm1, hx, hcond, hc1, hc2, hc3, hc4]
    simpa [hr1] using hr
  · rw [ht] at ht'
    cases ht'
    exact hbh

/-- The amended C15 at the trees with keys 7 and 9, 10 and a Red node with key 8. -/
theorem concat_bh_range_witness :
    RBValid red_heap two_hdr1 two_tree1 ∧ RBValid red_heap two_hdr2 two_tree2 ∧
      two_tree2.Balanced two_hdr2.bh ∧ two_hdr1.nil = two_hdr2.nil ∧
      two_tree1.addrs.Disjoint two_tree2.addrs ∧
      red_heap.mem 5 = some (rb_node.mk RB_NODE_COLOR_RED 8 NULL NULL NULL NULL) ∧
      5 ∉ two_tree1.addrs ++ two_tree2.addrs ∧ 5 ≠ two_hdr1.nil ∧ 5 ≠ NULL ∧
      two_tree1 ≠ .leaf ∧ (∀ k ∈ two_tree1.keys, k < 8) ∧ (∀ k ∈ two_tree2.keys, 8 < k) ∧
      8 < RB_MAX_KEY ∧ two_tree1.height < 3 ∧ two_tree2.height < 3 ∧
      ∃ r t, rb_tree_concat 3 red_heap two_hdr1 two_hdr2 5 = .ok r ∧ r.2.2.2 = some t ∧
        (t.bh = max two_hdr1.bh two_hdr2.bh ∨
          t.bh = (max two_hdr1.bh two_hdr2.bh + 1) % SIZE_MOD) :=
  ⟨rbvalid_two1_of rfl rfl (by decide) (by decide) (by decide),
    rbvalid_two2_of rfl rfl rfl (by decide) (by decide) (by decide),
    by simp [Tree.Balanced, two_tree2, two_hdr2, Tree.pathBlacks, black_weight], rfl,
    by simp [two_tree1, two_tree2, Tree.addrs], rfl, by decide, by decide, by decide, by simp [two_tree1], by decide, by decide,
    by decide, by decide, by decide,
    concat_bh_range (rbvalid_two1_of rfl rfl (by decide) (by decide) (by decide))
      (rbvalid_two2_of rfl rfl rfl (by decide) (by decide) (by decide))
      (by simp [Tree.Balanced, two_tree2, two_hdr2, Tree.pathBlacks, black_weight]) rfl
      (by simp [two_tree1, two_tree2, Tree.addrs])
      (show red_heap.mem 5 = some (rb_node.mk RB_NODE_COLOR_RED 8 NULL NULL NULL NULL) from rfl)
      (by decide) (by decide) (by decide) (by simp [two_tree1]) (by decide) (by decide)
      (by decide) (by decide) (by decide)⟩

/-- C16: for valid trees `t1` and `t2` of which some key of `t1` lies above some
key of `t2` (so both are non-empty and the maximum of `t1` is above the minimum
of `t2`) and any node `x` of the heap, `rb_tree_concat` returns `NULL` and the
heap (the nodes of both trees and `x`) and both tree headers are as they
were. -/
theorem concat_rejects_disorder {fuel : Nat} {h : Heap} {t1 t2 : rb_tree} {T1 T2 : Tree}
    {x : Ptr} {xn : rb_node} {k1 k2 : Nat}
    (hv1 : RBValid h t1 T1) (hv2 : RBValid h t2 T2)
    (hk1 : k1 ∈ T1.keys) (hk2 : k2 ∈ T2.keys) (hlt : k2 < k1)
    (hx : h.mem x = some xn) (hf1 : T1.height ≤ fuel) (hf2 : T2.height ≤ fuel) :
    rb_tree_concat fuel h t1 t2 x = .ok (h, t1, t2, none) := by
  have hne1 : T1 ≠ .leaf := by rintro rfl; simp [Tree.keys, Tree.toList] at hk1
  have hne2 : T2 ≠ .leaf := by rintro rfl; simp [Tree.keys, Tree.toList] at hk2
  have hn1 : t1.nil ∉ T1.addrs := by simpa [Ctx.addrs] using hv1.repr.focus.sep.nil_not_mem
  have hn2 : t2.nil ∉ T2.addrs := by simpa [Ctx.addrs] using hv2.repr.focus.sep.nil_not_mem
  have hr1 : t1.root = T1.ptr t1.nil := hv1.repr.focus.ctx
  have hr2 : t2.root = T2.ptr t2.nil := hv2.repr.focus.ctx
  obtain ⟨a1, n1, pre, ha1, hm1, -, hkeys1⟩ :=
    maximum_loop_key T1 fuel _ hv1.repr.focus.own hn1 hne1 hf1
  obtain ⟨a2, n2, post, ha2, hm2, -, hkeys2⟩ :=
    minimum_loop_key T2 fuel _ hv2.repr.focus.own hn2 hne2 hf2
  have hmax : k1 ≤ n1.key := by
    have hs := hv1.ordered
    rw [Tree.Ordered, hkeys1] at hs
    rw [hkeys1, List.mem_append, List.mem_singleton] at hk1
    rcases hk1 with hk1 | rfl
    · exact le_of_lt ((List.pairwise_append.mp hs).2.2 _ hk1 _ (by simp))
    · exact le_refl _
  have hmin : n2.key ≤ k2 := by
    have hs := hv2.ordered
    rw [Tree.Ordered, hkeys2] at hs
    rw [hkeys2, List.mem_cons] at hk2
    rcases hk2 with rfl | hk2
    · exact le_refl _
    · exact le_of_lt ((List.pairwise_cons.mp hs).1 _ hk2)
  have hcond : ¬ (n1.key ≤ xn.key ∧ xn.key ≤ n2.key) := fun hc => by omega
  simp [rb_tree_concat, rb_tree_maximum, rb_tree_minimum, hr1, hr2,
    ptr_ne_nil_of_sep hn1 hne1, ptr_ne_nil_of_sep hn2 hne2, ha1, ha2,
    accS, hm1, hm2, hx, hcond]

/-- C16 at the trees with keys 9, 10 and 7, passed in the wrong order, and the
node with key 7 as `x`. -/
theorem concat_rejects_disorder_witness :
    RBValid two_heap two_hdr2 two_tree2 ∧ RBValid two_heap two_hdr1 two_tree1 ∧
      10 ∈ two_tree2.keys ∧ 7 ∈ two_tree1.keys ∧ 7 < 10 ∧
      two_heap.mem 2 = some (rb_node.mk RB_NODE_COLOR_BLACK 7 NULL rb_info_nil rb_info_nil
        rb_info_nil) ∧
      two_tree2.height ≤ 2 ∧ two_tree1.height ≤ 2 ∧
      rb_tree_concat 2 two_heap two_hdr2 two_hdr1 2 = .ok (two_heap, two_hdr2, two_hdr1, none) :=
  ⟨rbvalid_two2_of rfl rfl rfl (by decide) (by decide) (by decide),
    rbvalid_two1_of rfl rfl (by decide) (by decide) (by decide),
    by simp [two_tree2, Tree.keys, Tree.toList], by simp [two_tree1, Tree.keys, Tree.toList],
    by decide, rfl, by decide, by decide,
    concat_rejects_disorder (rbvalid_two2_of rfl rfl rfl (by decide) (by decide) (by decide))
      (rbvalid_two1_of rfl rfl (by decide) (by decide) (by decide))
      (show 10 ∈ two_tree2.keys by simp [two_tree2, Tree.keys, Tree.toList])
      (show 7 ∈ two_tree1.keys by simp [two_tree1, Tree.keys, Tree.toList])
      (by decide)
      (show two_heap.mem 2 = some (rb_node.mk RB_NODE_COLOR_BLACK 7 NULL rb_info_nil rb_info_nil
        rb_info_nil) from rfl) (by decide) (by decide)⟩

/-- C17: `rb_tree_concat` of two empty trees and a fresh node with the valid
key 5 returns `NULL` and changes nothing: the key of the sentinel stands in for
the maximum of the empty `t1`, and no valid key reaches it. -/
theorem concat_empty_left_refused :
    RBValid (rb_node_alloc (Heap.init 8) 5).2 rb_tree_alloc .leaf ∧
      (rb_node_alloc (Heap.init 8) 5).1 = 2 ∧ 5 < RB_MAX_KEY ∧
      rb_tree_concat 3 (rb_node_alloc (Heap.init 8) 5).2 rb_tree_alloc rb_tree_alloc 2 =
        .ok ((rb_node_alloc (Heap.init 8) 5).2, rb_tree_alloc, rb_tree_alloc, none) :=
  ⟨rbvalid_empty_of rfl (by decide) (by decide) (by decide), rfl, by decide, rfl⟩

/-- C18: `rb_tree_concat` of the valid trees with keys 7 and 9, 10, called with
the maximum node of the first tree (key 7) as `x`: the tree returned has the
in-order key sequence 9, 7, 10, and `rb_tree_search` does not find the key 7
in it. -/
theorem concat_collapse_loses_key :
    RBValid two_heap two_hdr1 two_tree1 ∧ RBValid two_heap two_hdr2 two_tree2 ∧
      rb_tree_maximum 3 two_heap two_hdr1 two_hdr1.root = .ok 2 ∧
      7 ∈ two_tree1.keys ∧
      ∃ r t, rb_tree_concat 3 two_heap two_hdr1 two_hdr2 2 = .ok r ∧ r.2.2.2 = some t ∧
        Represents r.1 t (.node 3 RB_NODE_COLOR_BLACK .leaf 9 NULL
          (.node 5 RB_NODE_COLOR_UNDEFINED .leaf 7 NULL
            (.node 4 RB_NODE_COLOR_RED .leaf 10 NULL .leaf))) ∧
        (Tree.node 3 RB_NODE_COLOR_BLACK .leaf 9 NULL
          (.node 5 RB_NODE_COLOR_UNDEFINED .leaf 7 NULL
            (.node 4 RB_NODE_COLOR_RED .leaf 10 NULL .leaf))).keys = [9, 7, 10] ∧
        rb_tree_search 4 r.1 t 7 = .ok NULL := by
  refine ⟨rbvalid_two1_of rfl rfl (by decide) (by decide) (by decide),
    rbvalid_two2_of rfl rfl rfl (by decide) (by decide) (by decide), rfl,
    by simp [two_tree1, Tree.keys, Tree.toList], _, _, rfl, rfl, ?_, rfl, rfl⟩
  exact ⟨⟨rfl, ⟨rfl, trivial, ⟨rfl, trivial, ⟨rfl, trivial, trivial⟩⟩⟩, ⟨by decide, by decide,
      by decide, by decide, ⟨_, rfl⟩⟩⟩, by decide, by decide, by decide, by decide⟩

/-- C19: `rb_tree_concat` of two empty trees with the sentinel, the node that
carries the reserved key and that `rb_tree_minimum` returns on an empty tree, as
`x`: the ordering check lets it pass and the run ends in a `NULL` dereference
instead of an error return. -/
theorem concat_reserved_key_faults :
    RBValid (Heap.init 8) rb_tree_alloc .leaf ∧
      get_key (Heap.init 8) rb_info_nil = .ok RB_NODE_NIL_KEY_VALUE ∧
      rb_tree_minimum 3 (Heap.init 8) rb_tree_alloc rb_tree_alloc.root = .ok rb_info_nil ∧
      rb_tree_concat 3 (Heap.init 8) rb_tree_alloc rb_tree_alloc rb_info_nil = .fault :=
  ⟨rbvalid_init (by decide) (by decide), rfl, rfl, rfl⟩

end RedBlack


namespace RedBlack
open Tree Ctx

/-- The tree `pair_tree` is valid in `pair_heap`. -/
theorem rbvalid_pair : RBValid pair_heap pair_hdr pair_tree :=
  rbvalid_pair_of rfl rfl rfl (by decide) (by decide) (by decide)

/-! ## `rb_tree_get_bh` -/

theorem ctx_total_blacks : ∀ (c : Ctx) (m : Nat), c.total m = m + c.blacks
  | .top, m => rfl
  | .L _ col _ _ _ up, m => by
    simp only [Ctx.total, Ctx.blacks, ctx_total_blacks up]; omega
  | .R _ col _ _ _ up, m => by
    simp only [Ctx.total, Ctx.blacks, ctx_total_blacks up]; omega

/-- The path that `Tree.locate` records only grows. -/
theorem locate_blacks_le (key : Nat) : ∀ (t : Tree) (c : Ctx),
    c.blacks ≤ (t.locate key c).1.blacks
  | .leaf, c => le_refl _
  | .node a col l k d r, c => by
    unfold Tree.locate
    split_ifs
    · exact le_refl _
    · exact le_trans (by simp [Ctx.blacks]) (locate_blacks_le key l (.L a col k d r c))
    · exact le_trans (by simp [Ctx.blacks]) (locate_blacks_le key r (.R a col k d l c))

/-- The loop of `__rb_tree_get_bh` follows `Tree.locate`; the counter, started at
`B` at the root, has gone down by the number of Black nodes passed.  At a leaf
the loop reads the sentinel: it stops there for the reserved key, and for every
other key it passes it and ends at `NULL`. -/
theorem get_bh_loop_spec (key : Nat) (B : Nat) (hB : B < SIZE_MOD) :
    ∀ (t : Tree) (fuel : Nat) (c : Ctx) (h : Heap) (tree : rb_tree),
    Focus h tree c t → t.height + 2 ≤ fuel → (t.locate key c).1.blacks ≤ B →
    __rb_tree_get_bh_loop fuel h (t.ptr tree.nil) key (B - c.blacks) = .ok
      (match (t.locate key c).2 with
        | .leaf =>
          if key = RB_NODE_NIL_KEY_VALUE then (tree.nil, B - (t.locate key c).1.blacks)
          else (NULL, (B - (t.locate key c).1.blacks + SIZE_MOD - 1) % SIZE_MOD)
        | .node a _ _ _ _ _ => (a, B - (t.locate key c).1.blacks))
  | .leaf, fuel, c, h, tree, hf, hfuel, hle => by
    obtain ⟨m, rfl⟩ : ∃ m, fuel = m + 2 := ⟨fuel - 2, by omega⟩
    obtain ⟨sp, hsp⟩ := hf.sep.sentinel
    have hne := hf.sep.nil_ne
    simp only [tree_ptr_leaf, Tree.locate]
    rw [__rb_tree_get_bh_loop]
    simp only [hne, ne_eq, not_false_eq_true, if_true, accS, hsp, sentinel_node, res_ok_bind]
    by_cases hk : key = RB_NODE_NIL_KEY_VALUE
    · simp [hk]
    · simp only [hk, if_false]
      split_ifs <;> simp [__rb_tree_get_bh_loop, NULL]
  | .node a col l k d r, fuel, c, h, tree, hf, hfuel, hle => by
    obtain ⟨m, rfl⟩ : ∃ m, fuel = m + 1 := ⟨fuel - 1, by omega⟩
    have hf0 := hf
    obtain ⟨hc, ho, hsep⟩ := hf
    have hnull := hsep.null_not_mem
    simp only [Own, tree_ptr_leaf, tree_ptr_node] at ho
    simp only [sepS, not_or, List.cons_append, not_false_eq_true, true_and, and_true,
      not_true_eq_false, false_or, or_false, List.append_nil] at hnull
    rw [__rb_tree_get_bh_loop]
    unfold Tree.locate at hle ⊢
    simp only [tree_ptr_node, hnull, ne_eq, not_false_eq_true, if_true, accS, ho, res_ok_bind]
    by_cases hk : k = key
    · simp [hk]
    · have hk' : ¬key = k := fun e => hk e.symm
      simp only [hk, hk', if_false] at hle ⊢
      by_cases hlt : key < k
      · simp only [hlt, if_true] at hle ⊢
        have hmono := locate_blacks_le key l (.L a col k d r c)
        have hstep : (if col = RB_NODE_COLOR_BLACK then (B - c.blacks + SIZE_MOD - 1) % SIZE_MOD
            else B - c.blacks) = B - (Ctx.L a col k d r c).blacks := by
          simp only [Ctx.blacks, black_weight] at hmono ⊢
          unfold SIZE_MOD at hB ⊢
          split_ifs <;> simp_all
          omega
        rw [hstep]
        exact get_bh_loop_spec key B hB l m (.L a col k d r c) h tree (focus_up_L.mpr hf0)
          (by simp only [Tree.height] at hfuel; omega) hle
      · simp only [hlt, if_false] at hle ⊢
        have hmono := locate_blacks_le key r (.R a col k d l c)
        have hstep : (if col = RB_NODE_COLOR_BLACK then (B - c.blacks + SIZE_MOD - 1) % SIZE_MOD
            else B - c.blacks) = B - (Ctx.R a col k d l c).blacks := by
          simp only [Ctx.blacks, black_weight] at hmono ⊢
          unfold SIZE_MOD at hB ⊢
          split_ifs <;> simp_all
          omega
        rw [hstep]
        exact get_bh_loop_spec key B hB r m (.R a col k d l c) h tree (focus_up_R.mpr hf0)
          (by simp only [Tree.height] at hfuel; omega) hle

/-- `rb_tree_get_bh` on a balanced tree whose `bh` field is its black count: the
descent is the one of `Tree.locate`, the Black nodes on the path are at most
`bh`, and what is left of `bh` at the end of the path is the black count of the
subtree there.  For a key that is not found the result is the marker, except
for the reserved key, for which it is the counter at the sentinel, 0. -/
theorem get_bh_spec {fuel : Nat} {h : Heap} {tree : rb_tree} {t : Tree} (key : Nat)
    (hr : Represents h tree t) (hb : t.BalOK) (hbh : tree.bh = t.bheight)
    (hfuel : t.height + 2 ≤ fuel) :
    (t.locate key .top).1.blacks ≤ tree.bh ∧
      tree.bh - (t.locate key .top).1.blacks = (t.locate key .top).2.bheight ∧
      rb_tree_get_bh fuel h tree key = .ok
        (match (t.locate key .top).2 with
          | .leaf => if key = RB_NODE_NIL_KEY_VALUE then 0 else RB_INVALID_BLACK_HEIGHT
          | .node _ _ _ _ _ _ => tree.bh - (t.locate key .top).1.blacks) := by
  have hplug := locate_plug key t .top
  simp only [Ctx.plug] at hplug
  have hb2 : ((t.locate key .top).1.plug (t.locate key .top).2).BalOK := by rw [hplug]; exact hb
  obtain ⟨hsb, hcb⟩ := (plug_bal_ok _ _).mp hb2
  have hbh2 := plug_bheight _ _ hcb
  rw [hplug, ctx_total_blacks] at hbh2
  have hlt := bheight_lt_of_represents hr hb
  have hle : (t.locate key .top).1.blacks ≤ tree.bh := by omega
  have hsub : tree.bh - (t.locate key .top).1.blacks = (t.locate key .top).2.bheight := by omega
  refine ⟨hle, hsub, ?_⟩
  have hs := get_bh_loop_spec key tree.bh (by omega) t fuel .top h tree hr.focus hfuel hle
  have hroot : tree.root = t.ptr tree.nil := hr.focus.ctx
  simp only [Ctx.blacks, Nat.sub_zero] at hs
  rw [rb_tree_get_bh, __rb_tree_get_bh, hroot]
  simp only [hs, res_ok_bind]
  have hne := hr.focus.sep.nil_ne
  rcases hloc : (t.locate key .top).2 with _ | ⟨a, col, l, k, d, r⟩
  · rw [hloc] at hsub
    simp only [Tree.bheight] at hsub
    by_cases hk : key = RB_NODE_NIL_KEY_VALUE
    · simp only [hk, if_true, hne, if_false, res_pure_eq]
      rw [← hk, hsub]
    · simp [hk]
  · have hmem : a ∈ t.addrs := by
      rw [← hplug, mem_addrs_plug, hloc]; exact Or.inr (by simp [Tree.addrs])
    have ha : a ≠ NULL := fun e =>
      hr.focus.sep.null_not_mem (by simpa [Ctx.addrs, e] using hmem)
    simp [ha]

/-- `rb_tree_get_bh` of a stored key: the result is `bh` less the Black nodes on
the path to the node that holds the key, which is the black count of the subtree
of that node. -/
theorem get_bh_at_node {fuel : Nat} {h : Heap} {tree : rb_tree} {t : Tree} {key : Nat}
    {d : Ptr} (hv : RBValid h tree t) (hbh : t.Balanced tree.bh) (hm : (key, d) ∈ t.toList)
    (hfuel : t.height + 2 ≤ fuel) :
    ∃ c a col l r, t.locate key .top = (c, .node a col l key d r) ∧
      c.plug (.node a col l key d r) = t ∧ c.blacks ≤ tree.bh ∧
      rb_tree_get_bh fuel h tree key = .ok (tree.bh - c.blacks) ∧
      tree.bh - c.blacks = (Tree.node a col l key d r).bheight ∧
      (Tree.node a col l key d r).BalOK := by
  obtain ⟨a, col, l, r, hloc⟩ := locate_found hv.ordered hm
  have hb := rbshape_bal hv.shape
  obtain ⟨hle, hsub, hget⟩ := get_bh_spec key hv.repr hb (balanced_eq_bheight hbh) hfuel
  have hplug := locate_plug key t .top
  simp only [Ctx.plug] at hplug
  have hb2 : ((t.locate key .top).1.plug (t.locate key .top).2).BalOK := by rw [hplug]; exact hb
  obtain ⟨hsb, -⟩ := (plug_bal_ok _ _).mp hb2
  rw [hloc] at hsub hget hplug hsb
  exact ⟨(t.locate key .top).1, a, col, l, r, Prod.ext rfl hloc, hplug, hle, hget, hsub, hsb⟩

/-- `rb_tree_get_bh` of a key that is not stored returns the marker
`RB_INVALID_BLACK_HEIGHT`, except for the reserved key: the loop stops at the
sentinel, which carries that key, and the counter there, 0, is returned. -/
theorem get_bh_not_found {fuel : Nat} {h : Heap} {tree : rb_tree} {t : Tree} {key : Nat}
    (hv : RBValid h tree t) (hbh : t.Balanced tree.bh) (hm : key ∉ t.keys)
    (hfuel : t.height + 2 ≤ fuel) :
    rb_tree_get_bh fuel h tree key =
      .ok (if key = RB_NODE_NIL_KEY_VALUE then 0 else RB_INVALID_BLACK_HEIGHT) := by
  obtain ⟨-, -, hget⟩ :=
    get_bh_spec key hv.repr (rbshape_bal hv.shape) (balanced_eq_bheight hbh) hfuel
  rw [locate_not_found hm] at hget
  exact hget

/-- The Black nodes on a path are those strictly below the root of the path and
the root itself. -/
theorem ctx_blacks_between : ∀ (c : Ctx) (tc : rb_node_color),
    c.blacks = c.blacks_between + if c = .top then 0 else black_weight (c.rootColor tc)
  | .top, _ => rfl
  | .L _ col _ _ _ .top, _ => by simp [Ctx.blacks, Ctx.blacks_between, Ctx.rootColor]
  | .R _ col _ _ _ .top, _ => by simp [Ctx.blacks, Ctx.blacks_between, Ctx.rootColor]
  | .L _ col _ _ _ (.L a c k d s up), _ => by
    have ih := ctx_blacks_between (.L a c k d s up) col
    simp only [reduceCtorEq, if_false] at ih ⊢
    simp only [Ctx.blacks, Ctx.blacks_between, Ctx.rootColor] at ih ⊢
    omega
  | .L _ col _ _ _ (.R a c k d s up), _ => by
    have ih := ctx_blacks_between (.R a c k d s up) col
    simp only [reduceCtorEq, if_false] at ih ⊢
    simp only [Ctx.blacks, Ctx.blacks_between, Ctx.rootColor] at ih ⊢
    omega
  | .R _ col _ _ _ (.L a c k d s up), _ => by
    have ih := ctx_blacks_between (.L a c k d s up) col
    simp only [reduceCtorEq, if_false] at ih ⊢
    simp only [Ctx.blacks, Ctx.blacks_between, Ctx.rootColor] at ih ⊢
    omega
  | .R _ col _ _ _ (.R a c k d s up), _ => by
    have ih := ctx_blacks_between (.R a c k d s up) col
    simp only [reduceCtorEq, if_false] at ih ⊢
    simp only [Ctx.blacks, Ctx.blacks_between, Ctx.rootColor] at ih ⊢
    omega

/-! ## The runs of `test_rb_bh` -/

/-- A key that `Tree.delete` removes is stored in the tree. -/
theorem tree_delete_mem {t t' : Tree} {key : Nat} (hd : t.delete key = some t') :
    ∃ d, (key, d) ∈ t.toList := by
  have hplug := locate_plug key t .top
  simp only [Ctx.plug] at hplug
  rcases locate_cases key t .top with hl | ⟨a, col, l, d, r, hl⟩
  · exfalso
    rcases hloc : t.locate key .top with ⟨c, s⟩
    rw [hloc] at hl
    simp only at hl
    subst hl
    simp [Tree.delete, hloc] at hd
  · refine ⟨d, ?_⟩
    rw [← hplug, hl, plug_to_list]
    simp [Tree.toList]

/-- The insert loop of `test_rb_bh` follows `Tree.insert_run`: every call
returns 0 and leaves in `bh` the black count of the tree. -/
theorem insert_run_spec (fuel : Nat) : ∀ (ks : List Nat) (h : Heap) (tree : rb_tree)
    (t T : Tree) (l : List Nat), RBValid h tree t → tree.bh = t.bheight →
    (∀ k ∈ ks, k < RB_MAX_KEY) → h.next + ks.length ≤ h.cap →
    t.toList.length + ks.length < fuel → Tree.insert_run ks t h.next = some (T, l) →
    ∃ r, rb_tree_insert_run fuel ks h tree = .ok r ∧ RBValid r.1 r.2.1 T ∧
      r.2.1.bh = T.bheight ∧ r.2.1.nil = tree.nil ∧ r.1.cap = h.cap ∧
      r.1.next = h.next + ks.length ∧ (r.2.2 = l.map fun b => ((0 : Int), b)) ∧
      T.toList.length ≤ t.toList.length + ks.length
  | [], h, tree, t, T, l, hv, hbh, _, _, _, hrun => by
    simp only [Tree.insert_run, Option.some.injEq, Prod.mk.injEq] at hrun
    obtain ⟨rfl, rfl⟩ := hrun
    exact ⟨(h, tree, []), rfl, hv, hbh, rfl, rfl, rfl, rfl, le_refl _⟩
  | key :: rest, h, tree, t, T, l, hv, hbh, hks, hcap, hfuel, hrun => by
    simp only [List.length_cons] at hfuel hcap
    have hh := height_le_length t
    obtain ⟨r1, t1, hr1, hc1, hT1, hv1, hnil1, hcap1, hnext1, -, hbh1⟩ :=
      @insert_valid fuel _ _ _ key NULL hv (hks key (List.mem_cons_self _ _))
        (by unfold Ptr at *; omega) (by omega)
    obtain ⟨-, hlen1⟩ := tree_insert_mem hv.shape hv.ordered hT1
    simp only [Tree.insert_run, hT1] at hrun
    rcases hrest : Tree.insert_run rest t1 (h.next + 1) with _ | ⟨T', l'⟩
    · simp [hrest] at hrun
    · simp only [hrest, Option.some.injEq, Prod.mk.injEq] at hrun
      obtain ⟨rfl, rfl⟩ := hrun
      obtain ⟨r2, hr2, hv2, hbh2, hnil2, hcap2, hnext2, hl2, hlen2⟩ :=
        insert_run_spec fuel rest r1.1 r1.2.1 t1 T' l' hv1 (hbh1 hbh)
          (fun k hk => hks k (List.mem_cons_of_mem _ hk)) (by rw [hnext1, hcap1]; unfold Ptr at *; omega)
          (by omega) (by rw [hnext1]; exact hrest)
      refine ⟨(r2.1, r2.2.1, (r1.2.2, r1.2.1.bh) :: r2.2.2), ?_, hv2, hbh2, hnil2.trans hnil1,
        hcap2.trans hcap1, ?_, ?_, ?_⟩
      · simp [rb_tree_insert_run, hr1, hr2]
      · rw [hnext2, hnext1, List.length_cons]; unfold Ptr at *; omega
      · simp only [hl2, hc1, hbh1 hbh, List.map_cons]
      · rw [List.length_cons]; omega

/-- The delete loop of `test_rb_bh` follows `Tree.delete_run`: every call
returns 0 and leaves in `bh` the black count of the tree. -/
theorem delete_run_spec (fuel : Nat) : ∀ (ks : List Nat) (h : Heap) (tree : rb_tree)
    (t T : Tree) (l : List Nat), RBValid h tree t → tree.bh = t.bheight →
    t.toList.length + 2 ≤ fuel → Tree.delete_run ks t = some (T, l) →
    ∃ r, rb_tree_delete_run fuel ks h tree = .ok r ∧ RBValid r.1 r.2.1 T ∧
      r.2.1.bh = T.bheight ∧ r.2.1.nil = tree.nil ∧ r.1.cap = h.cap ∧
      r.1.next = h.next ∧ r.2.2 = l.map fun b => ((0 : Int), b)
  | [], h, tree, t, T, l, hv, hbh, _, hrun => by
    simp only [Tree.delete_run, Option.some.injEq, Prod.mk.injEq] at hrun
    obtain ⟨rfl, rfl⟩ := hrun
    exact ⟨(h, tree, []), rfl, hv, hbh, rfl, rfl, rfl, rfl⟩
  | key :: rest, h, tree, t, T, l, hv, hbh, hfuel, hrun => by
    have hh := height_le_length t
    rcases hdel : t.delete key with _ | t1
    · simp [Tree.delete_run, hdel] at hrun
    · obtain ⟨d, hm⟩ := tree_delete_mem hdel
      obtain ⟨r1, t1', l1, l2, hr1, hc1, hT1, hv1, hnil1, hcap1, hnext1, hl1, hl1', -, hbh1, -⟩ :=
        @delete_valid fuel _ _ _ key d hv hm (by omega)
      rw [hdel, Option.some.injEq] at hT1
      subst hT1
      simp only [Tree.delete_run, hdel] at hrun
      rcases hrest : Tree.delete_run rest t1 with _ | ⟨T', l'⟩
      · simp [hrest] at hrun
      · simp only [hrest, Option.some.injEq, Prod.mk.injEq] at hrun
        obtain ⟨rfl, rfl⟩ := hrun
        have hlen : t1.toList.length ≤ t.toList.length := by
          rw [hl1, hl1']; simp
        obtain ⟨r2, hr2, hv2, hbh2, hnil2, hcap2, hnext2, hl2⟩ :=
          delete_run_spec fuel rest r1.1 r1.2.1 t1 T' l' hv1 (hbh1 hbh) (by omega) hrest
        refine ⟨(r2.1, r2.2.1, (r1.2.2, r1.2.1.bh) :: r2.2.2), ?_, hv2, hbh2,
          hnil2.trans hnil1, hcap2.trans hcap1, hnext2.trans hnext1, ?_⟩
        · simp [rb_tree_delete_run, hr1, hr2]
        · simp only [hl2, hc1, hbh1 hbh, List.map_cons]

/-! ## `rb_tree_successor` and `rb_tree_predecessor` -/

/-- The climbing loop of `rb_tree_successor`, started at the root `x` of the
subtree in the hole of `c` with `y` the node above: it returns the node of `c`
that holds the first entry after the hole, or the sentinel when there is none. -/
theorem successor_loop_spec {h : Heap} {tree : rb_tree} : ∀ (c : Ctx) (t : Tree) (fuel : Nat),
    Focus h tree c t → t ≠ .leaf → c.depth < fuel →
    ∃ y, rb_tree_successor_loop fuel h tree (t.ptr tree.nil) (c.par tree.nil) = .ok y ∧
      ((c.after = [] ∧ y = tree.nil) ∨
        ∃ n rest, y ∈ c.addrs ∧ h.mem y = some n ∧ c.after = (n.key, n.data) :: rest)
  | .top, t, fuel, hf, hne, hfuel => by
    obtain ⟨m, rfl⟩ : ∃ m, fuel = m + 1 := ⟨fuel - 1, by omega⟩
    exact ⟨tree.nil, by simp [rb_tree_successor_loop], Or.inl ⟨rfl, rfl⟩⟩
  | .L a col k d s up, t, fuel, hf, hne, hfuel => by
    obtain ⟨m, rfl⟩ : ∃ m, fuel = m + 1 := ⟨fuel - 1, by omega⟩
    obtain ⟨x, xc, xl, xk, xd, xr, rfl⟩ : ∃ x xc xl xk xd xr, t = .node x xc xl xk xd xr := by
      cases t with
      | leaf => exact absurd rfl hne
      | node x xc xl xk xd xr => exact ⟨x, xc, xl, xk, xd, xr, rfl⟩
    obtain ⟨hc, ho, hsep⟩ := hf
    have hnd := hsep.nodup
    have hnil := hsep.nil_not_mem
    simp only [CtxOwn, tree_ptr_node, ctx_par_L] at hc
    simp only [sepS, not_or, List.cons_append, not_false_eq_true, true_and, and_true,
      not_true_eq_false, false_or, or_false, List.append_nil, Ctx.addrs, Tree.addrs] at hnd hnil
    refine ⟨a, ?_, Or.inr ⟨_, s.toList ++ up.after, by simp [Ctx.addrs], hc.1,
      by simp [Ctx.after]⟩⟩
    rw [rb_tree_successor_loop]
    simp [-Prod.exists, accS, hc.1, hnil, tree_ptr_node, ctx_par_L,
      eq_tree_ptr_false hnd.2.2.2.2.1.1 hnil.2.2.2.1.2]
  | .R a col k d s up, t, fuel, hf, hne, hfuel => by
    obtain ⟨m, rfl⟩ : ∃ m, fuel = m + 1 := ⟨fuel - 1, by omega⟩
    have hf0 := hf
    obtain ⟨hc, ho, hsep⟩ := hf
    have hnil := hsep.nil_not_mem
    simp only [CtxOwn, ctx_par_R] at hc
    simp only [sepS, not_or, List.cons_append, not_false_eq_true, true_and, and_true,
      not_true_eq_false, false_or, or_false, List.append_nil, Ctx.addrs] at hnil
    obtain ⟨y, hy, hpost⟩ := successor_loop_spec up (.node a col s k d t) m
      (focus_up_R.mp hf0) (by simp) (by simp only [Ctx.depth] at hfuel; omega)
    refine ⟨y, ?_, ?_⟩
    · rw [rb_tree_successor_loop]
      simp only [tree_ptr_node] at hy
      simp [-Prod.exists, accS, hc.1, hnil, ctx_par_R, hy]
    · rcases hpost with ⟨h1, h2⟩ | ⟨n, rest, h1, h2, h3⟩
      · exact Or.inl ⟨by simpa [Ctx.after] using h1, h2⟩
      · exact Or.inr ⟨n, rest, by simp [Ctx.addrs, h1], h2, by simpa [Ctx.after] using h3⟩

/-- The climbing loop of `rb_tree_predecessor`, started at the root `y` of the
subtree in the hole of `c` with `x` the node above: it returns the node of `c`
that holds the last entry before the hole, or the sentinel when there is none. -/
theorem predecessor_loop_spec {h : Heap} {tree : rb_tree} : ∀ (c : Ctx) (t : Tree) (fuel : Nat),
    Focus h tree c t → t ≠ .leaf → c.depth < fuel →
    ∃ y, rb_tree_predecessor_loop fuel h tree (t.ptr tree.nil) (c.par tree.nil) = .ok y ∧
      ((c.before = [] ∧ y = tree.nil) ∨
        ∃ n pre, y ∈ c.addrs ∧ h.mem y = some n ∧ c.before = pre ++ [(n.key, n.data)])
  | .top, t, fuel, hf, hne, hfuel => by
    obtain ⟨m, rfl⟩ : ∃ m, fuel = m + 1 := ⟨fuel - 1, by omega⟩
    exact ⟨tree.nil, by simp [rb_tree_predecessor_loop], Or.inl ⟨rfl, rfl⟩⟩
  | .R a col k d s up, t, fuel, hf, hne, hfuel => by
    obtain ⟨m, rfl⟩ : ∃ m, fuel = m + 1 := ⟨fuel - 1, by omega⟩
    obtain ⟨x, xc, xl, xk, xd, xr, rfl⟩ : ∃ x xc xl xk xd xr, t = .node x xc xl xk xd xr := by
      cases t with
      | leaf => exact absurd rfl hne
      | node x xc xl xk xd xr => exact ⟨x, xc, xl, xk, xd, xr, rfl⟩
    obtain ⟨hc, ho, hsep⟩ := hf
    have hnd := hsep.nodup
    have hnil := hsep.nil_not_mem
    simp only [CtxOwn, tree_ptr_node, ctx_par_R] at hc
    simp only [sepS, not_or, List.cons_append, not_false_eq_true, true_and, and_true,
      not_true_eq_false, false_or, or_false, List.append_nil, Ctx.addrs, Tree.addrs] at hnd hnil
    refine ⟨a, ?_, Or.inr ⟨_, up.before ++ s.toList, by simp [Ctx.addrs], hc.1,
      by simp [Ctx.before]⟩⟩
    rw [rb_tree_predecessor_loop]
    simp [-Prod.exists, accS, hc.1, hnil, tree_ptr_node, ctx_par_R,
      eq_tree_ptr_false hnd.2.2.2.2.1.1 hnil.2.2.2.1.2]
  | .L a col k d s up, t, fuel, hf, hne, hfuel => by
    obtain ⟨m, rfl⟩ : ∃ m, fuel = m + 1 := ⟨fuel - 1, by omega⟩
    have hf0 := hf
    obtain ⟨hc, ho, hsep⟩ := hf
    have hnil := hsep.nil_not_mem
    simp only [CtxOwn, ctx_par_L] at hc
    simp only [sepS, not_or, List.cons_append, not_false_eq_true, true_and, and_true,
      not_true_eq_false, false_or, or_false, List.append_nil, Ctx.addrs] at hnil
    obtain ⟨y, hy, hpost⟩ := predecessor_loop_spec up (.node a col t k d s) m
      (focus_up_L.mp hf0) (by simp) (by simp only [Ctx.depth] at hfuel; omega)
    refine ⟨y, ?_, ?_⟩
    · rw [rb_tree_predecessor_loop]
      simp only [tree_ptr_node] at hy
      simp [-Prod.exists, accS, hc.1, hnil, ctx_par_L, hy]
    · rcases hpost with ⟨h1, h2⟩ | ⟨n, pre, h1, h2, h3⟩
      · exact Or.inl ⟨by simpa [Ctx.before] using h1, h2⟩
      · exact Or.inr ⟨n, pre, by simp [Ctx.addrs, h1], h2, by simpa [Ctx.before] using h3⟩

/-! ## Neighbours in a sorted key sequence -/

theorem sorted_next {pre rest : List Nat} {k m : Nat}
    (hs : (pre ++ k :: m :: rest).Sorted (· < ·)) :
    k < m ∧ ∀ q ∈ pre ++ k :: m :: rest, k < q → m ≤ q := by
  have hp := List.pairwise_append.mp hs
  obtain ⟨-, h2, h3⟩ := hp
  have h4 := List.pairwise_cons.mp h2
  have h5 := List.pairwise_cons.mp h4.2
  refine ⟨h4.1 m (List.mem_cons_self _ _), fun q hq hk => ?_⟩
  rcases List.mem_append.mp hq with hq | hq
  · exact absurd (h3 q hq k (List.mem_cons_self _ _)) (by omega)
  · rcases List.mem_cons.mp hq with rfl | hq
    · omega
    · rcases List.mem_cons.mp hq with rfl | hq
      · exact le_refl _
      · exact le_of_lt (h5.1 q hq)

theorem sorted_last {pre : List Nat} {k : Nat} (hs : (pre ++ [k]).Sorted (· < ·)) :
    ∀ q ∈ pre ++ [k], q ≤ k := by
  obtain ⟨-, -, h3⟩ := List.pairwise_append.mp hs
  intro q hq
  rcases List.mem_append.mp hq with hq | hq
  · exact le_of_lt (h3 q hq k (List.mem_cons_self _ _))
  · rw [List.mem_singleton.mp hq]

theorem sorted_prev {pre post : List Nat} {m k : Nat}
    (hs : (pre ++ m :: k :: post).Sorted (· < ·)) :
    m < k ∧ ∀ q ∈ pre ++ m :: k :: post, q < k → q ≤ m := by
  have hp := List.pairwise_append.mp hs
  obtain ⟨-, h2, h3⟩ := hp
  have h4 := List.pairwise_cons.mp h2
  have h5 := List.pairwise_cons.mp h4.2
  refine ⟨h4.1 k (List.mem_cons_self _ _), fun q hq hk => ?_⟩
  rcases List.mem_append.mp hq with hq | hq
  · exact le_of_lt (h3 q hq m (List.mem_cons_self _ _))
  · rcases List.mem_cons.mp hq with rfl | hq
    · exact le_refl _
    · rcases List.mem_cons.mp hq with rfl | hq
      · omega
      · exact absurd (h5.1 q hq) (by omega)

theorem sorted_first {post : List Nat} {k : Nat} (hs : (k :: post).Sorted (· < ·)) :
    ∀ q ∈ k :: post, k ≤ q := by
  have h4 := List.pairwise_cons.mp hs
  intro q hq
  rcases List.mem_cons.mp hq with rfl | hq
  · exact le_refl _
  · exact le_of_lt (h4.1 q hq)

/-- The keys of a tree around a subtree of it. -/
theorem plug_keys (c : Ctx) (t : Tree) :
    (c.plug t).keys = c.before.map Prod.fst ++ t.keys ++ c.after.map Prod.fst := by
  simp [Tree.keys, plug_to_list]

theorem node_keys (a : Ptr) (col : rb_node_color) (l : Tree) (k : Nat) (d : Ptr) (r : Tree) :
    (Tree.node a col l k d r).keys = l.keys ++ k :: r.keys := by
  simp [Tree.keys, Tree.toList]

/-! ## `rb_tree_minimum` and `rb_tree_maximum` -/

/-- `rb_tree_minimum` on a subtree `t` of a tree laid out in the heap: the
sentinel for the empty subtree, and otherwise the node of `t` that holds the
first key of its in-order sequence. -/
theorem minimum_spec {h : Heap} {tree : rb_tree} {c : Ctx} {t : Tree} {fuel : Nat}
    (hf : Focus h tree c t) (hfuel : t.height ≤ fuel) :
    ∃ a, rb_tree_minimum fuel h tree (t.ptr tree.nil) = .ok a ∧
      ((t = .leaf ∧ a = tree.nil) ∨
        ∃ n post, a ∈ t.addrs ∧ h.mem a = some n ∧ t.keys = n.key :: post) := by
  by_cases hne : t = .leaf
  · subst hne
    exact ⟨tree.nil, by simp [rb_tree_minimum], Or.inl ⟨rfl, rfl⟩⟩
  · have hnil : tree.nil ∉ t.addrs := fun hm =>
      hf.sep.nil_not_mem (List.mem_append_right _ hm)
    obtain ⟨a, n, post, ha, hn, hmem, hk⟩ := minimum_loop_key t fuel _ hf.own hnil hne hfuel
    refine ⟨a, ?_, Or.inr ⟨n, post, hmem, hn, hk⟩⟩
    rw [rb_tree_minimum, if_neg (ptr_ne_nil_of_sep hnil hne)]
    exact ha

/-- `rb_tree_maximum` on a subtree `t` of a tree laid out in the heap: the
sentinel for the empty subtree, and otherwise the node of `t` that holds the
last key of its in-order sequence. -/
theorem maximum_spec {h : Heap} {tree : rb_tree} {c : Ctx} {t : Tree} {fuel : Nat}
    (hf : Focus h tree c t) (hfuel : t.height ≤ fuel) :
    ∃ a, rb_tree_maximum fuel h tree (t.ptr tree.nil) = .ok a ∧
      ((t = .leaf ∧ a = tree.nil) ∨
        ∃ n pre, a ∈ t.addrs ∧ h.mem a = some n ∧ t.keys = pre ++ [n.key]) := by
  by_cases hne : t = .leaf
  · subst hne
    exact ⟨tree.nil, by simp [rb_tree_maximum], Or.inl ⟨rfl, rfl⟩⟩
  · have hnil : tree.nil ∉ t.addrs := fun hm =>
      hf.sep.nil_not_mem (List.mem_append_right _ hm)
    obtain ⟨a, n, pre, ha, hn, hmem, hk⟩ := maximum_loop_key t fuel _ hf.own hnil hne hfuel
    refine ⟨a, ?_, Or.inr ⟨n, pre, hmem, hn, hk⟩⟩
    rw [rb_tree_maximum, if_neg (ptr_ne_nil_of_sep hnil hne)]
    exact ha

/-- `rb_tree_successor` at a node of a tree laid out in the heap: with the keys
of the tree written as `pre ++ k :: rest` around the key `k` of the node, the
result is the sentinel when `rest` is empty and the node that holds the head of
`rest` otherwise. -/
theorem successor_spec {h : Heap} {tree : rb_tree} {c : Ctx} {a : Ptr} {col : rb_node_color}
    {l r : Tree} {k : Nat} {d : Ptr} {fuel : Nat}
    (hf : Focus h tree c (.node a col l k d r))
    (hfuel : (c.plug (.node a col l k d r)).height ≤ fuel) :
    ∃ y pre, rb_tree_successor fuel h tree a = .ok y ∧
      (((c.plug (.node a col l k d r)).keys = pre ++ [k] ∧ y = tree.nil) ∨
        ∃ n rest, y ∈ (c.plug (.node a col l k d r)).addrs ∧ h.mem y = some n ∧
          (c.plug (.node a col l k d r)).keys = pre ++ k :: n.key :: rest) := by
  have hph := plug_height c (.node a col l k d r)
  simp only [Tree.height] at hph
  have hcell := focus_cell hf
  have hsep := hf.sep
  have hnilr : tree.nil ∉ r.addrs := fun hm =>
    hsep.nil_not_mem (by simp [Tree.addrs, hm])
  by_cases hr : r = .leaf
  · subst hr
    obtain ⟨y, hy, hpost⟩ := successor_loop_spec c (.node a col l k d .leaf) fuel hf (by simp)
      (by omega)
    refine ⟨y, c.before.map Prod.fst ++ l.keys, ?_, ?_⟩
    · simp only [tree_ptr_node] at hy
      simp [rb_tree_successor, accS, hcell, hy]
    · rcases hpost with ⟨h1, h2⟩ | ⟨n, rest, h1, h2, h3⟩
      · exact Or.inl ⟨by rw [plug_keys, node_keys]; simp [h1, Tree.keys, Tree.toList], h2⟩
      · exact Or.inr ⟨n, rest.map Prod.fst, mem_addrs_plug.mpr (Or.inl h1), h2,
          by rw [plug_keys, node_keys]; simp [h3, Tree.keys, Tree.toList]⟩
  · have hfr : Focus h tree (.R a col k d l c) r := focus_up_R.mpr hf
    obtain ⟨y, hy, hpost⟩ := @minimum_spec _ _ _ _ fuel hfr (by omega)
    rcases hpost with ⟨h1, -⟩ | ⟨n, post, h1, h2, h3⟩
    · exact absurd h1 hr
    · refine ⟨y, c.before.map Prod.fst ++ l.keys, ?_,
        Or.inr ⟨n, post ++ c.after.map Prod.fst,
          mem_addrs_plug.mpr (Or.inr (by simp [Tree.addrs, h1])), h2,
          by rw [plug_keys, node_keys]; simp [h3]⟩⟩
      simp [rb_tree_successor, accS, hcell, hy, ptr_ne_nil_of_sep hnilr hr]

/-- `rb_tree_predecessor` at a node of a tree laid out in the heap: with the
keys of the tree written as `pre ++ k :: rest` around the key `k` of the node,
the result is the sentinel when `pre` is empty and the node that holds the last
key of `pre` otherwise. -/
theorem predecessor_spec {h : Heap} {tree : rb_tree} {c : Ctx} {a : Ptr} {col : rb_node_color}
    {l r : Tree} {k : Nat} {d : Ptr} {fuel : Nat}
    (hf : Focus h tree c (.node a col l k d r))
    (hfuel : (c.plug (.node a col l k d r)).height ≤ fuel) :
    ∃ y rest, rb_tree_predecessor fuel h tree a = .ok y ∧
      (((c.plug (.node a col l k d r)).keys = k :: rest ∧ y = tree.nil) ∨
        ∃ n pre, y ∈ (c.plug (.node a col l k d r)).addrs ∧ h.mem y = some n ∧
          (c.plug (.node a col l k d r)).keys = pre ++ n.key :: k :: rest) := by
  have hph := plug_height c (.node a col l k d r)
  simp only [Tree.height] at hph
  have hcell := focus_cell hf
  have hsep := hf.sep
  have hnill : tree.nil ∉ l.addrs := fun hm =>
    hsep.nil_not_mem (by simp [Tree.addrs, hm])
  by_cases hl : l = .leaf
  · subst hl
    obtain ⟨y, hy, hpost⟩ := predecessor_loop_spec c (.node a col .leaf k d r) fuel hf (by simp)
      (by omega)
    refine ⟨y, r.keys ++ c.after.map Prod.fst, ?_, ?_⟩
    · simp only [tree_ptr_node] at hy
      simp [rb_tree_predecessor, accS, hcell, hy]
    · rcases hpost with ⟨h1, h2⟩ | ⟨n, pre, h1, h2, h3⟩
      · exact Or.inl ⟨by rw [plug_keys, node_keys]; simp [h1, Tree.keys, Tree.toList], h2⟩
      · exact Or.inr ⟨n, pre.map Prod.fst, mem_addrs_plug.mpr (Or.inl h1), h2,
          by rw [plug_keys, node_keys]; simp [h3, Tree.keys, Tree.toList]⟩
  · have hfl : Focus h tree (.L a col k d r c) l := focus_up_L.mpr hf
    obtain ⟨y, hy, hpost⟩ := @maximum_spec _ _ _ _ fuel hfl (by omega)
    rcases hpost with ⟨h1, -⟩ | ⟨n, pre, h1, h2, h3⟩
    · exact absurd h1 hl
    · refine ⟨y, r.keys ++ c.after.map Prod.fst, ?_,
        Or.inr ⟨n, c.before.map Prod.fst ++ pre,
          mem_addrs_plug.mpr (Or.inr (by simp [Tree.addrs, h1])), h2,
          by rw [plug_keys, node_keys]; simp [h3]⟩⟩
      simp [rb_tree_predecessor, accS, hcell, hy, ptr_ne_nil_of_sep hnill hl]

/-! ## Validity of more concrete trees -/

/-- The tree `join_tree1` is valid in `join_heap`. -/
theorem rbvalid_join1 : RBValid join_heap join_hdr1 join_tree1 := by
  refine ⟨⟨⟨rfl, ⟨rfl, ⟨rfl, trivial, trivial⟩, ⟨rfl, trivial, trivial⟩⟩,
    ⟨by decide, by decide, by decide, by decide, ⟨NULL, rfl⟩⟩⟩, by decide, by decide,
    by decide, by decide⟩,
    ⟨by simp [join_tree1, Tree.ColorsOK], rfl, by simp [join_tree1, Tree.RedOK, Tree.color],
      ⟨2, by decide⟩⟩, ?_, ?_⟩
  · simp [Tree.Ordered, Tree.keys, join_tree1, Tree.toList]
  · intro k hk
    simp only [Tree.keys, join_tree1, Tree.toList, List.nil_append, List.map_cons,
      List.map_nil, List.mem_cons, List.mem_singleton, List.cons_append, List.not_mem_nil,
      or_false, List.map_append, List.mem_append] at hk
    have hle : k ≤ 11 := by omega
    exact lt_of_le_of_lt hle (by decide)

/-- The tree `join_tree2` is valid in `join_heap`. -/
theorem rbvalid_join2 : RBValid join_heap join_hdr2 join_tree2 := by
  refine ⟨⟨⟨rfl, ⟨rfl, trivial, trivial⟩,
    ⟨by decide, by decide, by decide, by decide, ⟨NULL, rfl⟩⟩⟩, by decide, by decide,
    by decide, by decide⟩,
    ⟨by simp [join_tree2, Tree.ColorsOK], rfl, by simp [join_tree2, Tree.RedOK, Tree.color],
      ⟨1, by decide⟩⟩, ?_, ?_⟩
  · simp [Tree.Ordered, Tree.keys, join_tree2, Tree.toList]
  · intro k hk
    simp only [Tree.keys, join_tree2, Tree.toList, List.nil_append, List.map_cons,
      List.map_nil, List.mem_cons, List.mem_singleton, List.cons_append, List.not_mem_nil,
      or_false, List.map_append, List.mem_append] at hk
    have hle : k ≤ 11 := by omega
    exact lt_of_le_of_lt hle (by decide)

/-- The state version of the descent loop returns the node that
`rb_tree_concat_descend_right` returns. -/
theorem descend_right_state_fst : ∀ (fuel : Nat) (h : Heap) (t1 : rb_tree) (target : Nat)
    (y : Ptr) (bh : Nat), rb_tree_concat_descend_right fuel h t1 target y bh =
      (rb_tree_concat_descend_right_state fuel h t1 target y bh >>= fun r => pure r.1)
  | 0, _, _, _, _, _ => rfl
  | fuel + 1, h, t1, target, y, bh => by
    rw [rb_tree_concat_descend_right, rb_tree_concat_descend_right_state]
    simp only [descend_right_state_fst fuel]
    by_cases hb : bh = target
    · simp [hb]
    · simp only [hb, ne_eq, not_false_eq_true, if_true]
      cases get_right h y with
      | fault => rfl
      | timeout => rfl
      | ok yr =>
        simp only [res_ok_bind]
        by_cases h1 : yr = t1.nil
        · simp only [h1, not_true_eq_false, if_false]
          cases get_left h y with
          | fault => rfl
          | timeout => rfl
          | ok yl =>
            simp only [res_ok_bind]
            by_cases h2 : yl = t1.nil
            · simp [h2]
            · simp only [h2, not_false_eq_true, if_true]
              cases get_color h yl with
              | fault => rfl
              | timeout => rfl
              | ok c => simp only [res_ok_bind]
        · simp only [h1, not_false_eq_true, if_true]
          cases get_color h yr with
          | fault => rfl
          | timeout => rfl
          | ok c => simp only [res_ok_bind]

/-! ## Deciding the layout of a concrete tree -/

theorem own_of_owned {m : Ptr → Option rb_node} {nil : Ptr} : ∀ {t : Tree} {p : Ptr},
    t.owned m nil p = true → Own m nil t p
  | .leaf, _, _ => trivial
  | .node a c l k d r, p, h => by
    simp only [Tree.owned, Bool.and_eq_true, decide_eq_true_eq] at h
    exact ⟨h.1, own_of_owned h.2.1, own_of_owned h.2.2⟩

theorem represents_of_check {h : Heap} {tree : rb_tree} {t : Tree}
    (hc : represents_check h tree t = true) : Represents h tree t := by
  simp only [represents_check, Bool.and_eq_true, decide_eq_true_eq] at hc
  obtain ⟨h1, h2, h3, h4, h5, h6, h7, h8, h9, h10, h11⟩ := hc
  refine ⟨⟨h1, own_of_owned h2, ⟨by simpa [Ctx.addrs] using h3, by simpa [Ctx.addrs] using h4,
    by simpa [Ctx.addrs] using h5, h6, ?_⟩⟩, h8, h9, h10, h11⟩
  cases hn : h.mem tree.nil with
  | none => rw [hn] at h7; cases h7
  | some n =>
    rw [hn] at h7
    simp only [decide_eq_true_eq] at h7
    exact ⟨n.parent, by rw [← h7]⟩

end RedBlack


namespace RedBlack
open Tree Ctx

/-! ## Parent links -/

theorem own_parents {m : Ptr → Option rb_node} {nil : Ptr} : ∀ {t : Tree} {p : Ptr},
    Own m nil t p → ∀ a ∈ t.addrs, ∃ n, m a = some n ∧
      (n.left ≠ nil → ∃ x, m n.left = some x ∧ x.parent = a) ∧
      (n.right ≠ nil → ∃ x, m n.right = some x ∧ x.parent = a)
  | .leaf, _, _, a, ha => by simp [Tree.addrs] at ha
  | .node b c l k d r, p, ho, a, ha => by
    simp only [Own] at ho
    obtain ⟨hb, hl, hr⟩ := ho
    simp only [Tree.addrs, List.mem_append, List.mem_cons] at ha
    rcases ha with ha | rfl | ha
    · exact own_parents hl a ha
    · refine ⟨_, hb, ?_, ?_⟩
      · intro hne
        cases l with
        | leaf => exact absurd rfl hne
        | node la lc ll lk ld lr => exact ⟨_, hl.1, rfl⟩
      · intro hne
        cases r with
        | leaf => exact absurd rfl hne
        | node ra rc rl rk rd rr => exact ⟨_, hr.1, rfl⟩
    · exact own_parents hr a ha

/-- In a tree that is laid out in the heap the parent links are consistent. -/
theorem parents_ok_of_focus {h : Heap} {tree : rb_tree} {t : Tree} (hf : Focus h tree .top t) :
    ParentsOK h tree t.addrs := by
  refine ⟨fun hne => ?_, own_parents hf.own⟩
  have hroot : tree.root = t.ptr tree.nil := hf.ctx
  cases t with
  | leaf => exact absurd hroot hne
  | node a c l k d r =>
    rw [hroot]
    exact ⟨_, hf.own.1, rfl⟩

/-- The root of a tree laid out in the heap is stored with the colour of the
abstract view. -/
theorem root_cell_color {h : Heap} {tree : rb_tree} {t : Tree} (hf : Focus h tree .top t) :
    ∃ n, h.mem tree.root = some n ∧ n.color = t.color := by
  have hroot : tree.root = t.ptr tree.nil := hf.ctx
  rw [hroot]
  exact own_cell hf.own hf.sep.sentinel

/-! ## The nodes of a tree in order -/

theorem plug_nodes : ∀ (c : Ctx) (t : Tree),
    (c.plug t).nodes = c.nodes_before ++ t.nodes ++ c.nodes_after
  | .top, t => by simp [Ctx.plug, Ctx.nodes_before, Ctx.nodes_after]
  | .L a col k d s up, t => by
    simp [Ctx.plug, plug_nodes up, Ctx.nodes_before, Ctx.nodes_after, Tree.nodes]
  | .R a col k d s up, t => by
    simp [Ctx.plug, plug_nodes up, Ctx.nodes_before, Ctx.nodes_after, Tree.nodes]

theorem blacken_nodes (t : Tree) : t.blacken.nodes = t.nodes := by
  cases t <;> rfl

theorem nodes_addrs : ∀ t : Tree, t.nodes.map (·.1) = t.addrs
  | .leaf => rfl
  | .node a c l k d r => by simp [Tree.nodes, Tree.addrs, nodes_addrs l, nodes_addrs r]

theorem nodes_to_list : ∀ t : Tree, t.nodes.map (·.2) = t.toList
  | .leaf => rfl
  | .node a c l k d r => by simp [Tree.nodes, Tree.toList, nodes_to_list l, nodes_to_list r]

/-- Every node of a tree laid out in the heap is stored at its address with its
key and payload. -/
theorem own_nodes_cell {m : Ptr → Option rb_node} {nil : Ptr} : ∀ {t : Tree} {p : Ptr},
    Own m nil t p → ∀ x ∈ t.nodes, ∃ n, m x.1 = some n ∧ n.key = x.2.1 ∧ n.data = x.2.2
  | .leaf, _, _, x, hx => by simp [Tree.nodes] at hx
  | .node a c l k d r, p, ho, x, hx => by
    simp only [Own] at ho
    simp only [Tree.nodes, List.mem_append, List.mem_cons] at hx
    rcases hx with hx | rfl | hx
    · exact own_nodes_cell ho.2.1 x hx
    · exact ⟨_, ho.1, rfl, rfl⟩
    · exact own_nodes_cell ho.2.2 x hx

theorem append_nodes_before : ∀ (cm o : Ctx),
    (cm.append o).nodes_before = o.nodes_before ++ cm.nodes_before
  | .top, o => by simp [Ctx.append, Ctx.nodes_before]
  | .L a c k d s up, o => by simp [Ctx.append, Ctx.nodes_before, append_nodes_before up o]
  | .R a c k d s up, o => by simp [Ctx.append, Ctx.nodes_before, append_nodes_before up o]

theorem append_nodes_after : ∀ (cm o : Ctx),
    (cm.append o).nodes_after = cm.nodes_after ++ o.nodes_after
  | .top, o => by simp [Ctx.append, Ctx.nodes_after]
  | .L a c k d s up, o => by simp [Ctx.append, Ctx.nodes_after, append_nodes_after up o]
  | .R a c k d s up, o => by simp [Ctx.append, Ctx.nodes_after, append_nodes_after up o]

theorem min_locate_nodes_before : ∀ (t : Tree) (c : Ctx),
    (t.minLocate c).1.nodes_before = c.nodes_before
  | .leaf, _ => rfl
  | .node a col .leaf k d r, c => rfl
  | .node a col (.node la lc ll lk ld lr) k d r, c => by
    rw [Tree.minLocate, min_locate_nodes_before]
    rfl

theorem del_case_L_nodes {pc : rb_node_color} {p : Ptr} {kp : Nat} {dp : Ptr} {x w sub : Tree}
    {f : Bool} (h : del_case_L pc p kp dp x w = some (f, sub)) :
    sub.nodes = x.nodes ++ (p, kp, dp) :: w.nodes := by
  cases w with
  | leaf => simp [del_case_L] at h
  | node w' wc a k d b =>
    simp only [del_case_L] at h
    split_ifs at h
    · simp only [Option.some.injEq, Prod.mk.injEq] at h
      rw [← h.2]; simp [Tree.nodes]
    · cases a with
      | leaf => simp at h
      | node a' ac al ak ad ar =>
        simp only [Option.some.injEq, Prod.mk.injEq] at h
        rw [← h.2]; simp [Tree.nodes]
    · cases b with
      | leaf => simp at h
      | node b' bc bl bk bd br =>
        simp only [Option.some.injEq, Prod.mk.injEq] at h
        rw [← h.2]; simp [Tree.nodes]

theorem del_case_R_nodes {pc : rb_node_color} {p : Ptr} {kp : Nat} {dp : Ptr} {x w sub : Tree}
    {f : Bool} (h : del_case_R pc p kp dp x w = some (f, sub)) :
    sub.nodes = w.nodes ++ (p, kp, dp) :: x.nodes := by
  cases w with
  | leaf => simp [del_case_R] at h
  | node w' wc a k d b =>
    simp only [del_case_R] at h
    split_ifs at h
    · simp only [Option.some.injEq, Prod.mk.injEq] at h
      rw [← h.2]; simp [Tree.nodes]
    · cases b with
      | leaf => simp at h
      | node b' bc bl bk bd br =>
        simp only [Option.some.injEq, Prod.mk.injEq] at h
        rw [← h.2]; simp [Tree.nodes]
    · cases a with
      | leaf => simp at h
      | node a' ac al ak ad ar =>
        simp only [Option.some.injEq, Prod.mk.injEq] at h
        rw [← h.2]; simp [Tree.nodes]

/-- The loop of `rb_tree_delete_fixup` keeps the nodes in order. -/
theorem del_fix_nodes : ∀ (c : Ctx) (t : Tree) (f g : Bool) (e : DelExit),
    del_fix c t f g = some e → (e.ctx.plug e.sub).nodes = (c.plug t).nodes
  | .top, t, f, g, e, h => by
    simp only [del_fix, Option.some.injEq] at h
    subst h; rfl
  | .L p cp kp dp w up, t, f, g, e, h => by
    by_cases hc : t.color = RB_NODE_COLOR_BLACK
    · cases w with
      | leaf =>
        simp [del_fix, hc, del_case_L] at h
      | node w' cw wl wk wd wr =>
        by_cases hcw : cw = RB_NODE_COLOR_RED
        · subst hcw
          rw [del_fix_L_red hc] at h
          rcases hs : del_case_L RB_NODE_COLOR_RED p kp dp t wl with _ | ⟨_ | _, sub⟩
          · rw [hs] at h; cases h
          · rw [hs] at h
            simp only [Option.some.injEq] at h
            subst h
            simp [plug_nodes, Ctx.nodes_before, Ctx.nodes_after, Tree.nodes,
              del_case_L_nodes hs]
          · rw [hs] at h
            simp only [Option.some.injEq] at h
            subst h
            simp [plug_nodes, Ctx.nodes_before, Ctx.nodes_after, Tree.nodes,
              del_case_L_nodes hs]
        · rw [del_fix_L_black hc hcw] at h
          rcases hs : del_case_L cp p kp dp t (.node w' cw wl wk wd wr) with _ | ⟨_ | _, sub⟩
          · rw [hs] at h; cases h
          · rw [hs] at h
            simp only at h
            rw [del_fix_nodes up sub f true e h]
            simp [plug_nodes, Ctx.nodes_before, Ctx.nodes_after, Tree.nodes,
              del_case_L_nodes hs]
          · rw [hs] at h
            simp only [Option.some.injEq] at h
            subst h
            simp [plug_nodes, Ctx.nodes_before, Ctx.nodes_after, Tree.nodes,
              del_case_L_nodes hs]
    · simp only [del_fix, hc, if_false, Option.some.injEq] at h
      subst h; rfl
  | .R p cp kp dp w up, t, f, g, e, h => by
    by_cases hc : t.color = RB_NODE_COLOR_BLACK
    · cases w with
      | leaf =>
        simp [del_fix, hc, del_case_R] at h
      | node w' cw wl wk wd wr =>
        by_cases hcw : cw = RB_NODE_COLOR_RED
        · subst hcw
          rw [del_fix_R_red hc] at h
          rcases hs : del_case_R RB_NODE_COLOR_RED p kp dp t wr with _ | ⟨_ | _, sub⟩
          · rw [hs] at h; cases h
          · rw [hs] at h
            simp only [Option.some.injEq] at h
            subst h
            simp [plug_nodes, Ctx.nodes_before, Ctx.nodes_after, Tree.nodes,
              del_case_R_nodes hs]
          · rw [hs] at h
            simp only [Option.some.injEq] at h
            subst h
            simp [plug_nodes, Ctx.nodes_before, Ctx.nodes_after, Tree.nodes,
              del_case_R_nodes hs]
        · rw [del_fix_R_black hc hcw] at h
          rcases hs : del_case_R cp p kp dp t (.node w' cw wl wk wd wr) with _ | ⟨_ | _, sub⟩
          · rw [hs] at h; cases h
          · rw [hs] at h
            simp only at h
            rw [del_fix_nodes up sub f true e h]
            simp [plug_nodes, Ctx.nodes_before, Ctx.nodes_after, Tree.nodes,
              del_case_R_nodes hs]
          · rw [hs] at h
            simp only [Option.some.injEq] at h
            subst h
            simp [plug_nodes, Ctx.nodes_before, Ctx.nodes_after, Tree.nodes,
              del_case_R_nodes hs]
    · simp only [del_fix, hc, if_false, Option.some.injEq] at h
      subst h; rfl

/-- The unlinking of `__rb_tree_delete` takes the node at the root of the
subtree out of the nodes in order and leaves the others as they are. -/
theorem del_unlink_nodes {c cx : Ctx} {z : Ptr} {cz yc : rb_node_color} {zk : Nat} {zd : Ptr}
    {zl zr x : Tree} (hu : del_unlink c (.node z cz zl zk zd zr) = some (cx, x, yc)) :
    (cx.plug x).nodes = c.nodes_before ++ zl.nodes ++ zr.nodes ++ c.nodes_after := by
  cases zl with
  | leaf =>
    simp only [del_unlink, Option.some.injEq, Prod.mk.injEq] at hu
    obtain ⟨rfl, rfl, rfl⟩ := hu
    simp [plug_nodes, Tree.nodes]
  | node la lc ll lk ld lr =>
    cases zr with
    | leaf =>
      simp only [del_unlink, Option.some.injEq, Prod.mk.injEq] at hu
      obtain ⟨rfl, rfl, rfl⟩ := hu
      simp [plug_nodes, Tree.nodes]
    | node ra rc rl rk rd rr =>
      obtain ⟨cm, y, cy, ky, dy, yr, h1, h2, -⟩ :=
        min_locate_spec (.node ra rc rl rk rd rr) .top (by simp)
      have hb := min_locate_nodes_before (.node ra rc rl rk rd rr) .top
      rw [append_top] at h1
      rw [h1] at hb
      simp only [Ctx.nodes_before] at hb
      simp only [del_unlink, h1, Option.some.injEq, Prod.mk.injEq] at hu
      obtain ⟨rfl, rfl, rfl⟩ := hu
      rw [h2]
      simp [plug_nodes, append_nodes_before, append_nodes_after, Ctx.nodes_before,
        Ctx.nodes_after, Tree.nodes, hb]

/-- `Tree.delete` takes the node that holds the key out of the nodes in order
and leaves the others, with their addresses, keys and payloads, in place. -/
theorem tree_delete_nodes {t t' : Tree} {key : Nat} (hd : t.delete key = some t') :
    ∃ c z cz zl zk zd zr, t.locate key .top = (c, .node z cz zl zk zd zr) ∧
      t.nodes = c.nodes_before ++ zl.nodes ++ (z, zk, zd) :: zr.nodes ++ c.nodes_after ∧
      t'.nodes = c.nodes_before ++ zl.nodes ++ zr.nodes ++ c.nodes_after := by
  have hplug := locate_plug key t .top
  simp only [Ctx.plug] at hplug
  rcases hloc : t.locate key .top with ⟨c, s⟩
  rw [hloc] at hplug
  simp only at hplug
  cases s with
  | leaf => simp [Tree.delete, hloc] at hd
  | node z cz zl zk zd zr =>
    refine ⟨c, z, cz, zl, zk, zd, zr, rfl, ?_, ?_⟩
    · rw [← hplug, plug_nodes]; simp [Tree.nodes]
    · simp only [Tree.delete, hloc] at hd
      rcases hu : del_unlink c (.node z cz zl zk zd zr) with _ | ⟨cx, x, yc⟩
      · simp [hu] at hd
      · simp only [hu] at hd
        have hn := del_unlink_nodes hu
        split_ifs at hd with hb
        · rcases hf : del_fix cx x false false with _ | e
          · simp [hf] at hd
          · simp only [hf, Option.map_some', Option.some.injEq] at hd
            subst hd
            have := del_fix_nodes cx x false false e hf
            rw [plug_nodes, blacken_nodes, ← plug_nodes, this, hn]
        · simp only [Option.some.injEq] at hd
          subst hd
          exact hn

/-- `rb_tree_delete` of a stored key: the node `z` that holds the key, the one
`rb_tree_search` returns, is taken out of the tree and released; every other
node stays in the tree at its place in the order, with its address, key and
payload. -/
theorem delete_nodes_spec {fuel : Nat} {h : Heap} {tree : rb_tree} {t : Tree} {key : Nat}
    {d : Ptr} (hv : RBValid h tree t) (hm : (key, d) ∈ t.toList) (hfuel : t.height + 2 ≤ fuel) :
    ∃ r t' c z cz zl zr, rb_tree_delete fuel h tree key = .ok r ∧ r.2.2 = 0 ∧
      RBValid r.1 r.2.1 t' ∧ t.locate key .top = (c, .node z cz zl key d zr) ∧
      rb_tree_search fuel h tree key = .ok z ∧
      t.nodes = c.nodes_before ++ zl.nodes ++ (z, key, d) :: zr.nodes ++ c.nodes_after ∧
      t'.nodes = c.nodes_before ++ zl.nodes ++ zr.nodes ++ c.nodes_after ∧
      r.1.mem z = none ∧ z ∉ t'.addrs ∧
      ∀ x ∈ t'.nodes, ∃ n, r.1.mem x.1 = some n ∧ n.key = x.2.1 ∧ n.data = x.2.2 := by
  obtain ⟨r, t', -, -, hr, h0, hT, hv', -⟩ := delete_valid hv hm hfuel
  obtain ⟨c, z, cz, zl, zk, zd, zr, hloc, hn, hn'⟩ := tree_delete_nodes hT
  obtain ⟨a, col, l, r0, hloc2⟩ := locate_found hv.ordered hm
  rw [hloc] at hloc2
  simp only [Tree.node.injEq] at hloc2
  obtain ⟨-, -, -, hk, hd, -⟩ := hloc2
  rw [hk, hd] at hloc hn
  have hs := search_loop_spec key t fuel .top h tree hv.repr.focus hfuel
  rw [hloc] at hs
  simp only at hs
  have hroot : tree.root = t.ptr tree.nil := hv.repr.focus.ctx
  have hsearch : rb_tree_search fuel h tree key = .ok z := by
    rw [rb_tree_search, hroot]; exact hs
  have hnd : t.addrs.Nodup := by simpa [Ctx.addrs] using hv.repr.focus.sep.nodup
  have hzt : z ∉ t'.addrs := by
    rw [← nodes_addrs, hn] at hnd
    rw [← nodes_addrs, hn']
    simp only [List.map_append, List.map_cons, List.append_assoc] at hnd ⊢
    intro hmem
    have h1 := List.nodup_iff_count_le_one.mp hnd z
    simp only [List.count_append, List.count_cons_self] at h1
    simp only [List.mem_append] at hmem
    rcases hmem with hmem | hmem | hmem | hmem <;>
      have := List.count_pos_iff.mpr hmem <;> omega
  have hz0 : z ≠ NULL := fun e => hv.repr.focus.sep.null_not_mem (by
    rw [← nodes_addrs, hn]; simp [Ctx.addrs, e])
  have hfree : r.1.mem z = none := by
    have hr' := hr
    simp only [rb_tree_delete, hsearch, res_ok_bind, hz0, if_false] at hr'
    cases h1 : __rb_tree_delete fuel h tree z with
    | fault => rw [h1] at hr'; cases hr'
    | timeout => rw [h1] at hr'; cases hr'
    | ok ht =>
      rw [h1] at hr'
      simp only [res_ok_bind, rb_node_dealloc] at hr'
      cases h2 : get_data ht.1 z with
      | fault => rw [h2] at hr'; cases hr'
      | timeout => rw [h2] at hr'; cases hr'
      | ok dd =>
        rw [h2] at hr'
        simp only [res_ok_bind, res_pure_eq, Res.ok.injEq] at hr'
        rw [← hr']
        simp [Heap.free]
  exact ⟨r, t', c, z, cz, zl, zr, hr, h0, hv', hloc, hsearch, hn, hn', hfree, hzt,
    own_nodes_cell hv'.repr.focus.own⟩

/-! ## Successor and predecessor as steps along the nodes in order -/

theorem minimum_loop_nodes {h : Heap} {tree : rb_tree} : ∀ (t : Tree) (fuel : Nat) (q : Ptr),
    Own h.mem tree.nil t q → tree.nil ∉ t.addrs → t ≠ .leaf → t.height ≤ fuel →
    ∃ a k d post, rb_tree_minimum_loop fuel h tree (t.ptr tree.nil) = .ok a ∧
      t.nodes = (a, k, d) :: post
  | .leaf, _, _, _, _, hne, _ => absurd rfl hne
  | .node a col .leaf k d r, fuel, q, ho, _, _, hfuel => by
    obtain ⟨m, rfl⟩ : ∃ m, fuel = m + 1 := ⟨fuel - 1, by simp [Tree.height] at hfuel; omega⟩
    simp only [Own, tree_ptr_leaf, tree_ptr_node] at ho
    refine ⟨a, k, d, r.nodes, ?_, by simp [Tree.nodes]⟩
    simp [rb_tree_minimum_loop, accS, ho.1]
  | .node a col (.node la lc ll lk ld lr) k d r, fuel, q, ho, hnil, _, hfuel => by
    obtain ⟨m, rfl⟩ : ∃ m, fuel = m + 1 := ⟨fuel - 1, by simp [Tree.height] at hfuel; omega⟩
    have ho' := ho
    simp only [Own, tree_ptr_leaf, tree_ptr_node] at ho
    have hla : la ≠ tree.nil := fun e => hnil (by simp [Tree.addrs, e])
    obtain ⟨b, kb, db, post, hb, hfirst⟩ :=
      minimum_loop_nodes (.node la lc ll lk ld lr) m a ho'.2.1
        (fun hm => hnil (by
          rw [Tree.addrs, List.mem_append]; exact Or.inl hm))
        (by simp) (by simp only [Tree.height] at hfuel ⊢; omega)
    refine ⟨b, kb, db, post ++ (a, k, d) :: r.nodes, ?_, ?_⟩
    · simp only [tree_ptr_node] at hb
      simp [rb_tree_minimum_loop, accS, ho.1, hla, hb]
    · rw [Tree.nodes, hfirst]; rfl

theorem maximum_loop_nodes {h : Heap} {tree : rb_tree} : ∀ (t : Tree) (fuel : Nat) (q : Ptr),
    Own h.mem tree.nil t q → tree.nil ∉ t.addrs → t ≠ .leaf → t.height ≤ fuel →
    ∃ a k d pre, rb_tree_maximum_loop fuel h tree (t.ptr tree.nil) = .ok a ∧
      t.nodes = pre ++ [(a, k, d)]
  | .leaf, _, _, _, _, hne, _ => absurd rfl hne
  | .node a col l k d .leaf, fuel, q, ho, _, _, hfuel => by
    obtain ⟨m, rfl⟩ : ∃ m, fuel = m + 1 := ⟨fuel - 1, by simp [Tree.height] at hfuel; omega⟩
    simp only [Own, tree_ptr_leaf, tree_ptr_node] at ho
    refine ⟨a, k, d, l.nodes, ?_, by simp [Tree.nodes]⟩
    simp [rb_tree_maximum_loop, accS, ho.1]
  | .node a col l k d (.node ra rc rl rk rd rr), fuel, q, ho, hnil, _, hfuel => by
    obtain ⟨m, rfl⟩ : ∃ m, fuel = m + 1 := ⟨fuel - 1, by simp [Tree.height] at hfuel; omega⟩
    have ho' := ho
    simp only [Own, tree_ptr_leaf, tree_ptr_node] at ho
    have hra : ra ≠ tree.nil := fun e => hnil (by simp [Tree.addrs, e])
    obtain ⟨b, kb, db, pre, hb, hlast⟩ :=
      maximum_loop_nodes (.node ra rc rl rk rd rr) m a ho'.2.2
        (fun hm => hnil (by
          rw [Tree.addrs, List.mem_append, List.mem_cons]; exact Or.inr (Or.inr hm)))
        (by simp) (by simp only [Tree.height] at hfuel ⊢; omega)
    refine ⟨b, kb, db, l.nodes ++ (a, k, d) :: pre, ?_, ?_⟩
    · simp only [tree_ptr_node] at hb
      simp [rb_tree_maximum_loop, accS, ho.1, hra, hb]
    · rw [Tree.nodes, hlast]; simp

theorem successor_loop_nodes {h : Heap} {tree : rb_tree} : ∀ (c : Ctx) (t : Tree) (fuel : Nat),
    Focus h tree c t → t ≠ .leaf → c.depth < fuel →
    ∃ y, rb_tree_successor_loop fuel h tree (t.ptr tree.nil) (c.par tree.nil) = .ok y ∧
      ((c.nodes_after = [] ∧ y = tree.nil) ∨ ∃ k d rest, c.nodes_after = (y, k, d) :: rest)
  | .top, t, fuel, hf, hne, hfuel => by
    obtain ⟨m, rfl⟩ : ∃ m, fuel = m + 1 := ⟨fuel - 1, by omega⟩
    exact ⟨tree.nil, by simp [rb_tree_successor_loop], Or.inl ⟨rfl, rfl⟩⟩
  | .L a col k d s up, t, fuel, hf, hne, hfuel => by
    obtain ⟨m, rfl⟩ : ∃ m, fuel = m + 1 := ⟨fuel - 1, by omega⟩
    obtain ⟨x, xc, xl, xk, xd, xr, rfl⟩ : ∃ x xc xl xk xd xr, t = .node x xc xl xk xd xr := by
      cases t with
      | leaf => exact absurd rfl hne
      | node x xc xl xk xd xr => exact ⟨x, xc, xl, xk, xd, xr, rfl⟩
    obtain ⟨hc, ho, hsep⟩ := hf
    have hnd := hsep.nodup
    have hnil := hsep.nil_not_mem
    simp only [CtxOwn, tree_ptr_node, ctx_par_L] at hc
    simp only [sepS, not_or, List.cons_append, not_false_eq_true, true_and, and_true,
      not_true_eq_false, false_or, or_false, List.append_nil, Ctx.addrs, Tree.addrs] at hnd hnil
    refine ⟨a, ?_, Or.inr ⟨k, d, s.nodes ++ up.nodes_after, by simp [Ctx.nodes_after]⟩⟩
    rw [rb_tree_successor_loop]
    simp [-Prod.exists, accS, hc.1, hnil, tree_ptr_node, ctx_par_L,
      eq_tree_ptr_false hnd.2.2.2.2.1.1 hnil.2.2.2.1.2]
  | .R a col k d s up, t, fuel, hf, hne, hfuel => by
    obtain ⟨m, rfl⟩ : ∃ m, fuel = m + 1 := ⟨fuel - 1, by omega⟩
    have hf0 := hf
    obtain ⟨hc, ho, hsep⟩ := hf
    have hnil := hsep.nil_not_mem
    simp only [CtxOwn, ctx_par_R] at hc
    simp only [sepS, not_or, List.cons_append, not_false_eq_true, true_and, and_true,
      not_true_eq_false, false_or, or_false, List.append_nil, Ctx.addrs] at hnil
    obtain ⟨y, hy, hpost⟩ := successor_loop_nodes up (.node a col s k d t) m
      (focus_up_R.mp hf0) (by simp) (by simp only [Ctx.depth] at hfuel; omega)
    refine ⟨y, ?_, ?_⟩
    · rw [rb_tree_successor_loop]
      simp only [tree_ptr_node] at hy
      simp [-Prod.exists, accS, hc.1, hnil, ctx_par_R, hy]
    · simpa [Ctx.nodes_after] using hpost

theorem predecessor_loop_nodes {h : Heap} {tree : rb_tree} : ∀ (c : Ctx) (t : Tree)
    (fuel : Nat), Focus h tree c t → t ≠ .leaf → c.depth < fuel →
    ∃ y, rb_tree_predecessor_loop fuel h tree (t.ptr tree.nil) (c.par tree.nil) = .ok y ∧
      ((c.nodes_before = [] ∧ y = tree.nil) ∨
        ∃ k d pre, c.nodes_before = pre ++ [(y, k, d)])
  | .top, t, fuel, hf, hne, hfuel => by
    obtain ⟨m, rfl⟩ : ∃ m, fuel = m + 1 := ⟨fuel - 1, by omega⟩
    exact ⟨tree.nil, by simp [rb_tree_predecessor_loop], Or.inl ⟨rfl, rfl⟩⟩
  | .R a col k d s up, t, fuel, hf, hne, hfuel => by
    obtain ⟨m, rfl⟩ : ∃ m, fuel = m + 1 := ⟨fuel - 1, by omega⟩
    obtain ⟨x, xc, xl, xk, xd, xr, rfl⟩ : ∃ x xc xl xk xd xr, t = .node x xc xl xk xd xr := by
      cases t with
      | leaf => exact absurd rfl hne
      | node x xc xl xk xd xr => exact ⟨x, xc, xl, xk, xd, xr, rfl⟩
    obtain ⟨hc, ho, hsep⟩ := hf
    have hnd := hsep.nodup
    have hnil := hsep.nil_not_mem
    simp only [CtxOwn, tree_ptr_node, ctx_par_R] at hc
    simp only [sepS, not_or, List.cons_append, not_false_eq_true, true_and, and_true,
      not_true_eq_false, false_or, or_false, List.append_nil, Ctx.addrs, Tree.addrs] at hnd hnil
    refine ⟨a, ?_, Or.inr ⟨k, d, up.nodes_before ++ s.nodes, by simp [Ctx.nodes_before]⟩⟩
    rw [rb_tree_predecessor_loop]
    simp [-Prod.exists, accS, hc.1, hnil, tree_ptr_node, ctx_par_R,
      eq_tree_ptr_false hnd.2.2.2.2.1.1 hnil.2.2.2.1.2]
  | .L a col k d s up, t, fuel, hf, hne, hfuel => by
    obtain ⟨m, rfl⟩ : ∃ m, fuel = m + 1 := ⟨fuel - 1, by omega⟩
    have hf0 := hf
    obtain ⟨hc, ho, hsep⟩ := hf
    have hnil := hsep.nil_not_mem
    simp only [CtxOwn, ctx_par_L] at hc
    simp only [sepS, not_or, List.cons_append, not_false_eq_true, true_and, and_true,
      not_true_eq_false, false_or, or_false, List.append_nil, Ctx.addrs] at hnil
    obtain ⟨y, hy, hpost⟩ := predecessor_loop_nodes up (.node a col t k d s) m
      (focus_up_L.mp hf0) (by simp) (by simp only [Ctx.depth] at hfuel; omega)
    refine ⟨y, ?_, ?_⟩
    · rw [rb_tree_predecessor_loop]
      simp only [tree_ptr_node] at hy
      simp [-Prod.exists, accS, hc.1, hnil, ctx_par_L, hy]
    · simpa [Ctx.nodes_before] using hpost

/-- `rb_tree_successor` at a node of a tree laid out in the heap returns the next
node in order, and the sentinel at the last node. -/
theorem successor_nodes {h : Heap} {tree : rb_tree} {c : Ctx} {a : Ptr} {col : rb_node_color}
    {l r : Tree} {k : Nat} {d : Ptr} {fuel : Nat}
    (hf : Focus h tree c (.node a col l k d r))
    (hfuel : (c.plug (.node a col l k d r)).height ≤ fuel) :
    ∃ y pre, rb_tree_successor fuel h tree a = .ok y ∧
      (((c.plug (.node a col l k d r)).nodes = pre ++ [(a, k, d)] ∧ y = tree.nil) ∨
        ∃ k' d' rest,
          (c.plug (.node a col l k d r)).nodes = pre ++ (a, k, d) :: (y, k', d') :: rest) := by
  have hph := plug_height c (.node a col l k d r)
  simp only [Tree.height] at hph
  have hcell := focus_cell hf
  have hsep := hf.sep
  have hnilr : tree.nil ∉ r.addrs := fun hm =>
    hsep.nil_not_mem (by simp [Tree.addrs, hm])
  by_cases hr : r = .leaf
  · subst hr
    obtain ⟨y, hy, hpost⟩ := successor_loop_nodes c (.node a col l k d .leaf) fuel hf (by simp)
      (by omega)
    refine ⟨y, c.nodes_before ++ l.nodes, ?_, ?_⟩
    · simp only [tree_ptr_node] at hy
      simp [rb_tree_successor, accS, hcell, hy]
    · rcases hpost with ⟨h1, h2⟩ | ⟨k', d', rest, h1⟩
      · exact Or.inl ⟨by rw [plug_nodes]; simp [h1, Tree.nodes], h2⟩
      · exact Or.inr ⟨k', d', rest, by rw [plug_nodes]; simp [h1, Tree.nodes]⟩
  · have hfr : Focus h tree (.R a col k d l c) r := focus_up_R.mpr hf
    have hnil : tree.nil ∉ r.addrs := hnilr
    obtain ⟨y, k', d', post, hy, h3⟩ :=
      minimum_loop_nodes r fuel _ hfr.own hnil hr (by omega)
    refine ⟨y, c.nodes_before ++ l.nodes, ?_,
      Or.inr ⟨k', d', post ++ c.nodes_after, by rw [plug_nodes]; simp [h3, Tree.nodes]⟩⟩
    simp [rb_tree_successor, rb_tree_minimum, accS, hcell, hy, ptr_ne_nil_of_sep hnilr hr]

/-- `rb_tree_predecessor` at a node of a tree laid out in the heap returns the
node before it in order, and the sentinel at the first node. -/
theorem predecessor_nodes {h : Heap} {tree : rb_tree} {c : Ctx} {a : Ptr}
    {col : rb_node_color} {l r : Tree} {k : Nat} {d : Ptr} {fuel : Nat}
    (hf : Focus h tree c (.node a col l k d r))
    (hfuel : (c.plug (.node a col l k d r)).height ≤ fuel) :
    ∃ y rest, rb_tree_predecessor fuel h tree a = .ok y ∧
      (((c.plug (.node a col l k d r)).nodes = (a, k, d) :: rest ∧ y = tree.nil) ∨
        ∃ k' d' pre,
          (c.plug (.node a col l k d r)).nodes = pre ++ (y, k', d') :: (a, k, d) :: rest) := by
  have hph := plug_height c (.node a col l k d r)
  simp only [Tree.height] at hph
  have hcell := focus_cell hf
  have hsep := hf.sep
  have hnill : tree.nil ∉ l.addrs := fun hm =>
    hsep.nil_not_mem (by simp [Tree.addrs, hm])
  by_cases hl : l = .leaf
  · subst hl
    obtain ⟨y, hy, hpost⟩ := predecessor_loop_nodes c (.node a col .leaf k d r) fuel hf
      (by simp) (by omega)
    refine ⟨y, r.nodes ++ c.nodes_after, ?_, ?_⟩
    · simp only [tree_ptr_node] at hy
      simp [rb_tree_predecessor, accS, hcell, hy]
    · rcases hpost with ⟨h1, h2⟩ | ⟨k', d', pre, h1⟩
      · exact Or.inl ⟨by rw [plug_nodes]; simp [h1, Tree.nodes], h2⟩
      · exact Or.inr ⟨k', d', pre, by rw [plug_nodes]; simp [h1, Tree.nodes]⟩
  · have hfl : Focus h tree (.L a col k d r c) l := focus_up_L.mpr hf
    obtain ⟨y, k', d', pre, hy, h3⟩ :=
      maximum_loop_nodes l fuel _ hfl.own hnill hl (by omega)
    refine ⟨y, r.nodes ++ c.nodes_after, ?_,
      Or.inr ⟨k', d', c.nodes_before ++ pre, by rw [plug_nodes]; simp [h3, Tree.nodes]⟩⟩
    simp [rb_tree_predecessor, rb_tree_maximum, accS, hcell, hy, ptr_ne_nil_of_sep hnill hl]

/-- Every node of a tree is the root of a subtree of it. -/
theorem exists_ctx_of_node : ∀ (t : Tree) (c0 : Ctx) (x : Ptr × Nat × Ptr), x ∈ t.nodes →
    ∃ (c : Ctx) (col : rb_node_color) (l r : Tree),
      c.plug (.node x.1 col l x.2.1 x.2.2 r) = c0.plug t
  | .leaf, _, x, hx => by simp [Tree.nodes] at hx
  | .node a col l k d r, c0, x, hx => by
    simp only [Tree.nodes, List.mem_append, List.mem_cons] at hx
    rcases hx with hx | rfl | hx
    · exact exists_ctx_of_node l (.L a col k d r c0) x hx
    · exact ⟨c0, col, l, r, rfl⟩
    · exact exists_ctx_of_node r (.R a col k d l c0) x hx

/-- In a list without repetition an element splits the list in one way only. -/
theorem split_unique {α : Type} {x : α} : ∀ {l1 l2 r1 r2 : List α},
    (l1 ++ x :: r1).Nodup → l1 ++ x :: r1 = l2 ++ x :: r2 → l1 = l2 ∧ r1 = r2
  | [], [], r1, r2, _, h => by simpa using h
  | [], y :: l2, r1, r2, hn, h => by
    exfalso
    simp only [List.nil_append, List.cons_append, List.cons.injEq] at h
    obtain ⟨rfl, rfl⟩ := h
    simp at hn
  | a :: l1, [], r1, r2, hn, h => by
    exfalso
    simp only [List.nil_append, List.cons_append, List.cons.injEq] at h
    obtain ⟨rfl, -⟩ := h
    simp at hn
  | a :: l1, b :: l2, r1, r2, hn, h => by
    simp only [List.cons_append, List.cons.injEq] at h
    obtain ⟨rfl, h⟩ := h
    obtain ⟨h1, h2⟩ := split_unique (List.nodup_cons.mp hn).2 h
    exact ⟨by rw [h1], h2⟩

/-! ## The walk along the nodes -/

/-- The walk of `test_rb_successor_and_predecessor`, started at a node `x` of a
tree laid out in the heap with `rest` the nodes after it and `prev` the node
before it (the sentinel when there is none), lists `x` and the nodes after it,
each with the node before and the node after it. -/
theorem walk_spec {fuel : Nat} {h : Heap} {tree : rb_tree} {t : Tree}
    (hf : Focus h tree .top t) (hfuel : t.height ≤ fuel) :
    ∀ (rest pre : List (Ptr × Nat × Ptr)) (x : Ptr × Nat × Ptr) (prev : Ptr),
    t.nodes = pre ++ x :: rest →
    ((pre = [] ∧ prev = tree.nil) ∨ ∃ pre' p, pre = pre' ++ [p] ∧ prev = p.1) →
    rb_tree_walk fuel h tree (rest.length + 2) x.1 = .ok (walk_list tree.nil prev (x :: rest)) := by
  have hnd : t.nodes.Nodup := by
    have : t.addrs.Nodup := by simpa [Ctx.addrs] using hf.sep.nodup
    rw [← nodes_addrs] at this
    exact List.Nodup.of_map _ this
  have hnil : tree.nil ∉ t.addrs := by simpa [Ctx.addrs] using hf.sep.nil_not_mem
  intro rest
  induction rest with
  | nil =>
    intro pre x prev hn hprev
    have hx : x ∈ t.nodes := by rw [hn]; simp
    have hxa : x.1 ∈ t.addrs := by
      rw [← nodes_addrs]; exact List.mem_map_of_mem _ hx
    have hxn : x.1 ≠ tree.nil := fun e => hnil (e ▸ hxa)
    obtain ⟨c, col, l, r, hplug⟩ := exists_ctx_of_node t .top x hx
    simp only [Ctx.plug] at hplug
    have hfx : Focus h tree c (.node x.1 col l x.2.1 x.2.2 r) := focus_unplug (hplug ▸ hf)
    have hfl : (c.plug (.node x.1 col l x.2.1 x.2.2 r)).height ≤ fuel := by
      rw [hplug]; exact hfuel
    obtain ⟨y, pre1, hy, hs⟩ := successor_nodes hfx hfl
    obtain ⟨yp, rest1, hyp, hp⟩ := predecessor_nodes hfx hfl
    rw [hplug] at hs hp
    have hyn : y = tree.nil := by
      rcases hs with ⟨-, h2⟩ | ⟨k', d', rest', h1⟩
      · exact h2
      · rw [hn] at h1 hnd
        have := (split_unique hnd h1).2
        cases this
    have hpv : yp = prev := by
      rcases hp with ⟨h1, h2⟩ | ⟨k', d', pre2, h1⟩
      · rw [hn] at h1 hnd
        have hpe : pre = [] := (@split_unique _ _ _ [] _ _ hnd h1).1
        rcases hprev with ⟨-, h3⟩ | ⟨pre', p, h3, -⟩
        · rw [h2, h3]
        · rw [hpe] at h3; simp at h3
      · rw [hn] at h1 hnd
        have hpe : pre = pre2 ++ [(yp, k', d')] := by
          have := (@split_unique _ _ _ (pre2 ++ [(yp, k', d')]) _ _ hnd (by simpa using h1)).1
          exact this
        rcases hprev with ⟨h3, -⟩ | ⟨pre', p, h3, h4⟩
        · rw [h3] at hpe; simp at hpe
        · rw [hpe] at h3
          have := List.append_inj_right' h3 rfl
          simp only [List.cons.injEq, and_true] at this
          rw [h4, ← this]
    simp [rb_tree_walk, hxn, hy, hyp, hyn, hpv, walk_list]
  | cons z rest ih =>
    intro pre x prev hn hprev
    have hx : x ∈ t.nodes := by rw [hn]; simp
    have hxa : x.1 ∈ t.addrs := by
      rw [← nodes_addrs]; exact List.mem_map_of_mem _ hx
    have hxn : x.1 ≠ tree.nil := fun e => hnil (e ▸ hxa)
    obtain ⟨c, col, l, r, hplug⟩ := exists_ctx_of_node t .top x hx
    simp only [Ctx.plug] at hplug
    have hfx : Focus h tree c (.node x.1 col l x.2.1 x.2.2 r) := focus_unplug (hplug ▸ hf)
    have hfl : (c.plug (.node x.1 col l x.2.1 x.2.2 r)).height ≤ fuel := by
      rw [hplug]; exact hfuel
    obtain ⟨y, pre1, hy, hs⟩ := successor_nodes hfx hfl
    obtain ⟨yp, rest1, hyp, hp⟩ := predecessor_nodes hfx hfl
    rw [hplug] at hs hp
    have hnd' := hnd
    have hyz : y = z.1 := by
      rcases hs with ⟨h1, -⟩ | ⟨k', d', rest', h1⟩
      · rw [hn] at h1 hnd
        have := (@split_unique _ _ _ _ _ [] hnd h1).2
        cases this
      · rw [hn] at h1 hnd
        have := (split_unique hnd h1).2
        simp only [List.cons.injEq] at this
        rw [this.1]
    have hpv : yp = prev := by
      rcases hp with ⟨h1, h2⟩ | ⟨k', d', pre2, h1⟩
      · rw [hn] at h1 hnd
        have hpe : pre = [] := (@split_unique _ _ _ [] _ _ hnd h1).1
        rcases hprev with ⟨-, h3⟩ | ⟨pre', p, h3, -⟩
        · rw [h2, h3]
        · rw [hpe] at h3; simp at h3
      · rw [hn] at h1 hnd
        have hpe : pre = pre2 ++ [(yp, k', d')] := by
          have := (@split_unique _ _ _ (pre2 ++ [(yp, k', d')]) _ _ hnd (by simpa using h1)).1
          exact this
        rcases hprev with ⟨h3, -⟩ | ⟨pre', p, h3, h4⟩
        · rw [h3] at hpe; simp at hpe
        · rw [hpe] at h3
          have := List.append_inj_right' h3 rfl
          simp only [List.cons.injEq, and_true] at this
          rw [h4, ← this]
    have hrec := ih (pre ++ [x]) z x.1 (by rw [hn]; simp) (Or.inr ⟨pre, x, rfl, rfl⟩)
    simp only [List.length_cons]
    rw [rb_tree_walk]
    simp [hxn, hy, hyp, hpv, hrec, walk_list, hyz]

theorem walk_list_length (nil : Ptr) : ∀ (l : List (Ptr × Nat × Ptr)) (prev : Ptr),
    (walk_list nil prev l).length = l.length
  | [], _ => rfl
  | [x], _ => rfl
  | x :: y :: rest, prev => by
    simp only [walk_list, List.length_cons, walk_list_length nil (y :: rest) x.1]

theorem walk_list_cur (nil : Ptr) : ∀ (l : List (Ptr × Nat × Ptr)) (prev : Ptr),
    (walk_list nil prev l).map (·.1) = l.map (·.1)
  | [], _ => rfl
  | [x], _ => rfl
  | x :: y :: rest, prev => by
    simp only [walk_list, List.map_cons, walk_list_cur nil (y :: rest) x.1]

theorem walk_list_pred (nil : Ptr) : ∀ (l : List (Ptr × Nat × Ptr)) (prev : Ptr),
    (walk_list nil prev l).map (·.2.1) = (prev :: l.map (·.1)).dropLast
  | [], _ => rfl
  | [x], _ => rfl
  | x :: y :: rest, prev => by
    simp only [walk_list, List.map_cons, walk_list_pred nil (y :: rest) x.1]
    simp [List.dropLast]

theorem walk_list_succ (nil : Ptr) : ∀ (l : List (Ptr × Nat × Ptr)) (prev : Ptr),
    (walk_list nil prev l).map (·.2.2) = (l.map (·.1)).tail ++ (if l = [] then [] else [nil])
  | [], _ => rfl
  | [x], _ => rfl
  | x :: y :: rest, prev => by
    simp only [walk_list, List.map_cons, walk_list_succ nil (y :: rest) x.1]
    simp

/-! ## `rb_tree_concat` and `rb_tree_split` return -/

end RedBlack


namespace RedBlack
open Tree Ctx

/-! ## The queries, the `bh` field along the runs of `test_rb_bh`, and the descent of `rb_tree_concat` -/

/-- C21: `rb_tree_split` of the valid tree with the keys 1, 3, 5, 7, 9, 11 in
`six_heap` (black count 2, `bh` = 2) at the pivot 0 returns 0 with an empty first
tree and the second tree `six_split`, in which the paths from the root to the
sentinel contain 2, 2, 2, 2, 2, 1 and 1 Black nodes, so not the same number on
every path, and whose `bh` field is 1. -/
theorem split_breaks_balance :
    RBValid six_heap six_hdr six_tree ∧ six_tree.Balanced six_hdr.bh ∧
      ∃ r, rb_tree_split 4 six_heap six_hdr 0 = .ok r ∧ r.2.2.2 = 0 ∧
        Represents r.1 r.2.1 .leaf ∧ Represents r.1 r.2.2.1 six_split ∧
        six_split.pathBlacks = [2, 2, 2, 2, 2, 1, 1] ∧ (¬∃ n, six_split.Balanced n) ∧
        r.2.2.1.bh = 1 := by
  have key : (match rb_tree_split 4 six_heap six_hdr 0 with
      | .ok r => decide (r.2.2.2 = 0) && (represents_check r.1 r.2.1 .leaf &&
          (represents_check r.1 r.2.2.1 six_split && decide (r.2.2.1.bh = 1)))
      | _ => false) = true := by decide!
  refine ⟨rbvalid_six, by decide, ?_⟩
  cases hr : rb_tree_split 4 six_heap six_hdr 0 with
  | fault => rw [hr] at key; cases key
  | timeout => rw [hr] at key; cases key
  | ok r =>
    rw [hr] at key
    simp only [Bool.and_eq_true, decide_eq_true_eq] at key
    refine ⟨r, rfl, key.1, represents_of_check key.2.1, represents_of_check key.2.2.1,
      by decide, ?_, key.2.2.2⟩
    rintro ⟨n, hn⟩
    have h1 := hn 2 (by decide)
    have h2 := hn 1 (by decide)
    omega

/-- C22: for the valid tree with the keys 1, 2, 3 in `tri_heap` and the key 3:
`rb_tree_split(t, 3)` leaves the tree `tri_split` with the keys 1, 2, 3 and an
empty second tree, `rb_tree_search` finds the node `x` with key 3 in the first,
and `rb_tree_concat(t1, t2, x)` returns the tree `tri_joined`, whose in-order
key sequence is 1, 3, 2 and in which `rb_tree_search` does not find the key 3
(it returns `NULL`). -/
theorem split_concat_loses_key :
    RBValid tri_heap tri_hdr tri_tree ∧ 3 ∈ tri_tree.keys ∧
      ∃ s x r t, rb_tree_split 4 tri_heap tri_hdr 3 = .ok s ∧ s.2.2.2 = 0 ∧
        Represents s.1 s.2.1 tri_split ∧ Represents s.1 s.2.2.1 .leaf ∧
        rb_tree_search 4 s.1 s.2.1 3 = .ok x ∧ x ≠ NULL ∧
        (∃ n, s.1.mem x = some n ∧ n.key = 3) ∧
        rb_tree_concat 4 s.1 s.2.1 s.2.2.1 x = .ok r ∧ r.2.2.2 = some t ∧
        Represents r.1 t tri_joined ∧ tri_joined.keys = [1, 3, 2] ∧
        rb_tree_search 4 r.1 t 3 = .ok NULL := by
  have key : (match rb_tree_split 4 tri_heap tri_hdr 3 with
      | .ok s =>
        decide (s.2.2.2 = 0) && (represents_check s.1 s.2.1 tri_split &&
          (represents_check s.1 s.2.2.1 .leaf &&
          (decide (rb_tree_search 4 s.1 s.2.1 3 = .ok 6) &&
          (decide ((s.1.mem 6).map (·.key) = some 3) &&
          (match rb_tree_concat 4 s.1 s.2.1 s.2.2.1 6 with
            | .ok r =>
              (match r.2.2.2 with
                | some t => represents_check r.1 t tri_joined &&
                    decide (rb_tree_search 4 r.1 t 3 = .ok NULL)
                | none => false)
            | _ => false)))))
      | _ => false) = true := by decide!
  refine ⟨rbvalid_tri, by decide, ?_⟩
  cases hs : rb_tree_split 4 tri_heap tri_hdr 3 with
  | fault => rw [hs] at key; cases key
  | timeout => rw [hs] at key; cases key
  | ok s =>
    rw [hs] at key
    simp only [Bool.and_eq_true, decide_eq_true_eq] at key
    obtain ⟨k1, k2, k3, k4, k5, k6⟩ := key
    cases hr : rb_tree_concat 4 s.1 s.2.1 s.2.2.1 6 with
    | fault => rw [hr] at k6; cases k6
    | timeout => rw [hr] at k6; cases k6
    | ok r =>
      simp only [hr] at k6
      cases ht : r.2.2.2 with
      | none => simp [ht] at k6
      | some t =>
        simp only [ht, Bool.and_eq_true, decide_eq_true_eq] at k6
        cases hn : s.1.mem 6 with
        | none => rw [hn] at k5; cases k5
        | some n =>
          rw [hn] at k5
          simp only [Option.map_some', Option.some.injEq] at k5
          exact ⟨s, 6, r, t, rfl, k1, represents_of_check k2, represents_of_check k3, k4,
            by decide, ⟨n, hn, k5⟩, hr, ht, represents_of_check k6.1, by decide, k6.2⟩

/-- C23: in a valid tree, for the subtree `t` rooted at a node `r` (the subtree
in the hole of a path `c` from the root), `rb_tree_minimum(tree, r)` returns a
node of `t` whose key is the smallest of the keys of `t`, and
`rb_tree_maximum(tree, r)` a node of `t` whose key is the largest; for the empty
subtree, where `r` is the sentinel, both return the sentinel. -/
theorem minimum_maximum_of_subtree {fuel : Nat} {h : Heap} {tree : rb_tree} {c : Ctx}
    {t : Tree} (hv : RBValid h tree (c.plug t)) (hfuel : t.height ≤ fuel) :
    (∃ a, rb_tree_minimum fuel h tree (t.ptr tree.nil) = .ok a ∧
      ((t = .leaf ∧ a = tree.nil) ∨
        ∃ n, a ∈ t.addrs ∧ h.mem a = some n ∧ n.key ∈ t.keys ∧ ∀ k ∈ t.keys, n.key ≤ k)) ∧
    (∃ a, rb_tree_maximum fuel h tree (t.ptr tree.nil) = .ok a ∧
      ((t = .leaf ∧ a = tree.nil) ∨
        ∃ n, a ∈ t.addrs ∧ h.mem a = some n ∧ n.key ∈ t.keys ∧ ∀ k ∈ t.keys, k ≤ n.key)) := by
  have hf : Focus h tree c t := focus_unplug hv.repr.focus
  have hso : t.keys.Sorted (· < ·) := by
    have ho := hv.ordered
    simp only [Tree.Ordered, plug_keys] at ho
    exact (List.pairwise_append.mp (List.pairwise_append.mp ho).1).2.1
  constructor
  · obtain ⟨a, ha, hpost⟩ := minimum_spec hf hfuel
    refine ⟨a, ha, ?_⟩
    rcases hpost with h1 | ⟨n, post, h1, h2, h3⟩
    · exact Or.inl h1
    · rw [h3] at hso
      exact Or.inr ⟨n, h1, h2, by rw [h3]; exact List.mem_cons_self _ _,
        by rw [h3]; exact sorted_first hso⟩
  · obtain ⟨a, ha, hpost⟩ := maximum_spec hf hfuel
    refine ⟨a, ha, ?_⟩
    rcases hpost with h1 | ⟨n, pre, h1, h2, h3⟩
    · exact Or.inl h1
    · rw [h3] at hso
      exact Or.inr ⟨n, h1, h2, by rw [h3]; simp, by rw [h3]; exact sorted_last hso⟩

theorem minimum_maximum_of_subtree_witness :
    RBValid pair_heap pair_hdr (Ctx.top.plug pair_tree) ∧ pair_tree.height ≤ 2 ∧
      (∃ a, rb_tree_minimum 2 pair_heap pair_hdr (pair_tree.ptr pair_hdr.nil) = .ok a ∧
        ((pair_tree = .leaf ∧ a = pair_hdr.nil) ∨
          ∃ n, a ∈ pair_tree.addrs ∧ pair_heap.mem a = some n ∧ n.key ∈ pair_tree.keys ∧
            ∀ k ∈ pair_tree.keys, n.key ≤ k)) ∧
      (∃ a, rb_tree_maximum 2 pair_heap pair_hdr (pair_tree.ptr pair_hdr.nil) = .ok a ∧
        ((pair_tree = .leaf ∧ a = pair_hdr.nil) ∨
          ∃ n, a ∈ pair_tree.addrs ∧ pair_heap.mem a = some n ∧ n.key ∈ pair_tree.keys ∧
            ∀ k ∈ pair_tree.keys, k ≤ n.key)) :=
  ⟨rbvalid_pair, by decide,
    @minimum_maximum_of_subtree 2 pair_heap pair_hdr .top pair_tree rbvalid_pair (by decide)⟩

/-- C24: in a valid tree `T`, for the node at address `a` with key `k` (the
root of the subtree in the hole of a path `c`), `rb_tree_successor(tree, a)`
returns the sentinel when no key of `T` is larger than `k`, and otherwise a
node of `T` whose key is the smallest key of `T` larger than `k`;
`rb_tree_predecessor(tree, a)` returns the sentinel when no key of `T` is
smaller than `k`, and otherwise a node of `T` whose key is the largest key of
`T` smaller than `k`. -/
theorem successor_predecessor_of_node {fuel : Nat} {h : Heap} {tree : rb_tree} {c : Ctx}
    {a : Ptr} {col : rb_node_color} {l r : Tree} {k : Nat} {d : Ptr}
    (hv : RBValid h tree (c.plug (.node a col l k d r)))
    (hfuel : (c.plug (.node a col l k d r)).height ≤ fuel) :
    (∃ y, rb_tree_successor fuel h tree a = .ok y ∧
      (((∀ q ∈ (c.plug (.node a col l k d r)).keys, q ≤ k) ∧ y = tree.nil) ∨
        ∃ n, y ∈ (c.plug (.node a col l k d r)).addrs ∧ h.mem y = some n ∧
          n.key ∈ (c.plug (.node a col l k d r)).keys ∧ k < n.key ∧
          ∀ q ∈ (c.plug (.node a col l k d r)).keys, k < q → n.key ≤ q)) ∧
    (∃ y, rb_tree_predecessor fuel h tree a = .ok y ∧
      (((∀ q ∈ (c.plug (.node a col l k d r)).keys, k ≤ q) ∧ y = tree.nil) ∨
        ∃ n, y ∈ (c.plug (.node a col l k d r)).addrs ∧ h.mem y = some n ∧
          n.key ∈ (c.plug (.node a col l k d r)).keys ∧ n.key < k ∧
          ∀ q ∈ (c.plug (.node a col l k d r)).keys, q < k → q ≤ n.key)) := by
  have hf : Focus h tree c (.node a col l k d r) := focus_unplug hv.repr.focus
  have hso : (c.plug (.node a col l k d r)).keys.Sorted (· < ·) := hv.ordered
  constructor
  · obtain ⟨y, pre, hy, hpost⟩ := successor_spec hf hfuel
    refine ⟨y, hy, ?_⟩
    rcases hpost with ⟨h1, h2⟩ | ⟨n, rest, h1, h2, h3⟩
    · rw [h1] at hso ⊢
      exact Or.inl ⟨sorted_last hso, h2⟩
    · rw [h3] at hso ⊢
      obtain ⟨hlt, hmin⟩ := sorted_next hso
      exact Or.inr ⟨n, h1, h2, by simp, hlt, hmin⟩
  · obtain ⟨y, rest, hy, hpost⟩ := predecessor_spec hf hfuel
    refine ⟨y, hy, ?_⟩
    rcases hpost with ⟨h1, h2⟩ | ⟨n, pre, h1, h2, h3⟩
    · rw [h1] at hso ⊢
      exact Or.inl ⟨sorted_first hso, h2⟩
    · rw [h3] at hso ⊢
      obtain ⟨hlt, hmax⟩ := sorted_prev hso
      exact Or.inr ⟨n, h1, h2, by simp, hlt, hmax⟩

theorem successor_predecessor_of_node_witness :
    RBValid pair_heap pair_hdr
        (Ctx.top.plug (.node 2 RB_NODE_COLOR_BLACK
          (.node 3 RB_NODE_COLOR_RED .leaf 5 NULL .leaf) 10 NULL .leaf)) ∧
      (Ctx.top.plug (.node 2 RB_NODE_COLOR_BLACK
          (.node 3 RB_NODE_COLOR_RED .leaf 5 NULL .leaf) 10 NULL .leaf)).height ≤ 2 ∧
      (∃ y, rb_tree_successor 2 pair_heap pair_hdr 2 = .ok y ∧
        (((∀ q ∈ pair_tree.keys, q ≤ 10) ∧ y = pair_hdr.nil) ∨
          ∃ n, y ∈ pair_tree.addrs ∧ pair_heap.mem y = some n ∧ n.key ∈ pair_tree.keys ∧
            10 < n.key ∧ ∀ q ∈ pair_tree.keys, 10 < q → n.key ≤ q)) ∧
      (∃ y, rb_tree_predecessor 2 pair_heap pair_hdr 2 = .ok y ∧
        (((∀ q ∈ pair_tree.keys, 10 ≤ q) ∧ y = pair_hdr.nil) ∨
          ∃ n, y ∈ pair_tree.addrs ∧ pair_heap.mem y = some n ∧ n.key ∈ pair_tree.keys ∧
            n.key < 10 ∧ ∀ q ∈ pair_tree.keys, q < 10 → q ≤ n.key)) :=
  ⟨rbvalid_pair, by decide,
    @successor_predecessor_of_node 2 pair_heap pair_hdr .top 2 RB_NODE_COLOR_BLACK
      (.node 3 RB_NODE_COLOR_RED .leaf 5 NULL .leaf) .leaf 10 NULL rbvalid_pair (by decide)⟩

/-- C25: on a valid tree whose `bh` field is the black count of its paths,
`rb_tree_get_bh` of a stored key returns `bh` minus the number of Black proper
ancestors of the node that holds the key (the Black nodes of the path `c` from
the root to that node), and every path from that node, itself included, down to
the sentinel contains exactly that many Black nodes.  For the key of the root
the result is `bh`, for the key of a Red node without children it is 0. -/
theorem get_bh_found {fuel : Nat} {h : Heap} {tree : rb_tree} {t : Tree} {key : Nat}
    {d : Ptr} (hv : RBValid h tree t) (hbh : t.Balanced tree.bh) (hm : (key, d) ∈ t.toList)
    (hfuel : t.height + 2 ≤ fuel) :
    ∃ c a col l r, t.locate key .top = (c, .node a col l key d r) ∧
      c.plug (.node a col l key d r) = t ∧ c.blacks ≤ tree.bh ∧
      rb_tree_get_bh fuel h tree key = .ok (tree.bh - c.blacks) ∧
      (Tree.node a col l key d r).Balanced (tree.bh - c.blacks) ∧
      (c = .top → rb_tree_get_bh fuel h tree key = .ok tree.bh) ∧
      (col = RB_NODE_COLOR_RED → l = .leaf → r = .leaf →
        rb_tree_get_bh fuel h tree key = .ok 0) := by
  obtain ⟨c, a, col, l, r, hloc, hplug, hle, hget, hsub, hsb⟩ :=
    get_bh_at_node hv hbh hm hfuel
  refine ⟨c, a, col, l, r, hloc, hplug, hle, hget, ?_, ?_, ?_⟩
  · rw [hsub]; exact balanced_bheight hsb
  · rintro rfl
    simpa [Ctx.blacks] using hget
  · rintro rfl rfl rfl
    rw [hget, hsub]
    rfl

theorem get_bh_found_witness :
    RBValid pair_heap pair_hdr pair_tree ∧ pair_tree.Balanced pair_hdr.bh ∧ (5, NULL) ∈ pair_tree.toList ∧
      pair_tree.height + 2 ≤ 4 ∧
      ∃ c a col l r, pair_tree.locate 5 .top = (c, .node a col l 5 NULL r) ∧
        c.plug (.node a col l 5 NULL r) = pair_tree ∧ c.blacks ≤ pair_hdr.bh ∧
        rb_tree_get_bh 4 pair_heap pair_hdr 5 = .ok (pair_hdr.bh - c.blacks) ∧
        (Tree.node a col l 5 NULL r).Balanced (pair_hdr.bh - c.blacks) ∧
        (c = .top → rb_tree_get_bh 4 pair_heap pair_hdr 5 = .ok pair_hdr.bh) ∧
        (col = RB_NODE_COLOR_RED → l = .leaf → r = .leaf →
          rb_tree_get_bh 4 pair_heap pair_hdr 5 = .ok 0) :=
  ⟨rbvalid_pair, by decide, by decide, by decide,
    get_bh_found rbvalid_pair (by decide) (by decide) (by decide)⟩

/-- C26, as stated, fails on the tree that holds the single key 7 in a Black
root: the found node is the root, no node lies strictly between the root and
it, and `rb_tree_get_bh` returns 1, the `bh` field. -/
theorem get_bh_root_not_between :
    RBValid single_heap single_hdr single_tree ∧ single_tree.Balanced single_hdr.bh ∧
      (7, NULL) ∈ single_tree.toList ∧
      single_tree.locate 7 .top = (.top, single_tree) ∧ Ctx.top.blacks_between = 0 ∧
      rb_tree_get_bh 3 single_heap single_hdr 7 = .ok 1 := by
  have hv := rbvalid_single
  have hb : single_tree.Balanced single_hdr.bh := by decide
  have hm : ((7 : Nat), NULL) ∈ single_tree.toList := by decide
  refine ⟨hv, hb, hm, rfl, rfl, ?_⟩
  obtain ⟨-, -, hget⟩ :=
    @get_bh_spec 3 _ _ _ 7 hv.repr (rbshape_bal hv.shape) (balanced_eq_bheight hb) (by decide)
  exact hget

/-- C26, amended: on a valid tree whose `bh` field is the black count of its
paths, `rb_tree_get_bh` of a stored key returns `bh` minus the number of Black
nodes on the path from the root down to the found node, the root included and
the found node excluded.  That number is 0 when the found node is the root, and
otherwise one (for the root) more than the number of Black nodes strictly
between the root and the found node. -/
theorem get_bh_from_root {fuel : Nat} {h : Heap} {tree : rb_tree} {t : Tree} {key : Nat}
    {d : Ptr} (hv : RBValid h tree t) (hbh : t.Balanced tree.bh) (hm : (key, d) ∈ t.toList)
    (hfuel : t.height + 2 ≤ fuel) :
    ∃ c a col l r, t.locate key .top = (c, .node a col l key d r) ∧
      c.plug (.node a col l key d r) = t ∧ c.blacks ≤ tree.bh ∧
      rb_tree_get_bh fuel h tree key = .ok (tree.bh - c.blacks) ∧
      c.blacks = c.blacks_between + if c = .top then 0 else 1 := by
  obtain ⟨c, a, col, l, r, hloc, hplug, hle, hget, -, -⟩ := get_bh_at_node hv hbh hm hfuel
  refine ⟨c, a, col, l, r, hloc, hplug, hle, hget, ?_⟩
  have hroot := hv.shape.root_black
  rw [← hplug, plug_color] at hroot
  rw [ctx_blacks_between c (Tree.node a col l key d r).color, hroot]
  rfl

theorem get_bh_from_root_witness :
    RBValid pair_heap pair_hdr pair_tree ∧ pair_tree.Balanced pair_hdr.bh ∧ (5, NULL) ∈ pair_tree.toList ∧
      pair_tree.height + 2 ≤ 4 ∧
      ∃ c a col l r, pair_tree.locate 5 .top = (c, .node a col l 5 NULL r) ∧
        c.plug (.node a col l 5 NULL r) = pair_tree ∧ c.blacks ≤ pair_hdr.bh ∧
        rb_tree_get_bh 4 pair_heap pair_hdr 5 = .ok (pair_hdr.bh - c.blacks) ∧
        c.blacks = c.blacks_between + if c = .top then 0 else 1 :=
  ⟨rbvalid_pair, by decide, by decide, by decide,
    get_bh_from_root rbvalid_pair (by decide) (by decide) (by decide)⟩

/-- C27: on the empty tree, which is valid and stores no key, `rb_tree_get_bh`
of the key `RB_NODE_NIL_KEY_VALUE` (2^63 - 1) returns 0 and not the marker
`RB_INVALID_BLACK_HEIGHT`: the loop of `__rb_tree_get_bh` runs while the node is
not `NULL` and stops at the sentinel, whose key is the one looked for. -/
theorem get_bh_reserved_key_returns_zero :
    RBValid (Heap.init 8) rb_tree_alloc .leaf ∧ Tree.leaf.Balanced rb_tree_alloc.bh ∧
      RB_NODE_NIL_KEY_VALUE ∉ Tree.leaf.keys ∧
      rb_tree_get_bh 2 (Heap.init 8) rb_tree_alloc RB_NODE_NIL_KEY_VALUE = .ok 0 ∧
      0 ≠ RB_INVALID_BLACK_HEIGHT := by
  have hv : RBValid (Heap.init 8) rb_tree_alloc .leaf := rbvalid_init (by decide) (by decide)
  have hb : Tree.leaf.Balanced rb_tree_alloc.bh := by decide
  refine ⟨hv, hb, by simp [Tree.keys, Tree.toList], ?_, by decide⟩
  have hs := @get_bh_not_found 2 _ _ _ RB_NODE_NIL_KEY_VALUE hv hb
    (by simp [Tree.keys, Tree.toList]) (by decide)
  rw [if_pos rfl] at hs
  exact hs

/-- C28: starting from the empty tree of `rb_tree_alloc`, the insert loop of
`test_rb_bh` on the keys 10, 20, 5, 7, 6, 19, 18, 17, 16, 15, 21, 22, 14, 13
returns (with any fuel from 15 on); every `rb_tree_insert` call returns 0 and
the `bh` field after the calls is 1, 1, 1, 2, 2, 2, 2, 2, 2, 2, 2, 2, 2, 3. -/
theorem insert_bh_sequence (n : Nat) :
    ∃ r, rb_tree_insert_run (n + 15) [10, 20, 5, 7, 6, 19, 18, 17, 16, 15, 21, 22, 14, 13]
        (Heap.init 32) rb_tree_alloc = .ok r ∧
      r.2.2.map Prod.snd = [1, 1, 1, 2, 2, 2, 2, 2, 2, 2, 2, 2, 2, 3] ∧
      r.2.2.map Prod.fst = List.replicate 14 0 := by
  have hA : (Tree.insert_run insert_seq .leaf 2).map (·.2) = some insert_bh := by decide
  rcases hrun : Tree.insert_run insert_seq .leaf 2 with _ | ⟨T, l⟩
  · rw [hrun] at hA; cases hA
  · rw [hrun] at hA
    simp only [Option.map_some', Option.some.injEq] at hA
    subst hA
    obtain ⟨r, hr, -, -, -, -, -, hl, -⟩ :=
      insert_run_spec (n + 15) insert_seq (Heap.init 32) rb_tree_alloc .leaf T insert_bh
        (rbvalid_init (by decide) (by decide)) rfl (by decide) (by decide)
        (by simp [Tree.toList, insert_seq]) hrun
    refine ⟨r, hr, ?_, ?_⟩
    · rw [hl]; rfl
    · rw [hl]; rfl

/-- C29: after the insert loop of `test_rb_bh` on the empty tree, the delete
loop on the keys 10, 6, 5, 16, 7, 13, 15, 14, 21, 20, 22, 18, 19, 17 returns
(with any fuel from 16 on); every `rb_tree_delete` call returns 0 and the `bh`
field after the calls is 3, 3, 3, 3, 3, 2, 2, 2, 2, 2, 2, 1, 1, 0; at the end
the root is the sentinel; and the insert loop run again on the emptied tree
returns 0 at every call with the `bh` field 1, 1, 1, 2, 2, 2, 2, 2, 2, 2, 2, 2,
2, 3 after the calls. -/
theorem delete_bh_sequence (n : Nat) :
    ∃ r1 r2 r3,
      rb_tree_insert_run (n + 16) [10, 20, 5, 7, 6, 19, 18, 17, 16, 15, 21, 22, 14, 13]
        (Heap.init 64) rb_tree_alloc = .ok r1 ∧
      rb_tree_delete_run (n + 16) [10, 6, 5, 16, 7, 13, 15, 14, 21, 20, 22, 18, 19, 17]
        r1.1 r1.2.1 = .ok r2 ∧
      r2.2.2.map Prod.snd = [3, 3, 3, 3, 3, 2, 2, 2, 2, 2, 2, 1, 1, 0] ∧
      r2.2.2.map Prod.fst = List.replicate 14 0 ∧
      r2.2.1.root = r2.2.1.nil ∧
      rb_tree_insert_run (n + 16) [10, 20, 5, 7, 6, 19, 18, 17, 16, 15, 21, 22, 14, 13]
        r2.1 r2.2.1 = .ok r3 ∧
      r3.2.2.map Prod.snd = [1, 1, 1, 2, 2, 2, 2, 2, 2, 2, 2, 2, 2, 3] ∧
      r3.2.2.map Prod.fst = List.replicate 14 0 := by
  have hB : ((Tree.insert_run insert_seq .leaf 2).bind fun r =>
      Tree.delete_run delete_seq r.1) = some (.leaf, delete_bh) := by decide
  have hC : (Tree.insert_run insert_seq .leaf 16).map (·.2) = some insert_bh := by decide
  rcases hrun1 : Tree.insert_run insert_seq .leaf 2 with _ | ⟨T1, l1⟩
  · rw [hrun1] at hB; cases hB
  rcases hrun3 : Tree.insert_run insert_seq .leaf 16 with _ | ⟨T3, l3⟩
  · rw [hrun3] at hC; cases hC
  rw [hrun1] at hB
  rw [hrun3] at hC
  simp only [Option.some_bind] at hB
  simp only [Option.map_some', Option.some.injEq] at hC
  subst hC
  obtain ⟨r1, hr1, hv1, hbh1, hnil1, hcap1, hnext1, -, hlen1⟩ :=
    insert_run_spec (n + 16) insert_seq (Heap.init 64) rb_tree_alloc .leaf T1 l1
      (rbvalid_init (by decide) (by decide)) rfl (by decide) (by decide)
      (by simp [Tree.toList, insert_seq]) hrun1
  simp only [Tree.toList, insert_seq, List.length_cons, List.length_nil] at hlen1
  obtain ⟨r2, hr2, hv2, hbh2, hnil2, hcap2, hnext2, hl2⟩ :=
    delete_run_spec (n + 16) delete_seq r1.1 r1.2.1 T1 .leaf delete_bh hv1 hbh1
      (by omega) hB
  obtain ⟨r3, hr3, -, -, -, -, -, hl3, -⟩ :=
    insert_run_spec (n + 16) insert_seq r2.1 r2.2.1 .leaf T3 insert_bh hv2 hbh2
      (by decide) (by rw [hcap2, hcap1, hnext2, hnext1]; decide)
      (by simp [Tree.toList, insert_seq])
      (by rw [hnext2, hnext1]; exact hrun3)
  refine ⟨r1, r2, r3, hr1, hr2, ?_, ?_, hv2.repr.focus.ctx, hr3, ?_, ?_⟩
  · rw [hl2]; rfl
  · rw [hl2]; rfl
  · rw [hl3]; rfl
  · rw [hl3]; rfl

/-- C30: the descent loop of `rb_tree_concat` in the branch `t1->bh >= t2->bh`,
run for the valid tree `pair_tree` (keys 5 and 10, `bh` = 1) as `t1` and the
empty tree (`bh` = 0) as `t2`: it exits by the `break` at the node at address
3, the left child of the root, which is not on the right spine of `t1`, with the
counter 1, not 0.  For the valid one-node tree `single_tree` as `t1` it exits at
the root with the counter 1, and the black count of the subtree there is 1, not
0. -/
theorem concat_descent_empty_right :
    RBValid pair_heap pair_hdr pair_tree ∧ pair_tree.Balanced pair_hdr.bh ∧
      RBValid pair_heap rb_tree_alloc .leaf ∧ Tree.leaf.Balanced rb_tree_alloc.bh ∧
      pair_hdr.bh ≥ rb_tree_alloc.bh ∧
      rb_tree_concat_descend_right_state 3 pair_heap pair_hdr rb_tree_alloc.bh pair_hdr.root
        pair_hdr.bh = .ok (3, 1) ∧
      rb_tree_concat_descend_right 3 pair_heap pair_hdr rb_tree_alloc.bh pair_hdr.root
        pair_hdr.bh = .ok 3 ∧
      3 ∉ pair_tree.right_spine ∧ 1 ≠ rb_tree_alloc.bh ∧
      RBValid single_heap single_hdr single_tree ∧ single_tree.Balanced single_hdr.bh ∧
      RBValid single_heap rb_tree_alloc .leaf ∧
      rb_tree_concat_descend_right_state 3 single_heap single_hdr rb_tree_alloc.bh
        single_hdr.root single_hdr.bh = .ok (2, 1) ∧
      single_tree.ptr rb_info_nil = 2 ∧ single_tree.bheight ≠ rb_tree_alloc.bh :=
  ⟨rbvalid_pair, by decide, rbvalid_empty_of rfl (by decide) (by decide) (by decide), by decide,
    by decide, rfl, rfl, by decide, by decide, rbvalid_single, by decide,
    rbvalid_empty_of rfl (by decide) (by decide) (by decide), rfl, rfl, by decide⟩

/-- C31: `rb_tree_concat` of the valid trees of `join_heap` (keys 1, 2, 3 with
`bh` = 2, and key 9 with `bh` = 1) with the Black node `x` at address 6 (key 5)
returns the tree `join_result`: `x` is the right child of the Black root, and it
is Black, as it was on entry, so that the paths through it contain 3 Black
nodes and the others 2.  Had `x` been coloured Red, `rb_tree_insert_fixup`
would have left it Red below the Black root.  In the duplicate-collapse path
(the trees of `two_heap` and `x` the node with the maximum key 7 of the first)
the node that replaces `x` keeps the colour `RB_NODE_COLOR_UNDEFINED` that
`rb_node_alloc` gives it. -/
theorem concat_keeps_color :
    RBValid join_heap join_hdr1 join_tree1 ∧ RBValid join_heap join_hdr2 join_tree2 ∧
      join_heap.mem 6 = some (rb_node.mk RB_NODE_COLOR_BLACK 5 NULL NULL NULL NULL) ∧
      (∀ k ∈ join_tree1.keys, k < 5) ∧ (∀ k ∈ join_tree2.keys, 5 < k) ∧
      (∃ r t, rb_tree_concat 4 join_heap join_hdr1 join_hdr2 6 = .ok r ∧ r.2.2.2 = some t ∧
        Represents r.1 t join_result ∧
        r.1.mem 6 = some (rb_node.mk RB_NODE_COLOR_BLACK 5 NULL 4 5 2) ∧
        join_result.pathBlacks = [2, 2, 3, 3, 3, 3]) ∧
      RBValid two_heap two_hdr1 two_tree1 ∧ RBValid two_heap two_hdr2 two_tree2 ∧
      ∃ r t, rb_tree_concat 3 two_heap two_hdr1 two_hdr2 2 = .ok r ∧ r.2.2.2 = some t ∧
        r.1.mem 2 = none ∧
        r.1.mem 5 = some (rb_node.mk RB_NODE_COLOR_UNDEFINED 7 NULL rb_info_nil 4 3) := by
  have key : (match rb_tree_concat 4 join_heap join_hdr1 join_hdr2 6 with
      | .ok r =>
        (match r.2.2.2 with
          | some t => represents_check r.1 t join_result &&
              decide (r.1.mem 6 = some (rb_node.mk RB_NODE_COLOR_BLACK 5 NULL 4 5 2))
          | none => false)
      | _ => false) = true := by decide!
  refine ⟨rbvalid_join1, rbvalid_join2, rfl, by decide, by decide, ?_,
    rbvalid_two1_of rfl rfl (by decide) (by decide) (by decide),
    rbvalid_two2_of rfl rfl rfl (by decide) (by decide) (by decide), _, _, rfl, rfl, rfl, rfl⟩
  cases hr : rb_tree_concat 4 join_heap join_hdr1 join_hdr2 6 with
  | fault => rw [hr] at key; cases key
  | timeout => rw [hr] at key; cases key
  | ok r =>
    simp only [hr] at key
    cases ht : r.2.2.2 with
    | none => simp [ht] at key
    | some t =>
      simp only [ht, Bool.and_eq_true, decide_eq_true_eq] at key
      exact ⟨r, t, rfl, ht, represents_of_check key.1, key.2, by decide⟩

end RedBlack


namespace RedBlack
open Tree Ctx

/-! ## The walk in order, the sentinel, the deleted node, and the error paths -/

/-- C32: for a valid tree that is not empty, `rb_tree_minimum` on the root
returns a node `m`, and the walk from `m` (with one round more than there are
keys) returns after as many rounds as there are keys: the nodes visited are the
nodes of the tree in order (`t.addrs`), which hold the keys of the tree in
strictly increasing order; the predecessor found at each is the node visited
before it, the sentinel at the first; the successor found at each is the node
visited next, the sentinel at the last. -/
theorem walk_visits_in_order {fuel : Nat} {h : Heap} {tree : rb_tree} {t : Tree}
    (hv : RBValid h tree t) (hne : t ≠ .leaf) (hfuel : t.height ≤ fuel) :
    ∃ m l, rb_tree_minimum fuel h tree tree.root = .ok m ∧
      rb_tree_walk fuel h tree (t.keys.length + 1) m = .ok l ∧
      l.length = t.keys.length ∧ l.map (·.1) = t.addrs ∧
      t.nodes.map (·.1) = t.addrs ∧ t.nodes.map (·.2.1) = t.keys ∧
      (∀ x ∈ t.nodes, ∃ n, h.mem x.1 = some n ∧ n.key = x.2.1 ∧ n.data = x.2.2) ∧
      t.keys.Sorted (· < ·) ∧
      l.map (·.2.1) = (tree.nil :: t.addrs).dropLast ∧
      l.map (·.2.2) = t.addrs.tail ++ [tree.nil] := by
  have hf := hv.repr.focus
  have hnil : tree.nil ∉ t.addrs := by simpa [Ctx.addrs] using hf.sep.nil_not_mem
  have hroot : tree.root = t.ptr tree.nil := hf.ctx
  obtain ⟨a, k, d, post, ha, hn⟩ := minimum_loop_nodes t fuel _ hf.own hnil hne hfuel
  have hkeys : t.nodes.map (·.2.1) = t.keys := by
    rw [Tree.keys, ← nodes_to_list, List.map_map]; rfl
  have hlen : t.keys.length = post.length + 1 := by
    rw [← hkeys, hn]; simp
  have hw := walk_spec hf hfuel post [] (a, k, d) tree.nil (by simpa using hn)
    (Or.inl ⟨rfl, rfl⟩)
  have hne' : t.nodes ≠ [] := by rw [hn]; simp
  refine ⟨a, _, ?_, by rw [hlen]; exact hw, ?_, ?_, nodes_addrs t, hkeys,
    own_nodes_cell hf.own, hv.ordered, ?_, ?_⟩
  · rw [rb_tree_minimum, hroot, if_neg (ptr_ne_nil_of_sep hnil hne)]; exact ha
  · rw [walk_list_length, ← hn, ← hkeys, List.length_map]
  · rw [walk_list_cur, ← hn, nodes_addrs]
  · rw [walk_list_pred, ← hn, nodes_addrs]
  · rw [walk_list_succ, ← hn, nodes_addrs, if_neg hne']

theorem walk_visits_in_order_witness :
    RBValid pair_heap pair_hdr pair_tree ∧ pair_tree ≠ .leaf ∧ pair_tree.height ≤ 2 ∧
      ∃ m l, rb_tree_minimum 2 pair_heap pair_hdr pair_hdr.root = .ok m ∧
        rb_tree_walk 2 pair_heap pair_hdr (pair_tree.keys.length + 1) m = .ok l ∧
        l.length = pair_tree.keys.length ∧ l.map (·.1) = pair_tree.addrs ∧
        pair_tree.nodes.map (·.1) = pair_tree.addrs ∧
        pair_tree.nodes.map (·.2.1) = pair_tree.keys ∧
        (∀ x ∈ pair_tree.nodes,
          ∃ n, pair_heap.mem x.1 = some n ∧ n.key = x.2.1 ∧ n.data = x.2.2) ∧
        pair_tree.keys.Sorted (· < ·) ∧
        l.map (·.2.1) = (pair_hdr.nil :: pair_tree.addrs).dropLast ∧
        l.map (·.2.2) = pair_tree.addrs.tail ++ [pair_hdr.nil] :=
  ⟨rbvalid_pair, by decide, by decide, walk_visits_in_order rbvalid_pair (by decide) (by decide)⟩

/-- C34, as stated, fails on the valid tree `tri_tree` (root with key 2 at
address 2, children with keys 1 and 3 at addresses 3 and 4): `rb_tree_delete`
of the key 2, whose node has two children and the node at address 4 as in-order
successor, releases the node at address 2 itself and leaves the successor node
in the tree, as its root, with its key 3. -/
theorem delete_frees_found_node :
    RBValid tri_heap tri_hdr tri_tree ∧ (2, NULL) ∈ tri_tree.toList ∧
      rb_tree_search 4 tri_heap tri_hdr 2 = .ok 2 ∧
      rb_tree_successor 4 tri_heap tri_hdr 2 = .ok 4 ∧
      tri_heap.mem 2 = some (rb_node.mk RB_NODE_COLOR_BLACK 2 NULL 3 4 rb_info_nil) ∧
      ∃ r, rb_tree_delete 4 tri_heap tri_hdr 2 = .ok r ∧ r.2.2 = 0 ∧ r.1.mem 2 = none ∧
        r.2.1.root = 4 ∧
        r.1.mem 4 = some (rb_node.mk RB_NODE_COLOR_BLACK 3 NULL 3 rb_info_nil rb_info_nil) ∧
        Represents r.1 r.2.1
          (.node 4 RB_NODE_COLOR_BLACK (.node 3 RB_NODE_COLOR_RED .leaf 1 NULL .leaf) 3 NULL
            .leaf) := by
  have key : (match rb_tree_delete 4 tri_heap tri_hdr 2 with
      | .ok r => decide (r.2.2 = 0) && (decide (r.1.mem 2 = none) &&
          (decide (r.2.1.root = 4) &&
          (decide (r.1.mem 4 =
            some (rb_node.mk RB_NODE_COLOR_BLACK 3 NULL 3 rb_info_nil rb_info_nil)) &&
          represents_check r.1 r.2.1
            (.node 4 RB_NODE_COLOR_BLACK (.node 3 RB_NODE_COLOR_RED .leaf 1 NULL .leaf) 3 NULL
              .leaf))))
      | _ => false) = true := by decide!
  refine ⟨rbvalid_tri, by decide, by decide!, by decide!, rfl, ?_⟩
  cases hr : rb_tree_delete 4 tri_heap tri_hdr 2 with
  | fault => rw [hr] at key; cases key
  | timeout => rw [hr] at key; cases key
  | ok r =>
    simp only [hr, Bool.and_eq_true, decide_eq_true_eq] at key
    exact ⟨r, rfl, key.1, key.2.1, key.2.2.1, key.2.2.2.1, represents_of_check key.2.2.2.2⟩

/-- C34, amended: `rb_tree_delete` of a stored key releases the node `z` that
holds the key (the node `rb_tree_search` returns) and takes it out of the tree;
every other node stays in the tree, at its place in the order, with its address,
key and payload.  In particular, when `z` has two children, its in-order
successor node `y` (the one `rb_tree_successor` returns, the first node of the
right subtree of `z`) stays in the tree with its own key and payload. -/
theorem delete_unlinks_found_node {fuel : Nat} {h : Heap} {tree : rb_tree} {t : Tree}
    {key : Nat} {d : Ptr} (hv : RBValid h tree t) (hm : (key, d) ∈ t.toList)
    (hfuel : t.height + 2 ≤ fuel) :
    ∃ r t' c z cz zl zr, rb_tree_delete fuel h tree key = .ok r ∧ r.2.2 = 0 ∧
      Represents r.1 r.2.1 t' ∧ t.locate key .top = (c, .node z cz zl key d zr) ∧
      rb_tree_search fuel h tree key = .ok z ∧ r.1.mem z = none ∧ z ∉ t'.addrs ∧
      t.nodes = c.nodes_before ++ zl.nodes ++ (z, key, d) :: zr.nodes ++ c.nodes_after ∧
      t'.nodes = c.nodes_before ++ zl.nodes ++ zr.nodes ++ c.nodes_after ∧
      (∀ x ∈ t'.nodes, ∃ n, r.1.mem x.1 = some n ∧ n.key = x.2.1 ∧ n.data = x.2.2) ∧
      (zl ≠ .leaf → zr ≠ .leaf →
        ∃ y ky dy post n, rb_tree_successor fuel h tree z = .ok y ∧
          zr.nodes = (y, ky, dy) :: post ∧ y ∈ t'.addrs ∧
          r.1.mem y = some n ∧ n.key = ky ∧ n.data = dy) := by
  obtain ⟨r, t', c, z, cz, zl, zr, hr, h0, hv', hloc, hs, hn, hn', hfree, hzt, hcells⟩ :=
    delete_nodes_spec hv hm hfuel
  refine ⟨r, t', c, z, cz, zl, zr, hr, h0, hv'.repr, hloc, hs, hfree, hzt, hn, hn', hcells,
    fun _ hzr => ?_⟩
  have hplug := locate_plug key t .top
  rw [hloc] at hplug
  simp only [Ctx.plug] at hplug
  have hf : Focus h tree c (.node z cz zl key d zr) := focus_unplug (hplug ▸ hv.repr.focus)
  have hfl : (c.plug (.node z cz zl key d zr)).height ≤ fuel := by rw [hplug]; omega
  obtain ⟨y, pre, hy, hsucc⟩ := successor_nodes hf hfl
  rw [hplug] at hsucc
  have hnd : t.nodes.Nodup := by
    have : t.addrs.Nodup := by simpa [Ctx.addrs] using hv.repr.focus.sep.nodup
    rw [← nodes_addrs] at this
    exact List.Nodup.of_map _ this
  have hn2 : t.nodes = (c.nodes_before ++ zl.nodes) ++ (z, key, d) :: (zr.nodes ++ c.nodes_after) := by
    rw [hn]; simp
  cases hzn : zr.nodes with
  | nil =>
    exfalso
    cases zr with
    | leaf => exact hzr rfl
    | node a col l k d r => simp [Tree.nodes] at hzn
  | cons y0 post =>
    have hy0 : y0.1 = y := by
      rcases hsucc with ⟨h1, -⟩ | ⟨k', d', rest, h1⟩
      · rw [hn2] at h1 hnd
        have := (@split_unique _ _ _ _ _ [] hnd h1).2
        rw [hzn] at this
        cases this
      · rw [hn2] at h1 hnd
        have := (split_unique hnd h1).2
        rw [hzn] at this
        simp only [List.cons_append, List.cons.injEq] at this
        rw [this.1]
    have hmem : y0 ∈ t'.nodes := by rw [hn', hzn]; simp
    obtain ⟨n, hn1, hn2', hn3⟩ := hcells y0 hmem
    refine ⟨y, y0.2.1, y0.2.2, post, n, hy, by rw [← hy0], ?_, by rw [← hy0]; exact hn1,
      hn2', hn3⟩
    rw [← hy0, ← nodes_addrs]
    exact List.mem_map_of_mem _ hmem

theorem delete_unlinks_found_node_witness :
    RBValid tri_heap tri_hdr tri_tree ∧ (2, NULL) ∈ tri_tree.toList ∧
      tri_tree.height + 2 ≤ 4 ∧
      ∃ r t' c z cz zl zr, rb_tree_delete 4 tri_heap tri_hdr 2 = .ok r ∧ r.2.2 = 0 ∧
        Represents r.1 r.2.1 t' ∧ tri_tree.locate 2 .top = (c, .node z cz zl 2 NULL zr) ∧
        rb_tree_search 4 tri_heap tri_hdr 2 = .ok z ∧ r.1.mem z = none ∧ z ∉ t'.addrs ∧
        tri_tree.nodes =
          c.nodes_before ++ zl.nodes ++ (z, 2, NULL) :: zr.nodes ++ c.nodes_after ∧
        t'.nodes = c.nodes_before ++ zl.nodes ++ zr.nodes ++ c.nodes_after ∧
        (∀ x ∈ t'.nodes, ∃ n, r.1.mem x.1 = some n ∧ n.key = x.2.1 ∧ n.data = x.2.2) ∧
        (zl ≠ .leaf → zr ≠ .leaf →
          ∃ y ky dy post n, rb_tree_successor 4 tri_heap tri_hdr z = .ok y ∧
            zr.nodes = (y, ky, dy) :: post ∧ y ∈ t'.addrs ∧
            r.1.mem y = some n ∧ n.key = ky ∧ n.data = dy) :=
  ⟨rbvalid_tri, by decide, by decide, delete_unlinks_found_node rbvalid_tri (by decide) (by decide)⟩

/-- C35: the fixup procedures on the states in which `rb_tree_insert` and
`rb_tree_delete` call them.  For a Red leaf `z` spliced into a tree that
satisfies the invariants around it (`InsPre`), `rb_tree_insert_fixup` returns
with fuel above the depth of `z` (no `NULL` is followed, no fuel runs out) and
leaves a tree laid out in the heap whose root is Black.  For the position `x`
that replaces a removed Black node (`DelPre`: the subtree of `x` lacks one
Black node, the invariants hold around it), `rb_tree_delete_fixup` returns with
fuel above the depth of `x` and leaves a tree whose root is Black. -/
theorem fixups_terminate {fuel : Nat} {h : Heap} {tree : rb_tree} {c : Ctx} {z : Ptr}
    {k : Nat} {d : Ptr} {fuel2 : Nat} {h2 : Heap} {tree2 : rb_tree} {c2 : Ctx} {x : Tree}
    {m : Nat}
    (hf : Focus h tree c (.node z RB_NODE_COLOR_RED .leaf k d .leaf))
    (hp : InsPre c (.node z RB_NODE_COLOR_RED .leaf k d .leaf)) (hfuel : c.depth < fuel)
    (hf2 : Focus h2 tree2 c2 x) (hnp : NilPar h2.mem tree2.nil (c2.par tree2.nil) x)
    (hp2 : DelPre c2 x m false) (hfuel2 : c2.depth < fuel2) :
    (∃ r T, rb_tree_insert_fixup fuel h tree z = .ok r ∧ Focus r.1 r.2 .top T ∧
      T.color = RB_NODE_COLOR_BLACK ∧
      ∃ n, r.1.mem r.2.root = some n ∧ n.color = RB_NODE_COLOR_BLACK) ∧
    (∃ r T, rb_tree_delete_fixup fuel2 h2 tree2 (x.ptr tree2.nil) = .ok r ∧
      Focus r.1 r.2 .top T ∧ T.color = RB_NODE_COLOR_BLACK ∧
      ∃ n, r.1.mem r.2.root = some n ∧ n.color = RB_NODE_COLOR_BLACK) := by
  constructor
  · obtain ⟨T, hT, -⟩ := ins_fix_spec c.depth c z .leaf k d .leaf (le_refl _) hp
    obtain ⟨r, hr, -, hpost⟩ := insert_fixup_spec hf hT hfuel
    have hF : Focus r.1 r.2 .top T.blacken := hpost.2.2.2.2.2
    obtain ⟨n, hn, hc⟩ := root_cell_color hF
    exact ⟨r, T.blacken, hr, hF, blacken_color T, n, hn, by rw [hc, blacken_color]⟩
  · obtain ⟨e, he, -, hcol⟩ := del_fix_spec c2 x m false hp2
    obtain ⟨r, hr, -, -, -, -, -, hF⟩ := delete_fixup_spec hf2 hnp he hfuel2
    obtain ⟨n, hn, hc⟩ := root_cell_color hF
    exact ⟨r, _, hr, hF, hcol, n, hn, by rw [hc, hcol]⟩

/-- Instance on the states in which the fixups are entered by
`rb_tree_insert(tree, 7, NULL)` on the tree of `pair_heap` (Red node below a Red
parent whose sibling is the sentinel: two rotations) and by
`rb_tree_delete(tree, 11)` on the tree of `six_heap` (the sentinel in the place
of a Black leaf whose sibling is Red: two rotations).  The last two parts tie
the states to the calls: the fixup run from `spliced_heap` ends in the state in
which the whole insert ends, and `__rb_tree_delete_unlink` leaves
`unlinked_heap`. -/
theorem fixups_terminate_witness :
    Focus spliced_heap pair_hdr spliced_ctx (.node 4 RB_NODE_COLOR_RED .leaf 7 NULL .leaf) ∧
      InsPre spliced_ctx (.node 4 RB_NODE_COLOR_RED .leaf 7 NULL .leaf) ∧
      spliced_ctx.depth < 3 ∧
      Focus unlinked_heap six_hdr unlinked_ctx .leaf ∧
      NilPar unlinked_heap.mem six_hdr.nil (unlinked_ctx.par six_hdr.nil) .leaf ∧
      DelPre unlinked_ctx .leaf 0 false ∧ unlinked_ctx.depth < 2 ∧
      (∃ r T, rb_tree_insert_fixup 3 spliced_heap pair_hdr 4 = .ok r ∧ Focus r.1 r.2 .top T ∧
        T.color = RB_NODE_COLOR_BLACK ∧
        ∃ n, r.1.mem r.2.root = some n ∧ n.color = RB_NODE_COLOR_BLACK) ∧
      (∃ r T, rb_tree_delete_fixup 2 unlinked_heap six_hdr (Tree.leaf.ptr six_hdr.nil) = .ok r ∧
        Focus r.1 r.2 .top T ∧ T.color = RB_NODE_COLOR_BLACK ∧
        ∃ n, r.1.mem r.2.root = some n ∧ n.color = RB_NODE_COLOR_BLACK) ∧
      (∃ r r', rb_tree_insert 3 pair_heap pair_hdr 7 NULL = .ok r ∧
        rb_tree_insert_fixup 3 spliced_heap pair_hdr 4 = .ok r' ∧ r.2.2 = 0 ∧ r.2.1 = r'.2 ∧
        r.1.next = r'.1.next ∧ ∀ a : Nat, a < 8 → r.1.mem a = r'.1.mem a) ∧
      (∃ s, __rb_tree_delete_unlink 6 six_heap six_hdr 4 = .ok s ∧ s.2.1 = six_hdr ∧
        s.2.2.1 = six_hdr.nil ∧ s.2.2.2 = RB_NODE_COLOR_BLACK ∧
        s.1.next = unlinked_heap.next ∧ ∀ a : Nat, a < 16 → s.1.mem a = unlinked_heap.mem a) :=
  have hf : Focus spliced_heap pair_hdr spliced_ctx
      (.node 4 RB_NODE_COLOR_RED .leaf 7 NULL .leaf) :=
    focus_unplug (represents_of_check (by decide :
      represents_check spliced_heap pair_hdr
        (spliced_ctx.plug (.node 4 RB_NODE_COLOR_RED .leaf 7 NULL .leaf)) = true)).focus
  have hp : InsPre spliced_ctx (.node 4 RB_NODE_COLOR_RED .leaf 7 NULL .leaf) :=
    ⟨by simp [Tree.ColorsOK], by simp [Tree.RedOK, Tree.color], by simp [Tree.BalOK],
      by simp [spliced_ctx, Ctx.ColorsOK, Tree.ColorsOK],
      by simp [spliced_ctx, Ctx.RedOK, Tree.RedOK, Ctx.color, Tree.color],
      by simp [spliced_ctx, Ctx.BalOK, Tree.BalOK, Tree.bheight, black_weight], rfl⟩
  have hf2 : Focus unlinked_heap six_hdr unlinked_ctx .leaf :=
    focus_unplug (represents_of_check (by decide :
      represents_check unlinked_heap six_hdr (unlinked_ctx.plug .leaf) = true)).focus
  have hnp : NilPar unlinked_heap.mem six_hdr.nil (unlinked_ctx.par six_hdr.nil) .leaf :=
    fun _ => rfl
  have hp2 : DelPre unlinked_ctx .leaf 0 false :=
    ⟨trivial, trivial, trivial, rfl,
      by simp [unlinked_ctx, Ctx.ColorsOK, Tree.ColorsOK],
      by simp [unlinked_ctx, Ctx.RedOK, Tree.RedOK, Ctx.color, Tree.color],
      by simp [unlinked_ctx, Ctx.BalOK, Tree.BalOK, Tree.bheight, black_weight], rfl,
      fun h => by cases h⟩
  have k1 : (match rb_tree_insert 3 pair_heap pair_hdr 7 NULL,
        rb_tree_insert_fixup 3 spliced_heap pair_hdr 4 with
      | .ok r, .ok r' => decide (r.2.2 = 0) && (decide (r.2.1 = r'.2) &&
          (decide (r.1.next = r'.1.next) && decide (∀ a : Nat, a < 8 → r.1.mem a = r'.1.mem a)))
      | _, _ => false) = true := by decide!
  have k2 : (match __rb_tree_delete_unlink 6 six_heap six_hdr 4 with
      | .ok s => decide (s.2.1 = six_hdr) && (decide (s.2.2.1 = six_hdr.nil) &&
          (decide (s.2.2.2 = RB_NODE_COLOR_BLACK) && (decide (s.1.next = unlinked_heap.next) &&
          decide (∀ a : Nat, a < 16 → s.1.mem a = unlinked_heap.mem a))))
      | _ => false) = true := by decide!
  ⟨hf, hp, by decide, hf2, hnp, hp2, by decide,
    (fixups_terminate hf hp (by decide : spliced_ctx.depth < 3) hf2 hnp hp2
      (by decide : unlinked_ctx.depth < 2)).1,
    (fixups_terminate hf hp (by decide : spliced_ctx.depth < 3) hf2 hnp hp2
      (by decide : unlinked_ctx.depth < 2)).2,
    by
      cases h1 : rb_tree_insert 3 pair_heap pair_hdr 7 NULL with
      | fault => simp [h1] at k1
      | timeout => simp [h1] at k1
      | ok r =>
        cases h2 : rb_tree_insert_fixup 3 spliced_heap pair_hdr 4 with
        | fault => simp [h1, h2] at k1
        | timeout => simp [h1, h2] at k1
        | ok r' =>
          simp only [h1, h2, Bool.and_eq_true, decide_eq_true_eq] at k1
          exact ⟨r, r', rfl, rfl, k1.1, k1.2.1, k1.2.2.1, k1.2.2.2⟩,
    by
      cases h1 : __rb_tree_delete_unlink 6 six_heap six_hdr 4 with
      | fault => simp [h1] at k2
      | timeout => simp [h1] at k2
      | ok s =>
        simp only [h1, Bool.and_eq_true, decide_eq_true_eq] at k2
        exact ⟨s, rfl, k2.1, k2.2.1, k2.2.2.1, k2.2.2.2.1, k2.2.2.2.2⟩⟩

/-- C36: on a valid tree `rb_tree_insert` returns `-ENOMEM` with the heap and
the tree as they were for every key from `RB_MAX_KEY` (2^63 - 1) on, it
returns 0 for every key below `RB_MAX_KEY` when memory is left for one node,
and it never returns `-EINVAL`. -/
theorem insert_key_range {fuel : Nat} {h : Heap} {tree : rb_tree} {t : Tree} (key : Nat)
    (data : Ptr) (hv : RBValid h tree t) (hfuel : t.height < fuel) :
    (RB_MAX_KEY ≤ key → rb_tree_insert fuel h tree key data = .ok (h, tree, -ENOMEM)) ∧
    (key < RB_MAX_KEY → h.next < h.cap →
      ∃ r, rb_tree_insert fuel h tree key data = .ok r ∧ r.2.2 = 0) ∧
    (∃ r, rb_tree_insert fuel h tree key data = .ok r ∧ r.2.2 ≠ -EINVAL) := by
  refine ⟨fun hk => insert_fails fuel h tree key data (fun hh => absurd hh.1 (not_lt.mpr hk)),
    fun hk hm => ?_, ?_⟩
  · obtain ⟨r, t', hr, h0, -⟩ := @insert_valid fuel _ _ _ key data hv hk hm hfuel
    exact ⟨r, hr, h0⟩
  · by_cases hok : key < RB_MAX_KEY ∧ h.next < h.cap
    · obtain ⟨r, t', hr, h0, -⟩ := @insert_valid fuel _ _ _ key data hv hok.1 hok.2 hfuel
      exact ⟨r, hr, by rw [h0]; decide⟩
    · exact ⟨_, insert_fails fuel h tree key data hok, show (-ENOMEM : Int) ≠ -EINVAL by decide⟩

theorem insert_key_range_witness :
    RBValid (Heap.init 8) rb_tree_alloc .leaf ∧ Tree.leaf.height < 1 ∧
      (RB_MAX_KEY ≤ RB_MAX_KEY + 1 → rb_tree_insert 1 (Heap.init 8) rb_tree_alloc
        (RB_MAX_KEY + 1) NULL = .ok (Heap.init 8, rb_tree_alloc, -ENOMEM)) ∧
      (RB_MAX_KEY + 1 < RB_MAX_KEY → (Heap.init 8).next < (Heap.init 8).cap →
        ∃ r, rb_tree_insert 1 (Heap.init 8) rb_tree_alloc (RB_MAX_KEY + 1) NULL = .ok r ∧
          r.2.2 = 0) ∧
      (∃ r, rb_tree_insert 1 (Heap.init 8) rb_tree_alloc (RB_MAX_KEY + 1) NULL = .ok r ∧
        r.2.2 ≠ -EINVAL) :=
  ⟨rbvalid_init (by decide) (by decide), by decide,
    insert_key_range (RB_MAX_KEY + 1) NULL (rbvalid_init (by decide) (by decide)) (by decide)⟩

/-- C37: on a valid tree `rb_tree_search` of the key `RB_NODE_NIL_KEY_VALUE`
returns the sentinel, which is not `NULL` and carries that key; and
`rb_tree_delete` of that key runs `__rb_tree_delete` and `rb_node_dealloc` on
the sentinel instead of returning `-ENODATA`: whenever it returns, it returns
0. -/
theorem search_reserved_key {fuel : Nat} {h : Heap} {tree : rb_tree} {t : Tree}
    (hv : RBValid h tree t) (hfuel : t.height + 2 ≤ fuel) :
    rb_tree_search fuel h tree RB_NODE_NIL_KEY_VALUE = .ok tree.nil ∧ tree.nil ≠ NULL ∧
      (∃ n, h.mem tree.nil = some n ∧ n.key = RB_NODE_NIL_KEY_VALUE) ∧
      rb_tree_delete fuel h tree RB_NODE_NIL_KEY_VALUE =
        (do
          let ht ← __rb_tree_delete fuel h tree tree.nil
          let h ← rb_node_dealloc ht.1 tree.nil
          pure (h, ht.2, 0)) ∧
      ∀ r, rb_tree_delete fuel h tree RB_NODE_NIL_KEY_VALUE = .ok r → r.2.2 = 0 := by
  have hm : RB_NODE_NIL_KEY_VALUE ∉ t.keys := fun hm =>
    absurd (hv.no_nil_key _ hm) (lt_irrefl _)
  have hs := search_not_found hv.repr.focus hm hfuel
  rw [if_pos rfl] at hs
  have hne := hv.repr.focus.sep.nil_ne
  obtain ⟨p, hp⟩ := hv.repr.focus.sep.sentinel
  have hd : rb_tree_delete fuel h tree RB_NODE_NIL_KEY_VALUE =
      (do
        let ht ← __rb_tree_delete fuel h tree tree.nil
        let h ← rb_node_dealloc ht.1 tree.nil
        pure (h, ht.2, 0)) := by
    simp [rb_tree_delete, hs, hne]
  refine ⟨hs, hne, ⟨_, hp, rfl⟩, hd, fun r hr => ?_⟩
  rw [hd] at hr
  cases h1 : __rb_tree_delete fuel h tree tree.nil with
  | fault => rw [h1] at hr; cases hr
  | timeout => rw [h1] at hr; cases hr
  | ok ht =>
    rw [h1] at hr
    simp only [res_ok_bind] at hr
    cases h2 : rb_node_dealloc ht.1 tree.nil with
    | fault => rw [h2] at hr; cases hr
    | timeout => rw [h2] at hr; cases hr
    | ok h' =>
      rw [h2] at hr
      simp only [res_ok_bind, res_pure_eq, Res.ok.injEq] at hr
      rw [← hr]

theorem search_reserved_key_witness :
    RBValid pair_heap pair_hdr pair_tree ∧ pair_tree.height + 2 ≤ 4 ∧
      rb_tree_search 4 pair_heap pair_hdr RB_NODE_NIL_KEY_VALUE = .ok pair_hdr.nil ∧
      pair_hdr.nil ≠ NULL ∧
      (∃ n, pair_heap.mem pair_hdr.nil = some n ∧ n.key = RB_NODE_NIL_KEY_VALUE) ∧
      rb_tree_delete 4 pair_heap pair_hdr RB_NODE_NIL_KEY_VALUE =
        (do
          let ht ← __rb_tree_delete 4 pair_heap pair_hdr pair_hdr.nil
          let h ← rb_node_dealloc ht.1 pair_hdr.nil
          pure (h, ht.2, 0)) ∧
      ∀ r, rb_tree_delete 4 pair_heap pair_hdr RB_NODE_NIL_KEY_VALUE = .ok r → r.2.2 = 0 :=
  ⟨rbvalid_pair, by decide, search_reserved_key rbvalid_pair (by decide)⟩

/-- C38: on a valid tree, `rb_tree_insert` (of any key, with any payload)
returns with the sentinel's cell as it was, all fields included; and
`rb_tree_delete` of a stored key returns with the sentinel Black, carrying the
reserved key, with `NULL` left and right pointers and its payload as before:
only its parent field may differ. -/
theorem sentinel_after_insert_delete {fuel : Nat} {h : Heap} {tree : rb_tree} {t : Tree}
    (hv : RBValid h tree t) (hfuel : t.height + 2 ≤ fuel) :
    (∀ key data, ∃ r, rb_tree_insert fuel h tree key data = .ok r ∧ r.2.1.nil = tree.nil ∧
      r.1.mem tree.nil = h.mem tree.nil) ∧
    (∀ key d, (key, d) ∈ t.toList →
      ∃ r n n', rb_tree_delete fuel h tree key = .ok r ∧ r.2.1.nil = tree.nil ∧
        h.mem tree.nil = some n ∧ r.1.mem tree.nil = some n' ∧
        n.color = RB_NODE_COLOR_BLACK ∧ n'.color = RB_NODE_COLOR_BLACK ∧
        n.key = RB_NODE_NIL_KEY_VALUE ∧ n'.key = RB_NODE_NIL_KEY_VALUE ∧
        n.left = NULL ∧ n'.left = NULL ∧ n.right = NULL ∧ n'.right = NULL ∧
        n'.data = n.data) := by
  constructor
  · intro key data
    by_cases hok : key < RB_MAX_KEY ∧ h.next < h.cap
    · obtain ⟨r, t', hr, -, hT, -⟩ :=
        @insert_valid fuel _ _ _ key data hv hok.1 hok.2 (by omega)
      obtain ⟨r', hr', -, hnil, -, -, -, hmem, -⟩ :=
        @rb_tree_insert_spec fuel _ _ _ _ key data hv.repr hok.1 hok.2 (by omega) hT
      exact ⟨r', hr', hnil, hmem⟩
    · exact ⟨_, insert_fails fuel h tree key data hok, rfl, rfl⟩
  · intro key d hm
    obtain ⟨r, t', -, -, hr, -, -, hv', hnil, -⟩ := delete_valid hv hm hfuel
    obtain ⟨p, hp⟩ := hv.repr.focus.sep.sentinel
    obtain ⟨p', hp'⟩ := hv'.repr.focus.sep.sentinel
    rw [hnil] at hp'
    exact ⟨r, _, _, hr, hnil, hp, hp', rfl, rfl, rfl, rfl, rfl, rfl, rfl, rfl, rfl⟩

theorem sentinel_after_insert_delete_witness :
    RBValid pair_heap pair_hdr pair_tree ∧ pair_tree.height + 2 ≤ 4 ∧
      (∀ key data, ∃ r, rb_tree_insert 4 pair_heap pair_hdr key data = .ok r ∧
        r.2.1.nil = pair_hdr.nil ∧ r.1.mem pair_hdr.nil = pair_heap.mem pair_hdr.nil) ∧
      (∀ key d, (key, d) ∈ pair_tree.toList →
        ∃ r n n', rb_tree_delete 4 pair_heap pair_hdr key = .ok r ∧ r.2.1.nil = pair_hdr.nil ∧
          pair_heap.mem pair_hdr.nil = some n ∧ r.1.mem pair_hdr.nil = some n' ∧
          n.color = RB_NODE_COLOR_BLACK ∧ n'.color = RB_NODE_COLOR_BLACK ∧
          n.key = RB_NODE_NIL_KEY_VALUE ∧ n'.key = RB_NODE_NIL_KEY_VALUE ∧
          n.left = NULL ∧ n'.left = NULL ∧ n.right = NULL ∧ n'.right = NULL ∧
          n'.data = n.data) :=
  ⟨rbvalid_pair, by decide, sentinel_after_insert_delete rbvalid_pair (by decide)⟩

/-- C39: in a valid tree the parent links are consistent (the root's parent is
the sentinel, and every child that is not the sentinel points back to its
parent), and they are consistent again in the tree that `rb_tree_insert` leaves
(for every key and payload) and in the tree that `rb_tree_delete` of a stored
key leaves. -/
theorem parent_links_kept {fuel : Nat} {h : Heap} {tree : rb_tree} {t : Tree}
    (hv : RBValid h tree t) (hfuel : t.height + 2 ≤ fuel) :
    ParentsOK h tree t.addrs ∧
    (∀ key data, ∃ r t', rb_tree_insert fuel h tree key data = .ok r ∧
      Represents r.1 r.2.1 t' ∧ ParentsOK r.1 r.2.1 t'.addrs) ∧
    (∀ key d, (key, d) ∈ t.toList → ∃ r t', rb_tree_delete fuel h tree key = .ok r ∧
      Represents r.1 r.2.1 t' ∧ ParentsOK r.1 r.2.1 t'.addrs) := by
  refine ⟨parents_ok_of_focus hv.repr.focus, fun key data => ?_, fun key d hm => ?_⟩
  · by_cases hok : key < RB_MAX_KEY ∧ h.next < h.cap
    · obtain ⟨r, t', hr, -, -, hv', -⟩ :=
        @insert_valid fuel _ _ _ key data hv hok.1 hok.2 (by omega)
      exact ⟨r, t', hr, hv'.repr, parents_ok_of_focus hv'.repr.focus⟩
    · exact ⟨_, t, insert_fails fuel h tree key data hok, hv.repr,
        parents_ok_of_focus hv.repr.focus⟩
  · obtain ⟨r, t', -, -, hr, -, -, hv', -⟩ := delete_valid hv hm hfuel
    exact ⟨r, t', hr, hv'.repr, parents_ok_of_focus hv'.repr.focus⟩

theorem parent_links_kept_witness :
    RBValid pair_heap pair_hdr pair_tree ∧ pair_tree.height + 2 ≤ 4 ∧
      ParentsOK pair_heap pair_hdr pair_tree.addrs ∧
      (∀ key data, ∃ r t', rb_tree_insert 4 pair_heap pair_hdr key data = .ok r ∧
        Represents r.1 r.2.1 t' ∧ ParentsOK r.1 r.2.1 t'.addrs) ∧
      (∀ key d, (key, d) ∈ pair_tree.toList →
        ∃ r t', rb_tree_delete 4 pair_heap pair_hdr key = .ok r ∧
          Represents r.1 r.2.1 t' ∧ ParentsOK r.1 r.2.1 t'.addrs) :=
  ⟨rbvalid_pair, by decide, parent_links_kept rbvalid_pair (by decide)⟩

end RedBlack
